import Mathlib

/-! # Multi-core scheduler simulation (`scheduler_4cores_metrics.cpp`)

A shallow embedding of `simulate` and of the containers it relies on.

Conventions of the embedding:

* C++ `int` values are `Int`s without wrap-around.  The two arithmetics agree while the
  values stay within the range of a 32-bit `int`; the statements that order or bound the
  clock, the recorded ticks or the switch counter assume that these do not exceed
  `intMax`.
* `std::vector<int>` is a `List`; an index read is `List.getD` and an index
  write is `List.set`.
* A process id stored in a container or in a core slot is a `Nat`; the
  sentinel `-1` of `cores[c]` is `none`.  The sentinels of `first_start` and
  `finish` stay the integer `-1`, as in the source.
* `wait_times` and `response_times` are vectors of `double` that only ever
  hold integer values, so they are lists of `Int`.
* A `double` quotient of two integer-valued operands is a `Dbl`, exact
  arithmetic extended by the IEEE outcomes of a division by zero.
* `std::priority_queue` is the binary heap of libstdc++ (`std::push_heap`,
  `std::pop_heap` over a vector), ordered by `cmpBurst`.
* The local `any` of the loop body is a field of the state, reset at the start of the
  execution phase.
* The core count `M` is a `Nat`: `std::vector<int> cores(M, -1)` cannot be built
  for a negative `M`.
* The outer `while` loop takes a fuel argument; `none` means that the fuel ran
  out before `completed` reached `N`.
-/

namespace Scheduler

/-- The record `Process` of the source. -/
structure Process where
  pid : Nat
  arrival : Int
  burst : Int
  deriving DecidableEq

/-- The value of a `double` division of integer-valued operands. -/
inductive Dbl where
  | nan : Dbl
  | inf (negative : Bool) : Dbl
  | fin (q : ℚ) : Dbl
  deriving DecidableEq

/-- The quotient `a / b` of two integer-valued doubles: `0/0` is NaN, `a/0`
is an infinity, everything else is the exact quotient. -/
def ddiv (a b : Int) : Dbl :=
  if b = 0 then (if a = 0 then Dbl.nan else Dbl.inf (decide (a < 0)))
  else Dbl.fin ((a : ℚ) / (b : ℚ))

/-- The record `Metrics` of the source. -/
structure Metrics where
  avg_waiting : Dbl
  avg_turnaround : Dbl
  throughput : Dbl
  cpu_util : Dbl
  avg_response : Dbl
  context_switches : Int
  fairness : Dbl
  deriving DecidableEq

/-- The local variables of `simulate`.  The `int` variables (`remaining`, `first_start`,
`finish`, `context_switches`, `quantum_left`, `currentTime`) are `Int`s without
wrap-around; `total_busy` is a `long long` in the source. -/
structure SimState where
  remaining : List Int
  first_start : List Int
  finish : List Int
  wait_times : List Int
  response_times : List Int
  context_switches : Int
  total_busy : Int
  fq : List Nat
  sjf_pq : List Nat
  cores : List (Option Nat)
  quantum_left : List Int
  completed : Nat
  next_arrival : Nat
  currentTime : Int
  any : Bool
  deriving DecidableEq

/-- Field `arrival` of `procs[i]`. -/
def arrivalOf (procs : List Process) (i : Nat) : Int :=
  (procs.getD i ⟨0, 0, 0⟩).arrival

/-- Field `burst` of `procs[i]`. -/
def burstOf (procs : List Process) (i : Nat) : Int :=
  (procs.getD i ⟨0, 0, 0⟩).burst

/-! ## The priority queue -/

/-- The comparator `cmpBurst` of the source: `remaining[a] > remaining[b]`. -/
def cmpBurst (remaining : List Int) (a b : Nat) : Bool :=
  decide (remaining.getD a 0 > remaining.getD b 0)

/-- The loop of `std::__push_heap`: the hole climbs while its parent compares
below `value`, then `value` is stored in the hole.  The fuel bounds the number
of iterations and is at least the hole index at every call. -/
def pushHeapLoop (remaining : List Int) (value topIndex : Nat) :
    Nat → List Nat → Nat → List Nat
  | 0, h, holeIndex => h.set holeIndex value
  | fuel + 1, h, holeIndex =>
    let parent := (holeIndex - 1) / 2
    if holeIndex > topIndex ∧ cmpBurst remaining (h.getD parent 0) value = true then
      pushHeapLoop remaining value topIndex fuel (h.set holeIndex (h.getD parent 0)) parent
    else h.set holeIndex value

/-- The call `sjf_pq.push(x)`: `push_back` followed by `std::push_heap`. -/
def pqPush (remaining : List Int) (h : List Nat) (x : Nat) : List Nat :=
  pushHeapLoop remaining x 0 h.length (h ++ [x]) h.length

/-- The first loop of `std::__adjust_heap`: the hole sinks to a leaf, each
time taking the place of the child that does not compare below its sibling.
Returns the vector and the final hole (which is also `secondChild`). -/
def adjustLoop (remaining : List Int) (len : Nat) :
    Nat → List Nat → Nat → List Nat × Nat
  | 0, h, holeIndex => (h, holeIndex)
  | fuel + 1, h, holeIndex =>
    if holeIndex < (len - 1) / 2 then
      let secondChild := 2 * (holeIndex + 1)
      let child :=
        if cmpBurst remaining (h.getD secondChild 0) (h.getD (secondChild - 1) 0) = true
        then secondChild - 1 else secondChild
      adjustLoop remaining len fuel (h.set holeIndex (h.getD child 0)) child
    else (h, holeIndex)

/-- The function `std::__adjust_heap(first, 0, len, value, comp)`.  The test
`2 ≤ len` stands for the signed arithmetic of `(len - 2) / 2`, which is negative, hence
different from `secondChild`, when `len` is 0. -/
def adjustHeap (remaining : List Int) (h : List Nat) (len value : Nat) : List Nat :=
  let r := adjustLoop remaining len len h 0
  let h1 := r.1
  let hole := r.2
  if len % 2 = 0 ∧ 2 ≤ len ∧ hole = (len - 2) / 2 then
    let secondChild := 2 * (hole + 1)
    pushHeapLoop remaining value 0 len (h1.set hole (h1.getD (secondChild - 1) 0))
      (secondChild - 1)
  else pushHeapLoop remaining value 0 len h1 hole

/-- The call `sjf_pq.pop()`: `std::pop_heap` followed by `pop_back`.  On two entries
or more `std::pop_heap` saves the last entry, stores the first one in its place and
calls `std::__adjust_heap` on the entries before it. -/
def pqPop (remaining : List Int) (h : List Nat) : List Nat :=
  if 1 < h.length then
    let value := h.getD (h.length - 1) 0
    let h1 := h.set (h.length - 1) (h.getD 0 0)
    (adjustHeap remaining h1 (h.length - 1) value).dropLast
  else h.dropLast

/-- The call `sjf_pq.top()`. -/
def pqTop (h : List Nat) : Nat := h.getD 0 0

/-! ## The phases of one tick -/

/-- Phase 1, the inner `while` over the processes from `next_arrival` on. -/
def arriveLoop (alg : String) : List Process → SimState → SimState
  | [], s => s
  | p :: rest, s =>
    if p.arrival ≤ s.currentTime then
      if alg = "FCFS" ∨ alg = "RR" then
        arriveLoop alg rest { s with fq := s.fq ++ [p.pid], next_arrival := s.next_arrival + 1 }
      else
        arriveLoop alg rest
          { s with sjf_pq := pqPush s.remaining s.sjf_pq p.pid,
                   next_arrival := s.next_arrival + 1 }
    else s

/-- Phase 1: arrivals. -/
def arrive (procs : List Process) (alg : String) (s : SimState) : SimState :=
  arriveLoop alg (procs.drop s.next_arrival) s

/-- Phase 2, the body of the loop over the cores (only run under `SJF-P`). -/
def preemptCore (quantum : Int) (s : SimState) (c : Nat) : SimState :=
  match s.cores.getD c none with
  | none => s
  | some p =>
    if s.sjf_pq ≠ [] ∧ s.remaining.getD (pqTop s.sjf_pq) 0 < s.remaining.getD p 0 then
      { s with
        fq := [],
        sjf_pq := pqPush s.remaining s.sjf_pq p,
        cores := s.cores.set c none,
        quantum_left := s.quantum_left.set c quantum,
        context_switches := s.context_switches + 1 }
    else s

/-- Phase 2: preemption. -/
def preempt (M : Nat) (alg : String) (quantum : Int) (s : SimState) : SimState :=
  if alg = "SJF-P" then (List.range M).foldl (preemptCore quantum) s else s

/-- The end of the body of the dispatch loop: `if(pid>=0){ ... }`. -/
def assign (procs : List Process) (c pid : Nat) (s : SimState) : SimState :=
  let s1 := { s with cores := s.cores.set c (some pid),
                     context_switches := s.context_switches + 1 }
  if s1.first_start.getD pid 0 < 0 then
    { s1 with
      first_start := s1.first_start.set pid s1.currentTime,
      response_times := s1.response_times.set pid (s1.currentTime - arrivalOf procs pid) }
  else s1

/-- Phase 3, the body of the loop over the cores. -/
def dispatchCore (procs : List Process) (alg : String) (quantum : Int)
    (s : SimState) (c : Nat) : SimState :=
  match s.cores.getD c none with
  | some _ => s
  | none =>
    if alg = "FCFS" ∧ s.fq ≠ [] then
      assign procs c (s.fq.getD 0 0) { s with fq := s.fq.tail }
    else if alg = "SJF-NP" ∨ alg = "SJF-P" then
      if s.sjf_pq ≠ [] then
        assign procs c (pqTop s.sjf_pq) { s with sjf_pq := pqPop s.remaining s.sjf_pq }
      else s
    else if alg = "RR" ∧ s.fq ≠ [] then
      assign procs c (s.fq.getD 0 0)
        { s with fq := s.fq.tail, quantum_left := s.quantum_left.set c quantum }
    else s

/-- Phase 3: dispatch on the free cores. -/
def dispatch (procs : List Process) (M : Nat) (alg : String) (quantum : Int)
    (s : SimState) : SimState :=
  (List.range M).foldl (dispatchCore procs alg quantum) s

/-- Phase 4, the body of the loop over the cores. -/
def execCore (procs : List Process) (alg : String) (s : SimState) (c : Nat) : SimState :=
  match s.cores.getD c none with
  | none => s
  | some p =>
    let s1 := { s with
      any := true,
      remaining := s.remaining.set p (s.remaining.getD p 0 - 1),
      total_busy := s.total_busy + 1 }
    let s2 :=
      if alg = "RR" then
        { s1 with quantum_left := s1.quantum_left.set c (s1.quantum_left.getD c 0 - 1) }
      else s1
    if s2.remaining.getD p 0 = 0 then
      { s2 with
        finish := s2.finish.set p (s2.currentTime + 1),
        wait_times :=
          s2.wait_times.set p (s2.currentTime + 1 - arrivalOf procs p - burstOf procs p),
        completed := s2.completed + 1,
        cores := s2.cores.set c none,
        context_switches := s2.context_switches + 1 }
    else if alg = "RR" ∧ s2.quantum_left.getD c 0 = 0 then
      { s2 with
        fq := s2.fq ++ [p],
        cores := s2.cores.set c none,
        context_switches := s2.context_switches + 1 }
    else s2

/-- Phase 4: every busy core runs for one tick. -/
def execute (procs : List Process) (M : Nat) (alg : String) (s : SimState) : SimState :=
  (List.range M).foldl (execCore procs alg) { s with any := false }

/-- Phase 5: the clock.  The increment is that of the source as long as the clock is
below `INT_MAX`. -/
def advance (procs : List Process) (s : SimState) : SimState :=
  if s.any = false ∧ s.next_arrival < procs.length then
    { s with currentTime := arrivalOf procs s.next_arrival }
  else { s with currentTime := s.currentTime + 1 }

/-- One iteration of the outer `while` loop. -/
def tick (procs : List Process) (M : Nat) (alg : String) (quantum : Int)
    (s : SimState) : SimState :=
  advance procs
    (execute procs M alg
      (dispatch procs M alg quantum
        (preempt M alg quantum
          (arrive procs alg s))))

/-- The state before the first iteration. -/
def initState (procs : List Process) (M : Nat) (quantum : Int) : SimState :=
  { remaining := procs.map Process.burst,
    first_start := List.replicate procs.length (-1),
    finish := List.replicate procs.length (-1),
    wait_times := List.replicate procs.length 0,
    response_times := List.replicate procs.length 0,
    context_switches := 0,
    total_busy := 0,
    fq := [],
    sjf_pq := [],
    cores := List.replicate M none,
    quantum_left := List.replicate M quantum,
    completed := 0,
    next_arrival := 0,
    currentTime := 0,
    any := false }

/-- The loop `while(completed < N)`, at most `fuel` iterations. -/
def runLoop (procs : List Process) (M : Nat) (alg : String) (quantum : Int) :
    Nat → SimState → Option SimState
  | 0, s => if s.completed < procs.length then none else some s
  | fuel + 1, s =>
    if s.completed < procs.length then
      runLoop procs M alg quantum fuel (tick procs M alg quantum s)
    else some s

/-- Part 6 of `simulate`: the metrics of a finished run. -/
def metricsOf (procs : List Process) (M : Nat) (s : SimState) : Metrics :=
  let N : Int := procs.length
  let sumW := s.wait_times.sum
  let sumT := ((List.range procs.length).map
    (fun i => s.finish.getD i 0 - arrivalOf procs i)).sum
  let sumR := s.response_times.sum
  let sum := s.wait_times.sum
  let sum2 := (s.wait_times.map (fun w => w * w)).sum
  { avg_waiting := ddiv sumW N,
    avg_turnaround := ddiv sumT N,
    throughput := ddiv N s.currentTime,
    cpu_util := ddiv s.total_busy ((M : Int) * s.currentTime),
    avg_response := ddiv sumR N,
    context_switches := s.context_switches,
    fairness := ddiv (sum * sum) (N * sum2) }

/-- The function `simulate`, with the fuel of its outer loop. -/
def simulate (fuel : Nat) (procs : List Process) (M : Nat) (alg : String)
    (quantum : Int) : Option Metrics :=
  (runLoop procs M alg quantum fuel (initState procs M quantum)).map (metricsOf procs M)

/-! ## Predicates and views used in the proofs -/

/-- The remaining burst of the process `x`, the key of the heap. -/
def keyOf (remaining : List Int) (x : Nat) : Int := remaining.getD x 0

/-- The first `n` entries of `h` are heap-ordered: no entry has a smaller remaining
burst than its parent. -/
def IsHeapN (remaining : List Int) (h : List Nat) (n : Nat) : Prop :=
  ∀ i, 0 < i → i < n →
    keyOf remaining (h.getD ((i - 1) / 2) 0) ≤ keyOf remaining (h.getD i 0)

/-- The state of a sift-up: heap order holds away from the hole, `value` is not above
the children of the hole, and neither is the parent of the hole. -/
def SiftUp (remaining : List Int) (h : List Nat) (n hole value : Nat) : Prop :=
  (∀ i, 0 < i → i < n → i ≠ hole → (i - 1) / 2 ≠ hole →
    keyOf remaining (h.getD ((i - 1) / 2) 0) ≤ keyOf remaining (h.getD i 0)) ∧
  (∀ i, 0 < i → i < n → (i - 1) / 2 = hole →
    keyOf remaining value ≤ keyOf remaining (h.getD i 0)) ∧
  (∀ i, 0 < i → i < n → (i - 1) / 2 = hole → 0 < hole →
    keyOf remaining (h.getD ((hole - 1) / 2) 0) ≤ keyOf remaining (h.getD i 0))

/-- The state of a sift-down: heap order holds away from the hole and the parent of the
hole is not above the children of the hole. -/
def SiftDown (remaining : List Int) (h : List Nat) (n hole : Nat) : Prop :=
  (∀ i, 0 < i → i < n → i ≠ hole → (i - 1) / 2 ≠ hole →
    keyOf remaining (h.getD ((i - 1) / 2) 0) ≤ keyOf remaining (h.getD i 0)) ∧
  (∀ i, 0 < i → i < n → (i - 1) / 2 = hole → 0 < hole →
    keyOf remaining (h.getD ((hole - 1) / 2) 0) ≤ keyOf remaining (h.getD i 0))

/-- The largest value of the 32-bit `int` of the source. -/
def intMax : Int := 2147483647

/-- The four policy names that `simulate` knows. -/
def ValidAlg (alg : String) : Prop :=
  alg = "FCFS" ∨ alg = "SJF-NP" ∨ alg = "SJF-P" ∨ alg = "RR"

/-- Ids of the processes from `next_arrival` on. -/
def unadmitted (procs : List Process) (s : SimState) : List Nat :=
  (procs.drop s.next_arrival).map Process.pid

/-- Ids held by the core slots. -/
def running (s : SimState) : List Nat := s.cores.reduceOption

/-- Ids of the processes that wait or run. -/
def active (s : SimState) : List Nat := s.fq ++ (s.sjf_pq ++ running s)

/-- Ids of the processes that have not completed. -/
def live (procs : List Process) (s : SimState) : List Nat :=
  unadmitted procs s ++ active s

/-- The accounting invariant of the outer loop. -/
structure Inv (procs : List Process) (M : Nat) (alg : String) (s : SimState) : Prop where
  len_rem : s.remaining.length = procs.length
  len_fin : s.finish.length = procs.length
  len_cores : s.cores.length = M
  nodup : (live procs s).Nodup
  live_ok : ∀ p ∈ live procs s,
    p < procs.length ∧ 1 ≤ s.remaining.getD p 0 ∧ s.finish.getD p 0 = -1
  done_ok : ∀ p, p < procs.length → p ∉ live procs s → 0 < s.finish.getD p 0
  count : s.completed + (live procs s).length = procs.length
  time_nonneg : 0 ≤ s.currentTime
  rem_nonneg : ∀ x ∈ s.remaining, 0 ≤ x
  fq_empty : alg = "SJF-NP" ∨ alg = "SJF-P" → s.fq = []
  pq_empty : alg = "FCFS" ∨ alg = "RR" → s.sjf_pq = []

/-- What the admission loop leaves alone. -/
def ArriveFrame (s a : SimState) : Prop :=
  a = { s with fq := a.fq, sjf_pq := a.sjf_pq, next_arrival := a.next_arrival }

/-- What `assign` changes: the core slot, the switch counter, the first dispatch. -/
def AssignFrame (c pid : Nat) (s a : SimState) : Prop :=
  a = { s with cores := s.cores.set c (some pid),
               context_switches := s.context_switches + 1,
               first_start := a.first_start,
               response_times := a.response_times }

/-- The variables that neither preemption nor dispatch writes. -/
def staticPart (s : SimState) :
    List Int × List Int × List Int × Int × Nat × Nat × Int × Bool :=
  (s.remaining, s.finish, s.wait_times, s.total_busy, s.completed, s.next_arrival,
    s.currentTime, s.any)

/-- The variables that the execution phase does not write. -/
def clockPart (s : SimState) : Nat × Int × List Int × List Int × List Nat :=
  (s.next_arrival, s.currentTime, s.first_start, s.response_times, s.sjf_pq)

/-- The state at the start of the execution phase of the tick that begins in `s`. -/
def beforeExec (procs : List Process) (M : Nat) (alg : String) (quantum : Int)
    (s : SimState) : SimState :=
  dispatch procs M alg quantum (preempt M alg quantum (arrive procs alg s))

/-- One when the next process to arrive lies in the future, zero otherwise. -/
def waitFlag (procs : List Process) (s : SimState) : Nat :=
  if s.next_arrival < procs.length ∧ s.currentTime < arrivalOf procs s.next_arrival
  then 1 else 0

/-- The variant of the outer loop. -/
def variant (procs : List Process) (s : SimState) : Nat :=
  2 * s.remaining.sum.toNat + waitFlag procs s

/-- The states at the head of the outer loop during a run. -/
inductive Reachable (procs : List Process) (M : Nat) (alg : String) (quantum : Int) :
    SimState → Prop
  | init : Reachable procs M alg quantum (initState procs M quantum)
  | step {s : SimState} : Reachable procs M alg quantum s → s.completed < procs.length →
      Reachable procs M alg quantum (tick procs M alg quantum s)

/-- The state after `n` iterations of the outer loop. -/
def runTicks (procs : List Process) (M : Nat) (alg : String) (quantum : Int) :
    Nat → SimState → SimState
  | 0, s => s
  | n + 1, s => runTicks procs M alg quantum n (tick procs M alg quantum s)

/-- The container `sjf_pq` is heap-ordered by the current remaining bursts. -/
def HeapInv (s : SimState) : Prop := IsHeapN s.remaining s.sjf_pq s.sjf_pq.length

/-- The accounting invariant together with the heap order. -/
def HInv (procs : List Process) (M : Nat) (alg : String) (s : SimState) : Prop :=
  Inv procs M alg s ∧ HeapInv s

/-- The state in which the dispatch loop of the tick that begins in `s` reaches core `k`. -/
def dispatchUpTo (procs : List Process) (M : Nat) (alg : String) (quantum : Int)
    (s : SimState) (k : Nat) : SimState :=
  (List.range k).foldl (dispatchCore procs alg quantum)
    (preempt M alg quantum (arrive procs alg s))

/-- Ids of the processes that have not been on a core yet, under `FCFS` and `SJF-NP`. -/
def waiting (procs : List Process) (s : SimState) : List Nat :=
  unadmitted procs s ++ (s.fq ++ s.sjf_pq)

/-- The invariant of `FCFS` and `SJF-NP`: a waiting process has no first dispatch, every
other process has one, and the switches are one per dispatch and one per completion. -/
structure NPInv (procs : List Process) (s : SimState) : Prop where
  len_fs : s.first_start.length = procs.length
  fresh : ∀ p ∈ waiting procs s, s.first_start.getD p 0 = -1
  started : ∀ p, p < procs.length → p ∉ waiting procs s → 0 ≤ s.first_start.getD p 0
  switches : s.context_switches = 2 * (s.completed : Int) + ((running s).length : Int)

/-- Under `FCFS` with ids equal to positions: the id at the front of `fq`, which is
also the number of processes dispatched so far. -/
def front (s : SimState) : Nat := s.next_arrival - s.fq.length

/-- The invariant of `FCFS` when ids equal positions: `fq` holds the consecutive ids from
`front` up to `next_arrival`, the processes from `front` on have no first dispatch, and
the first dispatches below `front` are in order. -/
structure FInv (procs : List Process) (M : Nat) (s : SimState) : Prop where
  len_fs : s.first_start.length = procs.length
  len_cores : s.cores.length = M
  na_le : s.next_arrival ≤ procs.length
  fq_le : s.fq.length ≤ s.next_arrival
  fq_eq : s.fq = List.range' (front s) s.fq.length
  fresh : ∀ p, front s ≤ p → p < procs.length → s.first_start.getD p 0 = -1
  started : ∀ i j, i ≤ j → j < front s →
    0 ≤ s.first_start.getD i 0 ∧ s.first_start.getD i 0 ≤ s.first_start.getD j 0 ∧
      s.first_start.getD j 0 ≤ s.currentTime
  time_nonneg : 0 ≤ s.currentTime

/-- The quantum counters after the decrement of the execution loop on core `c`. -/
def quantumAfter (alg : String) (s : SimState) (c : Nat) : List Int :=
  if alg = "RR" then s.quantum_left.set c (s.quantum_left.getD c 0 - 1) else s.quantum_left

/-- The remaining burst of `p` that the execution loop tests after its decrement. -/
def remainingAfter (s : SimState) (p : Nat) : Int :=
  (s.remaining.set p (s.remaining.getD p 0 - 1)).getD p 0

/-- The work accounting of a run: the busy core-ticks and the remaining bursts add up to
the bursts of the workload, and a process with a finish tick has no burst left. -/
structure WorkInv (procs : List Process) (s : SimState) : Prop where
  work : s.total_busy + s.remaining.sum = (procs.map Process.burst).sum
  done_zero : ∀ p, p < procs.length → s.finish.getD p 0 ≠ -1 → s.remaining.getD p 0 = 0

/-- What holds at the head of the loop as soon as the ids of the input are in range:
the containers and the cores hold ids in range and no finish tick exceeds the clock. -/
structure RangeInv (procs : List Process) (s : SimState) : Prop where
  len_fin : s.finish.length = procs.length
  act_lt : ∀ p ∈ active s, p < procs.length
  fin_le : ∀ x ∈ s.finish, x ≤ s.currentTime
  time_nonneg : 0 ≤ s.currentTime

/-- The state of the execution loop of a tick that started at clock `t0` with `c0`
completions: ids in range, finish ticks at most `t0 + 1`, and as soon as a completion
has been counted `any` is set and some finish tick is `t0 + 1`. -/
structure ExecRange (procs : List Process) (t0 : Int) (c0 : Nat) (t : SimState) : Prop where
  len_fin : t.finish.length = procs.length
  act_lt : ∀ p ∈ active t, p < procs.length
  fin_le : ∀ x ∈ t.finish, x ≤ t0 + 1
  time_eq : t.currentTime = t0
  progress : t.completed = c0 ∨
    (t.any = true ∧ ∃ p, p < procs.length ∧ t.finish.getD p 0 = t0 + 1)

/-- The invariant of a run whose ids equal the positions: what waits or runs has been
taken from the input, what has been taken from the input has arrived, and a recorded
first dispatch is not before the arrival and gives the recorded response time. -/
structure ArrInv (procs : List Process) (s : SimState) : Prop where
  len_fs : s.first_start.length = procs.length
  len_rt : s.response_times.length = procs.length
  na_le : s.next_arrival ≤ procs.length
  act_lt : ∀ p ∈ active s, p < s.next_arrival
  arrived : ∀ i, i < s.next_arrival → arrivalOf procs i ≤ s.currentTime
  fs_ok : ∀ p, p < procs.length → s.first_start.getD p 0 ≠ -1 →
    p < s.next_arrival ∧ 0 ≤ s.first_start.getD p 0 ∧
    arrivalOf procs p ≤ s.first_start.getD p 0 ∧
    s.first_start.getD p 0 ≤ s.currentTime ∧
    s.response_times.getD p 0 = s.first_start.getD p 0 - arrivalOf procs p
  rt_zero : ∀ p, p < procs.length → s.first_start.getD p 0 = -1 →
    s.response_times.getD p 0 = 0
  time_nonneg : 0 ≤ s.currentTime

/-- On every core among the first `k`, the running process has no more burst left than
any process in the container. -/
def RunningLeast (s : SimState) (k : Nat) : Prop :=
  ∀ c p, c < k → s.cores.getD c none = some p →
    ∀ x ∈ s.sjf_pq, keyOf s.remaining p ≤ keyOf s.remaining x

/-- The number of dispatches of the tick that begins in `s`: the dispatch phase never
frees a core and every dispatch fills one, so it is the number of cores that are busy
after the phase minus the number of cores that were busy before it. -/
def dispatchesInTick (procs : List Process) (M : Nat) (alg : String) (quantum : Int)
    (s : SimState) : Nat :=
  (running (beforeExec procs M alg quantum s)).length -
    (running (preempt M alg quantum (arrive procs alg s))).length

/-- The number of dispatches of the iterations that `runLoop` performs from `s`. -/
def countDispatches (procs : List Process) (M : Nat) (alg : String) (quantum : Int) :
    Nat → SimState → Nat
  | 0, _ => 0
  | fuel + 1, s =>
    if s.completed < procs.length then
      dispatchesInTick procs M alg quantum s +
        countDispatches procs M alg quantum fuel (tick procs M alg quantum s)
    else 0

/-- The switch counter is at least one per dispatch in progress and two per completion. -/
def SwitchLower (s : SimState) : Prop :=
  2 * (s.completed : Int) + ((running s).length : Int) ≤ s.context_switches

/-- Process `p` is on core `c` with `r` ticks of burst remaining and `k` ticks of quantum
left. -/
def OnCore (s : SimState) (c p : Nat) (r k : Int) : Prop :=
  s.cores.getD c none = some p ∧ s.remaining.getD p 0 = r ∧ s.quantum_left.getD c 0 = k

/-- The outcome of the execution phase for the process that was on core `c`: one tick of
burst less, and completion, or else expiry of the quantum with a return to the queue
behind `fq0`, or else one tick of quantum less on the same core. -/
def Executed (fq0 : List Nat) (time : Int) (t : SimState) (c p : Nat) (r k : Int) : Prop :=
  t.remaining.getD p 0 = r - 1 ∧
  (r = 1 → t.cores.getD c none = none ∧ t.finish.getD p 0 = time + 1) ∧
  (r ≠ 1 → k = 1 → t.cores.getD c none = none ∧ ∃ L, t.fq = fq0 ++ L ∧ p ∈ L) ∧
  (r ≠ 1 → k ≠ 1 → OnCore t c p (r - 1) (k - 1))

/-- The timing invariant of `FCFS` and `SJF-NP`, with `T` the clock of the tick and `k`
the number of cores that the execution loop has visited: a waiting process has its whole
burst left, a process on a core has run since its first dispatch without a break, and a
finished process ran for exactly its burst from its first dispatch on. -/
structure NPTimes (procs : List Process) (T : Int) (k : Nat) (s : SimState) : Prop where
  len_wt : s.wait_times.length = procs.length
  len_rt : s.response_times.length = procs.length
  fresh_rem : ∀ p ∈ waiting procs s, s.remaining.getD p 0 = burstOf procs p
  on_core : ∀ c p, s.cores.getD c none = some p →
    s.first_start.getD p 0 + burstOf procs p =
      T + s.remaining.getD p 0 + (if c < k then 1 else 0) ∧
    s.response_times.getD p 0 = s.first_start.getD p 0 - arrivalOf procs p
  finished : ∀ p, p < procs.length → s.finish.getD p 0 ≠ -1 →
    s.finish.getD p 0 = s.first_start.getD p 0 + burstOf procs p ∧
    s.wait_times.getD p 0 = s.finish.getD p 0 - arrivalOf procs p - burstOf procs p ∧
    s.response_times.getD p 0 = s.first_start.getD p 0 - arrivalOf procs p
  any_set : ∀ c p, c < k → s.cores.getD c none = some p → s.any = true

/-- The part of the accounting that holds on every input: the slots of the cores, and
one entry of the input per process that has not been counted as completed. -/
structure CountInv (procs : List Process) (M : Nat) (s : SimState) : Prop where
  len_cores : s.cores.length = M
  count : s.completed + (live procs s).length = procs.length

/-- Process `p` is in a queue or on a core with a negative remaining burst: it can never
complete. -/
def Doomed (s : SimState) (p : Nat) : Prop :=
  p < s.remaining.length ∧ s.remaining.getD p 0 < 0 ∧ p ∈ active s

/-- The invariant of `RR` when no burst exceeds the quantum: a process on a core has at
most as much burst left as its core has quantum left. -/
structure QInv (M : Nat) (quantum : Int) (s : SimState) : Prop where
  len_ql : s.quantum_left.length = M
  rem_le : ∀ x ∈ s.remaining, x ≤ quantum
  on_core : ∀ c p, s.cores.getD c none = some p → p < s.remaining.length →
    s.remaining.getD p 0 ≤ s.quantum_left.getD c 0

/-- The state `s` with other quantum counters. -/
def withQuantum (L : List Int) (s : SimState) : SimState := { s with quantum_left := L }

/-- The states of an `RR` run and of an `FCFS` run on the same input: either they differ
in the quantum counters only, or in both a process can never complete. -/
def Lockstep (procs : List Process) (M : Nat) (quantum : Int) (L : List Int)
    (t u : SimState) : Prop :=
  CountInv procs M t ∧ CountInv procs M u ∧
  ((u = withQuantum L t ∧ QInv M quantum t) ∨
    ((∃ p, Doomed t p) ∧ (∃ p, Doomed u p)))

/-! # Proofs -/

/-! ## Lists as vectors -/

theorem getD_set_ne {α : Type} (l : List α) (i j : Nat) (v d : α) (h : i ≠ j) :
    (l.set i v).getD j d = l.getD j d := by
  simp [List.getD_eq_getElem?_getD, List.getElem?_set, h]

theorem getD_set_self {α : Type} (l : List α) (i : Nat) (v d : α) (h : i < l.length) :
    (l.set i v).getD i d = v := by
  simp [List.getD_eq_getElem?_getD, List.getElem?_set, h]

theorem getD_mem {α : Type} (l : List α) (i : Nat) (d : α) (h : i < l.length) :
    l.getD i d ∈ l := by
  simp only [List.getD_eq_getElem?_getD, List.getElem?_eq_getElem h, Option.getD_some]
  exact List.getElem_mem h

theorem lt_length_of_getD_ne {α : Type} (l : List α) (i : Nat) (d : α)
    (h : l.getD i d ≠ d) : i < l.length := by
  by_contra hc
  apply h
  simp [List.getD_eq_getElem?_getD, List.getElem?_eq_none (Nat.le_of_not_lt hc)]

theorem sum_set (l : List Int) (i : Nat) (v : Int) (h : i < l.length) :
    (l.set i v).sum = l.sum - l.getD i 0 + v := by
  induction l generalizing i with
  | nil => simp at h
  | cons x t ih =>
    cases i with
    | zero => simp; omega
    | succ n =>
      simp only [List.length_cons, Nat.add_lt_add_iff_right] at h
      simp only [List.set_cons_succ, List.sum_cons, ih n h, List.getD_cons_succ]
      omega

theorem sum_nonneg_of_forall (l : List Int) (h : ∀ x ∈ l, 0 ≤ x) : 0 ≤ l.sum := by
  induction l with
  | nil => simp
  | cons x t ih =>
    simp only [List.sum_cons]
    have := h x (List.mem_cons_self _ _)
    have := ih (fun y hy => h y (List.mem_cons_of_mem _ hy))
    omega

/-- Freeing a busy slot removes its process from the list of running ids. -/
theorem reduceOption_set_none (cores : List (Option Nat)) (c p : Nat)
    (h : cores.getD c none = some p) :
    cores.reduceOption.Perm (p :: (cores.set c none).reduceOption) := by
  induction cores generalizing c with
  | nil => simp at h
  | cons x t ih =>
    cases c with
    | zero =>
      simp only [List.getD_cons_zero] at h
      subst h
      simp [List.reduceOption_cons_of_some, List.reduceOption_cons_of_none]
    | succ n =>
      simp only [List.getD_cons_succ] at h
      simp only [List.set_cons_succ]
      cases x with
      | none =>
        simp only [List.reduceOption_cons_of_none]
        exact ih n h
      | some y =>
        simp only [List.reduceOption_cons_of_some]
        exact ((ih n h).cons y).trans (List.Perm.swap p y _)

/-- Filling a free slot adds the process to the list of running ids. -/
theorem reduceOption_set_some (cores : List (Option Nat)) (c p : Nat)
    (hc : c < cores.length) (h : cores.getD c none = none) :
    (cores.set c (some p)).reduceOption.Perm (p :: cores.reduceOption) := by
  induction cores generalizing c with
  | nil => simp at hc
  | cons x t ih =>
    cases c with
    | zero =>
      simp only [List.getD_cons_zero] at h
      subst h
      simp [List.reduceOption_cons_of_some, List.reduceOption_cons_of_none]
    | succ n =>
      simp only [List.getD_cons_succ] at h
      simp only [List.length_cons, Nat.add_lt_add_iff_right] at hc
      simp only [List.set_cons_succ]
      cases x with
      | none =>
        simp only [List.reduceOption_cons_of_none]
        exact ih n hc h
      | some y =>
        simp only [List.reduceOption_cons_of_some]
        exact ((ih n hc h).cons y).trans (List.Perm.swap p y _)

theorem mem_reduceOption_of_getD (cores : List (Option Nat)) (c p : Nat)
    (h : cores.getD c none = some p) : p ∈ cores.reduceOption := by
  exact (reduceOption_set_none cores c p h).mem_iff.mpr (List.mem_cons_self _ _)

theorem reduceOption_eq_nil_of_forall (cores : List (Option Nat))
    (h : ∀ c, c < cores.length → cores.getD c none = none) : cores.reduceOption = [] := by
  induction cores with
  | nil => rfl
  | cons x t ih =>
    have h0 := h 0 (by simp)
    simp only [List.getD_cons_zero] at h0
    subst h0
    simp only [List.reduceOption_cons_of_none]
    apply ih
    intro c hc
    have := h (c + 1) (by simpa using hc)
    simpa using this

/-- Moving the entry at `j` into `i` and then writing `v` at `j` permutes
the list obtained by writing `v` at `i`. -/
theorem set_set_perm (l : List Nat) (i j v : Nat) (hi : i < l.length) (hj : j < l.length)
    (hij : i ≠ j) : ((l.set i (l.getD j 0)).set j v).Perm (l.set i v) := by
  rw [List.perm_iff_count]
  intro b
  have hj' : j < (l.set i (l.getD j 0)).length := by simpa using hj
  rw [List.count_set _ _ _ _ hj', List.count_set _ _ _ _ hi, List.count_set _ _ _ _ hi]
  have e1 : (l.set i (l.getD j 0))[j] = l[j] := by
    simp [List.getElem_set, hij]
  have e2 : l.getD j 0 = l[j] := by simp [List.getD_eq_getElem?_getD, hj]
  rw [e1, e2]
  have h1 : (if l[i] == b then 1 else 0) ≤ l.count b := by
    split
    · rename_i h
      have : l[i] = b := by simpa using h
      exact List.count_pos_iff.mpr (this ▸ List.getElem_mem hi)
    · omega
  split <;> split <;> split <;> omega

theorem pushHeapLoop_length (rem : List Int) (v top : Nat) :
    ∀ (fuel : Nat) (h : List Nat) (hole : Nat),
      (pushHeapLoop rem v top fuel h hole).length = h.length := by
  intro fuel
  induction fuel with
  | zero => intro h hole; simp [pushHeapLoop]
  | succ n ih =>
    intro h hole
    simp only [pushHeapLoop]
    split
    · rw [ih]; simp
    · simp

theorem pushHeapLoop_perm (rem : List Int) (v top : Nat) :
    ∀ (fuel : Nat) (h : List Nat) (hole : Nat), hole < h.length →
      (pushHeapLoop rem v top fuel h hole).Perm (h.set hole v) := by
  intro fuel
  induction fuel with
  | zero => intro h hole _; simp [pushHeapLoop]
  | succ n ih =>
    intro h hole hlt
    simp only [pushHeapLoop]
    split
    · rename_i hc
      have hp : (hole - 1) / 2 < hole := by omega
      refine (ih _ _ (by simp; omega)).trans ?_
      exact set_set_perm h hole ((hole - 1) / 2) v hlt (by omega) (by omega)
    · exact List.Perm.refl _

/-- Entries above the hole are not touched by the sift-up. -/
theorem pushHeapLoop_getD_above (rem : List Int) (v top : Nat) :
    ∀ (fuel : Nat) (h : List Nat) (hole i : Nat), hole < i →
      (pushHeapLoop rem v top fuel h hole).getD i 0 = h.getD i 0 := by
  intro fuel
  induction fuel with
  | zero => intro h hole i hi; simp only [pushHeapLoop]; rw [getD_set_ne _ _ _ _ _ (by omega)]
  | succ n ih =>
    intro h hole i hi
    simp only [pushHeapLoop]
    split
    · rw [ih _ _ _ (by omega), getD_set_ne _ _ _ _ _ (by omega)]
    · rw [getD_set_ne _ _ _ _ _ (by omega)]

theorem pqPush_perm (rem : List Int) (h : List Nat) (x : Nat) :
    (pqPush rem h x).Perm (x :: h) := by
  unfold pqPush
  refine (pushHeapLoop_perm rem x 0 h.length (h ++ [x]) h.length (by simp)).trans ?_
  have : (h ++ [x]).set h.length x = h ++ [x] := by
    simp [List.set_append]
  rw [this]
  exact List.perm_append_singleton x h

theorem pqPush_length (rem : List Int) (h : List Nat) (x : Nat) :
    (pqPush rem h x).length = h.length + 1 := by
  simp [pqPush, pushHeapLoop_length]

theorem adjustLoop_length (rem : List Int) (len : Nat) :
    ∀ (fuel : Nat) (h : List Nat) (hole : Nat),
      (adjustLoop rem len fuel h hole).1.length = h.length := by
  intro fuel
  induction fuel with
  | zero => intro h hole; simp [adjustLoop]
  | succ n ih =>
    intro h hole
    simp only [adjustLoop]
    split
    · rw [ih]; simp
    · rfl

theorem adjustLoop_hole_lt (rem : List Int) (len : Nat) :
    ∀ (fuel : Nat) (h : List Nat) (hole : Nat), hole < len →
      (adjustLoop rem len fuel h hole).2 < len := by
  intro fuel
  induction fuel with
  | zero => intro h hole hl; simpa [adjustLoop] using hl
  | succ n ih =>
    intro h hole hl
    simp only [adjustLoop]
    split
    · apply ih
      split <;> omega
    · exact hl

theorem adjustLoop_getD_above (rem : List Int) (len : Nat) :
    ∀ (fuel : Nat) (h : List Nat) (hole i : Nat), hole < len → len ≤ i →
      (adjustLoop rem len fuel h hole).1.getD i 0 = h.getD i 0 := by
  intro fuel
  induction fuel with
  | zero => intro h hole i _ _; simp only [adjustLoop]
  | succ n ih =>
    intro h hole i hl hi
    simp only [adjustLoop]
    split
    · rw [ih _ _ _ (by split <;> omega) hi, getD_set_ne _ _ _ _ _ (by omega)]
    · rfl

theorem adjustLoop_perm (rem : List Int) (len v : Nat) :
    ∀ (fuel : Nat) (h : List Nat) (hole : Nat), hole < len → len ≤ h.length →
      ((adjustLoop rem len fuel h hole).1.set (adjustLoop rem len fuel h hole).2 v).Perm
        (h.set hole v) := by
  intro fuel
  induction fuel with
  | zero => intro h hole _ _; simp only [adjustLoop]; exact List.Perm.refl _
  | succ n ih =>
    intro h hole hl hlen
    simp only [adjustLoop]
    split
    · rename_i hc
      have key : ∀ child, hole < child → child < len →
          ((adjustLoop rem len n (h.set hole (h.getD child 0)) child).1.set
            (adjustLoop rem len n (h.set hole (h.getD child 0)) child).2 v).Perm
            (h.set hole v) := by
        intro child h1 h2
        refine (ih _ _ h2 (by simpa using hlen)).trans ?_
        exact set_set_perm h hole child v (by omega) (by omega) (by omega)
      split
      · exact key _ (by omega) (by omega)
      · exact key _ (by omega) (by omega)
    · exact List.Perm.refl _

theorem adjustHeap_length (rem : List Int) (h : List Nat) (len v : Nat) :
    (adjustHeap rem h len v).length = h.length := by
  unfold adjustHeap
  simp only
  split
  · rw [pushHeapLoop_length]; simp [adjustLoop_length]
  · rw [pushHeapLoop_length]; simp [adjustLoop_length]

theorem adjustHeap_perm (rem : List Int) (h : List Nat) (len v : Nat)
    (h1 : 1 ≤ len) (h2 : len ≤ h.length) :
    (adjustHeap rem h len v).Perm (h.set 0 v) := by
  unfold adjustHeap
  simp only
  have hl := adjustLoop_hole_lt rem len len h 0 (by omega)
  have hlen := adjustLoop_length rem len len h 0
  have hp := adjustLoop_perm rem len v len h 0 (by omega) h2
  split
  · rename_i hc
    refine (pushHeapLoop_perm _ _ _ _ _ _ (by simp [hlen]; omega)).trans ?_
    refine (set_set_perm _ _ _ v (by omega) (by omega) (by omega)).trans hp
  · exact (pushHeapLoop_perm _ _ _ _ _ _ (by omega)).trans hp

theorem adjustHeap_getD_above (rem : List Int) (h : List Nat) (len v i : Nat)
    (h1 : 1 ≤ len) (hi : len ≤ i) :
    (adjustHeap rem h len v).getD i 0 = h.getD i 0 := by
  unfold adjustHeap
  simp only
  have hl := adjustLoop_hole_lt rem len len h 0 (by omega)
  have ha := adjustLoop_getD_above rem len len h 0 i (by omega) hi
  split
  · rw [pushHeapLoop_getD_above _ _ _ _ _ _ _ (by omega), getD_set_ne _ _ _ _ _ (by omega), ha]
  · rw [pushHeapLoop_getD_above _ _ _ _ _ _ _ (by omega), ha]

theorem eq_dropLast_append_getD (l : List Nat) (h : l ≠ []) :
    l = l.dropLast ++ [l.getD (l.length - 1) 0] := by
  have := List.dropLast_append_getLast h
  conv_lhs => rw [← this]
  congr 2
  rw [List.getLast_eq_getElem]
  simp [List.getD_eq_getElem?_getD]
  rw [List.getElem?_eq_getElem (by have := List.length_pos.mpr h; omega)]
  rfl

theorem pqPop_length (rem : List Int) (h : List Nat) :
    (pqPop rem h).length = h.length - 1 := by
  unfold pqPop
  split
  · simp [adjustHeap_length]
  · simp

/-- The call `pop` removes exactly the entry that `top` returns. -/
theorem pqPop_perm (rem : List Int) (h : List Nat) (hne : h ≠ []) :
    h.Perm (pqTop h :: pqPop rem h) := by
  unfold pqPop pqTop
  have hpos := List.length_pos.mpr hne
  split
  · rename_i hlen
    simp only
    set h1 := h.set (h.length - 1) (h.getD 0 0) with hh1
    set r := adjustHeap rem h1 (h.length - 1) (h.getD (h.length - 1) 0) with hr
    have hrl : r.length = h.length := by simp [hr, adjustHeap_length, hh1]
    have hrp : r.Perm h := by
      refine (adjustHeap_perm rem h1 _ _ (by omega) (by simp [hh1])).trans ?_
      refine (set_set_perm h (h.length - 1) 0 _ (by omega) (by omega) (by omega)).trans ?_
      have : h.set (h.length - 1) (h.getD (h.length - 1) 0) = h := by
        apply List.ext_getElem (by simp)
        intro i hi1 hi2
        simp [List.getElem_set, List.getD_eq_getElem?_getD]
        intro hi
        subst hi
        simp [List.getElem?_eq_getElem hi2]
      rw [this]
    have hlast : r.getD (r.length - 1) 0 = h.getD 0 0 := by
      rw [hrl, hr, adjustHeap_getD_above _ _ _ _ _ (by omega) (by omega), hh1,
        getD_set_self _ _ _ _ (by omega)]
    have hrne : r ≠ [] := by
      intro h0; rw [h0] at hrl; simp at hrl; omega
    have := eq_dropLast_append_getD r hrne
    rw [hlast] at this
    have h3 : (r.dropLast ++ [h.getD 0 0]).Perm h := this ▸ hrp
    exact h3.symm.trans (List.perm_append_singleton _ _)
  · rename_i hlen
    match h, hne with
    | [x], _ => simp
    | x :: y :: t, _ => simp at hlen

/-! ## The heap order -/

theorem getD_set_if (h : List Nat) (i j v : Nat) (hj : j < h.length) :
    (h.set j v).getD i 0 = if i = j then v else h.getD i 0 := by
  split
  · rename_i e; subst e; exact getD_set_self _ _ _ _ hj
  · rename_i e; exact getD_set_ne _ _ _ _ _ (fun h' => e h'.symm)

theorem cmpBurst_iff (remaining : List Int) (a b : Nat) :
    cmpBurst remaining a b = true ↔ keyOf remaining b < keyOf remaining a := by
  simp [cmpBurst, keyOf]

theorem siftUp_done {remaining : List Int} {h : List Nat} {n hole value : Nat}
    (hs : SiftUp remaining h n hole value) (hn : n ≤ h.length) (hh : hole < n)
    (hp : 0 < hole →
      keyOf remaining (h.getD ((hole - 1) / 2) 0) ≤ keyOf remaining value) :
    IsHeapN remaining (h.set hole value) n := by
  obtain ⟨h1, h2, _⟩ := hs
  intro i hi hin
  rw [getD_set_if _ _ _ _ (by omega), getD_set_if _ _ _ _ (by omega)]
  by_cases e1 : i = hole
  · subst e1
    rw [if_pos rfl, if_neg (by omega)]
    exact hp hi
  · rw [if_neg e1]
    by_cases e2 : (i - 1) / 2 = hole
    · rw [if_pos e2]; exact h2 i hi hin e2
    · rw [if_neg e2]; exact h1 i hi hin e1 e2

theorem pushHeapLoop_heap (remaining : List Int) (value n : Nat) :
    ∀ (fuel : Nat) (h : List Nat) (hole : Nat), hole ≤ fuel → hole < n → n ≤ h.length →
      SiftUp remaining h n hole value →
      IsHeapN remaining (pushHeapLoop remaining value 0 fuel h hole) n := by
  intro fuel
  induction fuel with
  | zero =>
    intro h hole hf hh hn hs
    simp only [pushHeapLoop]
    exact siftUp_done hs hn hh (fun h0 => by omega)
  | succ m ih =>
    intro h hole hf hh hn hs
    simp only [pushHeapLoop]
    split
    · rename_i hc
      obtain ⟨hpos, hcmp⟩ := hc
      rw [cmpBurst_iff] at hcmp
      have hlt : (hole - 1) / 2 < hole := by omega
      apply ih _ _ (by omega) (by omega) (by simpa using hn)
      obtain ⟨h1, h2, h3⟩ := hs
      refine ⟨?_, ?_, ?_⟩
      · intro i hi hin e1 e2
        rw [getD_set_if _ _ _ _ (by omega), getD_set_if _ _ _ _ (by omega)]
        have e3 : i ≠ hole := by intro e; subst e; exact e2 rfl
        rw [if_neg e3]
        by_cases e4 : (i - 1) / 2 = hole
        · rw [if_pos e4]; exact h3 i hi hin e4 hpos
        · rw [if_neg e4]; exact h1 i hi hin e3 e4
      · intro i hi hin e1
        rw [getD_set_if _ _ _ _ (by omega)]
        by_cases e3 : i = hole
        · rw [if_pos e3]; omega
        · rw [if_neg e3]
          have := h1 i hi hin e3 (by omega)
          rw [e1] at this
          omega
      · intro i hi hin e1 hp0
        rw [getD_set_if _ _ _ _ (by omega), getD_set_if _ _ _ _ (by omega)]
        rw [if_neg (by omega)]
        have hg := h1 ((hole - 1) / 2) hp0 (by omega) (by omega) (by omega)
        by_cases e3 : i = hole
        · rw [if_pos e3]; exact hg
        · rw [if_neg e3]
          have := h1 i hi hin e3 (by omega)
          rw [e1] at this
          omega
    · rename_i hc
      apply siftUp_done hs hn hh
      intro hpos
      by_contra hlt
      apply hc
      refine ⟨by omega, ?_⟩
      rw [cmpBurst_iff]
      omega

theorem getD_append_left' (h : List Nat) (x i : Nat) (hi : i < h.length) :
    (h ++ [x]).getD i 0 = h.getD i 0 := by
  simp [List.getD_eq_getElem?_getD, List.getElem?_append_left hi]

/-- The call `push` keeps the heap order. -/
theorem pqPush_heap (remaining : List Int) (h : List Nat) (x : Nat)
    (hh : IsHeapN remaining h h.length) :
    IsHeapN remaining (pqPush remaining h x) (pqPush remaining h x).length := by
  rw [pqPush_length]
  unfold pqPush
  apply pushHeapLoop_heap remaining x (h.length + 1) _ _ _ (Nat.le_refl _) (by omega)
    (by simp)
  refine ⟨?_, ?_, ?_⟩
  · intro i hi hin e1 e2
    rw [getD_append_left' _ _ _ (by omega), getD_append_left' _ _ _ (by omega)]
    exact hh i hi (by omega)
  · intro i hi hin e1; omega
  · intro i hi hin e1; omega

theorem siftDown_step {remaining : List Int} {h : List Nat} {n hole child : Nat}
    (hs : SiftDown remaining h n hole) (hn : n ≤ h.length) (hh : hole < n)
    (hc : child < n) (hpar : (child - 1) / 2 = hole) (hpos : 0 < child)
    (hmin : ∀ i, 0 < i → i < n → (i - 1) / 2 = hole →
      keyOf remaining (h.getD child 0) ≤ keyOf remaining (h.getD i 0)) :
    SiftDown remaining (h.set hole (h.getD child 0)) n child := by
  obtain ⟨h1, h3⟩ := hs
  have hlt : hole < child := by omega
  refine ⟨?_, ?_⟩
  · intro i hi hin e1 e2
    rw [getD_set_if _ _ _ _ (by omega), getD_set_if _ _ _ _ (by omega)]
    by_cases e3 : i = hole
    · subst e3
      rw [if_pos rfl, if_neg (by omega)]
      exact h3 child hpos hc hpar hi
    · rw [if_neg e3]
      by_cases e4 : (i - 1) / 2 = hole
      · rw [if_pos e4]; exact hmin i hi hin e4
      · rw [if_neg e4]; exact h1 i hi hin e3 e4
  · intro i hi hin e1 _
    rw [getD_set_if _ _ _ _ (by omega), getD_set_if _ _ _ _ (by omega)]
    rw [hpar, if_pos rfl, if_neg (by omega)]
    have := h1 i hi hin (by omega) (by omega)
    rw [e1] at this
    exact this

theorem adjustLoop_siftDown (remaining : List Int) (n : Nat) :
    ∀ (fuel : Nat) (h : List Nat) (hole : Nat), n ≤ fuel + hole → hole < n →
      n ≤ h.length → SiftDown remaining h n hole →
      SiftDown remaining (adjustLoop remaining n fuel h hole).1 n
        (adjustLoop remaining n fuel h hole).2 ∧
      (n - 1) / 2 ≤ (adjustLoop remaining n fuel h hole).2 := by
  intro fuel
  induction fuel with
  | zero => intro h hole hf hh; omega
  | succ m ih =>
    intro h hole hf hh hn hs
    simp only [adjustLoop]
    split
    · rename_i hc
      split
      · rename_i hcmp
        rw [cmpBurst_iff] at hcmp
        apply ih _ _ (by omega) (by omega) (by simpa using hn)
        apply siftDown_step hs hn hh (by omega) (by omega) (by omega)
        intro i hi hin e
        have : i = 2 * (hole + 1) - 1 ∨ i = 2 * (hole + 1) := by omega
        rcases this with e1 | e1
        · rw [e1]
        · rw [e1]; omega
      · rename_i hcmp
        rw [cmpBurst_iff] at hcmp
        apply ih _ _ (by omega) (by omega) (by simpa using hn)
        apply siftDown_step hs hn hh (by omega) (by omega) (by omega)
        intro i hi hin e
        have : i = 2 * (hole + 1) - 1 ∨ i = 2 * (hole + 1) := by omega
        rcases this with e1 | e1
        · rw [e1]; omega
        · rw [e1]
    · rename_i hc
      exact ⟨hs, by omega⟩

theorem siftDown_leaf {remaining : List Int} {h : List Nat} {n hole value : Nat}
    (hs : SiftDown remaining h n hole) (hleaf : n ≤ 2 * hole + 1) :
    SiftUp remaining h n hole value := by
  refine ⟨hs.1, ?_, ?_⟩
  · intro i hi hin e; omega
  · intro i hi hin e; omega

theorem adjustHeap_heap (remaining : List Int) (h : List Nat) (n value : Nat)
    (h1 : 1 ≤ n) (hn : n ≤ h.length) (hs : SiftDown remaining h n 0) :
    IsHeapN remaining (adjustHeap remaining h n value) n := by
  unfold adjustHeap
  simp only
  obtain ⟨hd, hge⟩ := adjustLoop_siftDown remaining n n h 0 (by omega) (by omega) hn hs
  have hl := adjustLoop_hole_lt remaining n n h 0 (by omega)
  have hlen := adjustLoop_length remaining n n h 0
  split
  · rename_i hc
    apply pushHeapLoop_heap remaining value n _ _ _ (by omega) (by omega)
      (by simp [hlen]; exact hn)
    apply siftDown_leaf _ (by omega)
    apply siftDown_step hd (by omega) hl (by omega) (by omega) (by omega)
    intro i hi hin e
    have : i = 2 * ((adjustLoop remaining n n h 0).2 + 1) - 1 := by omega
    rw [this]
  · rename_i hc
    apply pushHeapLoop_heap remaining value n _ _ _ (by omega) hl (by omega)
    apply siftDown_leaf hd
    omega

theorem getD_dropLast (h : List Nat) (i : Nat) (hi : i < h.length - 1) :
    h.dropLast.getD i 0 = h.getD i 0 := by
  have h1 : i < h.dropLast.length := by simpa using hi
  have h2 : i < h.length := by omega
  simp only [List.getD_eq_getElem?_getD, List.getElem?_eq_getElem h1,
    List.getElem?_eq_getElem h2, Option.getD_some]
  exact List.getElem_dropLast h i h1

/-- The call `pop` keeps the heap order. -/
theorem pqPop_heap (remaining : List Int) (h : List Nat)
    (hh : IsHeapN remaining h h.length) :
    IsHeapN remaining (pqPop remaining h) (pqPop remaining h).length := by
  rw [pqPop_length]
  unfold pqPop
  split
  · rename_i hlen
    simp only
    have key := adjustHeap_heap remaining (h.set (h.length - 1) (h.getD 0 0))
      (h.length - 1) (h.getD (h.length - 1) 0) (by omega) (by simp) ?_
    · intro i hi hin
      have hl : (adjustHeap remaining (h.set (h.length - 1) (h.getD 0 0)) (h.length - 1)
          (h.getD (h.length - 1) 0)).length = h.length := by
        simp [adjustHeap_length]
      rw [getD_dropLast _ _ (by omega), getD_dropLast _ _ (by omega)]
      exact key i hi hin
    · refine ⟨?_, ?_⟩
      · intro i hi hin e1 e2
        rw [getD_set_ne _ _ _ _ _ (by omega), getD_set_ne _ _ _ _ _ (by omega)]
        exact hh i hi (by omega)
      · intro i hi hin e1 h0; omega
  · intro i hi hin
    omega

/-- The top of a heap has the least remaining burst. -/
theorem heap_top_le (remaining : List Int) (h : List Nat) (n : Nat)
    (hh : IsHeapN remaining h n) :
    ∀ i, i < n → keyOf remaining (h.getD 0 0) ≤ keyOf remaining (h.getD i 0) := by
  intro i
  induction i using Nat.strong_induction_on with
  | _ i ih =>
    intro hi
    by_cases h0 : i = 0
    · subst h0; exact le_refl _
    · have h1 := hh i (by omega) hi
      have h2 := ih ((i - 1) / 2) (by omega) (by omega)
      omega

theorem pqTop_le_mem (remaining : List Int) (h : List Nat)
    (hh : IsHeapN remaining h h.length) (x : Nat) (hx : x ∈ h) :
    keyOf remaining (pqTop h) ≤ keyOf remaining x := by
  obtain ⟨i, hi, rfl⟩ := List.getElem_of_mem hx
  have := heap_top_le remaining h h.length hh i hi
  simpa [pqTop, List.getD_eq_getElem?_getD, List.getElem?_eq_getElem hi] using this

/-- The heap order only reads the keys of the entries of the heap. -/
theorem IsHeapN.congr {remaining remaining' : List Int} {h : List Nat}
    (hh : IsHeapN remaining h h.length)
    (hk : ∀ x ∈ h, keyOf remaining' x = keyOf remaining x) :
    IsHeapN remaining' h h.length := by
  intro i hi hin
  rw [hk _ (getD_mem h _ 0 (by omega)), hk _ (getD_mem h _ 0 hin)]
  exact hh i hi hin

theorem Inv.transfer {procs : List Process} {M : Nat} {alg : String} {s s' : SimState}
    (hI : Inv procs M alg s)
    (hrem : s'.remaining = s.remaining) (hfin : s'.finish = s.finish)
    (hcomp : s'.completed = s.completed) (ht : s'.currentTime = s.currentTime)
    (hlen : s'.cores.length = M)
    (hperm : (live procs s').Perm (live procs s))
    (hfq : alg = "SJF-NP" ∨ alg = "SJF-P" → s'.fq = [])
    (hpq : alg = "FCFS" ∨ alg = "RR" → s'.sjf_pq = []) : Inv procs M alg s' where
  len_rem := by rw [hrem]; exact hI.len_rem
  len_fin := by rw [hfin]; exact hI.len_fin
  len_cores := hlen
  nodup := hperm.nodup_iff.mpr hI.nodup
  live_ok := by
    intro p hp
    rw [hrem, hfin]
    exact hI.live_ok p (hperm.mem_iff.mp hp)
  done_ok := by
    intro p hp hn
    rw [hfin]
    exact hI.done_ok p hp (fun h => hn (hperm.mem_iff.mpr h))
  count := by rw [hcomp, hperm.length_eq]; exact hI.count
  time_nonneg := by rw [ht]; exact hI.time_nonneg
  rem_nonneg := by rw [hrem]; exact hI.rem_nonneg
  fq_empty := hfq
  pq_empty := hpq

/-- A fold over the cores preserves whatever each body preserves. -/
theorem foldl_range_preserves {P : SimState → Prop} {f : SimState → Nat → SimState}
    (M : Nat) (hstep : ∀ s c, c < M → P s → P (f s c)) :
    ∀ s, P s → P ((List.range M).foldl f s) := by
  have key : ∀ (l : List Nat), (∀ c ∈ l, c < M) → ∀ s, P s → P (l.foldl f s) := by
    intro l
    induction l with
    | nil => intro _ s hs; exact hs
    | cons a t ih =>
      intro hl s hs
      simp only [List.foldl_cons]
      exact ih (fun c hc => hl c (List.mem_cons_of_mem _ hc)) _
        (hstep s a (hl a (List.mem_cons_self _ _)) hs)
  exact key _ (fun c hc => List.mem_range.mp hc)

/-- A fold over the cores establishes a property indexed by the number of
cores already visited. -/
theorem foldl_range_indexed {Q : Nat → SimState → Prop} {f : SimState → Nat → SimState}
    (M : Nat) (s : SimState) (h0 : Q 0 s)
    (hstep : ∀ k t, k < M → Q k t → Q (k + 1) (f t k)) :
    Q M ((List.range M).foldl f s) := by
  have key : ∀ k, k ≤ M → Q k ((List.range k).foldl f s) := by
    intro k
    induction k with
    | zero => intro _; simpa using h0
    | succ n ih =>
      intro hn
      rw [List.range_succ, List.foldl_append]
      simp only [List.foldl_cons, List.foldl_nil]
      exact hstep n _ (by omega) (ih (by omega))
  exact key M (Nat.le_refl M)

/-! ### Phase 1 -/

theorem arriveLoop_frame (alg : String) :
    ∀ (rest : List Process) (s : SimState), ArriveFrame s (arriveLoop alg rest s) := by
  intro rest
  induction rest with
  | nil => intro s; simp [arriveLoop, ArriveFrame]
  | cons p t ih =>
    intro s
    simp only [arriveLoop]
    split
    · split
      · have := ih { s with fq := s.fq ++ [p.pid], next_arrival := s.next_arrival + 1 }
        unfold ArriveFrame at this ⊢
        rw [this]
      · have := ih { s with sjf_pq := pqPush s.remaining s.sjf_pq p.pid,
                            next_arrival := s.next_arrival + 1 }
        unfold ArriveFrame at this ⊢
        rw [this]
    · simp [ArriveFrame]

theorem arrive_frame (procs : List Process) (alg : String) (s : SimState) :
    ArriveFrame s (arrive procs alg s) := arriveLoop_frame alg _ s

theorem drop_succ_of_drop_cons {procs : List Process} {n : Nat} {p : Process}
    {t : List Process} (h : procs.drop n = p :: t) : procs.drop (n + 1) = t := by
  rw [← List.tail_drop, h]; rfl

theorem arrivalOf_of_drop_cons {procs : List Process} {n : Nat} {p : Process}
    {t : List Process} (h : procs.drop n = p :: t) :
    n < procs.length ∧ arrivalOf procs n = p.arrival := by
  have hn : n < procs.length := by
    by_contra hc
    rw [List.drop_of_length_le (by omega)] at h
    cases h
  refine ⟨hn, ?_⟩
  have h2 := List.drop_eq_getElem_cons hn
  rw [h] at h2
  injection h2 with h3 _
  simp [arrivalOf, List.getD_eq_getElem?_getD, List.getElem?_eq_getElem hn, h3]

theorem arriveLoop_inv (procs : List Process) (M : Nat) (alg : String) :
    ∀ (rest : List Process) (s : SimState), procs.drop s.next_arrival = rest →
      Inv procs M alg s → Inv procs M alg (arriveLoop alg rest s) := by
  intro rest
  induction rest with
  | nil => intro s _ hI; simpa [arriveLoop] using hI
  | cons p t ih =>
    intro s hd hI
    simp only [arriveLoop]
    have hd' := drop_succ_of_drop_cons hd
    split
    · split
      · rename_i halg
        apply ih _ hd'
        refine hI.transfer rfl rfl rfl rfl hI.len_cores ?_ ?_ ?_
        · simp only [live, unadmitted, active, running, hd, hd', List.map_cons]
          rw [List.perm_iff_count]
          intro a
          simp only [List.count_append, List.count_cons, List.count_nil]
          omega
        · intro h
          rcases halg with h1 | h1 <;> rcases h with h2 | h2 <;> rw [h1] at h2 <;>
            exact absurd h2 (by decide)
        · exact hI.pq_empty
      · rename_i halg
        apply ih _ hd'
        refine hI.transfer rfl rfl rfl rfl hI.len_cores ?_ ?_ ?_
        · simp only [live, unadmitted, active, running, hd, hd', List.map_cons]
          rw [List.perm_iff_count]
          intro a
          have := (pqPush_perm s.remaining s.sjf_pq p.pid).count_eq a
          simp only [List.count_append, List.count_cons, List.count_nil] at this ⊢
          omega
        · exact hI.fq_empty
        · intro h; exact absurd h halg
    · exact hI

theorem arrive_inv {procs : List Process} {M : Nat} {alg : String} {s : SimState}
    (hI : Inv procs M alg s) : Inv procs M alg (arrive procs alg s) :=
  arriveLoop_inv procs M alg _ s rfl hI

/-- When the admission loop stops short of the end, the next process lies in the future. -/
theorem arriveLoop_next_future (procs : List Process) (alg : String) :
    ∀ (rest : List Process) (s : SimState), procs.drop s.next_arrival = rest →
      (arriveLoop alg rest s).next_arrival < procs.length →
      (arriveLoop alg rest s).currentTime <
        arrivalOf procs (arriveLoop alg rest s).next_arrival := by
  intro rest
  induction rest with
  | nil =>
    intro s hd hlt
    simp only [arriveLoop] at hlt ⊢
    have := List.drop_eq_nil_iff.mp hd
    omega
  | cons p t ih =>
    intro s hd
    simp only [arriveLoop]
    have hd' := drop_succ_of_drop_cons hd
    split
    · split
      · exact ih _ hd'
      · exact ih _ hd'
    · intro _
      rw [(arrivalOf_of_drop_cons hd).2]
      omega

theorem arrive_next_future (procs : List Process) (alg : String) (s : SimState)
    (h : (arrive procs alg s).next_arrival < procs.length) :
    (arrive procs alg s).currentTime < arrivalOf procs (arrive procs alg s).next_arrival :=
  arriveLoop_next_future procs alg _ s rfl h

/-- Every admission moves `next_arrival` by one and adds one entry to a container. -/
theorem arriveLoop_count (alg : String) :
    ∀ (rest : List Process) (s : SimState),
      s.next_arrival ≤ (arriveLoop alg rest s).next_arrival ∧
      (arriveLoop alg rest s).next_arrival + (s.fq.length + s.sjf_pq.length) =
        s.next_arrival +
          ((arriveLoop alg rest s).fq.length + (arriveLoop alg rest s).sjf_pq.length) := by
  intro rest
  induction rest with
  | nil => intro s; simp [arriveLoop]
  | cons p t ih =>
    intro s
    simp only [arriveLoop]
    split
    · split
      · have := ih { s with fq := s.fq ++ [p.pid], next_arrival := s.next_arrival + 1 }
        simp only [List.length_append, List.length_singleton] at this
        omega
      · have := ih { s with sjf_pq := pqPush s.remaining s.sjf_pq p.pid,
                            next_arrival := s.next_arrival + 1 }
        simp only [pqPush_length] at this
        omega
    · simp

/-- If the first unadmitted process has arrived, the admission loop admits it. -/
theorem arrive_progress (procs : List Process) (alg : String) (s : SimState)
    (h1 : s.next_arrival < procs.length)
    (h2 : arrivalOf procs s.next_arrival ≤ s.currentTime) :
    s.next_arrival < (arrive procs alg s).next_arrival := by
  unfold arrive
  have hd := List.drop_eq_getElem_cons h1
  rw [hd]
  have ha := (arrivalOf_of_drop_cons hd).2
  simp only [arriveLoop]
  rw [← ha, if_pos h2]
  split
  · have := (arriveLoop_count alg (procs.drop (s.next_arrival + 1))
      { s with fq := s.fq ++ [procs[s.next_arrival].pid],
               next_arrival := s.next_arrival + 1 }).1
    simp only at this
    omega
  · have := (arriveLoop_count alg (procs.drop (s.next_arrival + 1))
      { s with sjf_pq := pqPush s.remaining s.sjf_pq procs[s.next_arrival].pid,
               next_arrival := s.next_arrival + 1 }).1
    simp only at this
    omega

/-! ### Phase 2 -/

theorem preemptCore_inv {procs : List Process} {M : Nat} {alg : String} {quantum : Int}
    {s : SimState} (c : Nat) (halg : alg = "SJF-P") (hI : Inv procs M alg s) :
    Inv procs M alg (preemptCore quantum s c) := by
  unfold preemptCore
  split
  · exact hI
  · rename_i p hp
    split
    · have hfq : s.fq = [] := hI.fq_empty (Or.inr halg)
      refine hI.transfer rfl rfl rfl rfl (by simp [hI.len_cores]) ?_ (fun _ => rfl) ?_
      · simp only [live, unadmitted, active, running, hfq, List.nil_append]
        rw [List.perm_iff_count]
        intro a
        have h1 := (pqPush_perm s.remaining s.sjf_pq p).count_eq a
        have h2 := (reduceOption_set_none s.cores c p hp).count_eq a
        simp only [List.count_append, List.count_cons] at h1 h2 ⊢
        omega
      · intro h
        rcases h with h | h <;> rw [halg] at h <;> exact absurd h (by decide)
    · exact hI

theorem preempt_inv {procs : List Process} {M : Nat} {alg : String} {quantum : Int}
    {s : SimState} (hI : Inv procs M alg s) : Inv procs M alg (preempt M alg quantum s) := by
  unfold preempt
  split
  · rename_i halg
    exact foldl_range_preserves M (fun t c _ ht => preemptCore_inv c halg ht) s hI
  · exact hI

/-! ### Phase 3 -/

theorem assign_frame (procs : List Process) (c pid : Nat) (s : SimState) :
    AssignFrame c pid s (assign procs c pid s) := by
  unfold assign AssignFrame
  simp only
  split <;> rfl

theorem assign_inv {procs : List Process} {M : Nat} {alg : String} {s s0 : SimState}
    (c pid : Nat) (hI : Inv procs M alg s0) (hc : c < M)
    (hfree : s0.cores.getD c none = none)
    (hrem : s.remaining = s0.remaining) (hfin : s.finish = s0.finish)
    (hcomp : s.completed = s0.completed) (ht : s.currentTime = s0.currentTime)
    (hcores : s.cores = s0.cores) (hna : s.next_arrival = s0.next_arrival)
    (hq : (pid :: (s.fq ++ s.sjf_pq)).Perm (s0.fq ++ s0.sjf_pq))
    (hfq : alg = "SJF-NP" ∨ alg = "SJF-P" → s.fq = [])
    (hpq : alg = "FCFS" ∨ alg = "RR" → s.sjf_pq = []) :
    Inv procs M alg (assign procs c pid s) := by
  have hf := assign_frame procs c pid s
  unfold AssignFrame at hf
  have e1 := congrArg SimState.remaining hf
  have e2 := congrArg SimState.finish hf
  have e3 := congrArg SimState.completed hf
  have e4 := congrArg SimState.currentTime hf
  have e5 := congrArg SimState.cores hf
  have e6 := congrArg SimState.fq hf
  have e7 := congrArg SimState.sjf_pq hf
  have e8 := congrArg SimState.next_arrival hf
  simp only at e1 e2 e3 e4 e5 e6 e7 e8
  refine hI.transfer (e1.trans hrem) (e2.trans hfin) (e3.trans hcomp) (e4.trans ht)
    (by rw [e5, hcores]; simp [hI.len_cores]) ?_ (by rw [e6]; exact hfq) (by rw [e7]; exact hpq)
  simp only [live, unadmitted, active, running, e5, e6, e7, e8, hna, hcores]
  rw [List.perm_iff_count]
  intro a
  have h1 := hq.count_eq a
  have h2 := (reduceOption_set_some s0.cores c pid (by rw [hI.len_cores]; exact hc)
    hfree).count_eq a
  simp only [List.count_append, List.count_cons] at h1 h2 ⊢
  omega

theorem cons_tail_of_ne_nil (l : List Nat) (h : l ≠ []) : l.getD 0 0 :: l.tail = l := by
  cases l with
  | nil => exact absurd rfl h
  | cons x t => rfl

theorem dispatchCore_inv {procs : List Process} {M : Nat} {alg : String} {quantum : Int}
    {s : SimState} (c : Nat) (hc : c < M) (hI : Inv procs M alg s) :
    Inv procs M alg (dispatchCore procs alg quantum s c) := by
  unfold dispatchCore
  split
  · exact hI
  · rename_i hfree
    split
    · rename_i h
      have hpq := hI.pq_empty (Or.inl h.1)
      refine assign_inv c _ hI hc hfree rfl rfl rfl rfl rfl rfl ?_
        (fun h2 => by rcases h2 with h2 | h2 <;> rw [h.1] at h2 <;> exact absurd h2 (by decide))
        (fun _ => hpq)
      simp only [hpq, List.append_nil]
      rw [cons_tail_of_ne_nil _ h.2]
    · split
      · rename_i h
        split
        · rename_i hne
          have hfq := hI.fq_empty h
          refine assign_inv c _ hI hc hfree rfl rfl rfl rfl rfl rfl ?_ (fun _ => hfq)
            (fun h2 => by
              rcases h2 with h2 | h2 <;> rcases h with h | h <;> rw [h] at h2 <;>
                exact absurd h2 (by decide))
          simp only [hfq, List.nil_append]
          exact (pqPop_perm s.remaining s.sjf_pq hne).symm
        · exact hI
      · split
        · rename_i h
          have hpq := hI.pq_empty (Or.inr h.1)
          refine assign_inv c _ hI hc hfree rfl rfl rfl rfl rfl rfl ?_
            (fun h2 => by
              rcases h2 with h2 | h2 <;> rw [h.1] at h2 <;> exact absurd h2 (by decide))
            (fun _ => hpq)
          simp only [hpq, List.append_nil]
          rw [cons_tail_of_ne_nil _ h.2]
        · exact hI

theorem dispatch_inv {procs : List Process} {M : Nat} {alg : String} {quantum : Int}
    {s : SimState} (hI : Inv procs M alg s) :
    Inv procs M alg (dispatch procs M alg quantum s) :=
  foldl_range_preserves M (fun _ c hc ht => dispatchCore_inv c hc ht) s hI

/-! ### Phase 4 -/

theorem running_mem_live (procs : List Process) {s : SimState} {c p : Nat}
    (hp : s.cores.getD c none = some p) : p ∈ live procs s := by
  have := mem_reduceOption_of_getD s.cores c p hp
  simp only [live, active, running, List.mem_append]
  exact Or.inr (Or.inr (Or.inr this))

/-- The running process completes. -/
theorem Inv.exec_finish {procs : List Process} {M : Nat} {alg : String} {s s' : SimState}
    {c p : Nat} (hI : Inv procs M alg s) (hp : s.cores.getD c none = some p)
    (hrem : s'.remaining = s.remaining.set p (s.remaining.getD p 0 - 1))
    (hfin : s'.finish = s.finish.set p (s.currentTime + 1))
    (hcomp : s'.completed = s.completed + 1)
    (hcores : s'.cores = s.cores.set c none)
    (hfq : s'.fq = s.fq) (hpq : s'.sjf_pq = s.sjf_pq)
    (hna : s'.next_arrival = s.next_arrival) (ht : s'.currentTime = s.currentTime) :
    Inv procs M alg s' := by
  have hpl := running_mem_live procs hp
  obtain ⟨hpN, hprem, _⟩ := hI.live_ok p hpl
  have hperm : (live procs s).Perm (p :: live procs s') := by
    simp only [live, unadmitted, active, running, hcores, hfq, hpq, hna]
    rw [List.perm_iff_count]
    intro a
    have h2 := (reduceOption_set_none s.cores c p hp).count_eq a
    simp only [List.count_append, List.count_cons] at h2 ⊢
    omega
  have hnd := hperm.nodup_iff.mp hI.nodup
  have hpn : p ∉ live procs s' := (List.nodup_cons.mp hnd).1
  refine ⟨by rw [hrem]; simp [hI.len_rem], by rw [hfin]; simp [hI.len_fin],
    by rw [hcores]; simp [hI.len_cores], (List.nodup_cons.mp hnd).2, ?_, ?_, ?_,
    by rw [ht]; exact hI.time_nonneg, ?_, by rw [hfq]; exact hI.fq_empty,
    by rw [hpq]; exact hI.pq_empty⟩
  · intro q hq
    have hne : p ≠ q := fun h => hpn (h ▸ hq)
    have := hI.live_ok q (hperm.mem_iff.mpr (List.mem_cons_of_mem _ hq))
    rw [hrem, hfin, getD_set_ne _ _ _ _ _ hne, getD_set_ne _ _ _ _ _ hne]
    exact this
  · intro q hqN hq
    rw [hfin]
    by_cases hne : p = q
    · subst hne
      rw [getD_set_self _ _ _ _ (by rw [hI.len_fin]; exact hpN)]
      have := hI.time_nonneg
      omega
    · rw [getD_set_ne _ _ _ _ _ hne]
      apply hI.done_ok q hqN
      intro h
      rcases List.mem_cons.mp (hperm.mem_iff.mp h) with h1 | h1
      · exact hne h1.symm
      · exact hq h1
  · have := hperm.length_eq
    have := hI.count
    simp only [List.length_cons] at *
    omega
  · intro x hx
    rw [hrem] at hx
    rcases List.mem_or_eq_of_mem_set hx with h | h
    · exact hI.rem_nonneg x h
    · omega

/-- The running process goes on, on its core or at the back of the queue. -/
theorem Inv.exec_continue {procs : List Process} {M : Nat} {alg : String} {s s' : SimState}
    {c p : Nat} (hI : Inv procs M alg s) (hp : s.cores.getD c none = some p)
    (hnz : s.remaining.getD p 0 - 1 ≠ 0)
    (hrem : s'.remaining = s.remaining.set p (s.remaining.getD p 0 - 1))
    (hfin : s'.finish = s.finish)
    (hcomp : s'.completed = s.completed)
    (hlen : s'.cores.length = M)
    (hperm : (live procs s').Perm (live procs s))
    (ht : s'.currentTime = s.currentTime)
    (hfq : alg = "SJF-NP" ∨ alg = "SJF-P" → s'.fq = [])
    (hpq : alg = "FCFS" ∨ alg = "RR" → s'.sjf_pq = []) :
    Inv procs M alg s' := by
  have hpl := running_mem_live procs hp
  obtain ⟨hpN, hprem, _⟩ := hI.live_ok p hpl
  refine ⟨by rw [hrem]; simp [hI.len_rem], by rw [hfin]; exact hI.len_fin, hlen,
    hperm.nodup_iff.mpr hI.nodup, ?_, ?_, by rw [hcomp, hperm.length_eq]; exact hI.count,
    by rw [ht]; exact hI.time_nonneg, ?_, hfq, hpq⟩
  · intro q hq
    have := hI.live_ok q (hperm.mem_iff.mp hq)
    rw [hrem, hfin]
    refine ⟨this.1, ?_, this.2.2⟩
    by_cases hne : p = q
    · subst hne
      rw [getD_set_self _ _ _ _ (by rw [hI.len_rem]; exact hpN)]
      omega
    · rw [getD_set_ne _ _ _ _ _ hne]
      exact this.2.1
  · intro q hqN hq
    rw [hfin]
    exact hI.done_ok q hqN (fun h => hq (hperm.mem_iff.mpr h))
  · intro x hx
    rw [hrem] at hx
    rcases List.mem_or_eq_of_mem_set hx with h | h
    · exact hI.rem_nonneg x h
    · omega

theorem execCore_inv {procs : List Process} {M : Nat} {alg : String}
    {s : SimState} (c : Nat) (hI : Inv procs M alg s) :
    Inv procs M alg (execCore procs alg s c) := by
  unfold execCore
  split
  · exact hI
  · rename_i p hp
    have hpl := running_mem_live procs hp
    obtain ⟨hpN, hprem, _⟩ := hI.live_ok p hpl
    have hself : (s.remaining.set p (s.remaining.getD p 0 - 1)).getD p 0 =
        s.remaining.getD p 0 - 1 := getD_set_self _ _ _ _ (by rw [hI.len_rem]; exact hpN)
    have hexp : (live procs { s with fq := s.fq ++ [p], cores := s.cores.set c none }).Perm
        (live procs s) := by
      simp only [live, unadmitted, active, running]
      rw [List.perm_iff_count]
      intro a
      have h2 := (reduceOption_set_none s.cores c p hp).count_eq a
      simp only [List.count_append, List.count_cons, List.count_nil] at h2 ⊢
      omega
    simp only
    split_ifs with h1 h2 h3 h4 h5
    · exact hI.exec_finish hp rfl rfl rfl rfl rfl rfl rfl rfl
    · have hnz : s.remaining.getD p 0 - 1 ≠ 0 := by
        intro h; apply h2; simp only; rw [hself]; exact h
      refine hI.exec_continue hp hnz rfl rfl rfl (by simp [hI.len_cores]) hexp rfl ?_
        hI.pq_empty
      intro h
      rcases h with h | h <;> rw [h1] at h <;> exact absurd h (by decide)
    · have hnz : s.remaining.getD p 0 - 1 ≠ 0 := by
        intro h; apply h2; simp only; rw [hself]; exact h
      exact hI.exec_continue hp hnz rfl rfl rfl hI.len_cores (List.Perm.refl _) rfl
        hI.fq_empty hI.pq_empty
    · exact hI.exec_finish hp rfl rfl rfl rfl rfl rfl rfl rfl
    · exact absurd h5.1 h1
    · have hnz : s.remaining.getD p 0 - 1 ≠ 0 := by
        intro h; apply h4; simp only; rw [hself]; exact h
      exact hI.exec_continue hp hnz rfl rfl rfl hI.len_cores (List.Perm.refl _) rfl
        hI.fq_empty hI.pq_empty

theorem execute_inv {procs : List Process} {M : Nat} {alg : String}
    {s : SimState} (hI : Inv procs M alg s) : Inv procs M alg (execute procs M alg s) := by
  unfold execute
  refine foldl_range_preserves M (fun _ c _ ht => execCore_inv c ht) _ ?_
  exact hI.transfer rfl rfl rfl rfl hI.len_cores (List.Perm.refl _) hI.fq_empty hI.pq_empty

/-! ### Frames of the phases -/

theorem foldl_frame {β : Type} (g : SimState → Nat → SimState) (f : SimState → β)
    (h : ∀ s c, f (g s c) = f s) (l : List Nat) (s : SimState) :
    f (l.foldl g s) = f s := by
  induction l generalizing s with
  | nil => rfl
  | cons a t ih => simp only [List.foldl_cons]; rw [ih, h]

theorem preemptCore_static (quantum : Int) (s : SimState) (c : Nat) :
    staticPart (preemptCore quantum s c) = staticPart s := by
  unfold preemptCore
  split
  · rfl
  · split <;> rfl

theorem preempt_static (M : Nat) (alg : String) (quantum : Int) (s : SimState) :
    staticPart (preempt M alg quantum s) = staticPart s := by
  unfold preempt
  split
  · exact foldl_frame _ staticPart (preemptCore_static quantum) _ s
  · rfl

theorem assign_static (procs : List Process) (c pid : Nat) (s : SimState) :
    staticPart (assign procs c pid s) = staticPart s := by
  unfold assign
  simp only
  split <;> rfl

theorem dispatchCore_static (procs : List Process) (alg : String) (quantum : Int)
    (s : SimState) (c : Nat) :
    staticPart (dispatchCore procs alg quantum s c) = staticPart s := by
  unfold dispatchCore
  split
  · rfl
  · split_ifs <;> first | rfl | (rw [assign_static]; rfl)

theorem dispatch_static (procs : List Process) (M : Nat) (alg : String) (quantum : Int)
    (s : SimState) : staticPart (dispatch procs M alg quantum s) = staticPart s :=
  foldl_frame _ staticPart (dispatchCore_static procs alg quantum) _ s

theorem execCore_clock (procs : List Process) (alg : String) (s : SimState) (c : Nat) :
    clockPart (execCore procs alg s c) = clockPart s := by
  unfold execCore
  split
  · rfl
  · simp only
    split_ifs <;> rfl

theorem execute_clock (procs : List Process) (M : Nat) (alg : String) (s : SimState) :
    clockPart (execute procs M alg s) = clockPart s := by
  unfold execute
  rw [foldl_frame _ clockPart (execCore_clock procs alg)]
  rfl

theorem tick_eq (procs : List Process) (M : Nat) (alg : String) (quantum : Int)
    (s : SimState) :
    tick procs M alg quantum s =
      advance procs (execute procs M alg (beforeExec procs M alg quantum s)) := rfl

theorem beforeExec_static (procs : List Process) (M : Nat) (alg : String) (quantum : Int)
    (s : SimState) :
    staticPart (beforeExec procs M alg quantum s) = staticPart (arrive procs alg s) := by
  unfold beforeExec
  rw [dispatch_static, preempt_static]

theorem beforeExec_clock (procs : List Process) (M : Nat) (alg : String) (quantum : Int)
    (s : SimState) :
    (beforeExec procs M alg quantum s).next_arrival = (arrive procs alg s).next_arrival ∧
    (beforeExec procs M alg quantum s).currentTime = s.currentTime ∧
    (beforeExec procs M alg quantum s).remaining = s.remaining := by
  have h := beforeExec_static procs M alg quantum s
  have hf := arrive_frame procs alg s
  unfold ArriveFrame at hf
  have e1 := congrArg SimState.currentTime hf
  have e2 := congrArg SimState.remaining hf
  simp only at e1 e2
  simp only [staticPart, Prod.mk.injEq] at h
  exact ⟨h.2.2.2.2.2.1, h.2.2.2.2.2.2.1.trans e1, h.1.trans e2⟩

/-- After the execution phase the next unadmitted process still lies in the future. -/
theorem executed_next_future (procs : List Process) (M : Nat) (alg : String)
    (quantum : Int) (s : SimState)
    (h : (execute procs M alg (beforeExec procs M alg quantum s)).next_arrival
      < procs.length) :
    (execute procs M alg (beforeExec procs M alg quantum s)).currentTime <
      arrivalOf procs
        (execute procs M alg (beforeExec procs M alg quantum s)).next_arrival := by
  have hc := execute_clock procs M alg (beforeExec procs M alg quantum s)
  simp only [clockPart, Prod.mk.injEq] at hc
  have hb := beforeExec_clock procs M alg quantum s
  have hf := arrive_frame procs alg s
  unfold ArriveFrame at hf
  have e1 := congrArg SimState.currentTime hf
  simp only at e1
  rw [hc.1, hb.1] at h ⊢
  rw [hc.2.1, hb.2.1, ← e1]
  exact arrive_next_future procs alg s h

/-- Every iteration moves the clock forward by at least one tick. -/
theorem tick_time_lt (procs : List Process) (M : Nat) (alg : String) (quantum : Int)
    (s : SimState) : s.currentTime + 1 ≤ (tick procs M alg quantum s).currentTime := by
  rw [tick_eq]
  have hc := execute_clock procs M alg (beforeExec procs M alg quantum s)
  simp only [clockPart, Prod.mk.injEq] at hc
  have hb := beforeExec_clock procs M alg quantum s
  unfold advance
  split
  · rename_i h
    have := executed_next_future procs M alg quantum s h.2
    simp only
    rw [hc.2.1, hb.2.1] at this
    omega
  · simp only
    rw [hc.2.1, hb.2.1]

theorem tick_inv {procs : List Process} {M : Nat} {alg : String} {quantum : Int}
    {s : SimState} (hI : Inv procs M alg s) :
    Inv procs M alg (tick procs M alg quantum s) := by
  have hE : Inv procs M alg (execute procs M alg (beforeExec procs M alg quantum s)) :=
    execute_inv (dispatch_inv (preempt_inv (arrive_inv hI)))
  have ht := tick_time_lt procs M alg quantum s
  have h0 := hI.time_nonneg
  rw [tick_eq] at ht ⊢
  have hadv : ∀ e : SimState, Inv procs M alg e → 0 ≤ (advance procs e).currentTime →
      Inv procs M alg (advance procs e) := by
    intro e he h
    have hl : live procs (advance procs e) = live procs e := by
      unfold advance; split <;> rfl
    have e1 : (advance procs e).remaining = e.remaining := by unfold advance; split <;> rfl
    have e2 : (advance procs e).finish = e.finish := by unfold advance; split <;> rfl
    have e3 : (advance procs e).cores = e.cores := by unfold advance; split <;> rfl
    have e4 : (advance procs e).completed = e.completed := by unfold advance; split <;> rfl
    have e5 : (advance procs e).fq = e.fq := by unfold advance; split <;> rfl
    have e6 : (advance procs e).sjf_pq = e.sjf_pq := by unfold advance; split <;> rfl
    exact ⟨by rw [e1]; exact he.len_rem, by rw [e2]; exact he.len_fin,
      by rw [e3]; exact he.len_cores, by rw [hl]; exact he.nodup,
      by rw [hl, e1, e2]; exact he.live_ok, by rw [hl, e2]; exact he.done_ok,
      by rw [hl, e4]; exact he.count, h, by rw [e1]; exact he.rem_nonneg,
      by rw [e5]; exact he.fq_empty, by rw [e6]; exact he.pq_empty⟩
  exact hadv _ hE (by omega)

/-! ### The initial state -/

theorem reduceOption_replicate_none (M : Nat) :
    (List.replicate M (none : Option Nat)).reduceOption = [] := by
  apply reduceOption_eq_nil_of_forall
  intro c hc
  simp only [List.length_replicate] at hc
  simp [List.getD_eq_getElem?_getD, List.getElem?_replicate, hc]

theorem live_initState (procs : List Process) (M : Nat) (quantum : Int) :
    live procs (initState procs M quantum) = procs.map Process.pid := by
  simp [live, unadmitted, active, running, initState, reduceOption_replicate_none]

theorem burst_getD (procs : List Process) (p : Nat) :
    (procs.map Process.burst).getD p 0 = burstOf procs p := by
  simp only [burstOf, List.getD_eq_getElem?_getD, List.getElem?_map]
  cases procs[p]? <;> rfl

theorem burstOf_pos (procs : List Process) (hb : ∀ q ∈ procs, 1 ≤ q.burst) (p : Nat)
    (hp : p < procs.length) : 1 ≤ burstOf procs p := by
  unfold burstOf
  exact hb _ (getD_mem procs p _ hp)

theorem init_inv (procs : List Process) (M : Nat) (alg : String) (quantum : Int)
    (hid : (procs.map Process.pid).Perm (List.range procs.length))
    (hb : ∀ q ∈ procs, 1 ≤ q.burst) : Inv procs M alg (initState procs M quantum) := by
  have hl := live_initState procs M quantum
  refine ⟨by simp [initState], by simp [initState], by simp [initState], ?_, ?_, ?_, ?_,
    by simp [initState], ?_, fun _ => rfl, fun _ => rfl⟩
  · rw [hl]; exact hid.nodup_iff.mpr (List.nodup_range _)
  · intro p hp
    rw [hl] at hp
    have hpN : p < procs.length := List.mem_range.mp (hid.mem_iff.mp hp)
    refine ⟨hpN, ?_, ?_⟩
    · simp only [initState]
      rw [burst_getD]
      exact burstOf_pos procs hb p hpN
    · simp [initState, List.getD_eq_getElem?_getD, List.getElem?_replicate, hpN]
  · intro p hpN hp
    rw [hl] at hp
    exact absurd (hid.mem_iff.mpr (List.mem_range.mpr hpN)) hp
  · rw [hl]; simp [initState]
  · intro x hx
    simp only [initState, List.mem_map] at hx
    obtain ⟨q, hq, rfl⟩ := hx
    have := hb q hq
    omega

/-! ### Dispatch leaves no core free while a process waits -/

theorem assign_cores (procs : List Process) (c pid : Nat) (s : SimState) :
    (assign procs c pid s).cores = s.cores.set c (some pid) := by
  have hf := assign_frame procs c pid s
  unfold AssignFrame at hf
  exact congrArg SimState.cores hf

theorem assign_queues (procs : List Process) (c pid : Nat) (s : SimState) :
    (assign procs c pid s).fq = s.fq ∧ (assign procs c pid s).sjf_pq = s.sjf_pq := by
  have hf := assign_frame procs c pid s
  unfold AssignFrame at hf
  have e1 := congrArg SimState.fq hf
  have e2 := congrArg SimState.sjf_pq hf
  exact ⟨e1, e2⟩

/-- The two outcomes of the body of the dispatch loop. -/
theorem dispatchCore_cases {procs : List Process} {M : Nat} {alg : String} (quantum : Int)
    {s : SimState} (c : Nat) (hv : ValidAlg alg) (hI : Inv procs M alg s) :
    (dispatchCore procs alg quantum s c = s ∧
      (s.cores.getD c none ≠ none ∨ (s.fq = [] ∧ s.sjf_pq = []))) ∨
    (s.cores.getD c none = none ∧ ∃ pid s1,
      dispatchCore procs alg quantum s c = assign procs c pid s1 ∧
      s1.cores = s.cores ∧ s1.first_start = s.first_start ∧
      s1.currentTime = s.currentTime ∧ s1.remaining = s.remaining ∧
      s1.context_switches = s.context_switches ∧
      s1.next_arrival = s.next_arrival ∧ s1.completed = s.completed ∧
      (pid :: (s1.fq ++ s1.sjf_pq)).Perm (s.fq ++ s.sjf_pq)) := by
  unfold dispatchCore
  split
  · rename_i p hp
    left
    exact ⟨rfl, Or.inl (by rw [hp]; simp)⟩
  · rename_i hfree
    split
    · rename_i h
      right
      have hpq := hI.pq_empty (Or.inl h.1)
      refine ⟨hfree, _, _, rfl, rfl, rfl, rfl, rfl, rfl, rfl, rfl, ?_⟩
      simp only [hpq, List.append_nil]
      rw [cons_tail_of_ne_nil _ h.2]
    · rename_i h1
      split
      · rename_i h
        have hfq := hI.fq_empty h
        split
        · rename_i hne
          right
          refine ⟨hfree, _, _, rfl, rfl, rfl, rfl, rfl, rfl, rfl, rfl, ?_⟩
          simp only [hfq, List.nil_append]
          exact (pqPop_perm s.remaining s.sjf_pq hne).symm
        · rename_i hne
          left
          exact ⟨rfl, Or.inr ⟨hfq, by simpa using hne⟩⟩
      · rename_i h2
        split
        · rename_i h
          right
          have hpq := hI.pq_empty (Or.inr h.1)
          refine ⟨hfree, _, _, rfl, rfl, rfl, rfl, rfl, rfl, rfl, rfl, ?_⟩
          simp only [hpq, List.append_nil]
          rw [cons_tail_of_ne_nil _ h.2]
        · rename_i h3
          left
          refine ⟨rfl, Or.inr ?_⟩
          rcases hv with h | h | h | h
          · refine ⟨?_, hI.pq_empty (Or.inl h)⟩
            by_contra hc
            exact h1 ⟨h, hc⟩
          · exact absurd (Or.inl h) h2
          · exact absurd (Or.inr h) h2
          · refine ⟨?_, hI.pq_empty (Or.inr h)⟩
            by_contra hc
            exact h3 ⟨h, hc⟩

/-- After the dispatch phase either nothing waits or every core is busy. -/
theorem dispatch_saturates {procs : List Process} {M : Nat} {alg : String} (quantum : Int)
    {s : SimState} (hv : ValidAlg alg) (hI : Inv procs M alg s) :
    ((dispatch procs M alg quantum s).fq = [] ∧
      (dispatch procs M alg quantum s).sjf_pq = []) ∨
    ∀ c, c < M → (dispatch procs M alg quantum s).cores.getD c none ≠ none := by
  have key := foldl_range_indexed
    (Q := fun k t => Inv procs M alg t ∧
      ((t.fq = [] ∧ t.sjf_pq = []) ∨ ∀ c, c < k → t.cores.getD c none ≠ none))
    (f := dispatchCore procs alg quantum) M s
    ⟨hI, Or.inr (fun c hc => absurd hc (Nat.not_lt_zero c))⟩ ?_
  · exact key.2
  · intro k t hk ⟨hIt, hq⟩
    refine ⟨dispatchCore_inv k hk hIt, ?_⟩
    rcases dispatchCore_cases quantum k hv hIt with ⟨he, h⟩ | ⟨hfree, pid, s1, he, hc, _, _, _, _, _, _, hp⟩
    · rw [he]
      rcases h with h | h
      · rcases hq with hq | hq
        · exact Or.inl hq
        · right
          intro c hc
          rcases Nat.lt_succ_iff_lt_or_eq.mp hc with h1 | h1
          · exact hq c h1
          · rw [h1]; exact h
      · exact Or.inl h
    · right
      have hne : t.fq ++ t.sjf_pq ≠ [] := by
        intro h0
        rw [h0] at hp
        exact List.cons_ne_nil _ _ hp.eq_nil
      have hq' : ∀ c, c < k → t.cores.getD c none ≠ none := by
        rcases hq with hq | hq
        · exact absurd (by rw [hq.1, hq.2]; rfl) hne
        · exact hq
      intro c hc'
      rw [he, assign_cores, hc]
      rcases Nat.lt_succ_iff_lt_or_eq.mp hc' with h1 | h1
      · rw [getD_set_ne _ _ _ _ _ (by omega)]
        exact hq' c h1
      · rw [h1, getD_set_self _ _ _ _ (by rw [hIt.len_cores]; exact hk)]
        simp

/-! ### The execution phase and the variant of the loop -/

/-- What the body of the execution loop writes on a busy core, whatever the branch. -/
theorem execCore_busy (procs : List Process) (alg : String) {s : SimState} {c p : Nat}
    (hp : s.cores.getD c none = some p) :
    (execCore procs alg s c).remaining = s.remaining.set p (s.remaining.getD p 0 - 1) ∧
    (execCore procs alg s c).any = true ∧
    (execCore procs alg s c).total_busy = s.total_busy + 1 := by
  unfold execCore
  split
  · rename_i h; rw [h] at hp; cases hp
  · rename_i q hq
    rw [hq] at hp
    injection hp with hp
    subst hp
    simp only
    split_ifs <;> exact ⟨rfl, rfl, rfl⟩

theorem execCore_idle {procs : List Process} {alg : String} {s : SimState} {c : Nat}
    (hp : s.cores.getD c none = none) : execCore procs alg s c = s := by
  unfold execCore
  split
  · rfl
  · rename_i q hq; rw [hq] at hp; cases hp

/-- The sum of the remaining bursts, plus one once `any` is set, never grows. -/
theorem execCore_potential {procs : List Process} {M : Nat} {alg : String} {s : SimState}
    (c : Nat) (hI : Inv procs M alg s) :
    (execCore procs alg s c).remaining.sum + (if (execCore procs alg s c).any then 1 else 0)
      ≤ s.remaining.sum + (if s.any then 1 else 0) := by
  cases hc : s.cores.getD c none with
  | none => rw [execCore_idle hc]
  | some p =>
    obtain ⟨h1, h2, _⟩ := execCore_busy procs alg hc
    obtain ⟨hpN, _, _⟩ := hI.live_ok p (running_mem_live procs hc)
    rw [h1, h2, sum_set _ _ _ (by rw [hI.len_rem]; exact hpN)]
    split <;> simp <;> omega

theorem execute_potential {procs : List Process} {M : Nat} {alg : String} {s : SimState}
    (hI : Inv procs M alg s) :
    (execute procs M alg s).remaining.sum + (if (execute procs M alg s).any then 1 else 0)
      ≤ s.remaining.sum := by
  have hI0 : Inv procs M alg { s with any := false } :=
    hI.transfer rfl rfl rfl rfl hI.len_cores (List.Perm.refl _) hI.fq_empty hI.pq_empty
  have key := foldl_range_preserves
    (P := fun t => Inv procs M alg t ∧
      t.remaining.sum + (if t.any then 1 else 0) ≤ s.remaining.sum)
    (f := execCore procs alg) M
    (fun t c _ ht => ⟨execCore_inv c ht.1, le_trans (execCore_potential c ht.1) ht.2⟩)
    { s with any := false } ⟨hI0, by simp⟩
  exact key.2

/-- While `any` is unset the execution loop has met idle cores only. -/
theorem execute_idle (procs : List Process) (M : Nat) (alg : String) (s : SimState)
    (h : (execute procs M alg s).any = false) :
    execute procs M alg s = { s with any := false } ∧
      ∀ c, c < M → s.cores.getD c none = none := by
  have key := foldl_range_indexed
    (Q := fun k t => t.any = false →
      t = { s with any := false } ∧ ∀ c, c < k → s.cores.getD c none = none)
    (f := execCore procs alg) M { s with any := false }
    (fun _ => ⟨rfl, fun c hc => absurd hc (Nat.not_lt_zero c)⟩) ?_
  · exact key h
  · intro k t _ ht hany
    cases hc : t.cores.getD k none with
    | none =>
      rw [execCore_idle hc] at hany ⊢
      obtain ⟨h1, h2⟩ := ht hany
      refine ⟨h1, ?_⟩
      intro c hc'
      rcases Nat.lt_succ_iff_lt_or_eq.mp hc' with h3 | h3
      · exact h2 c h3
      · rw [h3]
        rw [h1] at hc
        exact hc
    | some p =>
      have := (execCore_busy procs alg hc).2.1
      rw [this] at hany
      cases hany

theorem waitFlag_le (procs : List Process) (s : SimState) : waitFlag procs s ≤ 1 := by
  unfold waitFlag; split <;> omega

theorem advance_remaining (procs : List Process) (s : SimState) :
    (advance procs s).remaining = s.remaining := by
  unfold advance; split <;> rfl

theorem tick_variant {procs : List Process} {M : Nat} {alg : String} (quantum : Int)
    {s : SimState} (hv : ValidAlg alg) (hM : 1 ≤ M) (hI : Inv procs M alg s)
    (hlt : s.completed < procs.length) :
    variant procs (tick procs M alg quantum s) < variant procs s := by
  have hIa : Inv procs M alg (arrive procs alg s) := arrive_inv hI
  have hIp : Inv procs M alg (preempt M alg quantum (arrive procs alg s)) := preempt_inv hIa
  have hId : Inv procs M alg (beforeExec procs M alg quantum s) := dispatch_inv hIp
  have hIe := execute_inv hId
  have hpot := execute_potential hId
  have hb := beforeExec_clock procs M alg quantum s
  have hR0 := sum_nonneg_of_forall _ hI.rem_nonneg
  have hRe := sum_nonneg_of_forall _ hIe.rem_nonneg
  rw [hb.2.2] at hpot
  rw [tick_eq]
  unfold variant
  rw [advance_remaining]
  cases hany : (execute procs M alg (beforeExec procs M alg quantum s)).any with
  | true =>
    rw [hany] at hpot
    simp only [if_true] at hpot
    have := waitFlag_le procs
      (advance procs (execute procs M alg (beforeExec procs M alg quantum s)))
    omega
  | false =>
    obtain ⟨he, hidle⟩ := execute_idle procs M alg _ hany
    -- nothing waits and nothing runs at the start of the execution phase
    have hq : (beforeExec procs M alg quantum s).fq = [] ∧
        (beforeExec procs M alg quantum s).sjf_pq = [] := by
      rcases dispatch_saturates quantum hv hIp with h | h
      · exact h
      · exact absurd (hidle 0 (by omega)) (h 0 (by omega))
    have hrun : running (beforeExec procs M alg quantum s) = [] := by
      apply reduceOption_eq_nil_of_forall
      intro c hc
      exact hidle c (by rw [← hId.len_cores]; exact hc)
    have hst := beforeExec_static procs M alg quantum s
    simp only [staticPart, Prod.mk.injEq] at hst
    have hcnt_d := hId.count
    have hcnt_a := hIa.count
    have hf := arrive_frame procs alg s
    unfold ArriveFrame at hf
    have hac : (arrive procs alg s).completed = s.completed := by
      have := congrArg SimState.completed hf
      exact this
    have hat : (arrive procs alg s).currentTime = s.currentTime := by
      have := congrArg SimState.currentTime hf
      exact this
    have hlen_d : (live procs (beforeExec procs M alg quantum s)).length =
        (procs.drop (arrive procs alg s).next_arrival).length := by
      simp [live, unadmitted, active, hq.1, hq.2, hrun, hb.1]
    have hlen_a : (live procs (arrive procs alg s)).length =
        (procs.drop (arrive procs alg s).next_arrival).length +
          ((arrive procs alg s).fq.length + ((arrive procs alg s).sjf_pq.length +
            (running (arrive procs alg s)).length)) := by
      simp [live, unadmitted, active]
    rw [hst.2.2.2.2.1] at hcnt_d
    have hcount := arriveLoop_count alg (procs.drop s.next_arrival) s
    change s.next_arrival ≤ (arrive procs alg s).next_arrival ∧
      (arrive procs alg s).next_arrival + (s.fq.length + s.sjf_pq.length) =
        s.next_arrival + ((arrive procs alg s).fq.length + (arrive procs alg s).sjf_pq.length)
      at hcount
    have hna : (arrive procs alg s).next_arrival = s.next_arrival := by omega
    have hnaN : s.next_arrival < procs.length := by
      have : (procs.drop (arrive procs alg s).next_arrival).length =
          procs.length - (arrive procs alg s).next_arrival := List.length_drop _ _
      omega
    have hfut := arrive_next_future procs alg s (by rw [hna]; exact hnaN)
    rw [hna, hat] at hfut
    have hflag : waitFlag procs s = 1 := by
      unfold waitFlag; rw [if_pos ⟨hnaN, hfut⟩]
    have hflag' : waitFlag procs
        (advance procs (execute procs M alg (beforeExec procs M alg quantum s))) = 0 := by
      rw [he]
      unfold advance
      simp only [hb.1, hna, hnaN, and_self, if_true]
      unfold waitFlag
      simp
    rw [hflag, hflag', he]
    simp only [hb.2.2]
    omega

/-! ### The outer loop -/

theorem runLoop_add (procs : List Process) (M : Nat) (alg : String) (quantum : Int) :
    ∀ (fuel k : Nat) (s s' : SimState), runLoop procs M alg quantum fuel s = some s' →
      runLoop procs M alg quantum (fuel + k) s = some s' := by
  intro fuel
  induction fuel with
  | zero =>
    intro k s s' h
    simp only [runLoop] at h
    split at h
    · cases h
    · cases k with
      | zero => simp only [runLoop]; rw [if_neg (by assumption)]; exact h
      | succ k =>
        simp only [Nat.zero_add, runLoop]; rw [if_neg (by assumption)]; exact h
  | succ n ih =>
    intro k s s' h
    rw [show n + 1 + k = (n + k) + 1 by omega]
    simp only [runLoop] at h ⊢
    split at h
    · rw [if_pos (by assumption)]; exact ih k _ _ h
    · rw [if_neg (by assumption)]; exact h

theorem runLoop_reachable (procs : List Process) (M : Nat) (alg : String) (quantum : Int) :
    ∀ (fuel : Nat) (s s' : SimState), Reachable procs M alg quantum s →
      runLoop procs M alg quantum fuel s = some s' →
      Reachable procs M alg quantum s' ∧ procs.length ≤ s'.completed := by
  intro fuel
  induction fuel with
  | zero =>
    intro s s' hr h
    simp only [runLoop] at h
    split at h
    · cases h
    · injection h with h; subst h; exact ⟨hr, by omega⟩
  | succ n ih =>
    intro s s' hr h
    simp only [runLoop] at h
    split at h
    · exact ih _ _ (hr.step (by assumption)) h
    · injection h with h; subst h; exact ⟨hr, by omega⟩

theorem runLoop_terminates {procs : List Process} {M : Nat} {alg : String} (quantum : Int)
    (hv : ValidAlg alg) (hM : 1 ≤ M) :
    ∀ (fuel : Nat) (s : SimState), Inv procs M alg s → variant procs s ≤ fuel →
      ∃ s', runLoop procs M alg quantum fuel s = some s' := by
  intro fuel
  induction fuel with
  | zero =>
    intro s hI hle
    simp only [runLoop]
    split
    · rename_i hlt
      have := tick_variant quantum hv hM hI hlt
      omega
    · exact ⟨s, rfl⟩
  | succ n ih =>
    intro s hI hle
    simp only [runLoop]
    split
    · rename_i hlt
      have := tick_variant quantum hv hM hI hlt
      exact ih _ (tick_inv hI) (by omega)
    · exact ⟨s, rfl⟩

theorem reachable_inv {procs : List Process} {M : Nat} {alg : String} {quantum : Int}
    (hid : (procs.map Process.pid).Perm (List.range procs.length))
    (hb : ∀ q ∈ procs, 1 ≤ q.burst) {s : SimState}
    (hr : Reachable procs M alg quantum s) : Inv procs M alg s := by
  induction hr with
  | init => exact init_inv procs M alg quantum hid hb
  | step _ _ ih => exact tick_inv ih

/-- When the loop has exited, every process is complete. -/
theorem Inv.all_done {procs : List Process} {M : Nat} {alg : String} {s : SimState}
    (hI : Inv procs M alg s) (h : procs.length ≤ s.completed) :
    s.completed = procs.length ∧ ∀ i, i < procs.length → 0 < s.finish.getD i (-1) := by
  have hc := hI.count
  have hl : live procs s = [] := List.length_eq_zero.mp (by omega)
  refine ⟨by omega, ?_⟩
  intro i hi
  have := hI.done_ok i hi (by rw [hl]; simp)
  have hlen : i < s.finish.length := by rw [hI.len_fin]; exact hi
  simp only [List.getD_eq_getElem?_getD, List.getElem?_eq_getElem hlen,
    Option.getD_some] at this ⊢
  exact this

/-- The run of `simulate` on a well-formed workload ends. -/
theorem run_ends {procs : List Process} {M : Nat} {alg : String} (quantum : Int)
    (hid : (procs.map Process.pid).Perm (List.range procs.length))
    (hb : ∀ q ∈ procs, 1 ≤ q.burst) (hM : 1 ≤ M) (hv : ValidAlg alg) :
    ∃ n s, (∀ fuel, n ≤ fuel →
        runLoop procs M alg quantum fuel (initState procs M quantum) = some s) ∧
      Reachable procs M alg quantum s ∧ Inv procs M alg s ∧ procs.length ≤ s.completed := by
  have hI := init_inv procs M alg quantum hid hb
  obtain ⟨s, hs⟩ := runLoop_terminates quantum hv hM _ _ hI (Nat.le_refl _)
  have hr := runLoop_reachable procs M alg quantum _ _ _ Reachable.init hs
  refine ⟨variant procs (initState procs M quantum), s, ?_, hr.1,
    reachable_inv hid hb hr.1, hr.2⟩
  intro fuel hf
  obtain ⟨k, rfl⟩ := Nat.exists_eq_add_of_le hf
  exact runLoop_add procs M alg quantum _ k _ _ hs

/-- Claim C1: for each of the four policies, every workload whose ids are
`0..N-1` and whose bursts are at least one tick, and every core count of at least one, the
loop of `simulate` exits after finitely many iterations, and at the exit `completed` equals
`N` and every process has its finish tick set.  (Neither the arrival order, nor
non-emptiness, nor the quantum matter for this.) -/
theorem simulate_terminates (procs : List Process) (M : Nat) (alg : String) (quantum : Int)
    (hid : (procs.map Process.pid).Perm (List.range procs.length))
    (hb : ∀ q ∈ procs, 1 ≤ q.burst) (hM : 1 ≤ M) (hv : ValidAlg alg) :
    ∃ n s, (∀ fuel, n ≤ fuel →
        runLoop procs M alg quantum fuel (initState procs M quantum) = some s ∧
        simulate fuel procs M alg quantum = some (metricsOf procs M s)) ∧
      s.completed = procs.length ∧
      ∀ i, i < procs.length → 0 < s.finish.getD i (-1) := by
  obtain ⟨n, s, h1, _, hI, hc⟩ := run_ends quantum hid hb hM hv
  refine ⟨n, s, fun fuel hf => ⟨h1 fuel hf, ?_⟩, hI.all_done hc⟩
  simp [simulate, h1 fuel hf]

theorem simulate_terminates_witness :
    ∃ n s, (∀ fuel, n ≤ fuel →
        runLoop [⟨0, 0, 10⟩, ⟨1, 3, 2⟩] 1 "SJF-P" 10 fuel
          (initState [⟨0, 0, 10⟩, ⟨1, 3, 2⟩] 1 10) = some s ∧
        simulate fuel [⟨0, 0, 10⟩, ⟨1, 3, 2⟩] 1 "SJF-P" 10 =
          some (metricsOf [⟨0, 0, 10⟩, ⟨1, 3, 2⟩] 1 s)) ∧
      s.completed = 2 ∧ ∀ i, i < 2 → 0 < s.finish.getD i (-1) :=
  simulate_terminates [⟨0, 0, 10⟩, ⟨1, 3, 2⟩] 1 "SJF-P" 10 (List.Perm.refl _)
    (by decide) (by decide) (Or.inr (Or.inr (Or.inl rfl)))

/-- Claim C3: under `SJF-P` on one core with A = (0, 0, 10) and B = (1, 3, 2), A runs
until tick 3, where B is admitted and evicts it (the slot is freed, A returns to the
container, one switch is counted); B is first dispatched at tick 3 and finishes at 5; A
is back on the core at tick 5 and finishes at 12. -/
theorem sjfp_preemption_trace :
    let procs : List Process := [⟨0, 0, 10⟩, ⟨1, 3, 2⟩]
    let s3 := runTicks procs 1 "SJF-P" 10 3 (initState procs 1 10)
    let e3 := preempt 1 "SJF-P" 10 (arrive procs "SJF-P" s3)
    let s5 := runTicks procs 1 "SJF-P" 10 5 (initState procs 1 10)
    (s3.currentTime = 3 ∧ s3.cores = [some 0] ∧ s3.first_start = [0, -1]) ∧
    (e3.cores = [none] ∧ e3.sjf_pq = [1, 0] ∧
      e3.context_switches = s3.context_switches + 1) ∧
    ((beforeExec procs 1 "SJF-P" 10 s3).cores = [some 1] ∧
      (beforeExec procs 1 "SJF-P" 10 s3).first_start = [0, 3]) ∧
    (s5.currentTime = 5 ∧ s5.finish = [-1, 5] ∧
      (beforeExec procs 1 "SJF-P" 10 s5).cores = [some 0] ∧
      (beforeExec procs 1 "SJF-P" 10 s5).remaining = [7, 0]) ∧
    (runLoop procs 1 "SJF-P" 10 12 (initState procs 1 10)).map
      (fun s => (s.finish, s.currentTime)) = some ([12, 5], 12) := by
  decide

/-- Claim C4: under `RR` with quantum 5 on one core with P1 = (0, 0, 12) and
P2 = (1, 0, 4), the core runs P1 in ticks 0-4, P2 in ticks 5-8, P1 in ticks 9-13 and P1
in ticks 14-15 (the quantum counter shows the four dispatches); P2 finishes at 9 and P1
at 16, where the loop exits. -/
theorem rr_quantum_trace :
    let procs : List Process := [⟨0, 0, 12⟩, ⟨1, 0, 4⟩]
    (List.range 16).map (fun n =>
        let s := runTicks procs 1 "RR" 5 n (initState procs 1 5)
        (s.currentTime, (beforeExec procs 1 "RR" 5 s).cores,
          (beforeExec procs 1 "RR" 5 s).quantum_left)) =
      [(0, [some 0], [5]), (1, [some 0], [4]), (2, [some 0], [3]), (3, [some 0], [2]),
       (4, [some 0], [1]),
       (5, [some 1], [5]), (6, [some 1], [4]), (7, [some 1], [3]), (8, [some 1], [2]),
       (9, [some 0], [5]), (10, [some 0], [4]), (11, [some 0], [3]), (12, [some 0], [2]),
       (13, [some 0], [1]),
       (14, [some 0], [5]), (15, [some 0], [4])] ∧
    (runLoop procs 1 "RR" 5 16 (initState procs 1 5)).map
      (fun s => (s.finish, s.currentTime)) = some ([16, 9], 16) ∧
    (runTicks procs 1 "RR" 5 9 (initState procs 1 5)).finish = [-1, 9] := by
  decide

/-! ### Busy ticks -/

theorem execute_busy_bound (procs : List Process) (M : Nat) (alg : String) (s : SimState) :
    s.total_busy ≤ (execute procs M alg s).total_busy ∧
      (execute procs M alg s).total_busy ≤ s.total_busy + M := by
  have key := foldl_range_indexed
    (Q := fun k t => s.total_busy ≤ t.total_busy ∧ t.total_busy ≤ s.total_busy + k)
    (f := execCore procs alg) M { s with any := false } ⟨by simp, by simp⟩ ?_
  · exact key
  · intro k t _ ht
    cases hc : t.cores.getD k none with
    | none => rw [execCore_idle hc]; push_cast; omega
    | some p =>
      rw [(execCore_busy procs alg hc).2.2]
      push_cast; omega

theorem tick_busy_bound (procs : List Process) (M : Nat) (alg : String) (quantum : Int)
    (s : SimState) :
    s.total_busy ≤ (tick procs M alg quantum s).total_busy ∧
      (tick procs M alg quantum s).total_busy ≤ s.total_busy + M := by
  have h := execute_busy_bound procs M alg (beforeExec procs M alg quantum s)
  have hst := beforeExec_static procs M alg quantum s
  simp only [staticPart, Prod.mk.injEq] at hst
  have hf := arrive_frame procs alg s
  unfold ArriveFrame at hf
  have e1 : (arrive procs alg s).total_busy = s.total_busy := by
    have := congrArg SimState.total_busy hf
    exact this
  have e2 : (tick procs M alg quantum s).total_busy =
      (execute procs M alg (beforeExec procs M alg quantum s)).total_busy := by
    rw [tick_eq]; unfold advance; split <;> rfl
  rw [e2]
  rw [hst.2.2.2.1, e1] at h
  exact h

/-- At the head of the loop the busy core-ticks are bounded by cores times clock, and
the clock is positive as soon as one iteration has run. -/
theorem reachable_busy {procs : List Process} {M : Nat} {alg : String} {quantum : Int}
    {s : SimState} (hr : Reachable procs M alg quantum s) :
    0 ≤ s.total_busy ∧ s.total_busy ≤ (M : Int) * s.currentTime ∧ 0 ≤ s.currentTime ∧
      (s = initState procs M quantum ∨ 1 ≤ s.currentTime) := by
  induction hr with
  | init => simp [initState]
  | step _ _ ih =>
    rename_i t _ _
    have h1 := tick_busy_bound procs M alg quantum t
    have h2 := tick_time_lt procs M alg quantum t
    obtain ⟨a, b, c, _⟩ := ih
    refine ⟨by omega, ?_, by omega, Or.inr (by omega)⟩
    have : (M : Int) * (t.currentTime + 1) ≤ (M : Int) * (tick procs M alg quantum t).currentTime :=
      Int.mul_le_mul_of_nonneg_left h2 (by omega)
    have e : (M : Int) * (t.currentTime + 1) = (M : Int) * t.currentTime + M := by ring
    omega

/-- Claim C2, at a workload of the kind `main` builds (ids assigned, then sorted by
arrival): the sequence is in arrival order and its ids are `0..1`, yet `simulate` under
`FCFS` on one core records the waiting time `-10` for process 1, because it reads
`procs[pid]` where the record of the admitted process is `procs[next_arrival]`. -/
theorem waiting_time_negative_when_ids_permuted :
    let procs : List Process := [⟨1, 0, 1⟩, ⟨0, 10, 1⟩]
    procs.Pairwise (fun a b => a.arrival ≤ b.arrival) ∧
    (procs.map Process.pid).Perm (List.range procs.length) ∧
    (runLoop procs 1 "FCFS" 10 3 (initState procs 1 10)).map
      (fun s => (s.finish, s.wait_times, s.response_times)) =
        some ([11, 1], [10, -10], [10, -10]) := by
  refine ⟨by decide, ?_, by decide⟩
  exact List.Perm.swap 0 1 []

/-- Claim C5, at one process of burst 1 on one core: the only waiting time is 0, all
waiting times are equal, and the fairness that `simulate` returns is the NaN of `0/0`,
not 1. -/
theorem fairness_nan_when_all_waits_zero :
    (runLoop [⟨0, 0, 1⟩] 1 "FCFS" 10 1 (initState [⟨0, 0, 1⟩] 1 10)).map
      (fun s => s.wait_times) = some [0] ∧
    (simulate 1 [⟨0, 0, 1⟩] 1 "FCFS" 10).map Metrics.fairness = some Dbl.nan := by
  decide

/-! ### No validation of the arguments -/

theorem tick_completed_zero_cores (procs : List Process) (alg : String) (quantum : Int)
    (s : SimState) : (tick procs 0 alg quantum s).completed = s.completed := by
  have hst := beforeExec_static procs 0 alg quantum s
  simp only [staticPart, Prod.mk.injEq] at hst
  have hf := arrive_frame procs alg s
  unfold ArriveFrame at hf
  have e1 : (arrive procs alg s).completed = s.completed := by
    have := congrArg SimState.completed hf
    exact this
  have e2 : (tick procs 0 alg quantum s).completed =
      (beforeExec procs 0 alg quantum s).completed := by
    rw [tick_eq]
    unfold advance execute
    simp only [List.range_zero, List.foldl_nil]
    split <;> rfl
  rw [e2, hst.2.2.2.2.1, e1]

theorem runLoop_zero_cores (procs : List Process) (alg : String) (quantum : Int) :
    ∀ (fuel : Nat) (s : SimState), s.completed < procs.length →
      runLoop procs 0 alg quantum fuel s = none := by
  intro fuel
  induction fuel with
  | zero => intro s h; simp [runLoop, h]
  | succ n ih =>
    intro s h
    simp only [runLoop, if_pos h]
    exact ih _ (by rw [tick_completed_zero_cores]; exact h)

/-- Claim C6 as stated fails: on the empty process set `simulate` reports no failure
but returns a `Metrics` record, whose ratios are the NaN of `0/0`. -/
theorem empty_workload_returns_metrics :
    simulate 0 [] 1 "FCFS" 10 =
      some ⟨Dbl.nan, Dbl.nan, Dbl.nan, Dbl.nan, Dbl.nan, 0, Dbl.nan⟩ := by
  decide

/-- Claim C6, amended: `simulate` checks none of its preconditions and has no failure
result.  On an empty process set it returns at once the `Metrics` record whose five
ratios are the NaN of `0/0`, with no context switch; under `RR` any quantum, positive
or not, on a workload with ids `0..N-1`, bursts of at least one tick and at least one
core, ends with a `Metrics` record; with no core and a non-empty process set the loop
never exits. -/
theorem simulate_without_validation (procs : List Process) (M : Nat) (alg : String)
    (quantum : Int) :
    (∀ fuel, simulate fuel [] M alg quantum =
      some ⟨Dbl.nan, Dbl.nan, Dbl.nan, Dbl.nan, Dbl.nan, 0, Dbl.nan⟩) ∧
    ((procs.map Process.pid).Perm (List.range procs.length) →
      (∀ q ∈ procs, 1 ≤ q.burst) → 1 ≤ M →
      ∃ n m, ∀ fuel, n ≤ fuel → simulate fuel procs M "RR" quantum = some m) ∧
    (procs ≠ [] → ∀ fuel, simulate fuel procs 0 alg quantum = none) := by
  refine ⟨?_, ?_, ?_⟩
  · intro fuel
    have h : runLoop [] M alg quantum fuel (initState [] M quantum) =
        some (initState [] M quantum) := by
      cases fuel <;> simp [runLoop]
    simp only [simulate, h, Option.map_some']
    simp [metricsOf, initState, ddiv]
  · intro hid hb hM
    obtain ⟨n, s, h1, _⟩ :=
      @run_ends procs M "RR" quantum hid hb hM (Or.inr (Or.inr (Or.inr rfl)))
    exact ⟨n, metricsOf procs M s, fun fuel hf => by simp [simulate, h1 fuel hf]⟩
  · intro hne fuel
    have hN : 0 < procs.length := List.length_pos.mpr hne
    simp [simulate, runLoop_zero_cores procs alg quantum fuel (initState procs 0 quantum)
      (by simpa [initState] using hN)]

theorem simulate_without_validation_witness :
    (∃ n m, ∀ fuel, n ≤ fuel →
      simulate fuel [⟨0, 0, 12⟩, ⟨1, 0, 4⟩] 1 "RR" 0 = some m) ∧
    (∀ fuel, simulate fuel [⟨0, 0, 12⟩, ⟨1, 0, 4⟩] 0 "RR" 0 = none) :=
  ⟨(simulate_without_validation [⟨0, 0, 12⟩, ⟨1, 0, 4⟩] 1 "RR" 0).2.1
      (List.Perm.refl _) (by decide) (by decide),
   (simulate_without_validation [⟨0, 0, 12⟩, ⟨1, 0, 4⟩] 0 "RR" 0).2.2 (by decide)⟩

/-! ### The priority queue of a run is a heap -/

theorem arriveLoop_heap (alg : String) :
    ∀ (rest : List Process) (s : SimState), HeapInv s → HeapInv (arriveLoop alg rest s) := by
  intro rest
  induction rest with
  | nil => intro s hs; simpa [arriveLoop] using hs
  | cons p t ih =>
    intro s hs
    simp only [arriveLoop]
    split
    · split
      · exact ih _ hs
      · exact ih _ (pqPush_heap s.remaining s.sjf_pq p.pid hs)
    · exact hs

theorem preemptCore_heap (quantum : Int) (s : SimState) (c : Nat) (hs : HeapInv s) :
    HeapInv (preemptCore quantum s c) := by
  unfold preemptCore
  split
  · exact hs
  · split
    · exact pqPush_heap s.remaining s.sjf_pq _ hs
    · exact hs

theorem preempt_heap (M : Nat) (alg : String) (quantum : Int) (s : SimState)
    (hs : HeapInv s) : HeapInv (preempt M alg quantum s) := by
  unfold preempt
  split
  · exact foldl_range_preserves M (fun t c _ ht => preemptCore_heap quantum t c ht) s hs
  · exact hs

theorem assign_heap (procs : List Process) (c pid : Nat) (s : SimState) (hs : HeapInv s) :
    HeapInv (assign procs c pid s) := by
  have hst := assign_static procs c pid s
  simp only [staticPart, Prod.mk.injEq] at hst
  have hq := (assign_queues procs c pid s).2
  unfold HeapInv
  rw [hst.1, hq]
  exact hs

theorem dispatchCore_heap (procs : List Process) (alg : String) (quantum : Int)
    (s : SimState) (c : Nat) (hs : HeapInv s) :
    HeapInv (dispatchCore procs alg quantum s c) := by
  unfold dispatchCore
  split
  · exact hs
  · split_ifs
    · exact assign_heap _ _ _ _ hs
    · exact assign_heap _ _ _ _ (pqPop_heap s.remaining s.sjf_pq hs)
    · exact hs
    · exact assign_heap _ _ _ _ hs
    · exact hs

theorem execCore_heap {procs : List Process} {M : Nat} {alg : String} {s : SimState}
    (c : Nat) (hI : Inv procs M alg s) (hs : HeapInv s) :
    HeapInv (execCore procs alg s c) := by
  cases hc : s.cores.getD c none with
  | none => rw [execCore_idle hc]; exact hs
  | some p =>
    have hrem := (execCore_busy procs alg hc).1
    have hclock := execCore_clock procs alg s c
    simp only [clockPart, Prod.mk.injEq] at hclock
    have hq := hclock.2.2.2.2
    unfold HeapInv
    rw [hq]
    apply IsHeapN.congr hs
    intro x hx
    have hne : p ≠ x := by
      intro e
      subst e
      have hnd := hI.nodup
      simp only [live, active, running] at hnd
      have h1 := (List.nodup_append.mp hnd).2.1
      have h2 := (List.nodup_append.mp h1).2.1
      exact (List.nodup_append.mp h2).2.2 hx (mem_reduceOption_of_getD s.cores c p hc)
    unfold keyOf
    rw [hrem, getD_set_ne _ _ _ _ _ hne]

theorem tick_hinv {procs : List Process} {M : Nat} {alg : String} (quantum : Int)
    {s : SimState} (h : HInv procs M alg s) : HInv procs M alg (tick procs M alg quantum s) := by
  refine ⟨tick_inv h.1, ?_⟩
  have ha : HInv procs M alg (arrive procs alg s) :=
    ⟨arrive_inv h.1, arriveLoop_heap alg _ s h.2⟩
  have hp : HInv procs M alg (preempt M alg quantum (arrive procs alg s)) :=
    ⟨preempt_inv ha.1, preempt_heap M alg quantum _ ha.2⟩
  have hd : HInv procs M alg (beforeExec procs M alg quantum s) :=
    foldl_range_preserves (P := HInv procs M alg) M
      (fun t c hc ht => ⟨dispatchCore_inv c hc ht.1, dispatchCore_heap procs alg quantum t c ht.2⟩)
      _ hp
  have he : HInv procs M alg (execute procs M alg (beforeExec procs M alg quantum s)) := by
    unfold execute
    refine foldl_range_preserves (P := HInv procs M alg) M
      (fun t c _ ht => ⟨execCore_inv c ht.1, execCore_heap c ht.1 ht.2⟩) _ ?_
    exact ⟨hd.1.transfer rfl rfl rfl rfl hd.1.len_cores (List.Perm.refl _) hd.1.fq_empty
      hd.1.pq_empty, hd.2⟩
  rw [tick_eq]
  unfold HeapInv advance
  split <;> exact he.2

theorem reachable_hinv {procs : List Process} {M : Nat} {alg : String} {quantum : Int}
    (hid : (procs.map Process.pid).Perm (List.range procs.length))
    (hb : ∀ q ∈ procs, 1 ≤ q.burst) {s : SimState}
    (hr : Reachable procs M alg quantum s) : HInv procs M alg s := by
  induction hr with
  | init =>
    refine ⟨init_inv procs M alg quantum hid hb, ?_⟩
    intro i hi hin
    simp [initState] at hin
  | step _ _ ih => exact tick_hinv quantum ih

theorem dispatchUpTo_hinv {procs : List Process} {M : Nat} {alg : String} (quantum : Int)
    {s : SimState} (h : HInv procs M alg s) (k : Nat) (hk : k ≤ M) :
    HInv procs M alg (dispatchUpTo procs M alg quantum s k) := by
  have ha : HInv procs M alg (arrive procs alg s) :=
    ⟨arrive_inv h.1, arriveLoop_heap alg _ s h.2⟩
  have hp : HInv procs M alg (preempt M alg quantum (arrive procs alg s)) :=
    ⟨preempt_inv ha.1, preempt_heap M alg quantum _ ha.2⟩
  exact foldl_range_preserves (P := HInv procs M alg) k
    (fun t c hc ht =>
      ⟨dispatchCore_inv c (by omega) ht.1, dispatchCore_heap procs alg quantum t c ht.2⟩)
    _ hp

/-- Claim C10 as stated fails: four processes that arrive at tick 0 with the same
burst, on one core under `SJF-NP`, are first dispatched at ticks 0, 6, 3 and 9, so
process 2 runs before process 1, which entered the container earlier. -/
theorem sjf_ties_not_fifo :
    let procs : List Process := [⟨0, 0, 3⟩, ⟨1, 0, 3⟩, ⟨2, 0, 3⟩, ⟨3, 0, 3⟩]
    (arrive procs "SJF-NP" (initState procs 1 10)).sjf_pq = [0, 1, 2, 3] ∧
    (runLoop procs 1 "SJF-NP" 10 12 (initState procs 1 10)).map
      (fun s => s.first_start) = some [0, 6, 3, 9] ∧
    (runLoop procs 1 "SJF-P" 10 12 (initState procs 1 10)).map
      (fun s => s.first_start) = some [0, 6, 3, 9] := by
  decide

/-- Claim C10, amended: under `SJF-NP` and `SJF-P`, whenever the dispatch loop
reaches a free core while processes wait, the process it places on the core is the top
of the container, its remaining burst is not above that of any waiting process, and the
container loses exactly this entry.  Ties follow the layout of the heap: four processes
arriving at tick 0 with bursts of 3 on one core occupy the core in the order 0, 2, 1, 3. -/
theorem sjf_dispatch_takes_least_remaining (procs : List Process) (M : Nat) (alg : String)
    (quantum : Int) (s : SimState) (k : Nat)
    (hid : (procs.map Process.pid).Perm (List.range procs.length))
    (hb : ∀ q ∈ procs, 1 ≤ q.burst)
    (halg : alg = "SJF-NP" ∨ alg = "SJF-P")
    (hr : Reachable procs M alg quantum s) (hk : k < M)
    (hfree : (dispatchUpTo procs M alg quantum s k).cores.getD k none = none)
    (hwait : (dispatchUpTo procs M alg quantum s k).sjf_pq ≠ []) :
    ((dispatchCore procs alg quantum (dispatchUpTo procs M alg quantum s k) k).cores.getD
        k none = some (pqTop (dispatchUpTo procs M alg quantum s k).sjf_pq) ∧
      (∀ x ∈ (dispatchUpTo procs M alg quantum s k).sjf_pq,
        (dispatchUpTo procs M alg quantum s k).remaining.getD
            (pqTop (dispatchUpTo procs M alg quantum s k).sjf_pq) 0 ≤
          (dispatchUpTo procs M alg quantum s k).remaining.getD x 0) ∧
      (dispatchUpTo procs M alg quantum s k).sjf_pq.Perm
        (pqTop (dispatchUpTo procs M alg quantum s k).sjf_pq ::
          (dispatchCore procs alg quantum
            (dispatchUpTo procs M alg quantum s k) k).sjf_pq)) ∧
    (List.range 12).map (fun n =>
        (beforeExec [⟨0, 0, 3⟩, ⟨1, 0, 3⟩, ⟨2, 0, 3⟩, ⟨3, 0, 3⟩] 1 "SJF-NP" 10
          (runTicks [⟨0, 0, 3⟩, ⟨1, 0, 3⟩, ⟨2, 0, 3⟩, ⟨3, 0, 3⟩] 1 "SJF-NP" 10 n
            (initState [⟨0, 0, 3⟩, ⟨1, 0, 3⟩, ⟨2, 0, 3⟩, ⟨3, 0, 3⟩] 1 10))).cores) =
      [[some 0], [some 0], [some 0], [some 2], [some 2], [some 2],
       [some 1], [some 1], [some 1], [some 3], [some 3], [some 3]] := by
  refine ⟨?_, by decide⟩
  have hH := dispatchUpTo_hinv quantum (reachable_hinv hid hb hr) k (Nat.le_of_lt hk)
  generalize dispatchUpTo procs M alg quantum s k = t at *
  have hnotF : alg ≠ "FCFS" := by
    rcases halg with h | h <;> rw [h] <;> decide
  have hd : dispatchCore procs alg quantum t k =
      assign procs k (pqTop t.sjf_pq) { t with sjf_pq := pqPop t.remaining t.sjf_pq } := by
    unfold dispatchCore
    rw [hfree]
    simp only
    rw [if_neg (fun h => hnotF h.1), if_pos halg, if_pos hwait]
  refine ⟨?_, ?_, ?_⟩
  · rw [hd, assign_cores]
    exact getD_set_self _ _ _ _ (by rw [hH.1.len_cores]; exact hk)
  · intro x hx
    exact pqTop_le_mem t.remaining t.sjf_pq hH.2 x hx
  · rw [hd, (assign_queues _ _ _ _).2]
    exact pqPop_perm t.remaining t.sjf_pq hwait

theorem sjf_dispatch_takes_least_remaining_witness :
    ((dispatchCore [⟨0, 0, 10⟩, ⟨1, 3, 2⟩] "SJF-P" 10
        (dispatchUpTo [⟨0, 0, 10⟩, ⟨1, 3, 2⟩] 1 "SJF-P" 10
          (initState [⟨0, 0, 10⟩, ⟨1, 3, 2⟩] 1 10) 0) 0).cores.getD 0 none =
        some (pqTop (dispatchUpTo [⟨0, 0, 10⟩, ⟨1, 3, 2⟩] 1 "SJF-P" 10
          (initState [⟨0, 0, 10⟩, ⟨1, 3, 2⟩] 1 10) 0).sjf_pq)) :=
  (sjf_dispatch_takes_least_remaining [⟨0, 0, 10⟩, ⟨1, 3, 2⟩] 1 "SJF-P" 10
    (initState [⟨0, 0, 10⟩, ⟨1, 3, 2⟩] 1 10) 0 (List.Perm.refl _) (by decide)
    (Or.inr rfl) Reachable.init (by decide) (by decide) (by decide)).1.1

/-! ### The policies that never take a process off its core -/

theorem live_eq_waiting_append (procs : List Process) (s : SimState) :
    live procs s = waiting procs s ++ running s := by
  simp [live, waiting, active, List.append_assoc]

theorem arriveLoop_waiting (procs : List Process) (alg : String) :
    ∀ (rest : List Process) (s : SimState), procs.drop s.next_arrival = rest →
      (waiting procs (arriveLoop alg rest s)).Perm (waiting procs s) := by
  intro rest
  induction rest with
  | nil => intro s _; simp only [arriveLoop]; exact List.Perm.refl _
  | cons p t ih =>
    intro s hd
    simp only [arriveLoop]
    have hd' := drop_succ_of_drop_cons hd
    split
    · split
      · refine (ih _ hd').trans ?_
        simp only [waiting, unadmitted, hd, hd', List.map_cons]
        rw [List.perm_iff_count]
        intro a
        simp only [List.count_append, List.count_cons, List.count_nil]
        omega
      · refine (ih _ hd').trans ?_
        simp only [waiting, unadmitted, hd, hd', List.map_cons]
        rw [List.perm_iff_count]
        intro a
        have := (pqPush_perm s.remaining s.sjf_pq p.pid).count_eq a
        simp only [List.count_append, List.count_cons, List.count_nil] at this ⊢
        omega
    · exact List.Perm.refl _

theorem arrive_npinv {procs : List Process} {alg : String} {s : SimState}
    (h : NPInv procs s) : NPInv procs (arrive procs alg s) := by
  have hw := arriveLoop_waiting procs alg _ s rfl
  have hf := arrive_frame procs alg s
  unfold ArriveFrame at hf
  have e1 : (arrive procs alg s).first_start = s.first_start := by
    have := congrArg SimState.first_start hf
    exact this
  have e2 : (arrive procs alg s).context_switches = s.context_switches := by
    have := congrArg SimState.context_switches hf
    exact this
  have e3 : (arrive procs alg s).completed = s.completed := by
    have := congrArg SimState.completed hf
    exact this
  have e4 : (arrive procs alg s).cores = s.cores := by
    have := congrArg SimState.cores hf
    exact this
  refine ⟨by rw [e1]; exact h.len_fs, ?_, ?_, ?_⟩
  · intro p hp
    rw [e1]
    exact h.fresh p (hw.mem_iff.mp hp)
  · intro p hpN hp
    rw [e1]
    exact h.started p hpN (fun hm => hp (hw.mem_iff.mpr hm))
  · rw [e2, e3]
    simp only [running, e4]
    exact h.switches

theorem assign_first_start (procs : List Process) (c pid : Nat) (s : SimState) :
    (assign procs c pid s).first_start =
      if s.first_start.getD pid 0 < 0 then s.first_start.set pid s.currentTime
      else s.first_start := by
  unfold assign
  simp only
  split <;> rfl

theorem assign_switches (procs : List Process) (c pid : Nat) (s : SimState) :
    (assign procs c pid s).context_switches = s.context_switches + 1 := by
  have hf := assign_frame procs c pid s
  unfold AssignFrame at hf
  have := congrArg SimState.context_switches hf
  exact this

theorem dispatchCore_npinv {procs : List Process} {M : Nat} {alg : String} (quantum : Int)
    {s : SimState} (c : Nat) (hc : c < M) (hv : ValidAlg alg) (hI : Inv procs M alg s)
    (h : NPInv procs s) : NPInv procs (dispatchCore procs alg quantum s c) := by
  rcases dispatchCore_cases quantum c hv hI with
    ⟨he, _⟩ | ⟨hfree, pid, s1, he, hcores, hfs, ht, _, hcs, hna, hcomp, hperm⟩
  · rw [he]; exact h
  · have hst := assign_static procs c pid s1
    simp only [staticPart, Prod.mk.injEq] at hst
    have hq := assign_queues procs c pid s1
    have hw : (waiting procs s).Perm (pid :: waiting procs (assign procs c pid s1)) := by
      simp only [waiting, unadmitted, hq.1, hq.2, hst.2.2.2.2.2.1, hna]
      rw [List.perm_iff_count]
      intro a
      have := hperm.count_eq a
      simp only [List.count_append, List.count_cons] at this ⊢
      omega
    have hnd : (waiting procs s).Nodup := by
      have := hI.nodup
      rw [live_eq_waiting_append] at this
      exact (List.nodup_append.mp this).1
    have hnd' := hw.nodup_iff.mp hnd
    have hpid_not : pid ∉ waiting procs (assign procs c pid s1) := (List.nodup_cons.mp hnd').1
    have hpid_w : pid ∈ waiting procs s := hw.mem_iff.mpr (List.mem_cons_self _ _)
    have hpidN : pid < procs.length := by
      have : pid ∈ live procs s := by
        rw [live_eq_waiting_append]; exact List.mem_append_left _ hpid_w
      exact (hI.live_ok pid this).1
    have hfresh := h.fresh pid hpid_w
    have hfs' : (assign procs c pid s1).first_start = s.first_start.set pid s.currentTime := by
      rw [assign_first_start, hfs, ht, if_pos (by rw [hfresh]; decide)]
    rw [he]
    refine ⟨by rw [hfs']; simp [h.len_fs], ?_, ?_, ?_⟩
    · intro q hq'
      have hne : pid ≠ q := fun e => hpid_not (e ▸ hq')
      rw [hfs', getD_set_ne _ _ _ _ _ hne]
      exact h.fresh q (hw.mem_iff.mpr (List.mem_cons_of_mem _ hq'))
    · intro q hqN hq'
      rw [hfs']
      by_cases hne : pid = q
      · subst hne
        rw [getD_set_self _ _ _ _ (by rw [h.len_fs]; exact hpidN)]
        exact hI.time_nonneg
      · rw [getD_set_ne _ _ _ _ _ hne]
        apply h.started q hqN
        intro hm
        rcases List.mem_cons.mp (hw.mem_iff.mp hm) with e | e
        · exact hne e.symm
        · exact hq' e
    · rw [assign_switches, hcs, hst.2.2.2.2.1, hcomp]
      have hr := (reduceOption_set_some s.cores c pid (by rw [hI.len_cores]; exact hc)
        hfree).length_eq
      simp only [running, assign_cores, hcores, hr, List.length_cons]
      have := h.switches
      simp only [running] at this
      push_cast
      omega

/-- The body of the execution loop under a policy other than `RR`. -/
theorem execCore_nonRR (procs : List Process) {alg : String} (hnr : alg ≠ "RR")
    {s : SimState} {c p : Nat} (hp : s.cores.getD c none = some p)
    (hlen : p < s.remaining.length) :
    execCore procs alg s c =
      if s.remaining.getD p 0 - 1 = 0 then
        { s with
          any := true,
          remaining := s.remaining.set p (s.remaining.getD p 0 - 1),
          total_busy := s.total_busy + 1,
          finish := s.finish.set p (s.currentTime + 1),
          wait_times :=
            s.wait_times.set p (s.currentTime + 1 - arrivalOf procs p - burstOf procs p),
          completed := s.completed + 1,
          cores := s.cores.set c none,
          context_switches := s.context_switches + 1 }
      else
        { s with
          any := true,
          remaining := s.remaining.set p (s.remaining.getD p 0 - 1),
          total_busy := s.total_busy + 1 } := by
  unfold execCore
  rw [hp]
  simp only [if_neg hnr, getD_set_self _ _ _ _ hlen]
  split
  · rfl
  · rw [if_neg (fun h => hnr h.1)]

theorem execCore_npinv {procs : List Process} {M : Nat} {alg : String} (hnr : alg ≠ "RR")
    {s : SimState} (c : Nat) (hI : Inv procs M alg s) (h : NPInv procs s) :
    NPInv procs (execCore procs alg s c) := by
  cases hc : s.cores.getD c none with
  | none => rw [execCore_idle hc]; exact h
  | some p =>
    obtain ⟨hpN, _, _⟩ := hI.live_ok p (running_mem_live procs hc)
    rw [execCore_nonRR procs hnr hc (by rw [hI.len_rem]; exact hpN)]
    split
    · refine ⟨h.len_fs, h.fresh, h.started, ?_⟩
      have hr := (reduceOption_set_none s.cores c p hc).length_eq
      have := h.switches
      simp only [running, List.length_cons] at hr this ⊢
      rw [hr] at this
      push_cast at this ⊢
      omega
    · exact ⟨h.len_fs, h.fresh, h.started, h.switches⟩

theorem tick_npinv {procs : List Process} {M : Nat} {alg : String} (quantum : Int)
    (hnp : alg = "FCFS" ∨ alg = "SJF-NP") {s : SimState}
    (hI : Inv procs M alg s) (h : NPInv procs s) :
    NPInv procs (tick procs M alg quantum s) := by
  have hv : ValidAlg alg := by
    rcases hnp with e | e
    · exact Or.inl e
    · exact Or.inr (Or.inl e)
  have hnr : alg ≠ "RR" := by rcases hnp with e | e <;> rw [e] <;> decide
  have hnp' : alg ≠ "SJF-P" := by rcases hnp with e | e <;> rw [e] <;> decide
  have hpre : preempt M alg quantum (arrive procs alg s) = arrive procs alg s := by
    unfold preempt; rw [if_neg hnp']
  have hd : Inv procs M alg (beforeExec procs M alg quantum s) ∧
      NPInv procs (beforeExec procs M alg quantum s) := by
    unfold beforeExec dispatch
    rw [hpre]
    exact foldl_range_preserves (P := fun t => Inv procs M alg t ∧ NPInv procs t) M
      (fun t c hc ht => ⟨dispatchCore_inv c hc ht.1, dispatchCore_npinv quantum c hc hv ht.1 ht.2⟩)
      _ ⟨arrive_inv hI, arrive_npinv h⟩
  have he : Inv procs M alg (execute procs M alg (beforeExec procs M alg quantum s)) ∧
      NPInv procs (execute procs M alg (beforeExec procs M alg quantum s)) := by
    unfold execute
    refine foldl_range_preserves (P := fun t => Inv procs M alg t ∧ NPInv procs t) M
      (fun t c _ ht => ⟨execCore_inv c ht.1, execCore_npinv hnr c ht.1 ht.2⟩) _ ?_
    exact ⟨hd.1.transfer rfl rfl rfl rfl hd.1.len_cores (List.Perm.refl _) hd.1.fq_empty
      hd.1.pq_empty, ⟨hd.2.len_fs, hd.2.fresh, hd.2.started, hd.2.switches⟩⟩
  rw [tick_eq]
  have h2 := he.2
  unfold advance
  split
  · exact ⟨h2.len_fs, h2.fresh, h2.started, h2.switches⟩
  · exact ⟨h2.len_fs, h2.fresh, h2.started, h2.switches⟩

theorem init_npinv (procs : List Process) (M : Nat) (quantum : Int)
    (hid : (procs.map Process.pid).Perm (List.range procs.length)) :
    NPInv procs (initState procs M quantum) := by
  have hw : waiting procs (initState procs M quantum) = procs.map Process.pid := by
    simp [waiting, unadmitted, initState]
  refine ⟨by simp [initState], ?_, ?_, ?_⟩
  · intro p hp
    rw [hw] at hp
    have hpN : p < procs.length := List.mem_range.mp (hid.mem_iff.mp hp)
    simp [initState, List.getD_eq_getElem?_getD, List.getElem?_replicate, hpN]
  · intro p hpN hp
    rw [hw] at hp
    exact absurd (hid.mem_iff.mpr (List.mem_range.mpr hpN)) hp
  · simp [initState, running, reduceOption_replicate_none]

theorem reachable_npinv {procs : List Process} {M : Nat} {alg : String} {quantum : Int}
    (hnp : alg = "FCFS" ∨ alg = "SJF-NP")
    (hid : (procs.map Process.pid).Perm (List.range procs.length))
    (hb : ∀ q ∈ procs, 1 ≤ q.burst) {s : SimState}
    (hr : Reachable procs M alg quantum s) : Inv procs M alg s ∧ NPInv procs s := by
  induction hr with
  | init => exact ⟨init_inv procs M alg quantum hid hb, init_npinv procs M quantum hid⟩
  | step _ _ ih => exact ⟨tick_inv ih.1, tick_npinv quantum hnp ih.1 ih.2⟩

/-- Two core slots never hold the same process. -/
theorem cores_distinct {procs : List Process} {M : Nat} {alg : String} {s : SimState}
    (hI : Inv procs M alg s) {c k p q : Nat} (hc : s.cores.getD c none = some p)
    (hk : s.cores.getD k none = some q) (hne : c ≠ k) : p ≠ q := by
  intro e
  subst e
  have hnd := hI.nodup
  rw [live_eq_waiting_append] at hnd
  have hr := (List.nodup_append.mp hnd).2.1
  have hperm := reduceOption_set_none s.cores c p hc
  have hnd' := hperm.nodup_iff.mp hr
  have : (s.cores.set c none).getD k none = some p := by
    rw [getD_set_ne _ _ _ _ _ hne]; exact hk
  exact (List.nodup_cons.mp hnd').1 (mem_reduceOption_of_getD _ k p this)

/-- What the dispatch phase does to the cores under `FCFS` and `SJF-NP`: a busy core
keeps its process, and a process placed on a free core had no first dispatch before and
gets the current tick as its first dispatch. -/
theorem dispatch_np_facts {procs : List Process} {M : Nat} {alg : String} (quantum : Int)
    (hnp : alg = "FCFS" ∨ alg = "SJF-NP") {s : SimState}
    (hI : Inv procs M alg s) (h : NPInv procs s) :
    (∀ c p, s.cores.getD c none = some p →
      (dispatch procs M alg quantum s).cores.getD c none = some p) ∧
    (∀ c p, c < M → s.cores.getD c none = none →
      (dispatch procs M alg quantum s).cores.getD c none = some p →
      s.first_start.getD p 0 = -1 ∧
        (dispatch procs M alg quantum s).first_start.getD p 0 = s.currentTime) := by
  have hv : ValidAlg alg := by
    rcases hnp with e | e
    · exact Or.inl e
    · exact Or.inr (Or.inl e)
  have key := foldl_range_indexed
    (Q := fun k t => (Inv procs M alg t ∧ NPInv procs t ∧ t.currentTime = s.currentTime) ∧
      (∀ c, k ≤ c → t.cores.getD c none = s.cores.getD c none) ∧
      (∀ c p, s.cores.getD c none = some p → t.cores.getD c none = some p) ∧
      (∀ p, t.first_start.getD p 0 < 0 → s.first_start.getD p 0 = t.first_start.getD p 0) ∧
      (∀ c p, c < k → s.cores.getD c none = none → t.cores.getD c none = some p →
        s.first_start.getD p 0 = -1 ∧ t.first_start.getD p 0 = s.currentTime))
    (f := dispatchCore procs alg quantum) M s
    ⟨⟨hI, h, rfl⟩, fun _ _ => rfl, fun _ _ hp => hp, fun _ _ => rfl,
      fun c _ hc => absurd hc (Nat.not_lt_zero c)⟩ ?_
  · exact ⟨key.2.2.1, fun c p hc => key.2.2.2.2 c p hc⟩
  · intro k t hk ⟨⟨hIt, hNt, htime⟩, q4, q5, q6, q7⟩
    refine ⟨⟨dispatchCore_inv k hk hIt, dispatchCore_npinv quantum k hk hv hIt hNt, ?_⟩, ?_⟩
    · have := dispatchCore_static procs alg quantum t k
      simp only [staticPart, Prod.mk.injEq] at this
      rw [this.2.2.2.2.2.2.1, htime]
    rcases dispatchCore_cases quantum k hv hIt with
      ⟨he, _⟩ | ⟨hfree, pid, s1, he, hcores, hfs, ht, _, _, _, _, hperm⟩
    · rw [he]
      refine ⟨fun c hc => q4 c (by omega), q5, q6, ?_⟩
      intro c p hc h0 h1
      rcases Nat.lt_succ_iff_lt_or_eq.mp hc with h2 | h2
      · exact q7 c p h2 h0 h1
      · subst h2
        rw [q4 c (Nat.le_refl _), h0] at h1
        cases h1
    · have hpid_w : pid ∈ waiting procs t := by
        have : pid ∈ t.fq ++ t.sjf_pq := hperm.mem_iff.mp (List.mem_cons_self _ _)
        exact List.mem_append_right _ this
      have hpidN : pid < procs.length := by
        have : pid ∈ live procs t := by
          rw [live_eq_waiting_append]; exact List.mem_append_left _ hpid_w
        exact (hIt.live_ok pid this).1
      have hfresh := hNt.fresh pid hpid_w
      have hfs' : (dispatchCore procs alg quantum t k).first_start =
          t.first_start.set pid s.currentTime := by
        rw [he, assign_first_start, hfs, ht, if_pos (by rw [hfresh]; decide), htime]
      have hco : (dispatchCore procs alg quantum t k).cores = t.cores.set k (some pid) := by
        rw [he, assign_cores, hcores]
      have hself : (t.first_start.set pid s.currentTime).getD pid 0 = s.currentTime :=
        getD_set_self _ _ _ _ (by rw [hNt.len_fs]; exact hpidN)
      have ht0 : 0 ≤ s.currentTime := htime ▸ hIt.time_nonneg
      rw [hfs', hco]
      refine ⟨?_, ?_, ?_, ?_⟩
      · intro c hc
        rw [getD_set_ne _ _ _ _ _ (by omega)]
        exact q4 c (by omega)
      · intro c p hp
        have h1 := q5 c p hp
        have hne : k ≠ c := by
          intro e; subst e; rw [hfree] at h1; cases h1
        rw [getD_set_ne _ _ _ _ _ hne]
        exact h1
      · intro p hp
        by_cases e : pid = p
        · subst e; rw [hself] at hp; omega
        · rw [getD_set_ne _ _ _ _ _ e] at hp ⊢
          exact q6 p hp
      · intro c p hc h0 h1
        rcases Nat.lt_succ_iff_lt_or_eq.mp hc with h2 | h2
        · rw [getD_set_ne _ _ _ _ _ (by omega)] at h1
          have := q7 c p h2 h0 h1
          refine ⟨this.1, ?_⟩
          by_cases e : pid = p
          · subst e; exact hself
          · rw [getD_set_ne _ _ _ _ _ e]; exact this.2
        · subst h2
          rw [getD_set_self _ _ _ _ (by rw [hIt.len_cores]; exact hk)] at h1
          injection h1 with h1
          subst h1
          refine ⟨?_, hself⟩
          rw [q6 pid (by rw [hfresh]; decide)]
          exact hfresh

/-- What the execution phase does under a policy other than `RR`: every process on a
core runs for exactly one tick; it leaves the core if and only if this was its last. -/
theorem execute_nonRR_facts {procs : List Process} {M : Nat} {alg : String}
    (hnr : alg ≠ "RR") {s : SimState} (hI : Inv procs M alg s) :
    ∀ c p, c < M → s.cores.getD c none = some p →
      (execute procs M alg s).remaining.getD p 0 = s.remaining.getD p 0 - 1 ∧
      (s.remaining.getD p 0 - 1 ≠ 0 →
        (execute procs M alg s).cores.getD c none = some p) ∧
      (s.remaining.getD p 0 - 1 = 0 →
        (execute procs M alg s).cores.getD c none = none ∧
        (execute procs M alg s).finish.getD p 0 = s.currentTime + 1) := by
  have hI0 : Inv procs M alg { s with any := false } :=
    hI.transfer rfl rfl rfl rfl hI.len_cores (List.Perm.refl _) hI.fq_empty hI.pq_empty
  have key := foldl_range_indexed
    (Q := fun k t => (Inv procs M alg t ∧ t.currentTime = s.currentTime) ∧
      (∀ c, k ≤ c → t.cores.getD c none = s.cores.getD c none) ∧
      (∀ c p, k ≤ c → s.cores.getD c none = some p →
        t.remaining.getD p 0 = s.remaining.getD p 0) ∧
      (∀ c p, c < k → s.cores.getD c none = some p →
        t.remaining.getD p 0 = s.remaining.getD p 0 - 1 ∧
        (s.remaining.getD p 0 - 1 ≠ 0 → t.cores.getD c none = some p) ∧
        (s.remaining.getD p 0 - 1 = 0 →
          t.cores.getD c none = none ∧ t.finish.getD p 0 = s.currentTime + 1)))
    (f := execCore procs alg) M { s with any := false }
    ⟨⟨hI0, rfl⟩, fun _ _ => rfl, fun _ _ _ _ => rfl,
      fun c _ hc => absurd hc (Nat.not_lt_zero c)⟩ ?_
  · intro c p hc hp
    exact key.2.2.2 c p hc hp
  · intro k t hk ⟨⟨hIt, htime⟩, q3, q4, q5⟩
    have hclk := execCore_clock procs alg t k
    simp only [clockPart, Prod.mk.injEq] at hclk
    refine ⟨⟨execCore_inv k hIt, by rw [hclk.2.1, htime]⟩, ?_⟩
    cases hc : t.cores.getD k none with
    | none =>
      rw [execCore_idle hc]
      refine ⟨fun c hc' => q3 c (by omega), fun c p hc' => q4 c p (by omega), ?_⟩
      intro c p hc' hp
      rcases Nat.lt_succ_iff_lt_or_eq.mp hc' with h2 | h2
      · exact q5 c p h2 hp
      · subst h2
        rw [q3 c (Nat.le_refl _), hp] at hc
        cases hc
    | some q =>
      obtain ⟨hqN, hqrem, hqfin⟩ := hIt.live_ok q (running_mem_live procs hc)
      have hq_s : s.cores.getD k none = some q := by rw [← q3 k (Nat.le_refl _)]; exact hc
      have hrem_q : t.remaining.getD q 0 = s.remaining.getD q 0 := q4 k q (Nat.le_refl _) hq_s
      -- every other process named by the claim differs from `q`
      have hother : ∀ c p, c ≠ k → c < M → s.cores.getD c none = some p → p ≠ q := by
        intro c p hne hcM hp
        rcases Nat.lt_or_ge c k with h1 | h1
        · obtain ⟨_, hnz, hz⟩ := q5 c p h1 hp
          by_cases e : s.remaining.getD p 0 - 1 = 0
          · intro epq
            have := (hz e).2
            rw [epq, hqfin] at this
            have := hIt.time_nonneg
            omega
          · exact cores_distinct hIt (hnz e) hc hne
        · have : t.cores.getD c none = some p := by rw [q3 c h1]; exact hp
          exact cores_distinct hIt this hc hne
      rw [execCore_nonRR procs hnr hc (by rw [hIt.len_rem]; exact hqN)]
      have hkM : k < t.cores.length := by rw [hIt.len_cores]; exact hk
      have hqr : q < t.remaining.length := by rw [hIt.len_rem]; exact hqN
      have hqf : q < t.finish.length := by rw [hIt.len_fin]; exact hqN
      split
      · rename_i hz
        simp only
        refine ⟨?_, ?_, ?_⟩
        · intro c hc'
          rw [getD_set_ne _ _ _ _ _ (by omega)]
          exact q3 c (by omega)
        · intro c p hc' hp
          have hcM : c < M := by
            have := lt_length_of_getD_ne s.cores c none (by rw [hp]; simp)
            rw [hI.len_cores] at this
            exact this
          have hne := hother c p (by omega) hcM hp
          rw [getD_set_ne _ _ _ _ _ (fun e => hne e.symm)]
          exact q4 c p (by omega) hp
        · intro c p hc' hp
          rcases Nat.lt_succ_iff_lt_or_eq.mp hc' with h2 | h2
          · have hne := hother c p (by omega) (by omega) hp
            rw [getD_set_ne _ _ _ _ _ (fun e => hne e.symm),
              getD_set_ne _ _ _ _ _ (by omega : k ≠ c),
              getD_set_ne _ _ _ _ _ (fun e => hne e.symm)]
            exact q5 c p h2 hp
          · subst h2
            rw [hq_s] at hp
            injection hp with hp
            subst hp
            rw [getD_set_self _ _ _ _ hqr, getD_set_self _ _ _ _ hkM,
              getD_set_self _ _ _ _ hqf, hrem_q, htime]
            rw [hrem_q] at hz
            exact ⟨rfl, fun h => absurd hz h, fun _ => ⟨rfl, rfl⟩⟩
      · rename_i hz
        simp only
        refine ⟨fun c hc' => q3 c (by omega), ?_, ?_⟩
        · intro c p hc' hp
          have hcM : c < M := by
            have := lt_length_of_getD_ne s.cores c none (by rw [hp]; simp)
            rw [hI.len_cores] at this
            exact this
          have hne := hother c p (by omega) hcM hp
          rw [getD_set_ne _ _ _ _ _ (fun e => hne e.symm)]
          exact q4 c p (by omega) hp
        · intro c p hc' hp
          rcases Nat.lt_succ_iff_lt_or_eq.mp hc' with h2 | h2
          · have hne := hother c p (by omega) (by omega) hp
            rw [getD_set_ne _ _ _ _ _ (fun e => hne e.symm)]
            exact q5 c p h2 hp
          · subst h2
            rw [hq_s] at hp
            injection hp with hp
            subst hp
            rw [getD_set_self _ _ _ _ hqr, hrem_q]
            rw [hrem_q] at hz
            exact ⟨rfl, fun _ => hc, fun h => absurd h hz⟩

theorem advance_fields (procs : List Process) (s : SimState) :
    (advance procs s).cores = s.cores ∧ (advance procs s).remaining = s.remaining ∧
    (advance procs s).finish = s.finish ∧
    (advance procs s).first_start = s.first_start := by
  unfold advance
  split <;> exact ⟨rfl, rfl, rfl, rfl⟩

/-- Claim C9: under `SJF-NP`, in every tick of a run on a workload with ids `0..N-1`
and bursts of at least one tick: the preemption phase changes nothing; a process that
holds a core at the head of the tick still holds it when execution starts; a process
placed on a free core had never been dispatched before, and the tick is recorded as its
first dispatch; every process on a core at the start of execution runs for exactly one
tick and is on the same core at the next tick, unless its remaining burst reached 0, in
which case it finishes.  The switches counted are one per dispatch and one per
completion, so a finished run has counted `2 N` of them and every process has a first
dispatch. -/
theorem sjfnp_never_evicts (procs : List Process) (M : Nat) (quantum : Int) (s : SimState)
    (hid : (procs.map Process.pid).Perm (List.range procs.length))
    (hb : ∀ q ∈ procs, 1 ≤ q.burst)
    (hr : Reachable procs M "SJF-NP" quantum s) :
    preempt M "SJF-NP" quantum (arrive procs "SJF-NP" s) = arrive procs "SJF-NP" s ∧
    (∀ c p, c < M → s.cores.getD c none = some p →
      (beforeExec procs M "SJF-NP" quantum s).cores.getD c none = some p) ∧
    (∀ c p, c < M → s.cores.getD c none = none →
      (beforeExec procs M "SJF-NP" quantum s).cores.getD c none = some p →
      s.first_start.getD p 0 = -1 ∧
        (beforeExec procs M "SJF-NP" quantum s).first_start.getD p 0 = s.currentTime) ∧
    (∀ c p, c < M → (beforeExec procs M "SJF-NP" quantum s).cores.getD c none = some p →
      (tick procs M "SJF-NP" quantum s).remaining.getD p 0 = s.remaining.getD p 0 - 1 ∧
      (s.remaining.getD p 0 - 1 ≠ 0 →
        (tick procs M "SJF-NP" quantum s).cores.getD c none = some p) ∧
      (s.remaining.getD p 0 - 1 = 0 →
        (tick procs M "SJF-NP" quantum s).cores.getD c none = none ∧
        (tick procs M "SJF-NP" quantum s).finish.getD p 0 = s.currentTime + 1)) ∧
    s.context_switches = 2 * (s.completed : Int) + ((running s).length : Int) ∧
    (procs.length ≤ s.completed →
      s.context_switches = 2 * (procs.length : Int) ∧
      ∀ i, i < procs.length → 0 ≤ s.first_start.getD i 0) := by
  obtain ⟨hI, hN⟩ := reachable_npinv (Or.inr rfl) hid hb hr
  have hpre : preempt M "SJF-NP" quantum (arrive procs "SJF-NP" s) =
      arrive procs "SJF-NP" s := by
    unfold preempt; rw [if_neg (by decide)]
  have hIa : Inv procs M "SJF-NP" (arrive procs "SJF-NP" s) := arrive_inv hI
  have hNa : NPInv procs (arrive procs "SJF-NP" s) := arrive_npinv hN
  have hf := arrive_frame procs "SJF-NP" s
  unfold ArriveFrame at hf
  have e1 : (arrive procs "SJF-NP" s).cores = s.cores := by
    have := congrArg SimState.cores hf
    exact this
  have e2 : (arrive procs "SJF-NP" s).first_start = s.first_start := by
    have := congrArg SimState.first_start hf
    exact this
  have e3 : (arrive procs "SJF-NP" s).currentTime = s.currentTime := by
    have := congrArg SimState.currentTime hf
    exact this
  have hbe : beforeExec procs M "SJF-NP" quantum s =
      dispatch procs M "SJF-NP" quantum (arrive procs "SJF-NP" s) := by
    unfold beforeExec; rw [hpre]
  obtain ⟨d1, d2⟩ := dispatch_np_facts quantum (Or.inr rfl) hIa hNa
  rw [← hbe, e1] at d1 d2
  rw [e2, e3] at d2
  have hId : Inv procs M "SJF-NP" (beforeExec procs M "SJF-NP" quantum s) := by
    rw [hbe]; exact dispatch_inv hIa
  have hx := execute_nonRR_facts (by decide) hId
  have hclk := beforeExec_clock procs M "SJF-NP" quantum s
  have hadv := advance_fields procs
    (execute procs M "SJF-NP" (beforeExec procs M "SJF-NP" quantum s))
  refine ⟨hpre, fun c p _ hp => d1 c p hp, d2, ?_, hN.switches, ?_⟩
  · intro c p hc hp
    have := hx c p hc hp
    rw [hclk.2.2, hclk.2.1] at this
    rw [tick_eq, hadv.1, hadv.2.1, hadv.2.2.1]
    exact this
  · intro hdone
    have hc := hI.count
    have hl : live procs s = [] := List.length_eq_zero.mp (by omega)
    rw [live_eq_waiting_append] at hl
    have hw : waiting procs s = [] := (List.append_eq_nil.mp hl).1
    have hru : running s = [] := (List.append_eq_nil.mp hl).2
    refine ⟨?_, ?_⟩
    · have := hN.switches
      rw [hru] at this
      simp only [List.length_nil] at this
      have : s.completed = procs.length := by
        rw [live_eq_waiting_append, hw, hru] at hc
        simpa using hc
      omega
    · intro i hi
      exact hN.started i hi (by rw [hw]; simp)

theorem sjfnp_never_evicts_witness :
    preempt 1 "SJF-NP" 10
        (arrive [⟨0, 0, 3⟩, ⟨1, 0, 3⟩] "SJF-NP" (initState [⟨0, 0, 3⟩, ⟨1, 0, 3⟩] 1 10)) =
      arrive [⟨0, 0, 3⟩, ⟨1, 0, 3⟩] "SJF-NP" (initState [⟨0, 0, 3⟩, ⟨1, 0, 3⟩] 1 10) ∧
    ((tick [⟨0, 0, 3⟩, ⟨1, 0, 3⟩] 1 "SJF-NP" 10
        (initState [⟨0, 0, 3⟩, ⟨1, 0, 3⟩] 1 10)).remaining.getD 0 0 =
      (initState [⟨0, 0, 3⟩, ⟨1, 0, 3⟩] 1 10).remaining.getD 0 0 - 1) :=
  ⟨(sjfnp_never_evicts [⟨0, 0, 3⟩, ⟨1, 0, 3⟩] 1 10 (initState [⟨0, 0, 3⟩, ⟨1, 0, 3⟩] 1 10)
      (List.Perm.refl _) (by decide) Reachable.init).1,
   ((sjfnp_never_evicts [⟨0, 0, 3⟩, ⟨1, 0, 3⟩] 1 10 (initState [⟨0, 0, 3⟩, ⟨1, 0, 3⟩] 1 10)
      (List.Perm.refl _) (by decide) Reachable.init).2.2.2.1 0 0 (by decide)
      (by decide)).1⟩

/-! ### First come, first served -/

theorem pid_of_drop_cons {procs : List Process} {n : Nat} {p : Process} {t : List Process}
    (hid : procs.map Process.pid = List.range procs.length)
    (h : procs.drop n = p :: t) : n < procs.length ∧ p.pid = n := by
  have hn := (arrivalOf_of_drop_cons h).1
  refine ⟨hn, ?_⟩
  have h2 := List.drop_eq_getElem_cons hn
  rw [h] at h2
  injection h2 with h3 _
  have h4 : (procs.map Process.pid)[n]? = (List.range procs.length)[n]? := by rw [hid]
  rw [List.getElem?_map, List.getElem?_eq_getElem hn, List.getElem?_range hn] at h4
  simp only [Option.map_some', Option.some.injEq] at h4
  rw [h3]; exact h4

theorem arriveLoop_finv {procs : List Process} {M : Nat}
    (hid : procs.map Process.pid = List.range procs.length) :
    ∀ (rest : List Process) (s : SimState), procs.drop s.next_arrival = rest →
      FInv procs M s → FInv procs M (arriveLoop "FCFS" rest s) := by
  intro rest
  induction rest with
  | nil => intro s _ h; simpa [arriveLoop] using h
  | cons p t ih =>
    intro s hd h
    simp only [arriveLoop]
    have hd' := drop_succ_of_drop_cons hd
    obtain ⟨hn, hpid⟩ := pid_of_drop_cons hid hd
    split
    · rw [if_pos (Or.inl trivial)]
      apply ih _ hd'
      have hfl := h.fq_le
      have hfront :
          front ({ s with fq := s.fq ++ [p.pid], next_arrival := s.next_arrival + 1 }) =
            front s := by
        simp only [front, List.length_append, List.length_singleton]; omega
      refine ⟨h.len_fs, h.len_cores, hn, by simp; omega, ?_, ?_, ?_, h.time_nonneg⟩
      · rw [hfront]
        simp only [List.length_append, List.length_singleton]
        rw [List.range'_concat, ← h.fq_eq, hpid]
        simp only [front]
        congr 2
        omega
      · rw [hfront]; exact h.fresh
      · rw [hfront]; exact h.started
    · exact h

theorem dispatchCore_fcfs_skip (procs : List Process) (quantum : Int) (s : SimState)
    (c : Nat) (h : s.cores.getD c none ≠ none ∨ s.fq = []) :
    dispatchCore procs "FCFS" quantum s c = s := by
  unfold dispatchCore
  split
  · rfl
  · rename_i hfree
    rcases h with h | h
    · exact absurd hfree h
    · rw [if_neg (fun hc => hc.2 h), if_neg (by decide), if_neg (fun hc => hc.2 h)]

theorem dispatchCore_fcfs_take (procs : List Process) (quantum : Int) (s : SimState)
    (c : Nat) (hfree : s.cores.getD c none = none) (hne : s.fq ≠ []) :
    dispatchCore procs "FCFS" quantum s c =
      assign procs c (s.fq.getD 0 0) { s with fq := s.fq.tail } := by
  unfold dispatchCore
  rw [hfree]
  simp only
  rw [if_pos ⟨trivial, hne⟩]

theorem front_assign (procs : List Process) (c pid : Nat) (s : SimState) :
    front (assign procs c pid s) = front s := by
  have hst := assign_static procs c pid s
  simp only [staticPart, Prod.mk.injEq] at hst
  unfold front
  rw [(assign_queues procs c pid s).1, hst.2.2.2.2.2.1]

/-- The effect of one dispatch under `FCFS` when the core is free and a process waits. -/
theorem dispatchCore_fcfs_effect {procs : List Process} {M : Nat} (quantum : Int)
    {s : SimState} {c : Nat} (h : FInv procs M s)
    (hfree : s.cores.getD c none = none) (hne : s.fq ≠ []) :
    (dispatchCore procs "FCFS" quantum s c).cores = s.cores.set c (some (front s)) ∧
    (dispatchCore procs "FCFS" quantum s c).first_start =
      s.first_start.set (front s) s.currentTime ∧
    (dispatchCore procs "FCFS" quantum s c).fq = s.fq.tail ∧
    front (dispatchCore procs "FCFS" quantum s c) = front s + 1 ∧
    front s < procs.length := by
  have hlen : 0 < s.fq.length := List.length_pos.mpr hne
  have hhead : s.fq.getD 0 0 = front s := by
    have := h.fq_eq
    rw [this]
    simp [List.getD_eq_getElem?_getD, List.getElem?_range', hlen]
  have hfl := h.fq_le
  have hna := h.na_le
  have hfN : front s < procs.length := by simp only [front]; omega
  have hfresh := h.fresh (front s) (Nat.le_refl _) hfN
  rw [dispatchCore_fcfs_take procs quantum s c hfree hne, hhead]
  have hst := assign_static procs c (front s) { s with fq := s.fq.tail }
  simp only [staticPart, Prod.mk.injEq] at hst
  have hq := (assign_queues procs c (front s) { s with fq := s.fq.tail }).1
  refine ⟨assign_cores _ _ _ _, ?_, hq, ?_, hfN⟩
  · rw [assign_first_start]
    simp only
    rw [if_pos (by rw [hfresh]; decide)]
  · rw [front_assign]
    simp only [front, List.length_tail]
    omega

theorem dispatchCore_finv {procs : List Process} {M : Nat} (quantum : Int)
    {s : SimState} (c : Nat) (h : FInv procs M s) :
    FInv procs M (dispatchCore procs "FCFS" quantum s c) := by
  by_cases hskip : s.cores.getD c none ≠ none ∨ s.fq = []
  · rw [dispatchCore_fcfs_skip procs quantum s c hskip]; exact h
  · have hfree : s.cores.getD c none = none := by
      by_contra e; exact hskip (Or.inl e)
    have hne : s.fq ≠ [] := fun e => hskip (Or.inr e)
    obtain ⟨e1, e2, e3, e4, hfN⟩ := dispatchCore_fcfs_effect quantum h hfree hne
    have hst := dispatchCore_static procs "FCFS" quantum s c
    simp only [staticPart, Prod.mk.injEq] at hst
    have hlen : 0 < s.fq.length := List.length_pos.mpr hne
    have hfl := h.fq_le
    have hself : (s.first_start.set (front s) s.currentTime).getD (front s) 0 =
        s.currentTime := getD_set_self _ _ _ _ (by rw [h.len_fs]; exact hfN)
    refine ⟨by rw [e2]; simp [h.len_fs], by rw [e1]; simp [h.len_cores],
      by rw [hst.2.2.2.2.2.1]; exact h.na_le,
      by rw [hst.2.2.2.2.2.1, e3]; simp; omega, ?_, ?_, ?_,
      by rw [hst.2.2.2.2.2.2.1]; exact h.time_nonneg⟩
    · rw [e4, e3]
      conv_lhs => rw [h.fq_eq]
      simp [List.tail_range']
    · intro p hp hpN
      rw [e4] at hp
      rw [e2, getD_set_ne _ _ _ _ _ (by omega)]
      exact h.fresh p (by omega) hpN
    · intro i j hij hj
      rw [e4] at hj
      rw [e2, hst.2.2.2.2.2.2.1]
      have ht := h.time_nonneg
      by_cases ej : j = front s
      · subst ej
        rw [hself]
        by_cases ei : i = front s
        · rw [ei, hself]; omega
        · rw [getD_set_ne _ _ _ _ _ (fun e => ei e.symm)]
          have := h.started i i (Nat.le_refl _) (by omega)
          omega
      · rw [getD_set_ne _ _ _ _ _ (fun e => ej e.symm),
          getD_set_ne _ _ _ _ _ (by omega : front s ≠ i)]
        exact h.started i j hij (by omega)

theorem execCore_fq_nonRR (procs : List Process) {alg : String} (hnr : alg ≠ "RR")
    (s : SimState) (c : Nat) :
    (execCore procs alg s c).fq = s.fq ∧
      (execCore procs alg s c).cores.length = s.cores.length := by
  unfold execCore
  split
  · exact ⟨rfl, rfl⟩
  · simp only [if_neg hnr]
    split_ifs with h1 h2
    · exact ⟨rfl, by simp⟩
    · exact absurd h2.1 hnr
    · exact ⟨rfl, rfl⟩

theorem execCore_finv {procs : List Process} {M : Nat} {s : SimState} (c : Nat)
    (h : FInv procs M s) : FInv procs M (execCore procs "FCFS" s c) := by
  have hclk := execCore_clock procs "FCFS" s c
  simp only [clockPart, Prod.mk.injEq] at hclk
  obtain ⟨e1, e2⟩ := execCore_fq_nonRR procs (by decide : "FCFS" ≠ "RR") s c
  have hf : front (execCore procs "FCFS" s c) = front s := by
    simp only [front, e1, hclk.1]
  exact ⟨by rw [hclk.2.2.1]; exact h.len_fs, by rw [e2]; exact h.len_cores,
    by rw [hclk.1]; exact h.na_le, by rw [e1, hclk.1]; exact h.fq_le,
    by rw [hf, e1]; exact h.fq_eq, by rw [hf, hclk.2.2.1]; exact h.fresh,
    by rw [hf, hclk.2.2.1, hclk.2.1]; exact h.started,
    by rw [hclk.2.1]; exact h.time_nonneg⟩

theorem beforeExec_finv {procs : List Process} {M : Nat} (quantum : Int)
    (hid : procs.map Process.pid = List.range procs.length) {s : SimState}
    (h : FInv procs M s) : FInv procs M (beforeExec procs M "FCFS" quantum s) := by
  unfold beforeExec preempt dispatch
  rw [if_neg (by decide)]
  exact foldl_range_preserves M (fun t c _ ht => dispatchCore_finv quantum c ht) _
    (arriveLoop_finv hid _ s rfl h)

theorem tick_finv {procs : List Process} {M : Nat} (quantum : Int)
    (hid : procs.map Process.pid = List.range procs.length) {s : SimState}
    (h : FInv procs M s) : FInv procs M (tick procs M "FCFS" quantum s) := by
  have hd := beforeExec_finv quantum hid h
  have he : FInv procs M (execute procs M "FCFS" (beforeExec procs M "FCFS" quantum s)) := by
    unfold execute
    refine foldl_range_preserves M (fun t c _ ht => execCore_finv c ht) _ ?_
    exact ⟨hd.len_fs, hd.len_cores, hd.na_le, hd.fq_le, hd.fq_eq, hd.fresh, hd.started,
      hd.time_nonneg⟩
  have ht := tick_time_lt procs M "FCFS" quantum s
  have hclk := execute_clock procs M "FCFS" (beforeExec procs M "FCFS" quantum s)
  simp only [clockPart, Prod.mk.injEq] at hclk
  have hb := beforeExec_clock procs M "FCFS" quantum s
  have het : (execute procs M "FCFS" (beforeExec procs M "FCFS" quantum s)).currentTime =
      s.currentTime := by rw [hclk.2.1, hb.2.1]
  rw [tick_eq] at ht ⊢
  have hadv := advance_fields procs
    (execute procs M "FCFS" (beforeExec procs M "FCFS" quantum s))
  have hq : (advance procs
      (execute procs M "FCFS" (beforeExec procs M "FCFS" quantum s))).fq =
      (execute procs M "FCFS" (beforeExec procs M "FCFS" quantum s)).fq ∧
      (advance procs
        (execute procs M "FCFS" (beforeExec procs M "FCFS" quantum s))).next_arrival =
      (execute procs M "FCFS" (beforeExec procs M "FCFS" quantum s)).next_arrival := by
    unfold advance; split <;> exact ⟨rfl, rfl⟩
  have hf : front (advance procs
      (execute procs M "FCFS" (beforeExec procs M "FCFS" quantum s))) =
      front (execute procs M "FCFS" (beforeExec procs M "FCFS" quantum s)) := by
    simp only [front, hq.1, hq.2]
  have h0 := h.time_nonneg
  refine ⟨by rw [hadv.2.2.2]; exact he.len_fs, by rw [hadv.1]; exact he.len_cores,
    by rw [hq.2]; exact he.na_le, by rw [hq.1, hq.2]; exact he.fq_le,
    by rw [hf, hq.1]; exact he.fq_eq, by rw [hf, hadv.2.2.2]; exact he.fresh, ?_, by omega⟩
  intro i j hij hj
  rw [hf] at hj
  rw [hadv.2.2.2]
  have := he.started i j hij hj
  rw [het] at this
  omega

theorem init_finv (procs : List Process) (M : Nat) (quantum : Int) :
    FInv procs M (initState procs M quantum) := by
  refine ⟨by simp [initState], by simp [initState], by simp [initState],
    by simp [initState], by simp [initState, front], ?_, ?_, by simp [initState]⟩
  · intro p _ hp
    simp [initState, List.getD_eq_getElem?_getD, List.getElem?_replicate, hp]
  · intro i j _ hj
    simp [initState, front] at hj

theorem reachable_finv {procs : List Process} {M : Nat} {quantum : Int}
    (hid : procs.map Process.pid = List.range procs.length) {s : SimState}
    (hr : Reachable procs M "FCFS" quantum s) : FInv procs M s := by
  induction hr with
  | init => exact init_finv procs M quantum
  | step _ _ ih => exact tick_finv quantum hid ih

/-- Within one dispatch phase under `FCFS`, the free cores receive increasing ids in the
order of their index, each with the current tick as first dispatch. -/
theorem dispatch_fcfs_order {procs : List Process} {M : Nat} (quantum : Int)
    {s : SimState} (h : FInv procs M s) :
    (∀ c p, c < M → s.cores.getD c none = none →
      (dispatch procs M "FCFS" quantum s).cores.getD c none = some p →
      (dispatch procs M "FCFS" quantum s).first_start.getD p 0 = s.currentTime) ∧
    (∀ c1 c2 p1 p2, c1 < c2 → c2 < M →
      s.cores.getD c1 none = none → s.cores.getD c2 none = none →
      (dispatch procs M "FCFS" quantum s).cores.getD c1 none = some p1 →
      (dispatch procs M "FCFS" quantum s).cores.getD c2 none = some p2 → p1 < p2) := by
  have key := foldl_range_indexed
    (Q := fun k t => (FInv procs M t ∧ t.currentTime = s.currentTime) ∧
      (∀ c, k ≤ c → t.cores.getD c none = s.cores.getD c none) ∧
      (∀ c p, c < k → s.cores.getD c none = none → t.cores.getD c none = some p →
        p < front t ∧ t.first_start.getD p 0 = s.currentTime) ∧
      (∀ c1 c2 p1 p2, c1 < c2 → c2 < k →
        s.cores.getD c1 none = none → s.cores.getD c2 none = none →
        t.cores.getD c1 none = some p1 → t.cores.getD c2 none = some p2 → p1 < p2))
    (f := dispatchCore procs "FCFS" quantum) M s
    ⟨⟨h, rfl⟩, fun _ _ => rfl, fun c _ hc => absurd hc (Nat.not_lt_zero c),
      fun _ c2 _ _ _ hc => absurd hc (Nat.not_lt_zero c2)⟩ ?_
  · exact ⟨fun c p hc h0 h1 => (key.2.2.1 c p hc h0 h1).2, key.2.2.2⟩
  · intro k t hk ⟨⟨hF, htime⟩, q3, q4, q5⟩
    have hst := dispatchCore_static procs "FCFS" quantum t k
    simp only [staticPart, Prod.mk.injEq] at hst
    refine ⟨⟨dispatchCore_finv quantum k hF, by rw [hst.2.2.2.2.2.2.1, htime]⟩, ?_⟩
    by_cases hskip : t.cores.getD k none ≠ none ∨ t.fq = []
    · rw [dispatchCore_fcfs_skip procs quantum t k hskip]
      have hk_old : ∀ p, s.cores.getD k none = none → t.cores.getD k none = some p → False := by
        intro p h0 h1
        rw [q3 k (Nat.le_refl _), h0] at h1
        cases h1
      refine ⟨fun c hc => q3 c (by omega), ?_, ?_⟩
      · intro c p hc h0 h1
        rcases Nat.lt_succ_iff_lt_or_eq.mp hc with h2 | h2
        · exact q4 c p h2 h0 h1
        · subst h2; exact absurd (hk_old p h0 h1) id
      · intro c1 c2 p1 p2 h12 hc2 h01 h02 h1 h2
        rcases Nat.lt_succ_iff_lt_or_eq.mp hc2 with h3 | h3
        · exact q5 c1 c2 p1 p2 h12 h3 h01 h02 h1 h2
        · subst h3; exact absurd (hk_old p2 h02 h2) id
    · have hfree : t.cores.getD k none = none := by
        by_contra e; exact hskip (Or.inl e)
      have hne : t.fq ≠ [] := fun e => hskip (Or.inr e)
      obtain ⟨e1, e2, _, e4, hfN⟩ := dispatchCore_fcfs_effect quantum hF hfree hne
      have hkl : k < t.cores.length := by rw [hF.len_cores]; exact hk
      have hself : (t.first_start.set (front t) t.currentTime).getD (front t) 0 =
          t.currentTime := getD_set_self _ _ _ _ (by rw [hF.len_fs]; exact hfN)
      rw [e1, e2, e4]
      refine ⟨?_, ?_, ?_⟩
      · intro c hc
        rw [getD_set_ne _ _ _ _ _ (by omega)]
        exact q3 c (by omega)
      · intro c p hc h0 h1
        rcases Nat.lt_succ_iff_lt_or_eq.mp hc with h2 | h2
        · rw [getD_set_ne _ _ _ _ _ (by omega)] at h1
          have := q4 c p h2 h0 h1
          refine ⟨by omega, ?_⟩
          rw [getD_set_ne _ _ _ _ _ (by omega)]
          exact this.2
        · subst h2
          rw [getD_set_self _ _ _ _ hkl] at h1
          injection h1 with h1
          subst h1
          exact ⟨by omega, by rw [hself, htime]⟩
      · intro c1 c2 p1 p2 h12 hc2 h01 h02 h1 h2
        rw [getD_set_ne _ _ _ _ _ (by omega)] at h1
        rcases Nat.lt_succ_iff_lt_or_eq.mp hc2 with h3 | h3
        · rw [getD_set_ne _ _ _ _ _ (by omega)] at h2
          exact q5 c1 c2 p1 p2 h12 h3 h01 h02 h1 h2
        · subst h3
          rw [getD_set_self _ _ _ _ hkl] at h2
          injection h2 with h2
          subst h2
          exact (q4 c1 p1 h12 h01 h1).1

/-- Claim C8: under `FCFS`, for every input whose ids equal the positions, at every
tick of the run whose clock has not passed `intMax`: a process that has been dispatched
was dispatched no earlier than any process before it in the input, which has been
dispatched too, and no recorded dispatch tick exceeds the clock; and of two processes
placed on free cores in the same tick, both with this tick as first dispatch, the one
earlier in the input is on the core of lower index. -/
theorem fcfs_dispatch_in_input_order (procs : List Process) (M : Nat) (quantum : Int)
    (s : SimState) (hid : procs.map Process.pid = List.range procs.length)
    (hr : Reachable procs M "FCFS" quantum s) (hfit : s.currentTime ≤ intMax) :
    (∀ i j, i < j → j < procs.length → s.first_start.getD j 0 ≠ -1 →
      0 ≤ s.first_start.getD i 0 ∧ s.first_start.getD i 0 ≤ s.first_start.getD j 0 ∧
      s.first_start.getD j 0 ≤ s.currentTime ∧ s.first_start.getD j 0 ≤ intMax) ∧
    (∀ c1 c2 i j, c1 < M → c2 < M →
      s.cores.getD c1 none = none → s.cores.getD c2 none = none →
      (beforeExec procs M "FCFS" quantum s).cores.getD c1 none = some i →
      (beforeExec procs M "FCFS" quantum s).cores.getD c2 none = some j →
      ((beforeExec procs M "FCFS" quantum s).first_start.getD i 0 = s.currentTime ∧
        (beforeExec procs M "FCFS" quantum s).first_start.getD j 0 = s.currentTime) ∧
      (i < j → c1 < c2)) := by
  have hF := reachable_finv hid hr
  refine ⟨?_, ?_⟩
  · intro i j hij hj hne
    have hjf : j < front s := by
      by_contra hc
      exact hne (hF.fresh j (by omega) hj)
    have := hF.started i j (by omega) hjf
    exact ⟨this.1, this.2.1, this.2.2, le_trans this.2.2 hfit⟩
  · intro c1 c2 i j hc1 hc2 h01 h02 h1 h2
    have hFa : FInv procs M (arrive procs "FCFS" s) := arriveLoop_finv hid _ s rfl hF
    have hf := arrive_frame procs "FCFS" s
    unfold ArriveFrame at hf
    have e1 : (arrive procs "FCFS" s).cores = s.cores := by
      have := congrArg SimState.cores hf
      exact this
    have e2 : (arrive procs "FCFS" s).currentTime = s.currentTime := by
      have := congrArg SimState.currentTime hf
      exact this
    have hbe : beforeExec procs M "FCFS" quantum s =
        dispatch procs M "FCFS" quantum (arrive procs "FCFS" s) := by
      unfold beforeExec preempt; rw [if_neg (by decide)]
    obtain ⟨d1, d2⟩ := dispatch_fcfs_order quantum hFa
    rw [← hbe, e1] at d1 d2
    rw [e2] at d1
    refine ⟨⟨d1 c1 i hc1 h01 h1, d1 c2 j hc2 h02 h2⟩, ?_⟩
    intro hij
    rcases Nat.lt_trichotomy c1 c2 with h | h | h
    · exact h
    · subst h
      rw [h1] at h2
      injection h2 with h2
      omega
    · have := d2 c2 c1 j i h hc1 h02 h01 h2 h1
      omega

theorem fcfs_dispatch_in_input_order_witness :
    (runTicks [⟨0, 0, 2⟩, ⟨1, 0, 1⟩] 1 "FCFS" 10 3
        (initState [⟨0, 0, 2⟩, ⟨1, 0, 1⟩] 1 10)).currentTime ≤ intMax ∧
    (runTicks [⟨0, 0, 2⟩, ⟨1, 0, 1⟩] 1 "FCFS" 10 3
        (initState [⟨0, 0, 2⟩, ⟨1, 0, 1⟩] 1 10)).first_start = [0, 2] ∧
    (0 ≤ (runTicks [⟨0, 0, 2⟩, ⟨1, 0, 1⟩] 1 "FCFS" 10 3
          (initState [⟨0, 0, 2⟩, ⟨1, 0, 1⟩] 1 10)).first_start.getD 0 0 ∧
      (runTicks [⟨0, 0, 2⟩, ⟨1, 0, 1⟩] 1 "FCFS" 10 3
          (initState [⟨0, 0, 2⟩, ⟨1, 0, 1⟩] 1 10)).first_start.getD 0 0 ≤
        (runTicks [⟨0, 0, 2⟩, ⟨1, 0, 1⟩] 1 "FCFS" 10 3
          (initState [⟨0, 0, 2⟩, ⟨1, 0, 1⟩] 1 10)).first_start.getD 1 0 ∧
      (runTicks [⟨0, 0, 2⟩, ⟨1, 0, 1⟩] 1 "FCFS" 10 3
          (initState [⟨0, 0, 2⟩, ⟨1, 0, 1⟩] 1 10)).first_start.getD 1 0 ≤
        (runTicks [⟨0, 0, 2⟩, ⟨1, 0, 1⟩] 1 "FCFS" 10 3
          (initState [⟨0, 0, 2⟩, ⟨1, 0, 1⟩] 1 10)).currentTime ∧
      (runTicks [⟨0, 0, 2⟩, ⟨1, 0, 1⟩] 1 "FCFS" 10 3
          (initState [⟨0, 0, 2⟩, ⟨1, 0, 1⟩] 1 10)).first_start.getD 1 0 ≤ intMax) ∧
    (((beforeExec [⟨0, 0, 2⟩, ⟨1, 0, 2⟩] 2 "FCFS" 10
          (initState [⟨0, 0, 2⟩, ⟨1, 0, 2⟩] 2 10)).first_start.getD 0 0 =
        (initState [⟨0, 0, 2⟩, ⟨1, 0, 2⟩] 2 10).currentTime ∧
      (beforeExec [⟨0, 0, 2⟩, ⟨1, 0, 2⟩] 2 "FCFS" 10
          (initState [⟨0, 0, 2⟩, ⟨1, 0, 2⟩] 2 10)).first_start.getD 1 0 =
        (initState [⟨0, 0, 2⟩, ⟨1, 0, 2⟩] 2 10).currentTime) ∧
      (0 < 1 → 0 < 1)) :=
  ⟨by decide, by decide,
   (fcfs_dispatch_in_input_order [⟨0, 0, 2⟩, ⟨1, 0, 1⟩] 1 10
      (runTicks [⟨0, 0, 2⟩, ⟨1, 0, 1⟩] 1 "FCFS" 10 3
        (initState [⟨0, 0, 2⟩, ⟨1, 0, 1⟩] 1 10))
      (by decide)
      (Reachable.step (Reachable.step (Reachable.step Reachable.init (by decide))
        (by decide)) (by decide))
      (by decide)).1 0 1 (by decide) (by decide) (by decide),
   (fcfs_dispatch_in_input_order [⟨0, 0, 2⟩, ⟨1, 0, 2⟩] 2 10
      (initState [⟨0, 0, 2⟩, ⟨1, 0, 2⟩] 2 10) (by decide) Reachable.init (by decide)).2 0 1 0 1
      (by decide) (by decide) (by decide) (by decide) (by decide) (by decide)⟩

/-! ### The clock -/

/-- The flag `any` is set exactly when some core is busy at the start of execution. -/
theorem execute_any_iff (procs : List Process) (M : Nat) (alg : String) (s : SimState) :
    (execute procs M alg s).any = true ↔ ∃ c, c < M ∧ s.cores.getD c none ≠ none := by
  constructor
  · intro h
    by_contra hc
    have hall : ∀ c, c < M → s.cores.getD c none = none := by
      intro c hcM
      by_contra e
      exact hc ⟨c, hcM, e⟩
    have key := foldl_range_preserves
      (P := fun t => t = { s with any := false })
      (f := execCore procs alg) M
      (fun t c hcM ht => by
        have : t.cores.getD c none = none := by rw [ht]; exact hall c hcM
        rw [execCore_idle this]; exact ht)
      { s with any := false } rfl
    unfold execute at h
    rw [key] at h
    cases h
  · intro ⟨c, hcM, hne⟩
    cases hany : (execute procs M alg s).any with
    | true => rfl
    | false => exact absurd ((execute_idle procs M alg s hany).2 c hcM) hne

/-- Claim C13: in every iteration, from any state whose clock is below `intMax` (so
that the increment of the `int` clock does not overflow; the arrivals are `int` values),
the clock strictly increases and stays within `intMax`: it advances by exactly 1 when at
least one core executed (and also when nothing is left to admit), and when no core
executed and a process is still unadmitted it is set to the arrival of the next unadmitted
process, which is strictly later than the clock. -/
theorem clock_strictly_increases (procs : List Process) (M : Nat) (alg : String)
    (quantum : Int) (s : SimState) (hfit : s.currentTime < intMax)
    (harr : ∀ p ∈ procs, p.arrival ≤ intMax) :
    s.currentTime < (tick procs M alg quantum s).currentTime ∧
    (tick procs M alg quantum s).currentTime ≤ intMax ∧
    ((∃ c, c < M ∧ (beforeExec procs M alg quantum s).cores.getD c none ≠ none) →
      (tick procs M alg quantum s).currentTime = s.currentTime + 1) ∧
    ((∀ c, c < M → (beforeExec procs M alg quantum s).cores.getD c none = none) →
      ((arrive procs alg s).next_arrival < procs.length →
        (tick procs M alg quantum s).currentTime =
            arrivalOf procs (arrive procs alg s).next_arrival ∧
          s.currentTime < arrivalOf procs (arrive procs alg s).next_arrival) ∧
      (procs.length ≤ (arrive procs alg s).next_arrival →
        (tick procs M alg quantum s).currentTime = s.currentTime + 1)) := by
  have hlt := tick_time_lt procs M alg quantum s
  have hclk := execute_clock procs M alg (beforeExec procs M alg quantum s)
  simp only [clockPart, Prod.mk.injEq] at hclk
  have hb := beforeExec_clock procs M alg quantum s
  have hany := execute_any_iff procs M alg (beforeExec procs M alg quantum s)
  have hbusy : (∃ c, c < M ∧ (beforeExec procs M alg quantum s).cores.getD c none ≠ none) →
      (tick procs M alg quantum s).currentTime = s.currentTime + 1 := by
    intro hbusy
    have h1 := hany.mpr hbusy
    rw [tick_eq]
    unfold advance
    rw [if_neg (by rw [h1]; simp)]
    simp only
    rw [hclk.2.1, hb.2.1]
  have hidle : (∀ c, c < M → (beforeExec procs M alg quantum s).cores.getD c none = none) →
      ((arrive procs alg s).next_arrival < procs.length →
        (tick procs M alg quantum s).currentTime =
            arrivalOf procs (arrive procs alg s).next_arrival ∧
          s.currentTime < arrivalOf procs (arrive procs alg s).next_arrival) ∧
      (procs.length ≤ (arrive procs alg s).next_arrival →
        (tick procs M alg quantum s).currentTime = s.currentTime + 1) := by
    intro hidle
    have h1 : (execute procs M alg (beforeExec procs M alg quantum s)).any = false := by
      cases h : (execute procs M alg (beforeExec procs M alg quantum s)).any with
      | false => rfl
      | true =>
        obtain ⟨c, hc, hne⟩ := hany.mp h
        exact absurd (hidle c hc) hne
    refine ⟨?_, ?_⟩
    · intro hna
      have h2 : (execute procs M alg (beforeExec procs M alg quantum s)).next_arrival <
          procs.length := by rw [hclk.1, hb.1]; exact hna
      have h3 : (tick procs M alg quantum s).currentTime =
          arrivalOf procs (arrive procs alg s).next_arrival := by
        rw [tick_eq]
        unfold advance
        rw [if_pos ⟨h1, h2⟩]
        simp only
        rw [hclk.1, hb.1]
      exact ⟨h3, by omega⟩
    · intro hna
      rw [tick_eq]
      unfold advance
      rw [if_neg (by rw [hclk.1, hb.1]; intro h; omega)]
      simp only
      rw [hclk.2.1, hb.2.1]
  refine ⟨by omega, ?_, hbusy, hidle⟩
  by_cases hb1 : ∃ c, c < M ∧ (beforeExec procs M alg quantum s).cores.getD c none ≠ none
  · rw [hbusy hb1]; omega
  · have hall : ∀ c, c < M → (beforeExec procs M alg quantum s).cores.getD c none = none := by
      intro c hc
      by_contra e
      exact hb1 ⟨c, hc, e⟩
    by_cases hna : (arrive procs alg s).next_arrival < procs.length
    · rw [((hidle hall).1 hna).1]
      exact harr _ (getD_mem procs _ _ hna)
    · rw [(hidle hall).2 (by omega)]; omega

theorem clock_strictly_increases_witness :
    (initState [⟨0, 5, 2⟩] 1 10).currentTime < intMax ∧
    (initState [⟨0, 5, 2⟩] 1 10).currentTime <
      (tick [⟨0, 5, 2⟩] 1 "FCFS" 10 (initState [⟨0, 5, 2⟩] 1 10)).currentTime ∧
    (tick [⟨0, 5, 2⟩] 1 "FCFS" 10 (initState [⟨0, 5, 2⟩] 1 10)).currentTime = 5 ∧
    (tick [⟨0, 5, 2⟩] 1 "FCFS" 10
      (tick [⟨0, 5, 2⟩] 1 "FCFS" 10 (initState [⟨0, 5, 2⟩] 1 10))).currentTime =
      (tick [⟨0, 5, 2⟩] 1 "FCFS" 10 (initState [⟨0, 5, 2⟩] 1 10)).currentTime + 1 :=
  ⟨by decide,
    (clock_strictly_increases [⟨0, 5, 2⟩] 1 "FCFS" 10 (initState [⟨0, 5, 2⟩] 1 10)
      (by decide) (by decide)).1,
    by decide,
    (clock_strictly_increases [⟨0, 5, 2⟩] 1 "FCFS" 10
      (tick [⟨0, 5, 2⟩] 1 "FCFS" 10 (initState [⟨0, 5, 2⟩] 1 10))
      (by decide) (by decide)).2.2.1 ⟨0, by decide, by decide⟩⟩

/-! ### The body of the execution loop, branch by branch -/

theorem execCore_eq (procs : List Process) (alg : String) {s : SimState} {c p : Nat}
    (hp : s.cores.getD c none = some p) :
    execCore procs alg s c =
      if remainingAfter s p = 0 then
        { s with
          any := true,
          remaining := s.remaining.set p (s.remaining.getD p 0 - 1),
          total_busy := s.total_busy + 1,
          quantum_left := quantumAfter alg s c,
          finish := s.finish.set p (s.currentTime + 1),
          wait_times :=
            s.wait_times.set p (s.currentTime + 1 - arrivalOf procs p - burstOf procs p),
          completed := s.completed + 1,
          cores := s.cores.set c none,
          context_switches := s.context_switches + 1 }
      else if alg = "RR" ∧ (quantumAfter alg s c).getD c 0 = 0 then
        { s with
          any := true,
          remaining := s.remaining.set p (s.remaining.getD p 0 - 1),
          total_busy := s.total_busy + 1,
          quantum_left := quantumAfter alg s c,
          fq := s.fq ++ [p],
          cores := s.cores.set c none,
          context_switches := s.context_switches + 1 }
      else
        { s with
          any := true,
          remaining := s.remaining.set p (s.remaining.getD p 0 - 1),
          total_busy := s.total_busy + 1,
          quantum_left := quantumAfter alg s c } := by
  unfold execCore quantumAfter remainingAfter
  rw [hp]
  simp only
  by_cases halg : alg = "RR"
  · simp only [if_pos halg]
  · simp only [if_neg halg]

theorem remainingAfter_eq {s : SimState} {p : Nat} (h : p < s.remaining.length) :
    remainingAfter s p = s.remaining.getD p 0 - 1 := by
  unfold remainingAfter
  exact getD_set_self _ _ _ _ h

/-! ### Frames of a whole tick -/

theorem arrive_live_perm (procs : List Process) (alg : String) (s : SimState) :
    (live procs (arrive procs alg s)).Perm (live procs s) := by
  have key : ∀ (rest : List Process) (t : SimState), procs.drop t.next_arrival = rest →
      (live procs (arriveLoop alg rest t)).Perm (live procs t) := by
    intro rest
    induction rest with
    | nil => intro t _; simp only [arriveLoop]; exact List.Perm.refl _
    | cons p r ih =>
      intro t hd
      simp only [arriveLoop]
      have hd' := drop_succ_of_drop_cons hd
      split
      · split
        · refine (ih _ hd').trans ?_
          simp only [live, unadmitted, active, running, hd, hd', List.map_cons]
          rw [List.perm_iff_count]
          intro a
          simp only [List.count_append, List.count_cons, List.count_nil]
          omega
        · refine (ih _ hd').trans ?_
          simp only [live, unadmitted, active, running, hd, hd', List.map_cons]
          rw [List.perm_iff_count]
          intro a
          have := (pqPush_perm t.remaining t.sjf_pq p.pid).count_eq a
          simp only [List.count_append, List.count_cons, List.count_nil] at this ⊢
          omega
      · exact List.Perm.refl _
  exact key _ s rfl

theorem arrive_fields (procs : List Process) (alg : String) (s : SimState) :
    (arrive procs alg s).remaining = s.remaining ∧
    (arrive procs alg s).first_start = s.first_start ∧
    (arrive procs alg s).finish = s.finish ∧
    (arrive procs alg s).wait_times = s.wait_times ∧
    (arrive procs alg s).response_times = s.response_times ∧
    (arrive procs alg s).context_switches = s.context_switches ∧
    (arrive procs alg s).total_busy = s.total_busy ∧
    (arrive procs alg s).cores = s.cores ∧
    (arrive procs alg s).quantum_left = s.quantum_left ∧
    (arrive procs alg s).completed = s.completed ∧
    (arrive procs alg s).currentTime = s.currentTime := by
  have hf := arrive_frame procs alg s
  unfold ArriveFrame at hf
  have e1 := congrArg SimState.remaining hf
  have e2 := congrArg SimState.first_start hf
  have e3 := congrArg SimState.finish hf
  have e4 := congrArg SimState.wait_times hf
  have e5 := congrArg SimState.response_times hf
  have e6 := congrArg SimState.context_switches hf
  have e7 := congrArg SimState.total_busy hf
  have e8 := congrArg SimState.cores hf
  have e9 := congrArg SimState.quantum_left hf
  have e10 := congrArg SimState.completed hf
  have e11 := congrArg SimState.currentTime hf
  exact ⟨e1, e2, e3, e4, e5, e6, e7, e8, e9, e10, e11⟩

/-- The clock is the only variable that phase 5 writes. -/
theorem advance_eq (procs : List Process) (s : SimState) :
    advance procs s = { s with currentTime := (advance procs s).currentTime } := by
  unfold advance
  split <;> rfl

theorem beforeExec_fields (procs : List Process) (M : Nat) (alg : String) (quantum : Int)
    (s : SimState) :
    (beforeExec procs M alg quantum s).remaining = s.remaining ∧
    (beforeExec procs M alg quantum s).finish = s.finish ∧
    (beforeExec procs M alg quantum s).wait_times = s.wait_times ∧
    (beforeExec procs M alg quantum s).total_busy = s.total_busy ∧
    (beforeExec procs M alg quantum s).completed = s.completed ∧
    (beforeExec procs M alg quantum s).currentTime = s.currentTime := by
  have h := beforeExec_static procs M alg quantum s
  simp only [staticPart, Prod.mk.injEq] at h
  have ha := arrive_fields procs alg s
  exact ⟨h.1.trans ha.1, h.2.1.trans ha.2.2.1, h.2.2.1.trans ha.2.2.2.1,
    h.2.2.2.1.trans ha.2.2.2.2.2.2.1, h.2.2.2.2.1.trans ha.2.2.2.2.2.2.2.2.2.1,
    h.2.2.2.2.2.2.1.trans ha.2.2.2.2.2.2.2.2.2.2⟩

theorem beforeExec_inv {procs : List Process} {M : Nat} {alg : String} (quantum : Int)
    {s : SimState} (hI : Inv procs M alg s) :
    Inv procs M alg (beforeExec procs M alg quantum s) :=
  dispatch_inv (preempt_inv (arrive_inv hI))

theorem with_any_inv {procs : List Process} {M : Nat} {alg : String} {s : SimState}
    (hI : Inv procs M alg s) : Inv procs M alg { s with any := false } :=
  hI.transfer rfl rfl rfl rfl hI.len_cores (List.Perm.refl _) hI.fq_empty hI.pq_empty

/-! ### Busy ticks and bursts -/

theorem execCore_workinv {procs : List Process} {M : Nat} {alg : String} {s : SimState}
    (c : Nat) (hI : Inv procs M alg s) (h : WorkInv procs s) :
    WorkInv procs (execCore procs alg s c) := by
  cases hc : s.cores.getD c none with
  | none => rw [execCore_idle hc]; exact h
  | some p =>
    obtain ⟨hpN, hprem, hpfin⟩ := hI.live_ok p (running_mem_live procs hc)
    have hlen : p < s.remaining.length := by rw [hI.len_rem]; exact hpN
    have hra := remainingAfter_eq hlen
    have hsum := sum_set s.remaining p (s.remaining.getD p 0 - 1) hlen
    have hw := h.work
    have hother : ∀ q, q < procs.length → s.finish.getD q 0 ≠ -1 →
        (s.remaining.set p (s.remaining.getD p 0 - 1)).getD q 0 = 0 := by
      intro q hq hf
      have hne : p ≠ q := by intro e; subst e; exact hf hpfin
      rw [getD_set_ne _ _ _ _ _ hne]
      exact h.done_zero q hq hf
    rw [execCore_eq procs alg hc]
    split
    · rename_i hz
      refine ⟨by simp only; omega, ?_⟩
      intro q hq hf
      simp only at hf ⊢
      by_cases e : p = q
      · subst e; exact hz
      · rw [getD_set_ne _ _ _ _ _ e] at hf ⊢
        exact h.done_zero q hq hf
    · split
      · exact ⟨by simp only; omega, hother⟩
      · exact ⟨by simp only; omega, hother⟩

theorem tick_workinv {procs : List Process} {M : Nat} {alg : String} (quantum : Int)
    {s : SimState} (hI : Inv procs M alg s) (h : WorkInv procs s) :
    WorkInv procs (tick procs M alg quantum s) := by
  have hb := beforeExec_fields procs M alg quantum s
  have hd : WorkInv procs (beforeExec procs M alg quantum s) :=
    ⟨by rw [hb.2.2.2.1, hb.1]; exact h.work, by rw [hb.2.1, hb.1]; exact h.done_zero⟩
  have he : Inv procs M alg (execute procs M alg (beforeExec procs M alg quantum s)) ∧
      WorkInv procs (execute procs M alg (beforeExec procs M alg quantum s)) := by
    unfold execute
    exact foldl_range_preserves (P := fun t => Inv procs M alg t ∧ WorkInv procs t) M
      (fun t c _ ht => ⟨execCore_inv c ht.1, execCore_workinv c ht.1 ht.2⟩) _
      ⟨with_any_inv (beforeExec_inv quantum hI), ⟨hd.work, hd.done_zero⟩⟩
  rw [tick_eq, advance_eq]
  exact ⟨he.2.work, he.2.done_zero⟩

theorem init_workinv (procs : List Process) (M : Nat) (quantum : Int) :
    WorkInv procs (initState procs M quantum) := by
  refine ⟨by simp [initState], ?_⟩
  intro p hp hf
  exfalso
  apply hf
  simp [initState, List.getD_eq_getElem?_getD, List.getElem?_replicate, hp]

theorem reachable_workinv {procs : List Process} {M : Nat} {alg : String} {quantum : Int}
    (hid : (procs.map Process.pid).Perm (List.range procs.length))
    (hb : ∀ q ∈ procs, 1 ≤ q.burst) {s : SimState}
    (hr : Reachable procs M alg quantum s) : Inv procs M alg s ∧ WorkInv procs s := by
  induction hr with
  | init => exact ⟨init_inv procs M alg quantum hid hb, init_workinv procs M quantum⟩
  | step _ _ ih => exact ⟨tick_inv ih.1, tick_workinv quantum ih.1 ih.2⟩

theorem sum_eq_zero_of_forall (l : List Int) (h : ∀ i, i < l.length → l.getD i 0 = 0) :
    l.sum = 0 := by
  induction l with
  | nil => rfl
  | cons x t ih =>
    have h0 := h 0 (by simp)
    simp only [List.getD_cons_zero] at h0
    have := ih (fun i hi => by
      have := h (i + 1) (by simpa using hi)
      simpa using this)
    simp only [List.sum_cons]
    omega

/-- Claim C16: for each of the four policies, on a workload with ids `0..N-1` and bursts
of at least one tick, on at least one core: the run ends with `total_busy` equal to the
sum of the bursts.  At every tick of the run the busy core-ticks and the remaining bursts
add up to that sum, no process is on two cores, and a free core leaves the state as it
is. -/
theorem total_busy_is_sum_of_bursts (procs : List Process) (M : Nat) (alg : String)
    (quantum : Int) (hid : (procs.map Process.pid).Perm (List.range procs.length))
    (hb : ∀ q ∈ procs, 1 ≤ q.burst) (hM : 1 ≤ M) (hv : ValidAlg alg) :
    (∃ n s, (∀ fuel, n ≤ fuel →
        runLoop procs M alg quantum fuel (initState procs M quantum) = some s) ∧
      s.total_busy = (procs.map Process.burst).sum) ∧
    (∀ s, Reachable procs M alg quantum s →
      s.total_busy + s.remaining.sum = (procs.map Process.burst).sum ∧
      (∀ c1 c2 p, c1 < M → c2 < M → s.cores.getD c1 none = some p →
        s.cores.getD c2 none = some p → c1 = c2) ∧
      (∀ c t, t.cores.getD c none = none → execCore procs alg t c = t)) := by
  refine ⟨?_, ?_⟩
  · obtain ⟨n, s, h1, hr, hI, hc⟩ := run_ends quantum hid hb hM hv
    refine ⟨n, s, h1, ?_⟩
    obtain ⟨_, hW⟩ := reachable_workinv hid hb hr
    have hz : s.remaining.sum = 0 := by
      apply sum_eq_zero_of_forall
      intro i hi
      rw [hI.len_rem] at hi
      apply hW.done_zero i hi
      have := (hI.all_done hc).2 i hi
      have hlen : i < s.finish.length := by rw [hI.len_fin]; exact hi
      simp only [List.getD_eq_getElem?_getD, List.getElem?_eq_getElem hlen,
        Option.getD_some] at this ⊢
      omega
    have := hW.work
    omega
  · intro s hr
    obtain ⟨hI, hW⟩ := reachable_workinv hid hb hr
    refine ⟨hW.work, ?_, fun c t ht => execCore_idle ht⟩
    intro c1 c2 p _ _ h1 h2
    by_contra hne
    exact cores_distinct hI h1 h2 hne rfl

theorem total_busy_is_sum_of_bursts_witness :
    ∃ n s, (∀ fuel, n ≤ fuel →
        runLoop [⟨0, 0, 12⟩, ⟨1, 0, 4⟩] 2 "RR" 5 fuel
          (initState [⟨0, 0, 12⟩, ⟨1, 0, 4⟩] 2 5) = some s) ∧
      s.total_busy = (([⟨0, 0, 12⟩, ⟨1, 0, 4⟩] : List Process).map Process.burst).sum :=
  (total_busy_is_sum_of_bursts [⟨0, 0, 12⟩, ⟨1, 0, 4⟩] 2 "RR" 5 (List.Perm.refl _)
    (by decide) (by decide) (Or.inr (Or.inr (Or.inr rfl)))).1

/-! ### The finish tick is written once -/

theorem execCore_finish_once {procs : List Process} {M : Nat} {alg : String} {s : SimState}
    (c : Nat) (hI : Inv procs M alg s) (p : Nat) :
    (execCore procs alg s c).finish.getD p 0 = s.finish.getD p 0 ∨
      (s.finish.getD p 0 = -1 ∧
        (execCore procs alg s c).finish.getD p 0 = s.currentTime + 1) := by
  cases hc : s.cores.getD c none with
  | none => rw [execCore_idle hc]; exact Or.inl rfl
  | some q =>
    obtain ⟨hqN, _, hqfin⟩ := hI.live_ok q (running_mem_live procs hc)
    rw [execCore_eq procs alg hc]
    split
    · simp only
      by_cases e : q = p
      · subst e
        right
        exact ⟨hqfin, getD_set_self _ _ _ _ (by rw [hI.len_fin]; exact hqN)⟩
      · left
        exact getD_set_ne _ _ _ _ _ e
    · split
      · exact Or.inl rfl
      · exact Or.inl rfl

theorem execute_finish_once {procs : List Process} {M : Nat} {alg : String} {s : SimState}
    (hI : Inv procs M alg s) (p : Nat) :
    (execute procs M alg s).finish.getD p 0 = s.finish.getD p 0 ∨
      (s.finish.getD p 0 = -1 ∧
        (execute procs M alg s).finish.getD p 0 = s.currentTime + 1) := by
  have key := foldl_range_preserves
    (P := fun t => (Inv procs M alg t ∧ t.currentTime = s.currentTime) ∧
      (t.finish.getD p 0 = s.finish.getD p 0 ∨
        (s.finish.getD p 0 = -1 ∧ t.finish.getD p 0 = s.currentTime + 1)))
    (f := execCore procs alg) M
    (fun t c _ ht => by
      have hclk := execCore_clock procs alg t c
      simp only [clockPart, Prod.mk.injEq] at hclk
      refine ⟨⟨execCore_inv c ht.1.1, by rw [hclk.2.1]; exact ht.1.2⟩, ?_⟩
      rcases execCore_finish_once c ht.1.1 p with h1 | h1
      · rw [h1]; exact ht.2
      · right
        rw [ht.1.2] at h1
        rcases ht.2 with h2 | h2
        · rw [← h2]; exact h1
        · rw [h2.2] at h1
          have := ht.1.1.time_nonneg
          have := h1.1
          rw [ht.1.2] at *
          omega)
    { s with any := false } ⟨⟨with_any_inv hI, rfl⟩, Or.inl rfl⟩
  exact key.2

/-- Claim C11 as stated fails: a process of burst 0 is accepted, dispatched and run,
and at the head of the second iteration its remaining burst is `-1` while its finish
tick is still unset. -/
theorem zero_burst_goes_negative :
    Reachable [⟨0, 0, 0⟩] 1 "FCFS" 10
      (tick [⟨0, 0, 0⟩] 1 "FCFS" 10 (initState [⟨0, 0, 0⟩] 1 10)) ∧
    (tick [⟨0, 0, 0⟩] 1 "FCFS" 10 (initState [⟨0, 0, 0⟩] 1 10)).remaining = [-1] ∧
    (tick [⟨0, 0, 0⟩] 1 "FCFS" 10 (initState [⟨0, 0, 0⟩] 1 10)).finish = [-1] :=
  ⟨Reachable.step Reachable.init (by decide), by decide, by decide⟩

/-- Claim C11, amended: when every burst is at least one tick (and the ids are
`0..N-1`), in every state at the head of the loop every remaining burst is at least 0,
and a process has no finish tick exactly while its remaining burst is positive.  A finish
tick, once written, is never written again, and it is written in the iteration in which
the remaining burst reaches 0, with the value of the clock of that iteration plus one. -/
theorem remaining_nonneg_finish_once (procs : List Process) (M : Nat) (alg : String)
    (quantum : Int) (s : SimState)
    (hid : (procs.map Process.pid).Perm (List.range procs.length))
    (hb : ∀ q ∈ procs, 1 ≤ q.burst)
    (hr : Reachable procs M alg quantum s) :
    ∀ i, i < procs.length →
      0 ≤ s.remaining.getD i 0 ∧
      (s.finish.getD i 0 = -1 ↔ 1 ≤ s.remaining.getD i 0) ∧
      (s.finish.getD i 0 ≠ -1 →
        (tick procs M alg quantum s).finish.getD i 0 = s.finish.getD i 0) ∧
      (s.finish.getD i 0 = -1 → (tick procs M alg quantum s).remaining.getD i 0 = 0 →
        (tick procs M alg quantum s).finish.getD i 0 = s.currentTime + 1) ∧
      (s.finish.getD i 0 = -1 → (tick procs M alg quantum s).remaining.getD i 0 ≠ 0 →
        (tick procs M alg quantum s).finish.getD i 0 = -1) := by
  intro i hi
  obtain ⟨hI, hW⟩ := reachable_workinv hid hb hr
  have hI' : Inv procs M alg (tick procs M alg quantum s) := tick_inv hI
  have hW' : WorkInv procs (tick procs M alg quantum s) := tick_workinv quantum hI hW
  have iff_of : ∀ t : SimState, Inv procs M alg t → WorkInv procs t →
      (0 ≤ t.remaining.getD i 0 ∧ (t.finish.getD i 0 = -1 ↔ 1 ≤ t.remaining.getD i 0)) := by
    intro t hIt hWt
    have h0 : 0 ≤ t.remaining.getD i 0 :=
      hIt.rem_nonneg _ (getD_mem _ _ _ (by rw [hIt.len_rem]; exact hi))
    refine ⟨h0, ?_, ?_⟩
    · intro hf
      by_contra hlt
      have hnl : i ∉ live procs t := fun hm => hlt (hIt.live_ok i hm).2.1
      have := hIt.done_ok i hi hnl
      omega
    · intro hrem
      by_contra hf
      have := hWt.done_zero i hi hf
      omega
  have hb' := beforeExec_fields procs M alg quantum s
  have honce := execute_finish_once (beforeExec_inv quantum hI) i
  rw [hb'.2.1, hb'.2.2.2.2.2] at honce
  have hfin : (tick procs M alg quantum s).finish =
      (execute procs M alg (beforeExec procs M alg quantum s)).finish := by
    rw [tick_eq, advance_eq]
  rw [← hfin] at honce
  obtain ⟨a1, a2⟩ := iff_of s hI hW
  obtain ⟨b1, b2⟩ := iff_of _ hI' hW'
  refine ⟨a1, a2, ?_, ?_, ?_⟩
  · intro hne
    rcases honce with h | h
    · exact h
    · exact absurd h.1 hne
  · intro hf hz
    rcases honce with h | h
    · rw [h, hf] at b2
      have := b2.mp rfl
      omega
    · exact h.2
  · intro hf hnz
    exact b2.mpr (by omega)

theorem remaining_nonneg_finish_once_witness :
    0 ≤ (initState [⟨0, 0, 1⟩] 1 10).remaining.getD 0 0 ∧
    (tick [⟨0, 0, 1⟩] 1 "FCFS" 10 (initState [⟨0, 0, 1⟩] 1 10)).finish.getD 0 0 =
      (initState [⟨0, 0, 1⟩] 1 10).currentTime + 1 :=
  ⟨(remaining_nonneg_finish_once [⟨0, 0, 1⟩] 1 "FCFS" 10 (initState [⟨0, 0, 1⟩] 1 10)
      (List.Perm.refl _) (by decide) Reachable.init 0 (by decide)).1,
   (remaining_nonneg_finish_once [⟨0, 0, 1⟩] 1 "FCFS" 10 (initState [⟨0, 0, 1⟩] 1 10)
      (List.Perm.refl _) (by decide) Reachable.init 0 (by decide)).2.2.2.1
      (by decide) (by decide)⟩

/-! ### Ids in range, whatever the workload -/

theorem mem_reduceOption_set {cores : List (Option Nat)} {c x : Nat} {v : Option Nat}
    (h : x ∈ (cores.set c v).reduceOption) : x ∈ cores.reduceOption ∨ v = some x := by
  rw [List.reduceOption_mem_iff] at h
  rcases List.mem_or_eq_of_mem_set h with h1 | h1
  · exact Or.inl (List.reduceOption_mem_iff.mpr h1)
  · exact Or.inr h1.symm

/-- The entries of the containers and of the cores after phase 1 were there before or
belong to the processes just taken from the input. -/
theorem arriveLoop_active_mem (alg : String) :
    ∀ (rest : List Process) (s : SimState) (x : Nat), x ∈ active (arriveLoop alg rest s) →
      x ∈ active s ∨ x ∈ rest.map Process.pid := by
  intro rest
  induction rest with
  | nil => intro s x hx; simp only [arriveLoop] at hx; exact Or.inl hx
  | cons p t ih =>
    intro s x hx
    simp only [arriveLoop] at hx
    split at hx
    · split at hx
      · rcases ih _ x hx with h | h
        · simp only [active, running, List.mem_append, List.mem_singleton] at h ⊢
          rcases h with (h | h) | h | h
          · exact Or.inl (Or.inl h)
          · exact Or.inr (by simp [h])
          · exact Or.inl (Or.inr (Or.inl h))
          · exact Or.inl (Or.inr (Or.inr h))
        · exact Or.inr (List.mem_cons_of_mem _ h)
      · rcases ih _ x hx with h | h
        · simp only [active, running, List.mem_append] at h ⊢
          rcases h with h | h | h
          · exact Or.inl (Or.inl h)
          · rcases List.mem_cons.mp ((pqPush_perm s.remaining s.sjf_pq p.pid).mem_iff.mp h)
              with e | e
            · exact Or.inr (by simp [e])
            · exact Or.inl (Or.inr (Or.inl e))
          · exact Or.inl (Or.inr (Or.inr h))
        · exact Or.inr (List.mem_cons_of_mem _ h)
    · exact Or.inl hx

theorem preemptCore_active_mem (quantum : Int) (s : SimState) (c x : Nat)
    (hx : x ∈ active (preemptCore quantum s c)) : x ∈ active s := by
  unfold preemptCore at hx
  split at hx
  · exact hx
  · rename_i p hp
    split at hx
    · simp only [active, running, List.nil_append, List.mem_append] at hx ⊢
      rcases hx with h | h
      · rcases List.mem_cons.mp ((pqPush_perm s.remaining s.sjf_pq p).mem_iff.mp h) with e | e
        · subst e; exact Or.inr (Or.inr (mem_reduceOption_of_getD s.cores c x hp))
        · exact Or.inr (Or.inl e)
      · rcases mem_reduceOption_set h with e | e
        · exact Or.inr (Or.inr e)
        · cases e
    · exact hx

theorem assign_active_mem (procs : List Process) (c pid : Nat) (s : SimState) (x : Nat)
    (hx : x ∈ active (assign procs c pid s)) : x ∈ active s ∨ x = pid := by
  simp only [active, running, (assign_queues procs c pid s).1,
    (assign_queues procs c pid s).2, assign_cores, List.mem_append] at hx ⊢
  rcases hx with h | h | h
  · exact Or.inl (Or.inl h)
  · exact Or.inl (Or.inr (Or.inl h))
  · rcases mem_reduceOption_set h with e | e
    · exact Or.inl (Or.inr (Or.inr e))
    · injection e with e; exact Or.inr e.symm

theorem mem_of_mem_tail' {l : List Nat} {x : Nat} (h : x ∈ l.tail) : x ∈ l := by
  cases l with
  | nil => simp at h
  | cons a t => exact List.mem_cons_of_mem _ h

theorem getD_zero_mem {l : List Nat} (h : l ≠ []) : l.getD 0 0 ∈ l := by
  cases l with
  | nil => exact absurd rfl h
  | cons a t => simp

theorem dispatchCore_active_mem (procs : List Process) (alg : String) (quantum : Int)
    (s : SimState) (c x : Nat) (hx : x ∈ active (dispatchCore procs alg quantum s c)) :
    x ∈ active s := by
  unfold dispatchCore at hx
  split at hx
  · exact hx
  · split_ifs at hx with h1 h2 h3 h4
    · rcases assign_active_mem _ _ _ _ _ hx with h | h
      · simp only [active, running, List.mem_append] at h ⊢
        rcases h with h | h
        · exact Or.inl (mem_of_mem_tail' h)
        · exact Or.inr h
      · subst h
        simp only [active, List.mem_append]
        exact Or.inl (getD_zero_mem h1.2)
    · have hp := pqPop_perm s.remaining s.sjf_pq h3
      rcases assign_active_mem _ _ _ _ _ hx with h | h
      · simp only [active, running, List.mem_append] at h ⊢
        rcases h with h | h | h
        · exact Or.inl h
        · exact Or.inr (Or.inl (hp.mem_iff.mpr (List.mem_cons_of_mem _ h)))
        · exact Or.inr (Or.inr h)
      · subst h
        simp only [active, List.mem_append]
        exact Or.inr (Or.inl (hp.mem_iff.mpr (List.mem_cons_self _ _)))
    · exact hx
    · rcases assign_active_mem _ _ _ _ _ hx with h | h
      · simp only [active, running, List.mem_append] at h ⊢
        rcases h with h | h
        · exact Or.inl (mem_of_mem_tail' h)
        · exact Or.inr h
      · subst h
        simp only [active, List.mem_append]
        exact Or.inl (getD_zero_mem h4.2)
    · exact hx

theorem execCore_active_mem (procs : List Process) (alg : String) (s : SimState) (c x : Nat)
    (hx : x ∈ active (execCore procs alg s c)) : x ∈ active s := by
  cases hc : s.cores.getD c none with
  | none => rw [execCore_idle hc] at hx; exact hx
  | some p =>
    have hpr := mem_reduceOption_of_getD s.cores c p hc
    rw [execCore_eq procs alg hc] at hx
    split at hx
    · simp only [active, running, List.mem_append] at hx ⊢
      rcases hx with h | h | h
      · exact Or.inl h
      · exact Or.inr (Or.inl h)
      · rcases mem_reduceOption_set h with e | e
        · exact Or.inr (Or.inr e)
        · cases e
    · split at hx
      · simp only [active, running, List.mem_append, List.mem_singleton] at hx ⊢
        rcases hx with (h | h) | h | h
        · exact Or.inl h
        · subst h; exact Or.inr (Or.inr hpr)
        · exact Or.inr (Or.inl h)
        · rcases mem_reduceOption_set h with e | e
          · exact Or.inr (Or.inr e)
          · cases e
      · exact hx

theorem foldl_active_mem {f : SimState → Nat → SimState}
    (hf : ∀ s c x, x ∈ active (f s c) → x ∈ active s) (l : List Nat) (s : SimState)
    (x : Nat) (hx : x ∈ active (l.foldl f s)) : x ∈ active s := by
  induction l generalizing s with
  | nil => exact hx
  | cons a t ih =>
    simp only [List.foldl_cons] at hx
    exact hf s a x (ih _ hx)

/-- At the start of the execution phase the containers and the cores hold ids that
were there at the head of the tick or that belong to the input. -/
theorem beforeExec_active_mem (procs : List Process) (M : Nat) (alg : String)
    (quantum : Int) (s : SimState) (x : Nat)
    (hx : x ∈ active (beforeExec procs M alg quantum s)) :
    x ∈ active s ∨ x ∈ procs.map Process.pid := by
  unfold beforeExec dispatch at hx
  have h1 := foldl_active_mem (dispatchCore_active_mem procs alg quantum) _ _ x hx
  have h2 : x ∈ active (arrive procs alg s) := by
    unfold preempt at h1
    split at h1
    · exact foldl_active_mem (preemptCore_active_mem quantum) _ _ x h1
    · exact h1
  rcases arriveLoop_active_mem alg _ s x h2 with h | h
  · exact Or.inl h
  · right
    rw [List.mem_map] at h ⊢
    obtain ⟨q, hq, e⟩ := h
    exact ⟨q, List.mem_of_mem_drop hq, e⟩

/-! ### The final clock -/

theorem execCore_execRange {procs : List Process} {t0 : Int} {c0 : Nat} (alg : String)
    {t : SimState} (c : Nat) (h : ExecRange procs t0 c0 t) :
    ExecRange procs t0 c0 (execCore procs alg t c) := by
  cases hc : t.cores.getD c none with
  | none => rw [execCore_idle hc]; exact h
  | some p =>
    have hpN : p < procs.length := by
      apply h.act_lt
      simp only [active, running, List.mem_append]
      exact Or.inr (Or.inr (mem_reduceOption_of_getD t.cores c p hc))
    have hact : ∀ x ∈ active (execCore procs alg t c), x < procs.length :=
      fun x hx => h.act_lt x (execCore_active_mem procs alg t c x hx)
    have hclk := execCore_clock procs alg t c
    simp only [clockPart, Prod.mk.injEq] at hclk
    refine ⟨?_, hact, ?_, by rw [hclk.2.1]; exact h.time_eq, ?_⟩
    · rw [execCore_eq procs alg hc]
      split
      · simp [h.len_fin]
      · split <;> exact h.len_fin
    · rw [execCore_eq procs alg hc]
      split
      · intro x hx
        simp only at hx
        rcases List.mem_or_eq_of_mem_set hx with e | e
        · exact h.fin_le x e
        · rw [e, h.time_eq]
      · split <;> exact h.fin_le
    · rw [execCore_eq procs alg hc]
      split
      · right
        simp only
        refine ⟨trivial, p, hpN, ?_⟩
        rw [getD_set_self _ _ _ _ (by rw [h.len_fin]; exact hpN), h.time_eq]
      · have hp := h.progress
        split
        · rcases hp with e | ⟨_, e⟩
          · exact Or.inl e
          · exact Or.inr ⟨rfl, e⟩
        · rcases hp with e | ⟨_, e⟩
          · exact Or.inl e
          · exact Or.inr ⟨rfl, e⟩

theorem tick_rangeinv {procs : List Process} (M : Nat) (alg : String) (quantum : Int)
    (hrange : ∀ q ∈ procs, q.pid < procs.length) {s : SimState} (h : RangeInv procs s) :
    RangeInv procs (tick procs M alg quantum s) ∧
    ((tick procs M alg quantum s).completed ≠ s.completed →
      (tick procs M alg quantum s).currentTime = s.currentTime + 1 ∧
      ∃ p, p < procs.length ∧
        (tick procs M alg quantum s).finish.getD p 0 = s.currentTime + 1) := by
  have hb := beforeExec_fields procs M alg quantum s
  have hd : ExecRange procs s.currentTime s.completed
      { beforeExec procs M alg quantum s with any := false } := by
    refine ⟨by simp only; rw [hb.2.1]; exact h.len_fin, ?_, ?_, hb.2.2.2.2.2,
      Or.inl hb.2.2.2.2.1⟩
    · intro p hp
      have hp' : p ∈ active (beforeExec procs M alg quantum s) := hp
      rcases beforeExec_active_mem procs M alg quantum s p hp' with e | e
      · exact h.act_lt p e
      · rw [List.mem_map] at e
        obtain ⟨q, hq, rfl⟩ := e
        exact hrange q hq
    · intro x hx
      have hx' : x ∈ (beforeExec procs M alg quantum s).finish := hx
      rw [hb.2.1] at hx'
      have := h.fin_le x hx'
      omega
  have he : ExecRange procs s.currentTime s.completed
      (execute procs M alg (beforeExec procs M alg quantum s)) := by
    unfold execute
    exact foldl_range_preserves M (fun t c _ ht => execCore_execRange alg c ht) _ hd
  have hlt := tick_time_lt procs M alg quantum s
  have h0 := h.time_nonneg
  have hadv := advance_eq procs (execute procs M alg (beforeExec procs M alg quantum s))
  have hfin : (tick procs M alg quantum s).finish =
      (execute procs M alg (beforeExec procs M alg quantum s)).finish := by
    rw [tick_eq, hadv]
  have hact : active (tick procs M alg quantum s) =
      active (execute procs M alg (beforeExec procs M alg quantum s)) := by
    rw [tick_eq, hadv]; rfl
  have hcomp : (tick procs M alg quantum s).completed =
      (execute procs M alg (beforeExec procs M alg quantum s)).completed := by
    rw [tick_eq, hadv]
  refine ⟨⟨by rw [hfin]; exact he.len_fin, by rw [hact]; exact he.act_lt, ?_, by omega⟩, ?_⟩
  · intro x hx
    rw [hfin] at hx
    have := he.fin_le x hx
    omega
  · intro hne
    rw [hcomp] at hne
    rcases he.progress with e | ⟨hany, p, hp, hf⟩
    · exact absurd e hne
    · refine ⟨?_, p, hp, by rw [hfin]; exact hf⟩
      rw [tick_eq]
      unfold advance
      rw [if_neg (by rw [hany]; simp)]
      simp only
      rw [he.time_eq]

theorem init_rangeinv (procs : List Process) (M : Nat) (quantum : Int) :
    RangeInv procs (initState procs M quantum) := by
  refine ⟨by simp [initState], ?_, ?_, by simp [initState]⟩
  · intro p hp
    simp [active, running, initState, reduceOption_replicate_none] at hp
  · intro x hx
    simp only [initState, List.mem_replicate] at hx
    rw [hx.2]
    simp [initState]

theorem reachable_rangeinv {procs : List Process} {M : Nat} {alg : String} {quantum : Int}
    (hrange : ∀ q ∈ procs, q.pid < procs.length) {s : SimState}
    (hr : Reachable procs M alg quantum s) : RangeInv procs s := by
  induction hr with
  | init => exact init_rangeinv procs M quantum
  | step _ _ ih => exact (tick_rangeinv M alg quantum hrange ih).1

/-- Claim C19: on a non-empty workload whose ids are in range, whenever the run ends
with a clock that has not passed `intMax` (the clock never decreases, so it has stayed
within the `int` of the source all along), no finish tick exceeds the final clock and
some process has the final clock as its finish tick: the final clock is the largest
finish tick, and it is the denominator of the returned throughput and utilization. -/
theorem final_clock_is_max_finish (procs : List Process) (M : Nat) (alg : String)
    (quantum : Int) (fuel : Nat) (s : SimState) (hne : procs ≠ [])
    (hrange : ∀ q ∈ procs, q.pid < procs.length)
    (hrun : runLoop procs M alg quantum fuel (initState procs M quantum) = some s)
    (hfit : s.currentTime ≤ intMax) :
    (∀ i, i < procs.length →
      s.finish.getD i 0 ≤ s.currentTime ∧ s.finish.getD i 0 ≤ intMax) ∧
    (∃ i, i < procs.length ∧ s.finish.getD i 0 = s.currentTime) ∧
    (metricsOf procs M s).throughput = ddiv (procs.length : Int) s.currentTime ∧
    (metricsOf procs M s).cpu_util = ddiv s.total_busy ((M : Int) * s.currentTime) := by
  obtain ⟨hr, hc⟩ := runLoop_reachable procs M alg quantum _ _ _ Reachable.init hrun
  have hR := reachable_rangeinv hrange hr
  have hN : 0 < procs.length := List.length_pos.mpr hne
  refine ⟨?_, ?_, rfl, rfl⟩
  · intro i hi
    have hle : s.finish.getD i 0 ≤ s.currentTime :=
      hR.fin_le _ (getD_mem _ _ _ (by rw [hR.len_fin]; exact hi))
    exact ⟨hle, le_trans hle hfit⟩
  · cases hr with
    | init => simp only [initState] at hc; omega
    | step hprev hlt =>
      rename_i t
      have hRt := reachable_rangeinv hrange hprev
      obtain ⟨h1, p, hp, hf⟩ := (tick_rangeinv M alg quantum hrange hRt).2 (by omega)
      exact ⟨p, hp, by rw [hf, h1]⟩

theorem final_clock_is_max_finish_witness :
    runLoop [⟨0, 0, 2⟩, ⟨1, 1, 3⟩, ⟨2, 1, 1⟩] 2 "FCFS" 10 4
        (initState [⟨0, 0, 2⟩, ⟨1, 1, 3⟩, ⟨2, 1, 1⟩] 2 10) =
      some (runTicks [⟨0, 0, 2⟩, ⟨1, 1, 3⟩, ⟨2, 1, 1⟩] 2 "FCFS" 10 4
        (initState [⟨0, 0, 2⟩, ⟨1, 1, 3⟩, ⟨2, 1, 1⟩] 2 10)) ∧
    (runTicks [⟨0, 0, 2⟩, ⟨1, 1, 3⟩, ⟨2, 1, 1⟩] 2 "FCFS" 10 4
        (initState [⟨0, 0, 2⟩, ⟨1, 1, 3⟩, ⟨2, 1, 1⟩] 2 10)).finish = [2, 4, 3] ∧
    (runTicks [⟨0, 0, 2⟩, ⟨1, 1, 3⟩, ⟨2, 1, 1⟩] 2 "FCFS" 10 4
        (initState [⟨0, 0, 2⟩, ⟨1, 1, 3⟩, ⟨2, 1, 1⟩] 2 10)).currentTime = 4 ∧
    (∀ i, i < ([⟨0, 0, 2⟩, ⟨1, 1, 3⟩, ⟨2, 1, 1⟩] : List Process).length →
      (runTicks [⟨0, 0, 2⟩, ⟨1, 1, 3⟩, ⟨2, 1, 1⟩] 2 "FCFS" 10 4
          (initState [⟨0, 0, 2⟩, ⟨1, 1, 3⟩, ⟨2, 1, 1⟩] 2 10)).finish.getD i 0 ≤
        (runTicks [⟨0, 0, 2⟩, ⟨1, 1, 3⟩, ⟨2, 1, 1⟩] 2 "FCFS" 10 4
          (initState [⟨0, 0, 2⟩, ⟨1, 1, 3⟩, ⟨2, 1, 1⟩] 2 10)).currentTime ∧
      (runTicks [⟨0, 0, 2⟩, ⟨1, 1, 3⟩, ⟨2, 1, 1⟩] 2 "FCFS" 10 4
          (initState [⟨0, 0, 2⟩, ⟨1, 1, 3⟩, ⟨2, 1, 1⟩] 2 10)).finish.getD i 0 ≤ intMax) ∧
    (∃ i, i < ([⟨0, 0, 2⟩, ⟨1, 1, 3⟩, ⟨2, 1, 1⟩] : List Process).length ∧
      (runTicks [⟨0, 0, 2⟩, ⟨1, 1, 3⟩, ⟨2, 1, 1⟩] 2 "FCFS" 10 4
          (initState [⟨0, 0, 2⟩, ⟨1, 1, 3⟩, ⟨2, 1, 1⟩] 2 10)).finish.getD i 0 =
        (runTicks [⟨0, 0, 2⟩, ⟨1, 1, 3⟩, ⟨2, 1, 1⟩] 2 "FCFS" 10 4
          (initState [⟨0, 0, 2⟩, ⟨1, 1, 3⟩, ⟨2, 1, 1⟩] 2 10)).currentTime) :=
  ⟨by decide, by decide, by decide,
   (final_clock_is_max_finish [⟨0, 0, 2⟩, ⟨1, 1, 3⟩, ⟨2, 1, 1⟩] 2 "FCFS" 10 4
      (runTicks [⟨0, 0, 2⟩, ⟨1, 1, 3⟩, ⟨2, 1, 1⟩] 2 "FCFS" 10 4
        (initState [⟨0, 0, 2⟩, ⟨1, 1, 3⟩, ⟨2, 1, 1⟩] 2 10))
      (by decide) (by decide) (by decide) (by decide)).1,
   (final_clock_is_max_finish [⟨0, 0, 2⟩, ⟨1, 1, 3⟩, ⟨2, 1, 1⟩] 2 "FCFS" 10 4
      (runTicks [⟨0, 0, 2⟩, ⟨1, 1, 3⟩, ⟨2, 1, 1⟩] 2 "FCFS" 10 4
        (initState [⟨0, 0, 2⟩, ⟨1, 1, 3⟩, ⟨2, 1, 1⟩] 2 10))
      (by decide) (by decide) (by decide) (by decide)).2.1⟩

/-! ### No process is taken up before it arrives -/

theorem arriveLoop_arrinv {procs : List Process} (alg : String)
    (hid : procs.map Process.pid = List.range procs.length) :
    ∀ (rest : List Process) (s : SimState), procs.drop s.next_arrival = rest →
      ArrInv procs s → ArrInv procs (arriveLoop alg rest s) := by
  intro rest
  induction rest with
  | nil => intro s _ h; simpa [arriveLoop] using h
  | cons p t ih =>
    intro s hd h
    simp only [arriveLoop]
    have hd' := drop_succ_of_drop_cons hd
    obtain ⟨hn, hpid⟩ := pid_of_drop_cons hid hd
    have harr := (arrivalOf_of_drop_cons hd).2
    split
    · rename_i hle
      have hstep : ∀ t' : SimState, t'.next_arrival = s.next_arrival + 1 →
          t'.first_start = s.first_start → t'.response_times = s.response_times →
          t'.currentTime = s.currentTime →
          (∀ x ∈ active t', x ∈ active s ∨ x = p.pid) → ArrInv procs t' := by
        intro t' e1 e2 e3 e4 hact
        refine ⟨by rw [e2]; exact h.len_fs, by rw [e3]; exact h.len_rt, by omega, ?_, ?_, ?_,
          by rw [e2, e3]; exact h.rt_zero, by rw [e4]; exact h.time_nonneg⟩
        · intro x hx
          rcases hact x hx with e | e
          · have := h.act_lt x e; omega
          · omega
        · intro i hi
          rw [e4]
          by_cases e : i = s.next_arrival
          · rw [e, harr]; exact hle
          · exact h.arrived i (by omega)
        · intro q hq hf
          rw [e2] at hf
          rw [e1, e2, e3, e4]
          have := h.fs_ok q hq hf
          exact ⟨by omega, this.2⟩
      split
      · apply ih _ hd'
        refine hstep _ ?_ ?_ ?_ ?_ ?_
        · rfl
        · rfl
        · rfl
        · rfl
        intro x hx
        simp only [active, running, List.mem_append, List.mem_singleton] at hx ⊢
        rcases hx with (e | e) | e | e
        · exact Or.inl (Or.inl e)
        · exact Or.inr e
        · exact Or.inl (Or.inr (Or.inl e))
        · exact Or.inl (Or.inr (Or.inr e))
      · apply ih _ hd'
        refine hstep _ ?_ ?_ ?_ ?_ ?_
        · rfl
        · rfl
        · rfl
        · rfl
        intro x hx
        simp only [active, running, List.mem_append] at hx ⊢
        rcases hx with e | e | e
        · exact Or.inl (Or.inl e)
        · rcases List.mem_cons.mp ((pqPush_perm s.remaining s.sjf_pq p.pid).mem_iff.mp e)
            with e' | e'
          · exact Or.inr e'
          · exact Or.inl (Or.inr (Or.inl e'))
        · exact Or.inl (Or.inr (Or.inr e))
    · exact h

theorem preemptCore_first_start (quantum : Int) (s : SimState) (c : Nat) :
    (preemptCore quantum s c).first_start = s.first_start ∧
      (preemptCore quantum s c).response_times = s.response_times := by
  unfold preemptCore
  split
  · exact ⟨rfl, rfl⟩
  · split <;> exact ⟨rfl, rfl⟩

theorem preemptCore_arrinv {procs : List Process} (quantum : Int) {s : SimState} (c : Nat)
    (h : ArrInv procs s) : ArrInv procs (preemptCore quantum s c) := by
  have hst := preemptCore_static quantum s c
  simp only [staticPart, Prod.mk.injEq] at hst
  obtain ⟨e1, e2⟩ := preemptCore_first_start quantum s c
  exact ⟨by rw [e1]; exact h.len_fs, by rw [e2]; exact h.len_rt,
    by rw [hst.2.2.2.2.2.1]; exact h.na_le,
    fun x hx => by
      rw [hst.2.2.2.2.2.1]; exact h.act_lt x (preemptCore_active_mem quantum s c x hx),
    by rw [hst.2.2.2.2.2.1, hst.2.2.2.2.2.2.1]; exact h.arrived,
    by rw [hst.2.2.2.2.2.1, hst.2.2.2.2.2.2.1, e1, e2]; exact h.fs_ok,
    by rw [e1, e2]; exact h.rt_zero,
    by rw [hst.2.2.2.2.2.2.1]; exact h.time_nonneg⟩

/-- The two shapes of the result of the body of the dispatch loop, for any policy. -/
theorem dispatchCore_shape (procs : List Process) (alg : String) (quantum : Int)
    (s : SimState) (c : Nat) :
    dispatchCore procs alg quantum s c = s ∨
    (s.cores.getD c none = none ∧ ∃ pid s1,
      dispatchCore procs alg quantum s c = assign procs c pid s1 ∧
      pid ∈ s.fq ++ s.sjf_pq ∧ s1.first_start = s.first_start ∧
      s1.response_times = s.response_times ∧ s1.currentTime = s.currentTime ∧
      s1.next_arrival = s.next_arrival ∧ s1.cores = s.cores ∧
      s1.context_switches = s.context_switches ∧ s1.remaining = s.remaining) := by
  unfold dispatchCore
  split
  · exact Or.inl rfl
  · rename_i hfree
    split_ifs with h1 h2 h3 h4
    · exact Or.inr ⟨hfree, _, _, rfl, List.mem_append_left _ (getD_zero_mem h1.2),
        rfl, rfl, rfl, rfl, rfl, rfl, rfl⟩
    · refine Or.inr ⟨hfree, _, _, rfl, List.mem_append_right _ ?_,
        rfl, rfl, rfl, rfl, rfl, rfl, rfl⟩
      exact (pqPop_perm s.remaining s.sjf_pq h3).mem_iff.mpr (List.mem_cons_self _ _)
    · exact Or.inl rfl
    · exact Or.inr ⟨hfree, _, _, rfl, List.mem_append_left _ (getD_zero_mem h4.2),
        rfl, rfl, rfl, rfl, rfl, rfl, rfl⟩
    · exact Or.inl rfl

theorem assign_response (procs : List Process) (c pid : Nat) (s : SimState) :
    (assign procs c pid s).response_times =
      if s.first_start.getD pid 0 < 0 then
        s.response_times.set pid (s.currentTime - arrivalOf procs pid)
      else s.response_times := by
  unfold assign
  simp only
  split <;> rfl

theorem dispatchCore_arrinv {procs : List Process} (alg : String) (quantum : Int)
    {s : SimState} (c : Nat) (h : ArrInv procs s) :
    ArrInv procs (dispatchCore procs alg quantum s c) := by
  have hst := dispatchCore_static procs alg quantum s c
  simp only [staticPart, Prod.mk.injEq] at hst
  have hact : ∀ x ∈ active (dispatchCore procs alg quantum s c), x < s.next_arrival :=
    fun x hx => h.act_lt x (dispatchCore_active_mem procs alg quantum s c x hx)
  rcases dispatchCore_shape procs alg quantum s c with
    he | ⟨_, pid, s1, he, hmem, hfs, hrt, ht, hna, _, _, _⟩
  · rw [he]; exact h
  · have hpid_act : pid ∈ active s := by
      simp only [active, List.mem_append] at hmem ⊢
      rcases hmem with e | e
      · exact Or.inl e
      · exact Or.inr (Or.inl e)
    have hpid_lt := h.act_lt pid hpid_act
    have hna_le := h.na_le
    have hpidN : pid < procs.length := by omega
    have e1 : (dispatchCore procs alg quantum s c).first_start =
        if s.first_start.getD pid 0 < 0 then s.first_start.set pid s.currentTime
        else s.first_start := by
      rw [he, assign_first_start, hfs, ht]
    have e2 : (dispatchCore procs alg quantum s c).response_times =
        if s.first_start.getD pid 0 < 0 then
          s.response_times.set pid (s.currentTime - arrivalOf procs pid)
        else s.response_times := by
      rw [he, assign_response, hfs, hrt, ht]
    by_cases hneg : s.first_start.getD pid 0 < 0
    · rw [if_pos hneg] at e1 e2
      have hself1 : (s.first_start.set pid s.currentTime).getD pid 0 = s.currentTime :=
        getD_set_self _ _ _ _ (by rw [h.len_fs]; exact hpidN)
      have hself2 : (s.response_times.set pid (s.currentTime - arrivalOf procs pid)).getD
          pid 0 = s.currentTime - arrivalOf procs pid :=
        getD_set_self _ _ _ _ (by rw [h.len_rt]; exact hpidN)
      have ht0 := h.time_nonneg
      refine ⟨by rw [e1]; simp [h.len_fs], by rw [e2]; simp [h.len_rt],
        by rw [hst.2.2.2.2.2.1]; exact hna_le,
        by rw [hst.2.2.2.2.2.1]; exact hact,
        by rw [hst.2.2.2.2.2.1, hst.2.2.2.2.2.2.1]; exact h.arrived, ?_, ?_,
        by rw [hst.2.2.2.2.2.2.1]; exact ht0⟩
      · intro q hq hf
        rw [hst.2.2.2.2.2.1, hst.2.2.2.2.2.2.1, e1, e2]
        rw [e1] at hf
        by_cases e : pid = q
        · subst e
          rw [hself1, hself2]
          exact ⟨hpid_lt, ht0, h.arrived pid hpid_lt, le_refl _, rfl⟩
        · rw [getD_set_ne _ _ _ _ _ e] at hf ⊢
          rw [getD_set_ne _ _ _ _ _ e]
          exact h.fs_ok q hq hf
      · intro q hq hf
        rw [e1] at hf
        rw [e2]
        by_cases e : pid = q
        · subst e; rw [hself1] at hf; omega
        · rw [getD_set_ne _ _ _ _ _ e] at hf ⊢
          exact h.rt_zero q hq hf
    · rw [if_neg hneg] at e1 e2
      exact ⟨by rw [e1]; exact h.len_fs, by rw [e2]; exact h.len_rt,
        by rw [hst.2.2.2.2.2.1]; exact hna_le,
        by rw [hst.2.2.2.2.2.1]; exact hact,
        by rw [hst.2.2.2.2.2.1, hst.2.2.2.2.2.2.1]; exact h.arrived,
        by rw [hst.2.2.2.2.2.1, hst.2.2.2.2.2.2.1, e1, e2]; exact h.fs_ok,
        by rw [e1, e2]; exact h.rt_zero,
        by rw [hst.2.2.2.2.2.2.1]; exact h.time_nonneg⟩

theorem execCore_arrinv {procs : List Process} (alg : String) {s : SimState} (c : Nat)
    (h : ArrInv procs s) : ArrInv procs (execCore procs alg s c) := by
  have hclk := execCore_clock procs alg s c
  simp only [clockPart, Prod.mk.injEq] at hclk
  exact ⟨by rw [hclk.2.2.1]; exact h.len_fs, by rw [hclk.2.2.2.1]; exact h.len_rt,
    by rw [hclk.1]; exact h.na_le,
    fun x hx => by rw [hclk.1]; exact h.act_lt x (execCore_active_mem procs alg s c x hx),
    by rw [hclk.1, hclk.2.1]; exact h.arrived,
    by rw [hclk.1, hclk.2.1, hclk.2.2.1, hclk.2.2.2.1]; exact h.fs_ok,
    by rw [hclk.2.2.1, hclk.2.2.2.1]; exact h.rt_zero,
    by rw [hclk.2.1]; exact h.time_nonneg⟩

theorem beforeExec_arrinv {procs : List Process} (M : Nat) (alg : String) (quantum : Int)
    (hid : procs.map Process.pid = List.range procs.length) {s : SimState}
    (h : ArrInv procs s) : ArrInv procs (beforeExec procs M alg quantum s) := by
  have ha : ArrInv procs (arrive procs alg s) := arriveLoop_arrinv alg hid _ s rfl h
  have hp : ArrInv procs (preempt M alg quantum (arrive procs alg s)) := by
    unfold preempt
    split
    · exact foldl_range_preserves M (fun t c _ ht => preemptCore_arrinv quantum c ht) _ ha
    · exact ha
  exact foldl_range_preserves M (fun t c _ ht => dispatchCore_arrinv alg quantum c ht) _ hp

theorem tick_arrinv {procs : List Process} (M : Nat) (alg : String) (quantum : Int)
    (hid : procs.map Process.pid = List.range procs.length) {s : SimState}
    (h : ArrInv procs s) : ArrInv procs (tick procs M alg quantum s) := by
  have hd := beforeExec_arrinv M alg quantum hid h
  have he : ArrInv procs (execute procs M alg (beforeExec procs M alg quantum s)) := by
    unfold execute
    refine foldl_range_preserves M (fun t c _ ht => execCore_arrinv alg c ht) _ ?_
    exact ⟨hd.len_fs, hd.len_rt, hd.na_le, hd.act_lt, hd.arrived, hd.fs_ok, hd.rt_zero,
      hd.time_nonneg⟩
  have hlt := tick_time_lt procs M alg quantum s
  have hclk := execute_clock procs M alg (beforeExec procs M alg quantum s)
  simp only [clockPart, Prod.mk.injEq] at hclk
  have hb := beforeExec_clock procs M alg quantum s
  have het : (execute procs M alg (beforeExec procs M alg quantum s)).currentTime =
      s.currentTime := by rw [hclk.2.1, hb.2.1]
  have h0 := h.time_nonneg
  have hadv := advance_eq procs (execute procs M alg (beforeExec procs M alg quantum s))
  rw [tick_eq] at hlt ⊢
  generalize (advance procs
    (execute procs M alg (beforeExec procs M alg quantum s))).currentTime = t' at hadv hlt
  rw [hadv]
  refine ⟨he.len_fs, he.len_rt, he.na_le, he.act_lt, ?_, ?_, he.rt_zero, by simp only; omega⟩
  · intro i hi
    have := he.arrived i hi
    simp only
    omega
  · intro p hp hf
    have := he.fs_ok p hp hf
    simp only
    refine ⟨this.1, this.2.1, this.2.2.1, by omega, this.2.2.2.2⟩

theorem init_arrinv (procs : List Process) (M : Nat) (quantum : Int) :
    ArrInv procs (initState procs M quantum) := by
  refine ⟨by simp [initState], by simp [initState], by simp [initState], ?_, ?_, ?_, ?_,
    by simp [initState]⟩
  · intro p hp
    simp [active, running, initState, reduceOption_replicate_none] at hp
  · intro i hi
    simp [initState] at hi
  · intro p hp hf
    exfalso
    apply hf
    simp [initState, List.getD_eq_getElem?_getD, List.getElem?_replicate, hp]
  · intro p hp _
    simp [initState, List.getD_eq_getElem?_getD, List.getElem?_replicate, hp]

theorem reachable_arrinv {procs : List Process} {M : Nat} {alg : String} {quantum : Int}
    (hid : procs.map Process.pid = List.range procs.length) {s : SimState}
    (hr : Reachable procs M alg quantum s) : ArrInv procs s := by
  induction hr with
  | init => exact init_arrinv procs M quantum
  | step _ _ ih => exact tick_arrinv M alg quantum hid ih

theorem arrivalOf_mono {procs : List Process}
    (hsorted : procs.Pairwise (fun a b => a.arrival ≤ b.arrival)) {i j : Nat}
    (hij : i ≤ j) (hj : j < procs.length) : arrivalOf procs i ≤ arrivalOf procs j := by
  rcases Nat.lt_or_eq_of_le hij with h | h
  · have hi : i < procs.length := by omega
    have := List.pairwise_iff_getElem.mp hsorted i j hi hj h
    simpa [arrivalOf, List.getD_eq_getElem?_getD, List.getElem?_eq_getElem hi,
      List.getElem?_eq_getElem hj] using this
  · rw [h]

/-- Phase 1 pushes the ids of the processes it takes from the input, in input order, on
the container of the policy, and leaves the other container alone. -/
theorem arriveLoop_pushes (alg : String) :
    ∀ (rest : List Process) (s : SimState),
      (alg = "FCFS" ∨ alg = "RR" →
        (arriveLoop alg rest s).fq = s.fq ++
          (rest.take ((arriveLoop alg rest s).next_arrival - s.next_arrival)).map
            Process.pid ∧
        (arriveLoop alg rest s).sjf_pq = s.sjf_pq) ∧
      (¬ (alg = "FCFS" ∨ alg = "RR") →
        (arriveLoop alg rest s).sjf_pq.Perm (s.sjf_pq ++
          (rest.take ((arriveLoop alg rest s).next_arrival - s.next_arrival)).map
            Process.pid) ∧
        (arriveLoop alg rest s).fq = s.fq) := by
  intro rest
  induction rest with
  | nil => intro s; simp [arriveLoop]
  | cons p r ih =>
    intro s
    unfold arriveLoop
    by_cases hp : p.arrival ≤ s.currentTime
    · rw [if_pos hp]
      by_cases ha : alg = "FCFS" ∨ alg = "RR"
      · rw [if_pos ha]
        generalize hs1 :
          ({ s with fq := s.fq ++ [p.pid], next_arrival := s.next_arrival + 1 } : SimState)
            = s1
        have hna : s1.next_arrival = s.next_arrival + 1 := by rw [← hs1]
        have hfq : s1.fq = s.fq ++ [p.pid] := by rw [← hs1]
        have hpq : s1.sjf_pq = s.sjf_pq := by rw [← hs1]
        have hcount := (arriveLoop_count alg r s1).1
        have hi := (ih s1).1 ha
        refine ⟨fun _ => ?_, fun hn => absurd ha hn⟩
        have hk : (arriveLoop alg r s1).next_arrival - s.next_arrival =
            ((arriveLoop alg r s1).next_arrival - s1.next_arrival) + 1 := by omega
        rw [hk, List.take_succ_cons, List.map_cons]
        refine ⟨?_, hi.2.trans hpq⟩
        rw [hi.1, hfq]
        simp
      · rw [if_neg ha]
        generalize hs1 :
          ({ s with sjf_pq := pqPush s.remaining s.sjf_pq p.pid,
                    next_arrival := s.next_arrival + 1 } : SimState) = s1
        have hna : s1.next_arrival = s.next_arrival + 1 := by rw [← hs1]
        have hfq : s1.fq = s.fq := by rw [← hs1]
        have hpq : s1.sjf_pq = pqPush s.remaining s.sjf_pq p.pid := by rw [← hs1]
        have hcount := (arriveLoop_count alg r s1).1
        have hi := (ih s1).2 ha
        refine ⟨fun h => absurd h ha, fun _ => ?_⟩
        have hk : (arriveLoop alg r s1).next_arrival - s.next_arrival =
            ((arriveLoop alg r s1).next_arrival - s1.next_arrival) + 1 := by omega
        rw [hk, List.take_succ_cons, List.map_cons]
        refine ⟨?_, hi.2.trans hfq⟩
        refine hi.1.trans ?_
        rw [hpq, List.perm_iff_count]
        intro a
        have := (pqPush_perm s.remaining s.sjf_pq p.pid).count_eq a
        simp only [List.count_append, List.count_cons] at this ⊢
        omega
    · rw [if_neg hp]
      simp

/-- Claim C12: for every input in non-decreasing arrival order whose ids equal the
positions and whose arrivals are not negative, under any policy and at every tick of the
run whose clock has not passed `intMax`: phase 1, the only phase that takes processes
from the input, takes exactly those whose arrival is not after the clock and pushes their
ids on the container of the policy, so each process enters the container at the first tick
whose clock has reached its arrival; what waits or runs when execution starts has arrived; a recorded first
dispatch is not before the arrival and not after the clock, and the recorded response time
is their difference; every recorded response time is at least 0 and at most `intMax`. -/
theorem no_dispatch_before_arrival (procs : List Process) (M : Nat) (alg : String)
    (quantum : Int) (s : SimState)
    (hsorted : procs.Pairwise (fun a b => a.arrival ≤ b.arrival))
    (hid : procs.map Process.pid = List.range procs.length)
    (harr : ∀ p ∈ procs, 0 ≤ p.arrival)
    (hr : Reachable procs M alg quantum s) (hfit : s.currentTime ≤ intMax) :
    (∀ i, i < procs.length →
      (i < (arrive procs alg s).next_arrival ↔ arrivalOf procs i ≤ s.currentTime)) ∧
    (tick procs M alg quantum s).next_arrival = (arrive procs alg s).next_arrival ∧
    ((alg = "FCFS" ∨ alg = "RR" →
        (arrive procs alg s).fq = s.fq ++
          ((procs.drop s.next_arrival).take
            ((arrive procs alg s).next_arrival - s.next_arrival)).map Process.pid ∧
        (arrive procs alg s).sjf_pq = s.sjf_pq) ∧
      (¬ (alg = "FCFS" ∨ alg = "RR") →
        (arrive procs alg s).sjf_pq.Perm (s.sjf_pq ++
          ((procs.drop s.next_arrival).take
            ((arrive procs alg s).next_arrival - s.next_arrival)).map Process.pid) ∧
        (arrive procs alg s).fq = s.fq)) ∧
    (∀ p ∈ active (beforeExec procs M alg quantum s),
      p < procs.length ∧ arrivalOf procs p ≤ s.currentTime) ∧
    (∀ i, i < procs.length → s.first_start.getD i 0 ≠ -1 →
      arrivalOf procs i ≤ s.first_start.getD i 0 ∧
      s.first_start.getD i 0 ≤ s.currentTime ∧
      s.response_times.getD i 0 = s.first_start.getD i 0 - arrivalOf procs i) ∧
    (∀ i, i < procs.length →
      0 ≤ s.response_times.getD i 0 ∧ s.response_times.getD i 0 ≤ intMax) := by
  have hA := reachable_arrinv hid hr
  have hAa : ArrInv procs (arrive procs alg s) := arriveLoop_arrinv alg hid _ s rfl hA
  have hAd := beforeExec_arrinv M alg quantum hid hA
  have hat := (arrive_fields procs alg s).2.2.2.2.2.2.2.2.2.2
  have hb := beforeExec_clock procs M alg quantum s
  have hnext : (tick procs M alg quantum s).next_arrival =
      (arrive procs alg s).next_arrival := by
    have hclk := execute_clock procs M alg (beforeExec procs M alg quantum s)
    simp only [clockPart, Prod.mk.injEq] at hclk
    rw [tick_eq, advance_eq]
    exact hclk.1.trans hb.1
  refine ⟨?_, hnext, arriveLoop_pushes alg _ s, ?_, ?_, ?_⟩
  · intro i hi
    constructor
    · intro hlt
      have := hAa.arrived i hlt
      rw [hat] at this
      exact this
    · intro hle
      by_contra hge
      have hna : (arrive procs alg s).next_arrival < procs.length := by omega
      have hfut := arrive_next_future procs alg s hna
      rw [hat] at hfut
      have := arrivalOf_mono hsorted (Nat.le_of_not_lt hge) hi
      omega
  · intro p hp
    have h1 := hAd.act_lt p hp
    have h2 := hAd.arrived p h1
    have h3 := hAd.na_le
    rw [hb.2.1] at h2
    exact ⟨by omega, h2⟩
  · intro i hi hf
    have := hA.fs_ok i hi hf
    exact ⟨this.2.2.1, this.2.2.2.1, this.2.2.2.2⟩
  · intro i hi
    by_cases hf : s.first_start.getD i 0 = -1
    · rw [hA.rt_zero i hi hf]
      exact ⟨le_refl _, by unfold intMax; decide⟩
    · have := hA.fs_ok i hi hf
      have h0 : 0 ≤ arrivalOf procs i := harr _ (getD_mem procs i _ hi)
      omega

theorem no_dispatch_before_arrival_witness :
    ([⟨0, 0, 2⟩, ⟨1, 3, 2⟩] : List Process).Pairwise (fun a b => a.arrival ≤ b.arrival) ∧
    ([⟨0, 0, 2⟩, ⟨1, 3, 2⟩] : List Process).map Process.pid = List.range 2 ∧
    (runTicks [⟨0, 0, 2⟩, ⟨1, 3, 2⟩] 1 "RR" 5 3
      (initState [⟨0, 0, 2⟩, ⟨1, 3, 2⟩] 1 5)).currentTime = 3 ∧
    (runTicks [⟨0, 0, 2⟩, ⟨1, 3, 2⟩] 1 "RR" 5 3
      (initState [⟨0, 0, 2⟩, ⟨1, 3, 2⟩] 1 5)).fq = [] ∧
    (arrive [⟨0, 0, 2⟩, ⟨1, 3, 2⟩] "RR" (runTicks [⟨0, 0, 2⟩, ⟨1, 3, 2⟩] 1 "RR" 5 3
      (initState [⟨0, 0, 2⟩, ⟨1, 3, 2⟩] 1 5))).fq = [1] ∧
    (∀ i, i < ([⟨0, 0, 2⟩, ⟨1, 3, 2⟩] : List Process).length →
      (i < (arrive [⟨0, 0, 2⟩, ⟨1, 3, 2⟩] "RR"
          (runTicks [⟨0, 0, 2⟩, ⟨1, 3, 2⟩] 1 "RR" 5 3
            (initState [⟨0, 0, 2⟩, ⟨1, 3, 2⟩] 1 5))).next_arrival ↔
        arrivalOf [⟨0, 0, 2⟩, ⟨1, 3, 2⟩] i ≤
          (runTicks [⟨0, 0, 2⟩, ⟨1, 3, 2⟩] 1 "RR" 5 3
            (initState [⟨0, 0, 2⟩, ⟨1, 3, 2⟩] 1 5)).currentTime)) ∧
    (arrivalOf [⟨0, 0, 2⟩, ⟨1, 3, 2⟩] 0 ≤
        (runTicks [⟨0, 0, 2⟩, ⟨1, 3, 2⟩] 1 "RR" 5 3
          (initState [⟨0, 0, 2⟩, ⟨1, 3, 2⟩] 1 5)).first_start.getD 0 0 ∧
      (runTicks [⟨0, 0, 2⟩, ⟨1, 3, 2⟩] 1 "RR" 5 3
          (initState [⟨0, 0, 2⟩, ⟨1, 3, 2⟩] 1 5)).first_start.getD 0 0 ≤
        (runTicks [⟨0, 0, 2⟩, ⟨1, 3, 2⟩] 1 "RR" 5 3
          (initState [⟨0, 0, 2⟩, ⟨1, 3, 2⟩] 1 5)).currentTime ∧
      (runTicks [⟨0, 0, 2⟩, ⟨1, 3, 2⟩] 1 "RR" 5 3
          (initState [⟨0, 0, 2⟩, ⟨1, 3, 2⟩] 1 5)).response_times.getD 0 0 =
        (runTicks [⟨0, 0, 2⟩, ⟨1, 3, 2⟩] 1 "RR" 5 3
          (initState [⟨0, 0, 2⟩, ⟨1, 3, 2⟩] 1 5)).first_start.getD 0 0 -
          arrivalOf [⟨0, 0, 2⟩, ⟨1, 3, 2⟩] 0) :=
  ⟨by decide, by decide, by decide, by decide, by decide,
    (no_dispatch_before_arrival [⟨0, 0, 2⟩, ⟨1, 3, 2⟩] 1 "RR" 5
      (runTicks [⟨0, 0, 2⟩, ⟨1, 3, 2⟩] 1 "RR" 5 3 (initState [⟨0, 0, 2⟩, ⟨1, 3, 2⟩] 1 5))
      (by decide) (by decide) (by decide)
      (Reachable.step (Reachable.step (Reachable.step Reachable.init (by decide))
        (by decide)) (by decide))
      (by decide)).1,
    (no_dispatch_before_arrival [⟨0, 0, 2⟩, ⟨1, 3, 2⟩] 1 "RR" 5
      (runTicks [⟨0, 0, 2⟩, ⟨1, 3, 2⟩] 1 "RR" 5 3 (initState [⟨0, 0, 2⟩, ⟨1, 3, 2⟩] 1 5))
      (by decide) (by decide) (by decide)
      (Reachable.step (Reachable.step (Reachable.step Reachable.init (by decide))
        (by decide)) (by decide))
      (by decide)).2.2.2.2.1 0 (by decide) (by decide)⟩

/-! ### Shortest remaining time first -/

theorem preemptCore_remaining (quantum : Int) (s : SimState) (c : Nat) :
    (preemptCore quantum s c).remaining = s.remaining := by
  have hst := preemptCore_static quantum s c
  simp only [staticPart, Prod.mk.injEq] at hst
  exact hst.1

theorem preemptCore_runningLeast {procs : List Process} {M : Nat} {alg : String}
    (quantum : Int) {s : SimState} (k : Nat) (hk : k < M) (hH : HInv procs M alg s)
    (h : RunningLeast s k) : RunningLeast (preemptCore quantum s k) (k + 1) := by
  have hrem := preemptCore_remaining quantum s k
  unfold RunningLeast
  rw [hrem]
  unfold preemptCore
  cases hc : s.cores.getD k none with
  | none =>
    simp only
    intro c p hck hp x hx
    rcases Nat.lt_succ_iff_lt_or_eq.mp hck with h1 | h1
    · exact h c p h1 hp x hx
    · rw [h1, hc] at hp; cases hp
  | some q =>
    simp only
    split
    · rename_i hcond
      simp only
      intro c p hck hp x hx
      have hne : c ≠ k := by
        intro e
        rw [e, getD_set_self _ _ _ _ (by rw [hH.1.len_cores]; exact hk)] at hp
        cases hp
      rw [getD_set_ne _ _ _ _ _ (fun e => hne e.symm)] at hp
      have hck' : c < k := by omega
      rcases List.mem_cons.mp ((pqPush_perm s.remaining s.sjf_pq q).mem_iff.mp hx) with e | e
      · have h1 := h c p hck' hp (pqTop s.sjf_pq) (getD_zero_mem hcond.1)
        have h2 := hcond.2
        unfold keyOf at h1 ⊢
        rw [e]
        omega
      · exact h c p hck' hp x e
    · rename_i hcond
      intro c p hck hp x hx
      rcases Nat.lt_succ_iff_lt_or_eq.mp hck with h1 | h1
      · exact h c p h1 hp x hx
      · rw [h1, hc] at hp
        injection hp with hp
        subst hp
        have hne : s.sjf_pq ≠ [] := List.ne_nil_of_mem hx
        have h2 : ¬ s.remaining.getD (pqTop s.sjf_pq) 0 < s.remaining.getD q 0 :=
          fun e => hcond ⟨hne, e⟩
        have h3 := pqTop_le_mem s.remaining s.sjf_pq hH.2 x hx
        unfold keyOf at h3 ⊢
        omega

theorem preemptCore_hinv {procs : List Process} {M : Nat} {alg : String} (quantum : Int)
    {s : SimState} (c : Nat) (halg : alg = "SJF-P") (h : HInv procs M alg s) :
    HInv procs M alg (preemptCore quantum s c) :=
  ⟨preemptCore_inv c halg h.1, preemptCore_heap quantum s c h.2⟩

theorem dispatchCore_sjf (procs : List Process) {alg : String} (quantum : Int)
    (halg : alg = "SJF-NP" ∨ alg = "SJF-P") (s : SimState) (c : Nat) :
    dispatchCore procs alg quantum s c =
      if s.cores.getD c none = none ∧ s.sjf_pq ≠ [] then
        assign procs c (pqTop s.sjf_pq) { s with sjf_pq := pqPop s.remaining s.sjf_pq }
      else s := by
  have hnotF : alg ≠ "FCFS" := by
    rcases halg with h | h <;> rw [h] <;> decide
  unfold dispatchCore
  cases hc : s.cores.getD c none with
  | some q => simp
  | none =>
    simp only [true_and]
    rw [if_neg (fun h => hnotF h.1), if_pos halg]

theorem dispatchCore_runningLeast {procs : List Process} {M : Nat} {alg : String}
    (quantum : Int) (halg : alg = "SJF-NP" ∨ alg = "SJF-P") {s : SimState} (k : Nat)
    (hk : k < M) (hH : HInv procs M alg s) (h : RunningLeast s M) :
    RunningLeast (dispatchCore procs alg quantum s k) M := by
  rw [dispatchCore_sjf procs quantum halg]
  split
  · rename_i hcond
    have hst := assign_static procs k (pqTop s.sjf_pq)
      { s with sjf_pq := pqPop s.remaining s.sjf_pq }
    simp only [staticPart, Prod.mk.injEq] at hst
    have hq := (assign_queues procs k (pqTop s.sjf_pq)
      { s with sjf_pq := pqPop s.remaining s.sjf_pq }).2
    have hco := assign_cores procs k (pqTop s.sjf_pq)
      { s with sjf_pq := pqPop s.remaining s.sjf_pq }
    have hperm := pqPop_perm s.remaining s.sjf_pq hcond.2
    unfold RunningLeast
    rw [hst.1, hq, hco]
    simp only
    intro c p hc hp x hx
    have hx' : x ∈ s.sjf_pq := hperm.mem_iff.mpr (List.mem_cons_of_mem _ hx)
    by_cases e : k = c
    · subst e
      rw [getD_set_self _ _ _ _ (by rw [hH.1.len_cores]; exact hk)] at hp
      injection hp with hp
      subst hp
      exact pqTop_le_mem s.remaining s.sjf_pq hH.2 x hx'
    · rw [getD_set_ne _ _ _ _ _ e] at hp
      exact h c p hc hp x hx'
  · exact h

/-- Claim C15: under `SJF-P`, at the start of the execution phase of every tick of a
run on a workload with ids `0..N-1` and bursts of at least one tick: no process on a
core has more burst left than a process that waits in the container, and a core is free
only if the container is empty. -/
theorem sjfp_running_not_above_waiting (procs : List Process) (M : Nat) (quantum : Int)
    (s : SimState) (hid : (procs.map Process.pid).Perm (List.range procs.length))
    (hb : ∀ q ∈ procs, 1 ≤ q.burst)
    (hr : Reachable procs M "SJF-P" quantum s) :
    (∀ c p x, c < M → (beforeExec procs M "SJF-P" quantum s).cores.getD c none = some p →
      x ∈ (beforeExec procs M "SJF-P" quantum s).sjf_pq →
      (beforeExec procs M "SJF-P" quantum s).remaining.getD p 0 ≤
        (beforeExec procs M "SJF-P" quantum s).remaining.getD x 0) ∧
    (∀ c, c < M → (beforeExec procs M "SJF-P" quantum s).cores.getD c none = none →
      (beforeExec procs M "SJF-P" quantum s).sjf_pq = [] ∧
      (beforeExec procs M "SJF-P" quantum s).fq = []) := by
  have hH := reachable_hinv hid hb hr
  have ha : HInv procs M "SJF-P" (arrive procs "SJF-P" s) :=
    ⟨arrive_inv hH.1, arriveLoop_heap "SJF-P" _ s hH.2⟩
  have hp : HInv procs M "SJF-P" (preempt M "SJF-P" quantum (arrive procs "SJF-P" s)) ∧
      RunningLeast (preempt M "SJF-P" quantum (arrive procs "SJF-P" s)) M := by
    unfold preempt
    rw [if_pos rfl]
    exact foldl_range_indexed
      (Q := fun k t => HInv procs M "SJF-P" t ∧ RunningLeast t k)
      (f := preemptCore quantum) M _
      ⟨ha, fun c _ hc => absurd hc (Nat.not_lt_zero c)⟩
      (fun k t hk ht =>
        ⟨preemptCore_hinv quantum k rfl ht.1, preemptCore_runningLeast quantum k hk ht.1 ht.2⟩)
  have hd : HInv procs M "SJF-P" (beforeExec procs M "SJF-P" quantum s) ∧
      RunningLeast (beforeExec procs M "SJF-P" quantum s) M := by
    unfold beforeExec dispatch
    exact foldl_range_preserves
      (P := fun t => HInv procs M "SJF-P" t ∧ RunningLeast t M) M
      (fun t c hc ht =>
        ⟨⟨dispatchCore_inv c hc ht.1.1, dispatchCore_heap procs "SJF-P" quantum t c ht.1.2⟩,
          dispatchCore_runningLeast quantum (Or.inr rfl) c hc ht.1 ht.2⟩)
      _ hp
  refine ⟨?_, ?_⟩
  · intro c p x hc hcp hx
    exact hd.2 c p hc hcp x hx
  · intro c hc hfree
    have hsat := dispatch_saturates quantum (Or.inr (Or.inr (Or.inl rfl))) hp.1.1
    have hfq := hd.1.1.fq_empty (Or.inr rfl)
    rcases hsat with h | h
    · exact ⟨h.2, hfq⟩
    · exact absurd hfree (h c hc)

theorem sjfp_running_not_above_waiting_witness :
    (∀ q ∈ ([⟨0, 0, 10⟩, ⟨1, 3, 2⟩] : List Process), 1 ≤ q.burst) ∧
    (beforeExec [⟨0, 0, 10⟩, ⟨1, 3, 2⟩] 1 "SJF-P" 10
      (runTicks [⟨0, 0, 10⟩, ⟨1, 3, 2⟩] 1 "SJF-P" 10 3
        (initState [⟨0, 0, 10⟩, ⟨1, 3, 2⟩] 1 10))).cores = [some 1] ∧
    (beforeExec [⟨0, 0, 10⟩, ⟨1, 3, 2⟩] 1 "SJF-P" 10
      (runTicks [⟨0, 0, 10⟩, ⟨1, 3, 2⟩] 1 "SJF-P" 10 3
        (initState [⟨0, 0, 10⟩, ⟨1, 3, 2⟩] 1 10))).sjf_pq = [0] ∧
    (beforeExec [⟨0, 0, 10⟩, ⟨1, 3, 2⟩] 1 "SJF-P" 10
      (runTicks [⟨0, 0, 10⟩, ⟨1, 3, 2⟩] 1 "SJF-P" 10 3
        (initState [⟨0, 0, 10⟩, ⟨1, 3, 2⟩] 1 10))).remaining.getD 1 0 ≤
      (beforeExec [⟨0, 0, 10⟩, ⟨1, 3, 2⟩] 1 "SJF-P" 10
        (runTicks [⟨0, 0, 10⟩, ⟨1, 3, 2⟩] 1 "SJF-P" 10 3
          (initState [⟨0, 0, 10⟩, ⟨1, 3, 2⟩] 1 10))).remaining.getD 0 0 ∧
    (beforeExec [⟨0, 0, 10⟩, ⟨1, 3, 2⟩] 2 "SJF-P" 10
      (initState [⟨0, 0, 10⟩, ⟨1, 3, 2⟩] 2 10)).cores = [some 0, none] ∧
    ((beforeExec [⟨0, 0, 10⟩, ⟨1, 3, 2⟩] 2 "SJF-P" 10
        (initState [⟨0, 0, 10⟩, ⟨1, 3, 2⟩] 2 10)).sjf_pq = [] ∧
      (beforeExec [⟨0, 0, 10⟩, ⟨1, 3, 2⟩] 2 "SJF-P" 10
        (initState [⟨0, 0, 10⟩, ⟨1, 3, 2⟩] 2 10)).fq = []) :=
  ⟨by decide, by decide, by decide,
    (sjfp_running_not_above_waiting [⟨0, 0, 10⟩, ⟨1, 3, 2⟩] 1 10
      (runTicks [⟨0, 0, 10⟩, ⟨1, 3, 2⟩] 1 "SJF-P" 10 3
        (initState [⟨0, 0, 10⟩, ⟨1, 3, 2⟩] 1 10))
      (List.Perm.refl _) (by decide)
      (Reachable.step (Reachable.step (Reachable.step Reachable.init (by decide))
        (by decide)) (by decide))).1 0 1 0 (by decide) (by decide) (by decide),
    by decide,
    (sjfp_running_not_above_waiting [⟨0, 0, 10⟩, ⟨1, 3, 2⟩] 2 10
      (initState [⟨0, 0, 10⟩, ⟨1, 3, 2⟩] 2 10) (List.Perm.refl _) (by decide)
      Reachable.init).2 1 (by decide) (by decide)⟩

/-! ### Context switches and dispatches -/

theorem preemptCore_switches (quantum : Int) (s : SimState) (c : Nat) :
    (preemptCore quantum s c).context_switches + ((running (preemptCore quantum s c)).length : Int)
      = s.context_switches + ((running s).length : Int) ∧
    (running (preemptCore quantum s c)).length ≤ (running s).length := by
  unfold preemptCore
  cases hc : s.cores.getD c none with
  | none => exact ⟨rfl, Nat.le_refl _⟩
  | some p =>
    simp only
    split
    · have hr := (reduceOption_set_none s.cores c p hc).length_eq
      simp only [running, List.length_cons] at hr ⊢
      rw [hr]
      push_cast
      exact ⟨by omega, by omega⟩
    · exact ⟨rfl, Nat.le_refl _⟩

/-- The body of the dispatch loop either leaves the state as it is or performs one
dispatch: one more busy core and one more switch. -/
theorem dispatchCore_switches {procs : List Process} {M : Nat} {alg : String}
    (quantum : Int) {s : SimState} (c : Nat) (hc : c < M) (hI : Inv procs M alg s) :
    dispatchCore procs alg quantum s c = s ∨
    ((dispatchCore procs alg quantum s c).context_switches = s.context_switches + 1 ∧
      (running (dispatchCore procs alg quantum s c)).length = (running s).length + 1) := by
  rcases dispatchCore_shape procs alg quantum s c with
    he | ⟨hfree, pid, s1, he, _, _, _, _, _, hcores, hcs, _⟩
  · exact Or.inl he
  · right
    refine ⟨by rw [he, assign_switches, hcs], ?_⟩
    rw [he]
    have hr := (reduceOption_set_some s.cores c pid (by rw [hI.len_cores]; exact hc)
      hfree).length_eq
    simp only [running, assign_cores, hcores, hr, List.length_cons]

theorem execCore_switches (procs : List Process) (alg : String) (s : SimState) (c : Nat) :
    (execCore procs alg s c).context_switches +
        ((running (execCore procs alg s c)).length : Int)
      = s.context_switches + ((running s).length : Int) ∧
    (SwitchLower s → SwitchLower (execCore procs alg s c)) := by
  cases hc : s.cores.getD c none with
  | none => rw [execCore_idle hc]; exact ⟨rfl, id⟩
  | some p =>
    have hr := (reduceOption_set_none s.cores c p hc).length_eq
    rw [execCore_eq procs alg hc]
    unfold SwitchLower
    simp only [running, List.length_cons] at hr ⊢
    split
    · simp only
      rw [hr]
      push_cast
      exact ⟨by omega, fun h => by omega⟩
    · split
      · simp only
        rw [hr]
        push_cast
        exact ⟨by omega, fun h => by omega⟩
      · exact ⟨rfl, id⟩

/-- One tick adds two switches per dispatch to the sum of the switch counter and the
number of busy cores, and keeps the lower bound of the counter. -/
theorem tick_switches {procs : List Process} {M : Nat} {alg : String} (quantum : Int)
    {s : SimState} (hI : Inv procs M alg s) :
    (tick procs M alg quantum s).context_switches +
        ((running (tick procs M alg quantum s)).length : Int)
      = s.context_switches + ((running s).length : Int) +
        2 * (dispatchesInTick procs M alg quantum s : Int) ∧
    (SwitchLower s → SwitchLower (tick procs M alg quantum s)) := by
  have ha := arrive_fields procs alg s
  have hIa : Inv procs M alg (arrive procs alg s) := arrive_inv hI
  have hIp : Inv procs M alg (preempt M alg quantum (arrive procs alg s)) := preempt_inv hIa
  -- phase 2
  have hp : ((preempt M alg quantum (arrive procs alg s)).context_switches +
        ((running (preempt M alg quantum (arrive procs alg s))).length : Int)
      = s.context_switches + ((running s).length : Int) ∧
      (running (preempt M alg quantum (arrive procs alg s))).length ≤ (running s).length) ∧
      (preempt M alg quantum (arrive procs alg s)).completed = s.completed := by
    have h0 : (arrive procs alg s).context_switches +
        ((running (arrive procs alg s)).length : Int)
        = s.context_switches + ((running s).length : Int) ∧
        (running (arrive procs alg s)).length ≤ (running s).length := by
      simp only [running, ha.2.2.2.2.2.1, ha.2.2.2.2.2.2.2.1]
      exact ⟨trivial, Nat.le_refl _⟩
    have hst := preempt_static M alg quantum (arrive procs alg s)
    simp only [staticPart, Prod.mk.injEq] at hst
    refine ⟨?_, by rw [hst.2.2.2.2.1, ha.2.2.2.2.2.2.2.2.2.1]⟩
    unfold preempt
    split
    · exact foldl_range_preserves
        (P := fun t => t.context_switches + ((running t).length : Int)
          = s.context_switches + ((running s).length : Int) ∧
          (running t).length ≤ (running s).length) M
        (fun t c _ ht => by
          have := preemptCore_switches quantum t c
          exact ⟨by omega, by omega⟩) _ h0
    · exact h0
  -- phase 3
  have hd : (Inv procs M alg (beforeExec procs M alg quantum s) ∧
      (beforeExec procs M alg quantum s).context_switches +
          ((running (preempt M alg quantum (arrive procs alg s))).length : Int)
        = (preempt M alg quantum (arrive procs alg s)).context_switches +
          ((running (beforeExec procs M alg quantum s)).length : Int)) ∧
      (running (preempt M alg quantum (arrive procs alg s))).length ≤
        (running (beforeExec procs M alg quantum s)).length := by
    unfold beforeExec dispatch
    exact foldl_range_preserves
      (P := fun t => (Inv procs M alg t ∧
        t.context_switches +
            ((running (preempt M alg quantum (arrive procs alg s))).length : Int)
          = (preempt M alg quantum (arrive procs alg s)).context_switches +
            ((running t).length : Int)) ∧
        (running (preempt M alg quantum (arrive procs alg s))).length ≤ (running t).length) M
      (fun t c hc ht => by
        refine ⟨⟨dispatchCore_inv c hc ht.1.1, ?_⟩, ?_⟩
        · rcases dispatchCore_switches quantum c hc ht.1.1 with e | e
          · rw [e]; exact ht.1.2
          · rw [e.1, e.2]; push_cast; have := ht.1.2; omega
        · rcases dispatchCore_switches quantum c hc ht.1.1 with e | e
          · rw [e]; exact ht.2
          · rw [e.2]; have := ht.2; omega) _ ⟨⟨hIp, rfl⟩, Nat.le_refl _⟩
  have hb := beforeExec_fields procs M alg quantum s
  -- phase 4
  have he : (execute procs M alg (beforeExec procs M alg quantum s)).context_switches +
        ((running (execute procs M alg (beforeExec procs M alg quantum s))).length : Int)
      = (beforeExec procs M alg quantum s).context_switches +
        ((running (beforeExec procs M alg quantum s)).length : Int) ∧
      (SwitchLower (beforeExec procs M alg quantum s) →
        SwitchLower (execute procs M alg (beforeExec procs M alg quantum s))) := by
    unfold execute
    exact foldl_range_preserves
      (P := fun t => t.context_switches + ((running t).length : Int)
        = (beforeExec procs M alg quantum s).context_switches +
          ((running (beforeExec procs M alg quantum s)).length : Int) ∧
        (SwitchLower (beforeExec procs M alg quantum s) → SwitchLower t)) M
      (fun t c _ ht => by
        have := execCore_switches procs alg t c
        exact ⟨by omega, fun h => this.2 (ht.2 h)⟩) _ ⟨rfl, id⟩
  have hadv := advance_eq procs (execute procs M alg (beforeExec procs M alg quantum s))
  have e1 : (tick procs M alg quantum s).context_switches =
      (execute procs M alg (beforeExec procs M alg quantum s)).context_switches := by
    rw [tick_eq, hadv]
  have e2 : running (tick procs M alg quantum s) =
      running (execute procs M alg (beforeExec procs M alg quantum s)) := by
    rw [tick_eq, hadv]; rfl
  have e3 : (tick procs M alg quantum s).completed =
      (execute procs M alg (beforeExec procs M alg quantum s)).completed := by
    rw [tick_eq, hadv]
  refine ⟨?_, ?_⟩
  · rw [e1, e2]
    unfold dispatchesInTick
    have := hd.1.2
    have := hd.2
    have := hp.1.1
    have := he.1
    omega
  · intro hlow
    have hlow_d : SwitchLower (beforeExec procs M alg quantum s) := by
      unfold SwitchLower at hlow ⊢
      rw [hb.2.2.2.2.1]
      have := hd.1.2
      have := hd.2
      have := hp.1.1
      have := hp.1.2
      omega
    have := he.2 hlow_d
    unfold SwitchLower at this ⊢
    rw [e1, e2, e3]
    exact this

theorem runLoop_switches {procs : List Process} {M : Nat} {alg : String} (quantum : Int) :
    ∀ (fuel : Nat) (s0 s : SimState), Inv procs M alg s0 →
      runLoop procs M alg quantum fuel s0 = some s →
      s.context_switches + ((running s).length : Int)
        = s0.context_switches + ((running s0).length : Int) +
          2 * (countDispatches procs M alg quantum fuel s0 : Int) := by
  intro fuel
  induction fuel with
  | zero =>
    intro s0 s _ h
    simp only [runLoop] at h
    split at h
    · cases h
    · injection h with h; subst h; simp [countDispatches]
  | succ n ih =>
    intro s0 s hI h
    simp only [runLoop] at h
    simp only [countDispatches]
    split at h
    · rename_i hlt
      rw [if_pos hlt]
      have h1 := ih _ _ (tick_inv hI) h
      have h2 := (tick_switches quantum hI).1
      push_cast
      omega
    · rename_i hlt
      rw [if_neg hlt]
      injection h with h; subst h; simp

theorem reachable_switchLower {procs : List Process} {M : Nat} {alg : String}
    {quantum : Int} (hid : (procs.map Process.pid).Perm (List.range procs.length))
    (hb : ∀ q ∈ procs, 1 ≤ q.burst) {s : SimState}
    (hr : Reachable procs M alg quantum s) : Inv procs M alg s ∧ SwitchLower s := by
  induction hr with
  | init =>
    refine ⟨init_inv procs M alg quantum hid hb, ?_⟩
    simp [SwitchLower, initState, running, reduceOption_replicate_none]
  | step _ _ ih => exact ⟨tick_inv ih.1, (tick_switches quantum ih.1).2 ih.2⟩

theorem running_eq_nil_of_done {procs : List Process} {M : Nat} {alg : String}
    {s : SimState} (hI : Inv procs M alg s) (h : procs.length ≤ s.completed) :
    running s = [] ∧ s.completed = procs.length := by
  have hc := hI.count
  have hl : live procs s = [] := List.length_eq_zero.mp (by omega)
  rw [live_eq_waiting_append] at hl
  exact ⟨(List.append_eq_nil.mp hl).2, by omega⟩

/-! ### Round Robin: the quantum of one dispatch -/

theorem runTicks_succ (procs : List Process) (M : Nat) (alg : String) (quantum : Int) :
    ∀ (n : Nat) (s : SimState), runTicks procs M alg quantum (n + 1) s =
      tick procs M alg quantum (runTicks procs M alg quantum n s) := by
  intro n
  induction n with
  | zero => intro s; rfl
  | succ k ih =>
    intro s
    show runTicks procs M alg quantum (k + 1) (tick procs M alg quantum s) = _
    rw [ih]
    rfl

theorem preemptCore_quantum_length (quantum : Int) (s : SimState) (c : Nat) :
    (preemptCore quantum s c).quantum_left.length = s.quantum_left.length := by
  unfold preemptCore
  split
  · rfl
  · split
    · simp
    · rfl

theorem assign_quantum (procs : List Process) (c pid : Nat) (s : SimState) :
    (assign procs c pid s).quantum_left = s.quantum_left := by
  have hf := assign_frame procs c pid s
  unfold AssignFrame at hf
  have := congrArg SimState.quantum_left hf
  exact this

theorem assign_remaining (procs : List Process) (c pid : Nat) (s : SimState) :
    (assign procs c pid s).remaining = s.remaining := by
  have hf := assign_frame procs c pid s
  unfold AssignFrame at hf
  have := congrArg SimState.remaining hf
  exact this

/-- The body of the dispatch loop under `RR`: nothing, or the head of the FIFO queue
goes on the free core `c` and the quantum counter of `c` is reset. -/
theorem dispatchCore_rr (procs : List Process) (quantum : Int) (s : SimState) (c : Nat) :
    dispatchCore procs "RR" quantum s c = s ∨
    (s.cores.getD c none = none ∧ s.fq ≠ [] ∧
      (dispatchCore procs "RR" quantum s c).cores = s.cores.set c (some (s.fq.getD 0 0)) ∧
      (dispatchCore procs "RR" quantum s c).quantum_left = s.quantum_left.set c quantum ∧
      (dispatchCore procs "RR" quantum s c).remaining = s.remaining ∧
      (dispatchCore procs "RR" quantum s c).fq = s.fq.tail) := by
  unfold dispatchCore
  split
  · exact Or.inl rfl
  · rename_i hfree
    have h1 : ¬ ("RR" = "FCFS" ∧ s.fq ≠ []) := fun h => absurd h.1 (by decide)
    have h2 : ¬ ("RR" = "SJF-NP" ∨ "RR" = "SJF-P") := by decide
    rw [if_neg h1, if_neg h2]
    split
    · rename_i h3
      refine Or.inr ⟨hfree, h3.2, ?_, ?_, ?_, ?_⟩
      · rw [assign_cores]
      · rw [assign_quantum]
      · rw [assign_remaining]
      · rw [(assign_queues _ _ _ _).1]
    · exact Or.inl rfl

theorem dispatchCore_quantum_length (procs : List Process) (alg : String) (quantum : Int)
    (s : SimState) (c : Nat) :
    (dispatchCore procs alg quantum s c).quantum_left.length = s.quantum_left.length := by
  unfold dispatchCore
  split
  · rfl
  · split_ifs <;> simp [assign_quantum]

theorem execCore_quantum_length (procs : List Process) (alg : String) (s : SimState)
    (c : Nat) :
    (execCore procs alg s c).quantum_left.length = s.quantum_left.length := by
  cases hc : s.cores.getD c none with
  | none => rw [execCore_idle hc]
  | some p =>
    rw [execCore_eq procs alg hc]
    have : (quantumAfter alg s c).length = s.quantum_left.length := by
      unfold quantumAfter; split <;> simp
    split_ifs <;> exact this

theorem beforeExec_quantum_length (procs : List Process) (M : Nat) (alg : String)
    (quantum : Int) (s : SimState) :
    (beforeExec procs M alg quantum s).quantum_left.length = s.quantum_left.length := by
  have ha : (arrive procs alg s).quantum_left.length = s.quantum_left.length :=
    congrArg List.length (arrive_fields procs alg s).2.2.2.2.2.2.2.2.1
  have hp : (preempt M alg quantum (arrive procs alg s)).quantum_left.length =
      s.quantum_left.length := by
    unfold preempt
    split
    · exact foldl_range_preserves
        (P := fun t => t.quantum_left.length = s.quantum_left.length) M
        (fun t c _ ht => (preemptCore_quantum_length quantum t c).trans ht) _ ha
    · exact ha
  unfold beforeExec dispatch
  exact foldl_range_preserves
    (P := fun t => t.quantum_left.length = s.quantum_left.length) M
    (fun t c _ ht => (dispatchCore_quantum_length procs alg quantum t c).trans ht) _ hp

theorem tick_quantum_length (procs : List Process) (M : Nat) (alg : String) (quantum : Int)
    (s : SimState) :
    (tick procs M alg quantum s).quantum_left.length = s.quantum_left.length := by
  have he : (execute procs M alg (beforeExec procs M alg quantum s)).quantum_left.length =
      s.quantum_left.length := by
    unfold execute
    exact foldl_range_preserves
      (P := fun t => t.quantum_left.length = s.quantum_left.length) M
      (fun t c _ ht => (execCore_quantum_length procs alg t c).trans ht) _
      (beforeExec_quantum_length procs M alg quantum s)
  rw [tick_eq, advance_eq]
  exact he

theorem reachable_quantum_length {procs : List Process} {M : Nat} {alg : String}
    {quantum : Int} {s : SimState} (hr : Reachable procs M alg quantum s) :
    s.quantum_left.length = M := by
  induction hr with
  | init => simp [initState]
  | step _ _ ih => rw [tick_quantum_length]; exact ih

/-- The body of the execution loop on a busy core `k` leaves the other cores, the other
quantum counters and the other processes alone, and only appends to the FIFO queue. -/
theorem execCore_others (procs : List Process) (alg : String) {s : SimState} {k q : Nat}
    (hq : s.cores.getD k none = some q) :
    (∀ c, c ≠ k → (execCore procs alg s k).cores.getD c none = s.cores.getD c none) ∧
    (∀ c, c ≠ k →
      (execCore procs alg s k).quantum_left.getD c 0 = s.quantum_left.getD c 0) ∧
    (∀ p, p ≠ q → (execCore procs alg s k).remaining.getD p 0 = s.remaining.getD p 0 ∧
      (execCore procs alg s k).finish.getD p 0 = s.finish.getD p 0) ∧
    (∃ L, (execCore procs alg s k).fq = s.fq ++ L) := by
  have hql : ∀ c, c ≠ k → (quantumAfter alg s k).getD c 0 = s.quantum_left.getD c 0 := by
    intro c hc
    unfold quantumAfter
    split
    · exact getD_set_ne _ _ _ _ _ (Ne.symm hc)
    · rfl
  rw [execCore_eq procs alg hq]
  split_ifs
  · exact ⟨fun c hc => getD_set_ne _ _ _ _ _ (Ne.symm hc), hql,
      fun p hp => ⟨getD_set_ne _ _ _ _ _ (Ne.symm hp), getD_set_ne _ _ _ _ _ (Ne.symm hp)⟩,
      ⟨[], (List.append_nil _).symm⟩⟩
  · exact ⟨fun c hc => getD_set_ne _ _ _ _ _ (Ne.symm hc), hql,
      fun p hp => ⟨getD_set_ne _ _ _ _ _ (Ne.symm hp), rfl⟩, ⟨[q], rfl⟩⟩
  · exact ⟨fun c _ => rfl, hql,
      fun p hp => ⟨getD_set_ne _ _ _ _ _ (Ne.symm hp), rfl⟩, ⟨[], (List.append_nil _).symm⟩⟩

/-- The body of the execution loop under `RR` on the core of `p`. -/
theorem execCore_rr_self (procs : List Process) {s : SimState} {c p : Nat} {r k : Int}
    (h : OnCore s c p r k) (hp : p < s.remaining.length) (hpf : p < s.finish.length)
    (hc : c < s.cores.length) (hcq : c < s.quantum_left.length) :
    Executed s.fq s.currentTime (execCore procs "RR" s c) c p r k := by
  obtain ⟨hcore, hrem, hql⟩ := h
  have hra : remainingAfter s p = r - 1 := by rw [remainingAfter_eq hp, hrem]
  have hqa : (quantumAfter "RR" s c).getD c 0 = k - 1 := by
    unfold quantumAfter
    rw [if_pos rfl, getD_set_self _ _ _ _ hcq, hql]
  have hset : (s.remaining.set p (s.remaining.getD p 0 - 1)).getD p 0 = r - 1 := by
    rw [getD_set_self _ _ _ _ hp, hrem]
  rw [execCore_eq procs "RR" hcore, hra, hqa]
  unfold Executed OnCore
  split_ifs with h1 h2
  · refine ⟨hset, fun _ => ⟨getD_set_self _ _ _ _ hc, getD_set_self _ _ _ _ hpf⟩,
      fun h => absurd (by omega) h, fun h => absurd (by omega) h⟩
  · refine ⟨hset, fun h => absurd (by omega) h1,
      fun _ _ => ⟨getD_set_self _ _ _ _ hc, [p], rfl, List.mem_singleton_self p⟩,
      fun _ h => absurd (by have := h2.2; omega) h⟩
  · refine ⟨hset, fun h => absurd (by omega) h1,
      fun _ h => absurd ⟨rfl, by omega⟩ h2, fun _ _ => ⟨hcore, hset, hqa⟩⟩

/-- The execution phase under `RR`, for the process on core `c`. -/
theorem execute_rr_step {procs : List Process} {M : Nat} {d : SimState} {c p : Nat}
    {r k : Int} (hI : Inv procs M "RR" d) (hlen : d.quantum_left.length = M) (hc : c < M)
    (h : OnCore d c p r k) :
    Executed d.fq d.currentTime (execute procs M "RR" d) c p r k := by
  have key := foldl_range_indexed
    (Q := fun j t => (Inv procs M "RR" t ∧ t.quantum_left.length = M ∧
        t.currentTime = d.currentTime ∧ ∃ L, t.fq = d.fq ++ L) ∧
      (j ≤ c → OnCore t c p r k) ∧
      (c < j → Executed d.fq d.currentTime t c p r k))
    (f := execCore procs "RR") M { d with any := false }
    ⟨⟨with_any_inv hI, hlen, rfl, [], (List.append_nil _).symm⟩, fun _ => h,
      fun h0 => absurd h0 (Nat.not_lt_zero c)⟩ ?_
  · exact key.2.2 hc
  · intro j t hj ⟨⟨hIt, hlt, htime, L0, hfq⟩, q1, q2⟩
    have hclk := execCore_clock procs "RR" t j
    simp only [clockPart, Prod.mk.injEq] at hclk
    have hbase : Inv procs M "RR" (execCore procs "RR" t j) ∧
        (execCore procs "RR" t j).quantum_left.length = M ∧
        (execCore procs "RR" t j).currentTime = d.currentTime :=
      ⟨execCore_inv j hIt, by rw [execCore_quantum_length, hlt], by rw [hclk.2.1, htime]⟩
    rcases Nat.lt_trichotomy j c with hlt_c | heq | hgt
    · -- a core before `c`
      have hon := q1 (Nat.le_of_lt hlt_c)
      cases hcj : t.cores.getD j none with
      | none =>
        rw [execCore_idle hcj]
        exact ⟨⟨hIt, hlt, htime, L0, hfq⟩, fun _ => hon, fun h0 => absurd h0 (by omega)⟩
      | some q =>
        obtain ⟨o1, o2, o3, L1, o4⟩ := execCore_others procs "RR" hcj
        have hne : p ≠ q := cores_distinct hIt hon.1 hcj (by omega)
        refine ⟨⟨hbase.1, hbase.2.1, hbase.2.2, L0 ++ L1, by
          rw [o4, hfq, List.append_assoc]⟩, fun _ => ?_, fun h0 => absurd h0 (by omega)⟩
        exact ⟨by rw [o1 c (by omega)]; exact hon.1, by rw [(o3 p hne).1]; exact hon.2.1,
          by rw [o2 c (by omega)]; exact hon.2.2⟩
    · -- the core of `p`
      subst heq
      have hon := q1 (Nat.le_refl _)
      obtain ⟨hpN, _, _⟩ := hIt.live_ok p (running_mem_live procs hon.1)
      have hex := execCore_rr_self procs hon (by rw [hIt.len_rem]; exact hpN)
        (by rw [hIt.len_fin]; exact hpN) (by rw [hIt.len_cores]; exact hc)
        (by rw [hlt]; exact hc)
      obtain ⟨_, _, _, L1, o4⟩ := execCore_others procs "RR" hon.1
      refine ⟨⟨hbase.1, hbase.2.1, hbase.2.2, L0 ++ L1, by
        rw [o4, hfq, List.append_assoc]⟩, fun h0 => absurd h0 (by omega), fun _ => ?_⟩
      obtain ⟨e1, e2, e3, e4⟩ := hex
      refine ⟨e1, ?_, ?_, e4⟩
      · intro hr1; rw [← htime]; exact e2 hr1
      · intro hr1 hk1
        obtain ⟨hfree, L2, hL2, hmem⟩ := e3 hr1 hk1
        exact ⟨hfree, L0 ++ L2, by rw [hL2, hfq, List.append_assoc],
          List.mem_append_right _ hmem⟩
    · -- a core after `c`
      have hex := q2 hgt
      cases hcj : t.cores.getD j none with
      | none =>
        rw [execCore_idle hcj]
        exact ⟨⟨hIt, hlt, htime, L0, hfq⟩, fun h0 => absurd h0 (by omega), fun _ => hex⟩
      | some q =>
        obtain ⟨o1, o2, o3, L1, o4⟩ := execCore_others procs "RR" hcj
        obtain ⟨_, _, hqfin⟩ := hIt.live_ok q (running_mem_live procs hcj)
        obtain ⟨e1, e2, e3, e4⟩ := hex
        have hne : p ≠ q := by
          intro e
          subst e
          by_cases hr1 : r = 1
          · have := (e2 hr1).2
            rw [hqfin] at this
            have := hI.time_nonneg
            omega
          · by_cases hk1 : k = 1
            · obtain ⟨_, L2, hL2, hmem⟩ := e3 hr1 hk1
              have hnd := hIt.nodup
              simp only [live, active] at hnd
              have h1 := (List.nodup_append.mp hnd).2.1
              have h2 := (List.nodup_append.mp h1).2.2
              exact h2 (by rw [hL2]; exact List.mem_append_right _ hmem)
                (List.mem_append_right _ (mem_reduceOption_of_getD _ _ _ hcj))
            · exact cores_distinct hIt (e4 hr1 hk1).1 hcj (by omega) rfl
        refine ⟨⟨hbase.1, hbase.2.1, hbase.2.2, L0 ++ L1, by
          rw [o4, hfq, List.append_assoc]⟩, fun h0 => absurd h0 (by omega), fun _ => ?_⟩
        refine ⟨by rw [(o3 p hne).1]; exact e1, ?_, ?_, ?_⟩
        · intro hr1
          exact ⟨by rw [o1 c (by omega)]; exact (e2 hr1).1,
            by rw [(o3 p hne).2]; exact (e2 hr1).2⟩
        · intro hr1 hk1
          obtain ⟨hfree, L2, hL2, hmem⟩ := e3 hr1 hk1
          exact ⟨by rw [o1 c (by omega)]; exact hfree, L2 ++ L1,
            by rw [o4, hL2, List.append_assoc], List.mem_append_left _ hmem⟩
        · intro hr1 hk1
          obtain ⟨f1, f2, f3⟩ := e4 hr1 hk1
          exact ⟨by rw [o1 c (by omega)]; exact f1, by rw [(o3 p hne).1]; exact f2,
            by rw [o2 c (by omega)]; exact f3⟩

theorem tick_exec_fields (procs : List Process) (M : Nat) (alg : String) (quantum : Int)
    (s : SimState) :
    (tick procs M alg quantum s).cores =
      (execute procs M alg (beforeExec procs M alg quantum s)).cores ∧
    (tick procs M alg quantum s).remaining =
      (execute procs M alg (beforeExec procs M alg quantum s)).remaining ∧
    (tick procs M alg quantum s).finish =
      (execute procs M alg (beforeExec procs M alg quantum s)).finish ∧
    (tick procs M alg quantum s).quantum_left =
      (execute procs M alg (beforeExec procs M alg quantum s)).quantum_left ∧
    (tick procs M alg quantum s).fq =
      (execute procs M alg (beforeExec procs M alg quantum s)).fq := by
  rw [tick_eq, advance_eq]
  exact ⟨rfl, rfl, rfl, rfl, rfl⟩

/-- The head of a tick under `RR`: a busy core keeps its process and its quantum counter
until the execution phase, and a core that is filled has a fresh quantum. -/
theorem beforeExec_rr (procs : List Process) {M : Nat} (quantum : Int) {s : SimState}
    {c : Nat} (hlen : s.quantum_left.length = M) (hc : c < M) :
    (∀ p, s.cores.getD c none = some p →
      (beforeExec procs M "RR" quantum s).cores.getD c none = some p ∧
      (beforeExec procs M "RR" quantum s).quantum_left.getD c 0 =
        s.quantum_left.getD c 0) ∧
    (s.cores.getD c none = none →
      (beforeExec procs M "RR" quantum s).cores.getD c none = none ∨
      (beforeExec procs M "RR" quantum s).quantum_left.getD c 0 = quantum) := by
  have ha := arrive_fields procs "RR" s
  have hcores := ha.2.2.2.2.2.2.2.1
  have hql := ha.2.2.2.2.2.2.2.2.1
  have hpre : preempt M "RR" quantum (arrive procs "RR" s) = arrive procs "RR" s := by
    unfold preempt
    rw [if_neg (by decide)]
  have key := foldl_range_preserves
    (P := fun t => t.quantum_left.length = M ∧
      (∀ p, s.cores.getD c none = some p →
        t.cores.getD c none = some p ∧ t.quantum_left.getD c 0 = s.quantum_left.getD c 0) ∧
      (s.cores.getD c none = none →
        t.cores.getD c none = none ∨ t.quantum_left.getD c 0 = quantum))
    (f := dispatchCore procs "RR" quantum) M
    (fun t k _ ht => by
      obtain ⟨h1, h2, h3⟩ := ht
      rcases dispatchCore_rr procs quantum t k with e | ⟨hfree, _, ec, eq, _, _⟩
      · rw [e]; exact ⟨h1, h2, h3⟩
      · refine ⟨by rw [eq, List.length_set]; exact h1, ?_, ?_⟩
        · intro p hp
          obtain ⟨g1, g2⟩ := h2 p hp
          have hne : k ≠ c := by
            intro e; subst e; rw [hfree] at g1; cases g1
          rw [ec, eq, getD_set_ne _ _ _ _ _ hne, getD_set_ne _ _ _ _ _ hne]
          exact ⟨g1, g2⟩
        · intro hn
          by_cases hkc : k = c
          · subst hkc
            right
            rw [eq, getD_set_self _ _ _ _ (by rw [h1]; exact hc)]
          · rw [ec, eq, getD_set_ne _ _ _ _ _ hkc, getD_set_ne _ _ _ _ _ hkc]
            exact h3 hn)
    (arrive procs "RR" s)
    ⟨by rw [hql]; exact hlen, fun p hp => by rw [hcores, hql]; exact ⟨hp, rfl⟩,
      fun hn => Or.inl (by rw [hcores]; exact hn)⟩
  have hbe : beforeExec procs M "RR" quantum s =
      (List.range M).foldl (dispatchCore procs "RR" quantum) (arrive procs "RR" s) := by
    unfold beforeExec dispatch
    rw [hpre]
  rw [hbe]
  exact ⟨key.2.1, key.2.2⟩

theorem busy_not_done {procs : List Process} {M : Nat} {alg : String} {s : SimState}
    {c p : Nat} (hI : Inv procs M alg s) (hp : s.cores.getD c none = some p) :
    s.completed < procs.length := by
  have hl := running_mem_live procs hp
  have := hI.count
  have : 0 < (live procs s).length := List.length_pos_of_mem hl
  omega

/-- Claim C14: under `RR` with a quantum `q ≥ 1`, on a workload with ids `0..N-1` and
bursts of at least one tick, let a tick of the run put process `p`, with remaining burst
`r`, on a free core `c`.  Then `min q r ≥ 1`, and for every `j < min q r` the loop performs
iteration `j` after the dispatch with `p` on core `c` at its execution phase, with
remaining burst `r - j` and quantum counter `q - j`.  Iteration number `min q r` of these
ends with core `c` free and the remaining burst at `r - min q r`: with `r ≤ q` the process
has completed in that tick, with `q < r` it has been appended to the FIFO queue behind
everything that was in the queue when the execution phase began. -/
theorem rr_dispatch_runs_min_quantum_remaining (procs : List Process) (M : Nat)
    (quantum : Int) (s : SimState) (c p : Nat) (hq : 1 ≤ quantum)
    (hid : (procs.map Process.pid).Perm (List.range procs.length))
    (hb : ∀ x ∈ procs, 1 ≤ x.burst)
    (hr : Reachable procs M "RR" quantum s) (hc : c < M)
    (hfree : s.cores.getD c none = none)
    (hdisp : (beforeExec procs M "RR" quantum s).cores.getD c none = some p) :
    1 ≤ min quantum (s.remaining.getD p 0) ∧
    (∀ j : Nat, (j : Int) < min quantum (s.remaining.getD p 0) →
      (runTicks procs M "RR" quantum j s).completed < procs.length ∧
      OnCore (beforeExec procs M "RR" quantum (runTicks procs M "RR" quantum j s)) c p
        (s.remaining.getD p 0 - j) (quantum - j)) ∧
    (∀ m : Nat, (m : Int) + 1 = min quantum (s.remaining.getD p 0) →
      (runTicks procs M "RR" quantum (m + 1) s).cores.getD c none = none ∧
      (runTicks procs M "RR" quantum (m + 1) s).remaining.getD p 0 =
        s.remaining.getD p 0 - (m + 1) ∧
      (s.remaining.getD p 0 ≤ quantum →
        (runTicks procs M "RR" quantum (m + 1) s).finish.getD p 0 =
          (runTicks procs M "RR" quantum m s).currentTime + 1) ∧
      (quantum < s.remaining.getD p 0 →
        ∃ L, (runTicks procs M "RR" quantum (m + 1) s).fq =
          (beforeExec procs M "RR" quantum (runTicks procs M "RR" quantum m s)).fq ++ L ∧
          p ∈ L)) := by
  have hI := reachable_inv hid hb hr
  have hlen := reachable_quantum_length hr
  have hf0 := beforeExec_fields procs M "RR" quantum s
  have hr1 : 1 ≤ s.remaining.getD p 0 := by
    have := ((beforeExec_inv quantum hI).live_ok p (running_mem_live procs hdisp)).2.1
    rw [hf0.1] at this
    exact this
  have run : ∀ j : Nat, (j : Int) < min quantum (s.remaining.getD p 0) →
      Reachable procs M "RR" quantum (runTicks procs M "RR" quantum j s) ∧
      (runTicks procs M "RR" quantum j s).completed < procs.length ∧
      OnCore (beforeExec procs M "RR" quantum (runTicks procs M "RR" quantum j s)) c p
        (s.remaining.getD p 0 - j) (quantum - j) := by
    intro j
    induction j with
    | zero =>
      intro _
      have hd : (beforeExec procs M "RR" quantum s).completed < procs.length :=
        busy_not_done (beforeExec_inv quantum hI) hdisp
      rw [hf0.2.2.2.2.1] at hd
      show Reachable procs M "RR" quantum s ∧ s.completed < procs.length ∧
        OnCore (beforeExec procs M "RR" quantum s) c p
          (s.remaining.getD p 0 - ((0 : Nat) : Int)) (quantum - ((0 : Nat) : Int))
      refine ⟨hr, hd, hdisp, by rw [hf0.1]; simp, ?_⟩
      rcases (beforeExec_rr procs quantum hlen hc).2 hfree with h | h
      · rw [hdisp] at h; cases h
      · rw [h]; simp
    | succ n ih =>
      intro hj
      obtain ⟨hrn, hcn, hon⟩ := ih (by push_cast at hj; omega)
      have hIn := reachable_inv hid hb hrn
      have hex := execute_rr_step (beforeExec_inv quantum hIn)
        ((beforeExec_quantum_length procs M "RR" quantum _).trans
          (reachable_quantum_length hrn)) hc hon
      have hstay := hex.2.2.2 (by push_cast at hj; omega) (by push_cast at hj; omega)
      have htf := tick_exec_fields procs M "RR" quantum (runTicks procs M "RR" quantum n s)
      have hrn1 : Reachable procs M "RR" quantum
          (runTicks procs M "RR" quantum (n + 1) s) := by
        rw [runTicks_succ]; exact Reachable.step hrn hcn
      have hIn1 := reachable_inv hid hb hrn1
      have hcore1 : (runTicks procs M "RR" quantum (n + 1) s).cores.getD c none = some p := by
        rw [runTicks_succ, htf.1]; exact hstay.1
      have hhead := (beforeExec_rr procs quantum (reachable_quantum_length hrn1) hc).1 p hcore1
      have hfs := beforeExec_fields procs M "RR" quantum
        (runTicks procs M "RR" quantum (n + 1) s)
      have hd : (beforeExec procs M "RR" quantum
          (runTicks procs M "RR" quantum (n + 1) s)).completed < procs.length :=
        busy_not_done (beforeExec_inv quantum hIn1) hhead.1
      rw [hfs.2.2.2.2.1] at hd
      refine ⟨hrn1, hd, hhead.1, ?_, ?_⟩
      · rw [hfs.1, runTicks_succ, htf.2.1, hstay.2.1]; push_cast; omega
      · rw [hhead.2, runTicks_succ, htf.2.2.2.1, hstay.2.2]; push_cast; omega
  refine ⟨le_min hq hr1, fun j hj => (run j hj).2, ?_⟩
  intro m hm
  obtain ⟨hrn, hcn, hon⟩ := run m (by omega)
  have hIn := reachable_inv hid hb hrn
  have hex := execute_rr_step (beforeExec_inv quantum hIn)
    ((beforeExec_quantum_length procs M "RR" quantum _).trans
      (reachable_quantum_length hrn)) hc hon
  have htf := tick_exec_fields procs M "RR" quantum (runTicks procs M "RR" quantum m s)
  have hfs := beforeExec_fields procs M "RR" quantum (runTicks procs M "RR" quantum m s)
  obtain ⟨e1, e2, e3, _⟩ := hex
  rw [runTicks_succ, htf.1, htf.2.1, htf.2.2.1, htf.2.2.2.2]
  refine ⟨?_, by rw [e1]; omega, ?_, ?_⟩
  · by_cases h1 : s.remaining.getD p 0 - (m : Int) = 1
    · exact (e2 h1).1
    · exact (e3 h1 (by omega)).1
  · intro hle
    rw [(e2 (by omega)).2, hfs.2.2.2.2.2]
  · intro hlt
    exact (e3 (by omega) (by omega)).2

theorem rr_dispatch_runs_min_quantum_remaining_witness :
    1 ≤ min 5 ((initState [⟨0, 0, 12⟩, ⟨1, 0, 4⟩] 1 5).remaining.getD 0 0) ∧
    (∀ j : Nat, (j : Int) <
        min 5 ((initState [⟨0, 0, 12⟩, ⟨1, 0, 4⟩] 1 5).remaining.getD 0 0) →
      (runTicks [⟨0, 0, 12⟩, ⟨1, 0, 4⟩] 1 "RR" 5 j
        (initState [⟨0, 0, 12⟩, ⟨1, 0, 4⟩] 1 5)).completed <
        ([⟨0, 0, 12⟩, ⟨1, 0, 4⟩] : List Process).length ∧
      OnCore (beforeExec [⟨0, 0, 12⟩, ⟨1, 0, 4⟩] 1 "RR" 5
        (runTicks [⟨0, 0, 12⟩, ⟨1, 0, 4⟩] 1 "RR" 5 j
          (initState [⟨0, 0, 12⟩, ⟨1, 0, 4⟩] 1 5))) 0 0
        ((initState [⟨0, 0, 12⟩, ⟨1, 0, 4⟩] 1 5).remaining.getD 0 0 - j) (5 - j)) ∧
    (∀ m : Nat, (m : Int) + 1 =
        min 5 ((initState [⟨0, 0, 12⟩, ⟨1, 0, 4⟩] 1 5).remaining.getD 0 0) →
      (runTicks [⟨0, 0, 12⟩, ⟨1, 0, 4⟩] 1 "RR" 5 (m + 1)
        (initState [⟨0, 0, 12⟩, ⟨1, 0, 4⟩] 1 5)).cores.getD 0 none = none ∧
      (runTicks [⟨0, 0, 12⟩, ⟨1, 0, 4⟩] 1 "RR" 5 (m + 1)
        (initState [⟨0, 0, 12⟩, ⟨1, 0, 4⟩] 1 5)).remaining.getD 0 0 =
        (initState [⟨0, 0, 12⟩, ⟨1, 0, 4⟩] 1 5).remaining.getD 0 0 - (m + 1) ∧
      ((initState [⟨0, 0, 12⟩, ⟨1, 0, 4⟩] 1 5).remaining.getD 0 0 ≤ 5 →
        (runTicks [⟨0, 0, 12⟩, ⟨1, 0, 4⟩] 1 "RR" 5 (m + 1)
          (initState [⟨0, 0, 12⟩, ⟨1, 0, 4⟩] 1 5)).finish.getD 0 0 =
          (runTicks [⟨0, 0, 12⟩, ⟨1, 0, 4⟩] 1 "RR" 5 m
            (initState [⟨0, 0, 12⟩, ⟨1, 0, 4⟩] 1 5)).currentTime + 1) ∧
      (5 < (initState [⟨0, 0, 12⟩, ⟨1, 0, 4⟩] 1 5).remaining.getD 0 0 →
        ∃ L, (runTicks [⟨0, 0, 12⟩, ⟨1, 0, 4⟩] 1 "RR" 5 (m + 1)
          (initState [⟨0, 0, 12⟩, ⟨1, 0, 4⟩] 1 5)).fq =
          (beforeExec [⟨0, 0, 12⟩, ⟨1, 0, 4⟩] 1 "RR" 5
            (runTicks [⟨0, 0, 12⟩, ⟨1, 0, 4⟩] 1 "RR" 5 m
              (initState [⟨0, 0, 12⟩, ⟨1, 0, 4⟩] 1 5))).fq ++ L ∧
          0 ∈ L)) :=
  rr_dispatch_runs_min_quantum_remaining [⟨0, 0, 12⟩, ⟨1, 0, 4⟩] 1 5
    (initState [⟨0, 0, 12⟩, ⟨1, 0, 4⟩] 1 5) 0 0 (by decide) (List.Perm.refl _)
    (by decide) Reachable.init (by decide) (by decide) (by decide)

/-! ### The non-preemptive policies: waiting time and response time -/

/-- The body of the dispatch loop, when it dispatches: process `pid` leaves the waiting
processes for core `c`, and a first dispatch is recorded if there was none. -/
theorem dispatchCore_effect (procs : List Process) (alg : String) (quantum : Int)
    (s : SimState) (c : Nat) :
    dispatchCore procs alg quantum s c = s ∨
    (s.cores.getD c none = none ∧ ∃ pid,
      (dispatchCore procs alg quantum s c).cores = s.cores.set c (some pid) ∧
      (dispatchCore procs alg quantum s c).first_start =
        (if s.first_start.getD pid 0 < 0 then s.first_start.set pid s.currentTime
          else s.first_start) ∧
      (dispatchCore procs alg quantum s c).response_times =
        (if s.first_start.getD pid 0 < 0 then
          s.response_times.set pid (s.currentTime - arrivalOf procs pid)
          else s.response_times) ∧
      (waiting procs s).Perm (pid :: waiting procs (dispatchCore procs alg quantum s c))) := by
  have hfifo : ∀ (ql : List Int), s.fq ≠ [] →
      (waiting procs s).Perm (s.fq.getD 0 0 ::
        waiting procs (assign procs c (s.fq.getD 0 0)
          { s with fq := s.fq.tail, quantum_left := ql })) := by
    intro ql hne
    have hq := assign_queues procs c (s.fq.getD 0 0)
      { s with fq := s.fq.tail, quantum_left := ql }
    have hst := assign_static procs c (s.fq.getD 0 0)
      { s with fq := s.fq.tail, quantum_left := ql }
    simp only [staticPart, Prod.mk.injEq] at hst
    simp only [waiting, unadmitted, hq.1, hq.2, hst.2.2.2.2.2.1]
    rw [List.perm_iff_count]
    intro a
    have := congrArg (List.count a) (cons_tail_of_ne_nil s.fq hne)
    simp only [List.count_append, List.count_cons] at this ⊢
    omega
  unfold dispatchCore
  split
  · exact Or.inl rfl
  · rename_i hfree
    split_ifs with h1 h2 h3 h4
    · refine Or.inr ⟨hfree, s.fq.getD 0 0, ?_, ?_, ?_, ?_⟩
      · rw [assign_cores]
      · rw [assign_first_start]
      · rw [assign_response]
      · exact hfifo s.quantum_left h1.2
    · refine Or.inr ⟨hfree, pqTop s.sjf_pq, ?_, ?_, ?_, ?_⟩
      · rw [assign_cores]
      · rw [assign_first_start]
      · rw [assign_response]
      · have hq := assign_queues procs c (pqTop s.sjf_pq)
          { s with sjf_pq := pqPop s.remaining s.sjf_pq }
        have hst := assign_static procs c (pqTop s.sjf_pq)
          { s with sjf_pq := pqPop s.remaining s.sjf_pq }
        simp only [staticPart, Prod.mk.injEq] at hst
        simp only [waiting, unadmitted, hq.1, hq.2, hst.2.2.2.2.2.1]
        rw [List.perm_iff_count]
        intro a
        have := (pqPop_perm s.remaining s.sjf_pq h3).count_eq a
        simp only [List.count_append, List.count_cons] at this ⊢
        omega
    · exact Or.inl rfl
    · refine Or.inr ⟨hfree, s.fq.getD 0 0, ?_, ?_, ?_, ?_⟩
      · rw [assign_cores]
      · rw [assign_first_start]
      · rw [assign_response]
      · exact hfifo (s.quantum_left.set c quantum) h4.2
    · exact Or.inl rfl

theorem waiting_disjoint_running {procs : List Process} {M : Nat} {alg : String}
    {s : SimState} (hI : Inv procs M alg s) {c p : Nat} (hw : p ∈ waiting procs s)
    (hc : s.cores.getD c none = some p) : False := by
  have hnd := hI.nodup
  rw [live_eq_waiting_append] at hnd
  exact (List.nodup_append.mp hnd).2.2 hw (mem_reduceOption_of_getD _ _ _ hc)

theorem waiting_mem_live {procs : List Process} {s : SimState} {p : Nat}
    (hw : p ∈ waiting procs s) : p ∈ live procs s := by
  rw [live_eq_waiting_append]; exact List.mem_append_left _ hw

theorem dispatchCore_nptimes {procs : List Process} {M : Nat} {alg : String}
    (quantum : Int) {s : SimState} (c : Nat) (hc : c < M) (hI : Inv procs M alg s)
    (hN : NPInv procs s) (h : NPTimes procs s.currentTime 0 s) :
    NPTimes procs s.currentTime 0 (dispatchCore procs alg quantum s c) := by
  have hst := dispatchCore_static procs alg quantum s c
  simp only [staticPart, Prod.mk.injEq] at hst
  rcases dispatchCore_effect procs alg quantum s c with he | ⟨hfree, pid, hcs, hfs, hrt, hw⟩
  · rw [he]; exact h
  · have hpid_w : pid ∈ waiting procs s := hw.mem_iff.mpr (List.mem_cons_self _ _)
    obtain ⟨hpidN, _, hpidfin⟩ := hI.live_ok pid (waiting_mem_live hpid_w)
    have hfresh := hN.fresh pid hpid_w
    have hneg : s.first_start.getD pid 0 < 0 := by rw [hfresh]; decide
    rw [if_pos hneg] at hfs hrt
    refine ⟨by rw [hst.2.2.1]; exact h.len_wt, by rw [hrt, List.length_set]; exact h.len_rt,
      ?_, ?_, ?_, fun c' _ hc' => absurd hc' (Nat.not_lt_zero c')⟩
    · intro p hp
      rw [hst.1]
      exact h.fresh_rem p (hw.mem_iff.mpr (List.mem_cons_of_mem _ hp))
    · intro c' p hp
      rw [hcs] at hp
      rw [hfs, hrt, hst.1]
      by_cases hcc : c' = c
      · subst hcc
        rw [getD_set_self _ _ _ _ (by rw [hI.len_cores]; exact hc)] at hp
        injection hp with hp
        subst hp
        rw [getD_set_self _ _ _ _ (by rw [hN.len_fs]; exact hpidN),
          getD_set_self _ _ _ _ (by rw [h.len_rt]; exact hpidN), h.fresh_rem _ hpid_w]
        simp
      · rw [getD_set_ne _ _ _ _ _ (Ne.symm hcc)] at hp
        have hne : pid ≠ p := fun e => waiting_disjoint_running hI (e ▸ hpid_w) hp
        rw [getD_set_ne _ _ _ _ _ hne, getD_set_ne _ _ _ _ _ hne]
        exact h.on_core c' p hp
    · intro p hpN hp
      rw [hst.2.1] at hp ⊢
      have hne : pid ≠ p := fun e => hp (e ▸ hpidfin)
      rw [hfs, hrt, hst.2.2.1, getD_set_ne _ _ _ _ _ hne, getD_set_ne _ _ _ _ _ hne]
      exact h.finished p hpN hp

theorem execCore_waiting (procs : List Process) {alg : String} (hnr : alg ≠ "RR")
    (s : SimState) (c : Nat) :
    waiting procs (execCore procs alg s c) = waiting procs s := by
  have hclk := execCore_clock procs alg s c
  simp only [clockPart, Prod.mk.injEq] at hclk
  have hfq : (execCore procs alg s c).fq = s.fq := by
    cases hc : s.cores.getD c none with
    | none => rw [execCore_idle hc]
    | some p =>
      rw [execCore_eq procs alg hc]
      split_ifs with h1 h2
      · rfl
      · exact absurd h2.1 hnr
      · rfl
  simp only [waiting, unadmitted, hclk.1, hclk.2.2.2.2, hfq]

theorem execCore_nptimes {procs : List Process} {M : Nat} {alg : String}
    (hnr : alg ≠ "RR") {s : SimState} {T : Int} (k : Nat) (hk : k < M)
    (hI : Inv procs M alg s) (hT : s.currentTime = T) (h : NPTimes procs T k s) :
    NPTimes procs T (k + 1) (execCore procs alg s k) := by
  cases hc : s.cores.getD k none with
  | none =>
    rw [execCore_idle hc]
    refine ⟨h.len_wt, h.len_rt, h.fresh_rem, ?_, h.finished, ?_⟩
    · intro c p hp
      have hne : c ≠ k := by intro e; subst e; rw [hc] at hp; cases hp
      have := h.on_core c p hp
      have e1 : (if c < k + 1 then (1 : Int) else 0) = (if c < k then 1 else 0) := by
        split_ifs <;> first | rfl | omega
      rw [e1]
      exact this
    · intro c p hck hp
      have hne : c ≠ k := by intro e; subst e; rw [hc] at hp; cases hp
      exact h.any_set c p (by omega) hp
  | some q =>
    obtain ⟨hqN, hqrem, hqfin⟩ := hI.live_ok q (running_mem_live procs hc)
    have hw := execCore_waiting procs hnr s k
    have hclk := execCore_clock procs alg s k
    simp only [clockPart, Prod.mk.injEq] at hclk
    have hq_core := h.on_core k q hc
    rw [if_neg (Nat.lt_irrefl k)] at hq_core
    have hshift : ∀ c, c ≠ k →
        (if c < k + 1 then (1 : Int) else 0) = (if c < k then 1 else 0) := by
      intro c hne
      split_ifs <;> first | rfl | omega
    have hwait_ne : ∀ p, p ∈ waiting procs s → q ≠ p :=
      fun p hp e => waiting_disjoint_running hI (e ▸ hp) hc
    rw [execCore_nonRR procs hnr hc (by rw [hI.len_rem]; exact hqN)] at hw ⊢
    split
    · rename_i hz
      refine ⟨by simp [h.len_wt], h.len_rt, ?_, ?_, ?_, fun _ _ _ _ => rfl⟩
      · intro p hp
        rw [if_pos hz] at hw
        rw [hw] at hp
        show (s.remaining.set q (s.remaining.getD q 0 - 1)).getD p 0 = _
        rw [getD_set_ne _ _ _ _ _ (hwait_ne p hp)]
        exact h.fresh_rem p hp
      · intro c p hp
        have hp' : (s.cores.set k none).getD c none = some p := hp
        have hne : c ≠ k := by
          intro e
          subst e
          rw [getD_set_self _ _ _ _ (by rw [hI.len_cores]; exact hk)] at hp'
          cases hp'
        rw [getD_set_ne _ _ _ _ _ (Ne.symm hne)] at hp'
        have hpq : q ≠ p := fun e => cores_distinct hI hp' hc hne e.symm
        show s.first_start.getD p 0 + burstOf procs p =
            T + (s.remaining.set q (s.remaining.getD q 0 - 1)).getD p 0 +
              (if c < k + 1 then 1 else 0) ∧
          s.response_times.getD p 0 = s.first_start.getD p 0 - arrivalOf procs p
        rw [getD_set_ne _ _ _ _ _ hpq, hshift c hne]
        exact h.on_core c p hp'
      · intro p hpN hp
        show (s.finish.set q (s.currentTime + 1)).getD p 0 =
            s.first_start.getD p 0 + burstOf procs p ∧
          (s.wait_times.set q
            (s.currentTime + 1 - arrivalOf procs q - burstOf procs q)).getD p 0 =
            (s.finish.set q (s.currentTime + 1)).getD p 0 - arrivalOf procs p -
              burstOf procs p ∧
          s.response_times.getD p 0 = s.first_start.getD p 0 - arrivalOf procs p
        by_cases hpq : q = p
        · subst hpq
          rw [getD_set_self _ _ _ _ (by rw [hI.len_fin]; exact hqN),
            getD_set_self _ _ _ _ (by rw [h.len_wt]; exact hqN)]
          exact ⟨by rw [hT]; omega, rfl, hq_core.2⟩
        · have hp' : (s.finish.set q (s.currentTime + 1)).getD p 0 ≠ -1 := hp
          rw [getD_set_ne _ _ _ _ _ hpq] at hp' ⊢
          rw [getD_set_ne _ _ _ _ _ hpq]
          exact h.finished p hpN hp'
    · rename_i hz
      refine ⟨h.len_wt, h.len_rt, ?_, ?_, ?_, fun _ _ _ _ => rfl⟩
      · intro p hp
        rw [if_neg hz] at hw
        rw [hw] at hp
        show (s.remaining.set q (s.remaining.getD q 0 - 1)).getD p 0 = _
        rw [getD_set_ne _ _ _ _ _ (hwait_ne p hp)]
        exact h.fresh_rem p hp
      · intro c p hp
        have hp' : s.cores.getD c none = some p := hp
        show s.first_start.getD p 0 + burstOf procs p =
            T + (s.remaining.set q (s.remaining.getD q 0 - 1)).getD p 0 +
              (if c < k + 1 then 1 else 0) ∧
          s.response_times.getD p 0 = s.first_start.getD p 0 - arrivalOf procs p
        by_cases hne : c = k
        · subst hne
          rw [hc] at hp'
          injection hp' with hp'
          subst hp'
          rw [getD_set_self _ _ _ _ (by rw [hI.len_rem]; exact hqN),
            if_pos (Nat.lt_succ_self c)]
          exact ⟨by omega, hq_core.2⟩
        · have hpq : q ≠ p := fun e => cores_distinct hI hp' hc hne e.symm
          rw [getD_set_ne _ _ _ _ _ hpq, hshift c hne]
          exact h.on_core c p hp'
      · intro p hpN hp
        have hp' : s.finish.getD p 0 ≠ -1 := hp
        exact h.finished p hpN hp'

theorem tick_nptimes {procs : List Process} {M : Nat} {alg : String} (quantum : Int)
    (hnp : alg = "FCFS" ∨ alg = "SJF-NP") {s : SimState}
    (hI : Inv procs M alg s) (hN : NPInv procs s) (h : NPTimes procs s.currentTime 0 s) :
    NPTimes procs (tick procs M alg quantum s).currentTime 0 (tick procs M alg quantum s) := by
  have hv : ValidAlg alg := by
    rcases hnp with e | e
    · exact Or.inl e
    · exact Or.inr (Or.inl e)
  have hnr : alg ≠ "RR" := by rcases hnp with e | e <;> rw [e] <;> decide
  have hnp' : alg ≠ "SJF-P" := by rcases hnp with e | e <;> rw [e] <;> decide
  have hpre : preempt M alg quantum (arrive procs alg s) = arrive procs alg s := by
    unfold preempt; rw [if_neg hnp']
  have ha := arrive_fields procs alg s
  have hwa := arriveLoop_waiting procs alg _ s rfl
  -- phase 1
  have h1 : NPTimes procs s.currentTime 0 (arrive procs alg s) := by
    refine ⟨by rw [ha.2.2.2.1]; exact h.len_wt, by rw [ha.2.2.2.2.1]; exact h.len_rt,
      ?_, ?_, ?_, fun c _ hc => absurd hc (Nat.not_lt_zero c)⟩
    · intro p hp
      rw [ha.1]
      exact h.fresh_rem p (hwa.mem_iff.mp hp)
    · intro c p hp
      rw [ha.2.2.2.2.2.2.2.1] at hp
      rw [ha.1, ha.2.1, ha.2.2.2.2.1]
      exact h.on_core c p hp
    · intro p hpN hp
      rw [ha.2.2.1] at hp ⊢
      rw [ha.2.1, ha.2.2.2.1, ha.2.2.2.2.1]
      exact h.finished p hpN hp
  -- phase 3
  have hd : Inv procs M alg (beforeExec procs M alg quantum s) ∧
      NPInv procs (beforeExec procs M alg quantum s) ∧
      (beforeExec procs M alg quantum s).currentTime = s.currentTime ∧
      NPTimes procs s.currentTime 0 (beforeExec procs M alg quantum s) := by
    unfold beforeExec dispatch
    rw [hpre]
    exact foldl_range_preserves
      (P := fun t => Inv procs M alg t ∧ NPInv procs t ∧ t.currentTime = s.currentTime ∧
        NPTimes procs s.currentTime 0 t) M
      (fun t c hc ht => by
        obtain ⟨i1, i2, i3, i4⟩ := ht
        have hst := dispatchCore_static procs alg quantum t c
        simp only [staticPart, Prod.mk.injEq] at hst
        refine ⟨dispatchCore_inv c hc i1, dispatchCore_npinv quantum c hc hv i1 i2,
          by rw [hst.2.2.2.2.2.2.1, i3], ?_⟩
        have := dispatchCore_nptimes quantum c hc i1 i2 (by rw [i3]; exact i4)
        rw [i3] at this
        exact this)
      _ ⟨arrive_inv hI, arrive_npinv hN, ha.2.2.2.2.2.2.2.2.2.2, h1⟩
  -- phase 4
  have he : Inv procs M alg (execute procs M alg (beforeExec procs M alg quantum s)) ∧
      (execute procs M alg (beforeExec procs M alg quantum s)).currentTime = s.currentTime ∧
      NPTimes procs s.currentTime M
        (execute procs M alg (beforeExec procs M alg quantum s)) := by
    unfold execute
    refine foldl_range_indexed
      (Q := fun k t => Inv procs M alg t ∧ t.currentTime = s.currentTime ∧
        NPTimes procs s.currentTime k t)
      (f := execCore procs alg) M _ ?_ ?_
    · exact ⟨with_any_inv hd.1, hd.2.2.1,
        ⟨hd.2.2.2.len_wt, hd.2.2.2.len_rt, hd.2.2.2.fresh_rem, hd.2.2.2.on_core,
          hd.2.2.2.finished, fun c _ hc => absurd hc (Nat.not_lt_zero c)⟩⟩
    · intro k t hk ⟨i1, i2, i3⟩
      have hclk := execCore_clock procs alg t k
      simp only [clockPart, Prod.mk.injEq] at hclk
      exact ⟨execCore_inv k i1, by rw [hclk.2.1, i2], execCore_nptimes hnr k hk i1 i2 i3⟩
  -- phase 5
  obtain ⟨e1, e2, e3⟩ := he
  have hadv := advance_eq procs (execute procs M alg (beforeExec procs M alg quantum s))
  rw [tick_eq]
  refine ⟨by rw [hadv]; exact e3.len_wt, by rw [hadv]; exact e3.len_rt, ?_, ?_, ?_,
    fun c _ hc => absurd hc (Nat.not_lt_zero c)⟩
  · intro p hp
    rw [hadv] at hp ⊢
    exact e3.fresh_rem p hp
  · intro c p hp
    have hp' : (execute procs M alg (beforeExec procs M alg quantum s)).cores.getD c none
        = some p := by
      rw [hadv] at hp; exact hp
    have hcM : c < M := by
      rw [← e1.len_cores]
      exact lt_length_of_getD_ne _ _ _ (by rw [hp']; simp)
    have hany := e3.any_set c p hcM hp'
    have hclock : (advance procs
        (execute procs M alg (beforeExec procs M alg quantum s))).currentTime =
        s.currentTime + 1 := by
      unfold advance
      rw [if_neg (fun hh => by rw [hany] at hh; cases hh.1), e2]
    have := e3.on_core c p hp'
    rw [if_pos hcM] at this
    rw [hadv]
    refine ⟨?_, this.2⟩
    show (execute procs M alg (beforeExec procs M alg quantum s)).first_start.getD p 0 +
        burstOf procs p =
      (advance procs (execute procs M alg (beforeExec procs M alg quantum s))).currentTime +
        (execute procs M alg (beforeExec procs M alg quantum s)).remaining.getD p 0 +
        (if c < 0 then 1 else 0)
    rw [hclock, if_neg (Nat.not_lt_zero c)]
    omega
  · intro p hpN hp
    rw [hadv] at hp ⊢
    exact e3.finished p hpN hp

theorem init_nptimes (procs : List Process) (M : Nat) (quantum : Int)
    (hid : (procs.map Process.pid).Perm (List.range procs.length)) :
    NPTimes procs (initState procs M quantum).currentTime 0 (initState procs M quantum) := by
  have hw : waiting procs (initState procs M quantum) = procs.map Process.pid := by
    simp [waiting, unadmitted, initState]
  refine ⟨by simp [initState], by simp [initState], ?_, ?_, ?_,
    fun c _ hc => absurd hc (Nat.not_lt_zero c)⟩
  · intro p hp
    rw [hw] at hp
    have hpN : p < procs.length := List.mem_range.mp (hid.mem_iff.mp hp)
    simp [initState, burstOf, List.getD_eq_getElem?_getD, List.getElem?_map,
      List.getElem?_eq_getElem hpN]
  · intro c p hp
    simp [initState, List.getD_eq_getElem?_getD, List.getElem?_replicate] at hp
    split at hp <;> simp at hp
  · intro p hpN hp
    exfalso
    apply hp
    simp [initState, List.getD_eq_getElem?_getD, List.getElem?_replicate, hpN]

theorem reachable_nptimes {procs : List Process} {M : Nat} {alg : String} {quantum : Int}
    (hnp : alg = "FCFS" ∨ alg = "SJF-NP")
    (hid : (procs.map Process.pid).Perm (List.range procs.length))
    (hb : ∀ q ∈ procs, 1 ≤ q.burst) {s : SimState}
    (hr : Reachable procs M alg quantum s) :
    (Inv procs M alg s ∧ NPInv procs s) ∧ NPTimes procs s.currentTime 0 s := by
  induction hr with
  | init =>
    exact ⟨⟨init_inv procs M alg quantum hid hb, init_npinv procs M quantum hid⟩,
      init_nptimes procs M quantum hid⟩
  | step _ _ ih =>
    exact ⟨⟨tick_inv ih.1.1, tick_npinv quantum hnp ih.1.1 ih.1.2⟩,
      tick_nptimes quantum hnp ih.1.1 ih.1.2 ih.2⟩

theorem list_eq_of_getD {l1 l2 : List Int} (hlen : l1.length = l2.length)
    (h : ∀ i, i < l1.length → l1.getD i 0 = l2.getD i 0) : l1 = l2 := by
  apply List.ext_getElem hlen
  intro i h1 h2
  have := h i h1
  rw [List.getD_eq_getElem _ _ h1, List.getD_eq_getElem _ _ h2] at this
  exact this

/-- Claim C20: under `FCFS` and `SJF-NP`, on a workload with ids `0..N-1` and bursts of at
least one tick, whenever the run ends, every process has finished at the tick of its first
dispatch plus its burst (the burst of the entry of `procs` that its id indexes, which is
the run length that `simulate` gives it), its response time equals its waiting time, and
the returned `avg_response` equals the returned `avg_waiting`. -/
theorem nonpreemptive_response_equals_waiting (procs : List Process) (M : Nat)
    (alg : String) (quantum : Int) (fuel : Nat) (s : SimState)
    (hnp : alg = "FCFS" ∨ alg = "SJF-NP")
    (hid : (procs.map Process.pid).Perm (List.range procs.length))
    (hb : ∀ q ∈ procs, 1 ≤ q.burst)
    (hrun : runLoop procs M alg quantum fuel (initState procs M quantum) = some s) :
    (∀ p, p < procs.length →
      0 ≤ s.first_start.getD p 0 ∧
      s.finish.getD p 0 = s.first_start.getD p 0 + burstOf procs p ∧
      s.response_times.getD p 0 = s.first_start.getD p 0 - arrivalOf procs p ∧
      s.wait_times.getD p 0 = s.first_start.getD p 0 - arrivalOf procs p) ∧
    s.response_times = s.wait_times ∧
    simulate fuel procs M alg quantum = some (metricsOf procs M s) ∧
    (metricsOf procs M s).avg_response = (metricsOf procs M s).avg_waiting := by
  obtain ⟨hr, hc⟩ := runLoop_reachable procs M alg quantum _ _ _ Reachable.init hrun
  obtain ⟨⟨hI, hN⟩, hT⟩ := reachable_nptimes hnp hid hb hr
  have hlive : live procs s = [] := by
    have := hI.count
    exact List.length_eq_zero.mp (by omega)
  have hall : ∀ p, p < procs.length →
      0 ≤ s.first_start.getD p 0 ∧
      s.finish.getD p 0 = s.first_start.getD p 0 + burstOf procs p ∧
      s.response_times.getD p 0 = s.first_start.getD p 0 - arrivalOf procs p ∧
      s.wait_times.getD p 0 = s.first_start.getD p 0 - arrivalOf procs p := by
    intro p hp
    have hdone := hI.done_ok p hp (by rw [hlive]; simp)
    obtain ⟨f1, f2, f3⟩ := hT.finished p hp (by omega)
    have hst := hN.started p hp (by
      intro hw
      have := waiting_mem_live hw
      rw [hlive] at this
      cases this)
    exact ⟨hst, f1, f3, by rw [f2, f1]; omega⟩
  have heq : s.response_times = s.wait_times :=
    list_eq_of_getD (by rw [hT.len_rt, hT.len_wt]) (fun i hi => by
      have := hall i (by rw [← hT.len_rt]; exact hi)
      rw [this.2.2.1, this.2.2.2])
  refine ⟨hall, heq, by simp [simulate, hrun], ?_⟩
  show ddiv s.response_times.sum _ = ddiv s.wait_times.sum _
  rw [heq]

theorem nonpreemptive_response_equals_waiting_witness :
    (∀ p, p < ([⟨0, 0, 2⟩, ⟨1, 0, 1⟩] : List Process).length →
      0 ≤ (runTicks [⟨0, 0, 2⟩, ⟨1, 0, 1⟩] 1 "SJF-NP" 10 3
        (initState [⟨0, 0, 2⟩, ⟨1, 0, 1⟩] 1 10)).first_start.getD p 0 ∧
      (runTicks [⟨0, 0, 2⟩, ⟨1, 0, 1⟩] 1 "SJF-NP" 10 3
        (initState [⟨0, 0, 2⟩, ⟨1, 0, 1⟩] 1 10)).finish.getD p 0 =
        (runTicks [⟨0, 0, 2⟩, ⟨1, 0, 1⟩] 1 "SJF-NP" 10 3
          (initState [⟨0, 0, 2⟩, ⟨1, 0, 1⟩] 1 10)).first_start.getD p 0 +
          burstOf [⟨0, 0, 2⟩, ⟨1, 0, 1⟩] p ∧
      (runTicks [⟨0, 0, 2⟩, ⟨1, 0, 1⟩] 1 "SJF-NP" 10 3
        (initState [⟨0, 0, 2⟩, ⟨1, 0, 1⟩] 1 10)).response_times.getD p 0 =
        (runTicks [⟨0, 0, 2⟩, ⟨1, 0, 1⟩] 1 "SJF-NP" 10 3
          (initState [⟨0, 0, 2⟩, ⟨1, 0, 1⟩] 1 10)).first_start.getD p 0 -
          arrivalOf [⟨0, 0, 2⟩, ⟨1, 0, 1⟩] p ∧
      (runTicks [⟨0, 0, 2⟩, ⟨1, 0, 1⟩] 1 "SJF-NP" 10 3
        (initState [⟨0, 0, 2⟩, ⟨1, 0, 1⟩] 1 10)).wait_times.getD p 0 =
        (runTicks [⟨0, 0, 2⟩, ⟨1, 0, 1⟩] 1 "SJF-NP" 10 3
          (initState [⟨0, 0, 2⟩, ⟨1, 0, 1⟩] 1 10)).first_start.getD p 0 -
          arrivalOf [⟨0, 0, 2⟩, ⟨1, 0, 1⟩] p) ∧
    (runTicks [⟨0, 0, 2⟩, ⟨1, 0, 1⟩] 1 "SJF-NP" 10 3
      (initState [⟨0, 0, 2⟩, ⟨1, 0, 1⟩] 1 10)).response_times =
      (runTicks [⟨0, 0, 2⟩, ⟨1, 0, 1⟩] 1 "SJF-NP" 10 3
        (initState [⟨0, 0, 2⟩, ⟨1, 0, 1⟩] 1 10)).wait_times ∧
    simulate 5 [⟨0, 0, 2⟩, ⟨1, 0, 1⟩] 1 "SJF-NP" 10 =
      some (metricsOf [⟨0, 0, 2⟩, ⟨1, 0, 1⟩] 1
        (runTicks [⟨0, 0, 2⟩, ⟨1, 0, 1⟩] 1 "SJF-NP" 10 3
          (initState [⟨0, 0, 2⟩, ⟨1, 0, 1⟩] 1 10))) ∧
    (metricsOf [⟨0, 0, 2⟩, ⟨1, 0, 1⟩] 1
      (runTicks [⟨0, 0, 2⟩, ⟨1, 0, 1⟩] 1 "SJF-NP" 10 3
        (initState [⟨0, 0, 2⟩, ⟨1, 0, 1⟩] 1 10))).avg_response =
      (metricsOf [⟨0, 0, 2⟩, ⟨1, 0, 1⟩] 1
        (runTicks [⟨0, 0, 2⟩, ⟨1, 0, 1⟩] 1 "SJF-NP" 10 3
          (initState [⟨0, 0, 2⟩, ⟨1, 0, 1⟩] 1 10))).avg_waiting :=
  nonpreemptive_response_equals_waiting [⟨0, 0, 2⟩, ⟨1, 0, 1⟩] 1 "SJF-NP" 10 5
    (runTicks [⟨0, 0, 2⟩, ⟨1, 0, 1⟩] 1 "SJF-NP" 10 3
      (initState [⟨0, 0, 2⟩, ⟨1, 0, 1⟩] 1 10))
    (Or.inr rfl) (List.Perm.refl _) (by decide) (by decide)

/-! ### Round Robin with a quantum that no burst exceeds -/

theorem dispatchCore_active_perm (procs : List Process) (alg : String) (quantum : Int)
    (s : SimState) (c : Nat) (hc : c < s.cores.length) :
    (active (dispatchCore procs alg quantum s c)).Perm (active s) := by
  have hst := dispatchCore_static procs alg quantum s c
  simp only [staticPart, Prod.mk.injEq] at hst
  rcases dispatchCore_effect procs alg quantum s c with he | ⟨hfree, pid, hcs, _, _, hw⟩
  · rw [he]
  · have hr := reduceOption_set_some s.cores c pid hc hfree
    rw [← hcs] at hr
    have hl : (live procs (dispatchCore procs alg quantum s c)).Perm (live procs s) := by
      rw [live_eq_waiting_append, live_eq_waiting_append, List.perm_iff_count]
      intro a
      have h1 := hw.count_eq a
      have h2 := hr.count_eq a
      simp only [running, List.count_append, List.count_cons] at h1 h2 ⊢
      omega
    have hu : unadmitted procs (dispatchCore procs alg quantum s c) = unadmitted procs s := by
      simp only [unadmitted, hst.2.2.2.2.2.1]
    simp only [live, hu] at hl
    exact (List.perm_append_left_iff _).mp hl

theorem dispatchCore_countinv {procs : List Process} {M : Nat} (alg : String)
    (quantum : Int) {s : SimState} (c : Nat) (hc : c < M) (h : CountInv procs M s) :
    CountInv procs M (dispatchCore procs alg quantum s c) := by
  have hst := dispatchCore_static procs alg quantum s c
  simp only [staticPart, Prod.mk.injEq] at hst
  have hp := dispatchCore_active_perm procs alg quantum s c (by rw [h.len_cores]; exact hc)
  have hu : unadmitted procs (dispatchCore procs alg quantum s c) = unadmitted procs s := by
    simp only [unadmitted, hst.2.2.2.2.2.1]
  refine ⟨?_, ?_⟩
  · rcases dispatchCore_effect procs alg quantum s c with he | ⟨_, pid, hcs, _, _, _⟩
    · rw [he]; exact h.len_cores
    · rw [hcs, List.length_set]; exact h.len_cores
  · have := h.count
    simp only [live, hu, List.length_append, hp.length_eq, hst.2.2.2.2.1] at this ⊢
    exact this

theorem dispatchCore_doomed (procs : List Process) (alg : String) (quantum : Int)
    {s : SimState} (c : Nat) (hc : c < s.cores.length) {p : Nat} (h : Doomed s p) :
    Doomed (dispatchCore procs alg quantum s c) p := by
  have hst := dispatchCore_static procs alg quantum s c
  simp only [staticPart, Prod.mk.injEq] at hst
  unfold Doomed
  rw [hst.1]
  exact ⟨h.1, h.2.1, (dispatchCore_active_perm procs alg quantum s c hc).mem_iff.mpr h.2.2⟩

theorem arriveLoop_active_sub (alg : String) :
    ∀ (rest : List Process) (s : SimState) (x : Nat), x ∈ active s →
      x ∈ active (arriveLoop alg rest s) := by
  intro rest
  induction rest with
  | nil => intro s x hx; simp only [arriveLoop]; exact hx
  | cons p t ih =>
    intro s x hx
    simp only [arriveLoop]
    split
    · split
      · apply ih
        simp only [active, running, List.mem_append] at hx ⊢
        rcases hx with h | h | h
        · exact Or.inl (Or.inl h)
        · exact Or.inr (Or.inl h)
        · exact Or.inr (Or.inr h)
      · apply ih
        simp only [active, running, List.mem_append] at hx ⊢
        rcases hx with h | h | h
        · exact Or.inl h
        · exact Or.inr (Or.inl ((pqPush_perm s.remaining s.sjf_pq p.pid).mem_iff.mpr
            (List.mem_cons_of_mem _ h)))
        · exact Or.inr (Or.inr h)
    · exact hx

theorem arrive_doomed (procs : List Process) (alg : String) {s : SimState} {p : Nat}
    (h : Doomed s p) : Doomed (arrive procs alg s) p := by
  unfold Doomed
  rw [(arrive_fields procs alg s).1]
  exact ⟨h.1, h.2.1, arriveLoop_active_sub alg _ s p h.2.2⟩

theorem arrive_countinv {procs : List Process} {M : Nat} (alg : String) {s : SimState}
    (h : CountInv procs M s) : CountInv procs M (arrive procs alg s) := by
  have ha := arrive_fields procs alg s
  refine ⟨by rw [ha.2.2.2.2.2.2.2.1]; exact h.len_cores, ?_⟩
  rw [ha.2.2.2.2.2.2.2.2.2.1, (arrive_live_perm procs alg s).length_eq]
  exact h.count

theorem mem_reduceOption_set_none {cores : List (Option Nat)} {c p x : Nat}
    (hc : cores.getD c none = some p) (hx : x ∈ cores.reduceOption) (hne : x ≠ p) :
    x ∈ (cores.set c none).reduceOption := by
  rcases List.mem_cons.mp ((reduceOption_set_none cores c p hc).mem_iff.mp hx) with e | e
  · exact absurd e hne
  · exact e

theorem execCore_countinv {procs : List Process} {M : Nat} (alg : String) {s : SimState}
    (c : Nat) (h : CountInv procs M s) : CountInv procs M (execCore procs alg s c) := by
  cases hc : s.cores.getD c none with
  | none => rw [execCore_idle hc]; exact h
  | some p =>
    have hr := (reduceOption_set_none s.cores c p hc).length_eq
    have hcount := h.count
    rw [execCore_eq procs alg hc]
    split_ifs
    · refine ⟨by simp [h.len_cores], ?_⟩
      simp only [live, unadmitted, active, running, List.length_append, List.length_cons]
        at hr hcount ⊢
      omega
    · refine ⟨by simp [h.len_cores], ?_⟩
      simp only [live, unadmitted, active, running, List.length_append, List.length_cons,
        List.length_nil] at hr hcount ⊢
      omega
    · exact ⟨h.len_cores, hcount⟩

theorem execCore_doomed (procs : List Process) (alg : String) {s : SimState} (c : Nat)
    {p : Nat} (h : Doomed s p) : Doomed (execCore procs alg s c) p := by
  obtain ⟨hlen, hneg, hact⟩ := h
  cases hc : s.cores.getD c none with
  | none => rw [execCore_idle hc]; exact ⟨hlen, hneg, hact⟩
  | some q =>
    have hrem : (s.remaining.set q (s.remaining.getD q 0 - 1)).getD p 0 < 0 := by
      by_cases e : q = p
      · subst e
        rw [getD_set_self _ _ _ _ hlen]; omega
      · rw [getD_set_ne _ _ _ _ _ e]; exact hneg
    have hlen' : p < (s.remaining.set q (s.remaining.getD q 0 - 1)).length := by
      rw [List.length_set]; exact hlen
    rw [execCore_eq procs alg hc]
    unfold Doomed
    split_ifs with h1 h2
    · refine ⟨hlen', hrem, ?_⟩
      have hne : p ≠ q := by
        intro e
        subst e
        rw [remainingAfter_eq hlen] at h1
        omega
      simp only [active, running, List.mem_append] at hact ⊢
      rcases hact with g | g | g
      · exact Or.inl g
      · exact Or.inr (Or.inl g)
      · exact Or.inr (Or.inr (mem_reduceOption_set_none hc g hne))
    · refine ⟨hlen', hrem, ?_⟩
      simp only [active, running, List.mem_append, List.mem_singleton] at hact ⊢
      rcases hact with g | g | g
      · exact Or.inl (Or.inl g)
      · exact Or.inr (Or.inl g)
      · by_cases e : p = q
        · exact Or.inl (Or.inr e)
        · exact Or.inr (Or.inr (mem_reduceOption_set_none hc g e))
    · exact ⟨hlen', hrem, hact⟩

theorem doomed_not_done {procs : List Process} {M : Nat} {s : SimState} {p : Nat}
    (hC : CountInv procs M s) (h : Doomed s p) : s.completed < procs.length := by
  have hl : p ∈ live procs s := List.mem_append_right _ h.2.2
  have := hC.count
  have : 0 < (live procs s).length := List.length_pos_of_mem hl
  omega

theorem foldl_pair {R : SimState → SimState → Prop} {f g : SimState → Nat → SimState}
    (M : Nat) (hstep : ∀ t u c, c < M → R t u → R (f t c) (g u c)) :
    ∀ t u, R t u → R ((List.range M).foldl f t) ((List.range M).foldl g u) := by
  have key : ∀ (l : List Nat), (∀ c ∈ l, c < M) → ∀ t u, R t u →
      R (l.foldl f t) (l.foldl g u) := by
    intro l
    induction l with
    | nil => intro _ t u h; exact h
    | cons a r ih =>
      intro hl t u h
      simp only [List.foldl_cons]
      exact ih (fun c hc => hl c (List.mem_cons_of_mem _ hc)) _ _
        (hstep t u a (hl a (List.mem_cons_self _ _)) h)
  exact key _ (fun c hc => List.mem_range.mp hc)

theorem arriveLoop_comm (L : List Int) :
    ∀ (rest : List Process) (s : SimState),
      arriveLoop "FCFS" rest (withQuantum L s) = withQuantum L (arriveLoop "RR" rest s) := by
  intro rest
  induction rest with
  | nil => intro s; rfl
  | cons p r ih =>
    intro s
    unfold arriveLoop
    by_cases hp : p.arrival ≤ s.currentTime
    · have hp2 : p.arrival ≤ (withQuantum L s).currentTime := hp
      rw [if_pos hp, if_pos hp2, if_pos (Or.inl rfl), if_pos (Or.inr rfl)]
      exact ih { s with fq := s.fq ++ [p.pid], next_arrival := s.next_arrival + 1 }
    · have hp2 : ¬ p.arrival ≤ (withQuantum L s).currentTime := hp
      rw [if_neg hp, if_neg hp2]

theorem arrive_comm (procs : List Process) (L : List Int) (s : SimState) :
    arrive procs "FCFS" (withQuantum L s) = withQuantum L (arrive procs "RR" s) := by
  unfold arrive
  exact arriveLoop_comm L _ s

theorem assign_comm (procs : List Process) (L : List Int) (c pid : Nat) (s : SimState) :
    assign procs c pid (withQuantum L s) = withQuantum L (assign procs c pid s) := by
  unfold assign withQuantum
  simp only
  split <;> rfl

theorem dispatchCore_comm (procs : List Process) (q q2 : Int) (L : List Int)
    (s : SimState) (c : Nat) :
    dispatchCore procs "FCFS" q2 (withQuantum L s) c =
      withQuantum L (dispatchCore procs "RR" q s c) := by
  unfold dispatchCore
  have hcore : (withQuantum L s).cores.getD c none = s.cores.getD c none := rfl
  rw [hcore]
  cases hc : s.cores.getD c none with
  | some p => rfl
  | none =>
    simp only
    have h1 : ¬ ("RR" = "FCFS" ∧ s.fq ≠ []) := fun h => absurd h.1 (by decide)
    have h2 : ¬ ("RR" = "SJF-NP" ∨ "RR" = "SJF-P") := by decide
    have h3 : ¬ ("FCFS" = "SJF-NP" ∨ "FCFS" = "SJF-P") := by decide
    have hfq : (withQuantum L s).fq = s.fq := rfl
    rw [if_neg h1, if_neg h2, hfq]
    by_cases hq : s.fq ≠ []
    · rw [if_pos ⟨trivial, hq⟩, if_pos ⟨trivial, hq⟩]
      exact assign_comm procs L c (s.fq.getD 0 0)
        { s with fq := s.fq.tail, quantum_left := s.quantum_left.set c q }
    · have h4 : ¬ ("FCFS" = "RR" ∧ s.fq ≠ []) := fun h => hq h.2
      rw [if_neg (fun h => hq h.2), if_neg h3, if_neg h4, if_neg (fun h => hq h.2)]

theorem execCore_comm (procs : List Process) (L : List Int) (s : SimState) (c : Nat)
    (hno : ∀ p, s.cores.getD c none = some p → remainingAfter s p ≠ 0 →
      (quantumAfter "RR" s c).getD c 0 ≠ 0) :
    execCore procs "FCFS" (withQuantum L s) c = withQuantum L (execCore procs "RR" s c) := by
  cases hc : s.cores.getD c none with
  | none =>
    rw [execCore_idle hc]
    exact execCore_idle (by exact hc)
  | some p =>
    have hc2 : (withQuantum L s).cores.getD c none = some p := hc
    rw [execCore_eq procs "FCFS" hc2, execCore_eq procs "RR" hc]
    have hra : remainingAfter (withQuantum L s) p = remainingAfter s p := rfl
    have hqa : quantumAfter "FCFS" (withQuantum L s) c = L := by
      unfold quantumAfter
      rw [if_neg (by decide)]
      rfl
    rw [hra, hqa]
    by_cases h0 : remainingAfter s p = 0
    · rw [if_pos h0, if_pos h0]
      rfl
    · rw [if_neg h0, if_neg h0, if_neg (fun h => absurd h.1 (by decide)),
        if_neg (fun h => hno p hc h0 h.2)]
      rfl

theorem advance_comm (procs : List Process) (L : List Int) (s : SimState) :
    advance procs (withQuantum L s) = withQuantum L (advance procs s) := by
  unfold advance
  have h1 : (withQuantum L s).any = s.any := rfl
  have h2 : (withQuantum L s).next_arrival = s.next_arrival := rfl
  rw [h1, h2]
  split <;> rfl

theorem getD_set_dec_le (l : List Int) (p x : Nat) :
    (l.set p (l.getD p 0 - 1)).getD x 0 ≤ l.getD x 0 := by
  by_cases hp : p < l.length
  · by_cases e : p = x
    · subst e
      rw [getD_set_self _ _ _ _ hp]; omega
    · rw [getD_set_ne _ _ _ _ _ e]
  · rw [List.set_eq_of_length_le (Nat.le_of_not_lt hp)]

theorem getD_of_length_le (l : List Int) (p : Nat) (h : l.length ≤ p) : l.getD p 0 = 0 := by
  simp [List.getD_eq_getElem?_getD, List.getElem?_eq_none h]

theorem arrive_qinv (procs : List Process) {M : Nat} {quantum : Int} {s : SimState}
    (h : QInv M quantum s) : QInv M quantum (arrive procs "RR" s) := by
  have ha := arrive_fields procs "RR" s
  refine ⟨by rw [ha.2.2.2.2.2.2.2.2.1]; exact h.len_ql, by rw [ha.1]; exact h.rem_le, ?_⟩
  intro c p hp hlen
  rw [ha.2.2.2.2.2.2.2.1] at hp
  rw [ha.1] at hlen ⊢
  rw [ha.2.2.2.2.2.2.2.2.1]
  exact h.on_core c p hp hlen

theorem dispatchCore_qinv (procs : List Process) {M : Nat} {quantum : Int} {s : SimState}
    (c : Nat) (hc : c < M) (h : QInv M quantum s) :
    QInv M quantum (dispatchCore procs "RR" quantum s c) := by
  rcases dispatchCore_rr procs quantum s c with he | ⟨_, _, hcs, hql, hrem, _⟩
  · rw [he]; exact h
  · refine ⟨by rw [hql, List.length_set]; exact h.len_ql, by rw [hrem]; exact h.rem_le, ?_⟩
    intro c2 p hp hlen
    rw [hcs] at hp
    rw [hrem] at hlen ⊢
    rw [hql]
    by_cases e : c = c2
    · subst e
      rw [getD_set_self _ _ _ _ (by rw [h.len_ql]; exact hc)]
      exact h.rem_le _ (getD_mem _ _ _ hlen)
    · rw [getD_set_ne _ _ _ _ _ e] at hp ⊢
      exact h.on_core c2 p hp hlen

/-- A process that runs with no burst left is in the system for good, whatever the
policy. -/
theorem execCore_makes_doomed (procs : List Process) (alg : String) {s : SimState}
    {c p : Nat} (hc : s.cores.getD c none = some p) (hlen : p < s.remaining.length)
    (hneg : s.remaining.getD p 0 - 1 < 0) : Doomed (execCore procs alg s c) p := by
  have hrem : (s.remaining.set p (s.remaining.getD p 0 - 1)).getD p 0 < 0 := by
    rw [getD_set_self _ _ _ _ hlen]; exact hneg
  have hlen2 : p < (s.remaining.set p (s.remaining.getD p 0 - 1)).length := by
    rw [List.length_set]; exact hlen
  rw [execCore_eq procs alg hc]
  unfold Doomed
  split_ifs with h1 h2
  · rw [remainingAfter_eq hlen] at h1
    omega
  · refine ⟨hlen2, hrem, ?_⟩
    simp only [active, List.mem_append, List.mem_singleton]
    exact Or.inl (Or.inr trivial)
  · refine ⟨hlen2, hrem, ?_⟩
    simp only [active, running, List.mem_append]
    exact Or.inr (Or.inr (mem_reduceOption_of_getD _ _ _ hc))

/-- The body of the execution loop under `RR` when no burst exceeds the quantum: the
quantum does not expire, unless the process runs with no burst left. -/
theorem execCore_qinv (procs : List Process) {M : Nat} {quantum : Int} {s : SimState}
    (c : Nat) (hc : c < M) (h : QInv M quantum s) :
    ((∀ p, s.cores.getD c none = some p → remainingAfter s p ≠ 0 →
        (quantumAfter "RR" s c).getD c 0 ≠ 0) ∧
      QInv M quantum (execCore procs "RR" s c)) ∨
    (∃ p, s.cores.getD c none = some p ∧ p < s.remaining.length ∧
      s.remaining.getD p 0 - 1 < 0) := by
  cases hcore : s.cores.getD c none with
  | none =>
    left
    rw [execCore_idle hcore]
    exact ⟨fun p hp => (by cases hp), h⟩
  | some p =>
    by_cases hbad : p < s.remaining.length ∧ s.remaining.getD p 0 - 1 < 0
    · exact Or.inr ⟨p, rfl, hbad.1, hbad.2⟩
    · left
      have hqa : (quantumAfter "RR" s c).getD c 0 = s.quantum_left.getD c 0 - 1 := by
        unfold quantumAfter
        rw [if_pos rfl, getD_set_self _ _ _ _ (by rw [h.len_ql]; exact hc)]
      have hqo : ∀ c2, c ≠ c2 →
          (quantumAfter "RR" s c).getD c2 0 = s.quantum_left.getD c2 0 := by
        intro c2 hne
        unfold quantumAfter
        rw [if_pos rfl, getD_set_ne _ _ _ _ _ hne]
      have hql : (quantumAfter "RR" s c).length = M := by
        unfold quantumAfter
        rw [if_pos rfl, List.length_set]
        exact h.len_ql
      have hno : remainingAfter s p ≠ 0 → (quantumAfter "RR" s c).getD c 0 ≠ 0 := by
        intro hne
        by_cases hlen : p < s.remaining.length
        · rw [remainingAfter_eq hlen] at hne
          have := h.on_core c p hcore hlen
          rw [hqa]
          omega
        · exfalso
          apply hne
          unfold remainingAfter
          rw [List.set_eq_of_length_le (Nat.le_of_not_lt hlen)]
          exact getD_of_length_le _ _ (Nat.le_of_not_lt hlen)
      have hrem_le : ∀ x ∈ s.remaining.set p (s.remaining.getD p 0 - 1), x ≤ quantum := by
        intro x hx
        by_cases hlen : p < s.remaining.length
        · rcases List.mem_or_eq_of_mem_set hx with g | g
          · exact h.rem_le x g
          · have := h.rem_le _ (getD_mem s.remaining p 0 hlen)
            omega
        · rw [List.set_eq_of_length_le (Nat.le_of_not_lt hlen)] at hx
          exact h.rem_le x hx
      have hother : ∀ c2 p2, c ≠ c2 → s.cores.getD c2 none = some p2 →
          p2 < s.remaining.length →
          (s.remaining.set p (s.remaining.getD p 0 - 1)).getD p2 0 ≤
            (quantumAfter "RR" s c).getD c2 0 := by
        intro c2 p2 hne hp2 hlen2
        rw [hqo c2 hne]
        exact le_trans (getD_set_dec_le _ _ _) (h.on_core c2 p2 hp2 hlen2)
      refine ⟨fun q hq => by injection hq with hq; subst hq; exact hno, ?_⟩
      rw [execCore_eq procs "RR" hcore]
      split_ifs with h1 h2
      · refine ⟨hql, hrem_le, ?_⟩
        intro c2 p2 hp2 hlen2
        have hp2' : (s.cores.set c none).getD c2 none = some p2 := hp2
        have hlen2' : p2 < s.remaining.length := by
          have : p2 < (s.remaining.set p (s.remaining.getD p 0 - 1)).length := hlen2
          rw [List.length_set] at this
          exact this
        have hne : c ≠ c2 := by
          intro e
          subst e
          have hcl : c < s.cores.length :=
            lt_length_of_getD_ne _ _ _ (by rw [hcore]; simp)
          rw [getD_set_self _ _ _ _ hcl] at hp2'
          cases hp2'
        rw [getD_set_ne _ _ _ _ _ hne] at hp2'
        exact hother c2 p2 hne hp2' hlen2'
      · exact absurd h2.2 (hno h1)
      · refine ⟨hql, hrem_le, ?_⟩
        intro c2 p2 hp2 hlen2
        have hp2' : s.cores.getD c2 none = some p2 := hp2
        have hlen2' : p2 < s.remaining.length := by
          have : p2 < (s.remaining.set p (s.remaining.getD p 0 - 1)).length := hlen2
          rw [List.length_set] at this
          exact this
        by_cases hne : c = c2
        · subst hne
          rw [hcore] at hp2'
          injection hp2' with hp2'
          subst hp2'
          show (s.remaining.set p (s.remaining.getD p 0 - 1)).getD p 0 ≤
            (quantumAfter "RR" s c).getD c 0
          rw [getD_set_self _ _ _ _ hlen2', hqa]
          have := h.on_core c p hcore hlen2'
          omega
        · exact hother c2 p2 hne hp2' hlen2'

theorem arrive_lockstep (procs : List Process) {M : Nat} {quantum : Int} {L : List Int}
    {t u : SimState} (h : Lockstep procs M quantum L t u) :
    Lockstep procs M quantum L (arrive procs "RR" t) (arrive procs "FCFS" u) := by
  obtain ⟨h1, h2, h3⟩ := h
  refine ⟨arrive_countinv "RR" h1, arrive_countinv "FCFS" h2, ?_⟩
  rcases h3 with ⟨e, hQ⟩ | ⟨⟨p, hp⟩, ⟨p2, hp2⟩⟩
  · left
    rw [e]
    exact ⟨arrive_comm procs L t, arrive_qinv procs hQ⟩
  · exact Or.inr ⟨⟨p, arrive_doomed procs "RR" hp⟩, ⟨p2, arrive_doomed procs "FCFS" hp2⟩⟩

theorem dispatchCore_lockstep (procs : List Process) {M : Nat} {quantum : Int}
    (q2 : Int) {L : List Int} {t u : SimState} (c : Nat) (hc : c < M)
    (h : Lockstep procs M quantum L t u) :
    Lockstep procs M quantum L (dispatchCore procs "RR" quantum t c)
      (dispatchCore procs "FCFS" q2 u c) := by
  obtain ⟨h1, h2, h3⟩ := h
  refine ⟨dispatchCore_countinv "RR" quantum c hc h1,
    dispatchCore_countinv "FCFS" q2 c hc h2, ?_⟩
  rcases h3 with ⟨e, hQ⟩ | ⟨⟨p, hp⟩, ⟨p2, hp2⟩⟩
  · left
    rw [e]
    exact ⟨dispatchCore_comm procs quantum q2 L t c, dispatchCore_qinv procs c hc hQ⟩
  · exact Or.inr ⟨⟨p, dispatchCore_doomed procs "RR" quantum c
        (by rw [h1.len_cores]; exact hc) hp⟩,
      ⟨p2, dispatchCore_doomed procs "FCFS" q2 c (by rw [h2.len_cores]; exact hc) hp2⟩⟩

theorem execCore_lockstep (procs : List Process) {M : Nat} {quantum : Int}
    {L : List Int} {t u : SimState} (c : Nat) (hc : c < M)
    (h : Lockstep procs M quantum L t u) :
    Lockstep procs M quantum L (execCore procs "RR" t c) (execCore procs "FCFS" u c) := by
  obtain ⟨h1, h2, h3⟩ := h
  refine ⟨execCore_countinv "RR" c h1, execCore_countinv "FCFS" c h2, ?_⟩
  rcases h3 with ⟨e, hQ⟩ | ⟨⟨p, hp⟩, ⟨p2, hp2⟩⟩
  · rcases execCore_qinv procs c hc hQ with ⟨hno, hQ2⟩ | ⟨p, hcore, hlen, hneg⟩
    · left
      rw [e]
      exact ⟨execCore_comm procs L t c hno, hQ2⟩
    · right
      rw [e]
      exact ⟨⟨p, execCore_makes_doomed procs "RR" hcore hlen hneg⟩,
        ⟨p, execCore_makes_doomed procs "FCFS"
          (show (withQuantum L t).cores.getD c none = some p from hcore)
          (show p < (withQuantum L t).remaining.length from hlen)
          (show (withQuantum L t).remaining.getD p 0 - 1 < 0 from hneg)⟩⟩
  · exact Or.inr ⟨⟨p, execCore_doomed procs "RR" c hp⟩,
      ⟨p2, execCore_doomed procs "FCFS" c hp2⟩⟩

theorem tick_lockstep (procs : List Process) {M : Nat} {quantum : Int} (q2 : Int)
    {L : List Int} {t u : SimState} (h : Lockstep procs M quantum L t u) :
    Lockstep procs M quantum L (tick procs M "RR" quantum t)
      (tick procs M "FCFS" q2 u) := by
  have hpre1 : ∀ s, preempt M "RR" quantum s = s := by
    intro s; unfold preempt; rw [if_neg (by decide)]
  have hpre2 : ∀ s, preempt M "FCFS" q2 s = s := by
    intro s; unfold preempt; rw [if_neg (by decide)]
  have hd : Lockstep procs M quantum L (beforeExec procs M "RR" quantum t)
      (beforeExec procs M "FCFS" q2 u) := by
    unfold beforeExec dispatch
    rw [hpre1, hpre2]
    exact foldl_pair M (fun a b c hc hab => dispatchCore_lockstep procs q2 c hc hab) _ _
      (arrive_lockstep procs h)
  have h0 : Lockstep procs M quantum L
      { beforeExec procs M "RR" quantum t with any := false }
      { beforeExec procs M "FCFS" q2 u with any := false } := by
    obtain ⟨h1, h2, h3⟩ := hd
    refine ⟨⟨h1.len_cores, h1.count⟩, ⟨h2.len_cores, h2.count⟩, ?_⟩
    rcases h3 with ⟨e, hQ⟩ | ⟨⟨p, hp⟩, ⟨p2, hp2⟩⟩
    · left
      rw [e]
      exact ⟨rfl, ⟨hQ.len_ql, hQ.rem_le, hQ.on_core⟩⟩
    · exact Or.inr ⟨⟨p, hp.1, hp.2.1, hp.2.2⟩, ⟨p2, hp2.1, hp2.2.1, hp2.2.2⟩⟩
  have he : Lockstep procs M quantum L
      (execute procs M "RR" (beforeExec procs M "RR" quantum t))
      (execute procs M "FCFS" (beforeExec procs M "FCFS" q2 u)) := by
    unfold execute
    exact foldl_pair M (fun a b c hc hab => execCore_lockstep procs c hc hab) _ _ h0
  rw [tick_eq, tick_eq]
  obtain ⟨h1, h2, h3⟩ := he
  have a1 := advance_eq procs (execute procs M "RR" (beforeExec procs M "RR" quantum t))
  have a2 := advance_eq procs (execute procs M "FCFS" (beforeExec procs M "FCFS" q2 u))
  refine ⟨by rw [a1]; exact ⟨h1.len_cores, h1.count⟩,
    by rw [a2]; exact ⟨h2.len_cores, h2.count⟩, ?_⟩
  rcases h3 with ⟨e, hQ⟩ | ⟨⟨p, hp⟩, ⟨p2, hp2⟩⟩
  · left
    rw [e]
    refine ⟨advance_comm procs L _, ?_⟩
    rw [a1]
    exact ⟨hQ.len_ql, hQ.rem_le, hQ.on_core⟩
  · right
    rw [a1, a2]
    exact ⟨⟨p, hp.1, hp.2.1, hp.2.2⟩, ⟨p2, hp2.1, hp2.2.1, hp2.2.2⟩⟩

theorem init_lockstep (procs : List Process) (M : Nat) (quantum q2 : Int)
    (hq : ∀ p ∈ procs, p.burst ≤ quantum) :
    Lockstep procs M quantum (List.replicate M q2) (initState procs M quantum)
      (initState procs M q2) := by
  have hc : ∀ q, CountInv procs M (initState procs M q) := by
    intro q
    refine ⟨by simp [initState], ?_⟩
    simp [live, unadmitted, active, running, initState, reduceOption_replicate_none]
  refine ⟨hc quantum, hc q2, Or.inl ⟨rfl, ⟨by simp [initState], ?_, ?_⟩⟩⟩
  · intro x hx
    simp only [initState, List.mem_map] at hx
    obtain ⟨p, hp, rfl⟩ := hx
    exact hq p hp
  · intro c p hp
    simp [initState, List.getD_eq_getElem?_getD, List.getElem?_replicate] at hp
    split at hp <;> simp at hp

theorem runLoop_lockstep (procs : List Process) (M : Nat) (quantum q2 : Int)
    (L : List Int) :
    ∀ (fuel : Nat) (t u : SimState), Lockstep procs M quantum L t u →
      (runLoop procs M "RR" quantum fuel t).map (withQuantum L) =
        runLoop procs M "FCFS" q2 fuel u := by
  intro fuel
  induction fuel with
  | zero =>
    intro t u h
    simp only [runLoop]
    rcases h.2.2 with ⟨e, _⟩ | ⟨⟨p, hp⟩, ⟨p2, hp2⟩⟩
    · subst e
      have hcm : (withQuantum L t).completed = t.completed := rfl
      rw [hcm]
      split
      · rfl
      · rfl
    · rw [if_pos (doomed_not_done h.1 hp), if_pos (doomed_not_done h.2.1 hp2)]
      rfl
  | succ n ih =>
    intro t u h
    simp only [runLoop]
    have hnext := ih _ _ (tick_lockstep procs q2 h)
    rcases h.2.2 with ⟨e, _⟩ | ⟨⟨p, hp⟩, ⟨p2, hp2⟩⟩
    · have hcm : u.completed = t.completed := by rw [e]; rfl
      rw [hcm]
      split
      · exact hnext
      · rw [e]; rfl
    · rw [if_pos (doomed_not_done h.1 hp), if_pos (doomed_not_done h.2.1 hp2)]
      exact hnext

theorem runTicks_lockstep (procs : List Process) {M : Nat} {quantum : Int} (q2 : Int)
    {L : List Int} :
    ∀ (n : Nat) (t u : SimState), Lockstep procs M quantum L t u →
      Lockstep procs M quantum L (runTicks procs M "RR" quantum n t)
        (runTicks procs M "FCFS" q2 n u) := by
  intro n
  induction n with
  | zero => intro t u h; exact h
  | succ k ih => intro t u h; exact ih _ _ (tick_lockstep procs q2 h)

theorem runTicks_keeps_inv {procs : List Process} {M : Nat} {alg : String} (quantum : Int) :
    ∀ (n : Nat) (s : SimState), Inv procs M alg s →
      Inv procs M alg (runTicks procs M alg quantum n s) := by
  intro n
  induction n with
  | zero => intro s h; exact h
  | succ k ih => intro s h; exact ih _ (tick_inv h)

theorem inv_not_doomed {procs : List Process} {M : Nat} {alg : String} {s : SimState}
    (hI : Inv procs M alg s) (p : Nat) : ¬ Doomed s p := by
  intro h
  have hl : p ∈ live procs s := List.mem_append_right _ h.2.2
  have := (hI.live_ok p hl).2.1
  have := h.2.1
  omega

/-- Claim C18: on every workload with ids `0..N-1` and bursts of at least one tick, for
every core count and every number of iterations granted to the loop, `RR` with a quantum
that no burst exceeds returns what `FCFS` returns on the same input, the same `Metrics`
record with all seven fields; after every iteration the two runs are in states that
differ in the quantum counters only, so the quantum never expires; and with at least one
core both runs end.  (The quantum that is passed to `FCFS` does not matter.) -/
theorem rr_large_quantum_equals_fcfs (procs : List Process) (M : Nat) (quantum q2 : Int)
    (hq : ∀ p ∈ procs, p.burst ≤ quantum)
    (hid : (procs.map Process.pid).Perm (List.range procs.length))
    (hb : ∀ p ∈ procs, 1 ≤ p.burst) :
    (∀ fuel, simulate fuel procs M "RR" quantum = simulate fuel procs M "FCFS" q2) ∧
    (∀ n, runTicks procs M "FCFS" q2 n (initState procs M q2) =
      withQuantum (List.replicate M q2)
        (runTicks procs M "RR" quantum n (initState procs M quantum))) ∧
    (1 ≤ M → ∃ n m, ∀ fuel, n ≤ fuel →
      simulate fuel procs M "RR" quantum = some m ∧
      simulate fuel procs M "FCFS" q2 = some m) := by
  have h0 := init_lockstep procs M quantum q2 hq
  have hsim : ∀ fuel, simulate fuel procs M "RR" quantum =
      simulate fuel procs M "FCFS" q2 := by
    intro fuel
    have h := runLoop_lockstep procs M quantum q2 (List.replicate M q2) fuel _ _ h0
    unfold simulate
    rw [← h, Option.map_map]
    rfl
  refine ⟨hsim, ?_, ?_⟩
  · intro n
    have hl := runTicks_lockstep procs q2 n _ _ h0
    have hI : Inv procs M "RR" (runTicks procs M "RR" quantum n (initState procs M quantum)) :=
      runTicks_keeps_inv quantum n _ (init_inv procs M "RR" quantum hid hb)
    rcases hl.2.2 with ⟨e, _⟩ | ⟨⟨p, hp⟩, _⟩
    · exact e
    · exact absurd hp (inv_not_doomed hI p)
  · intro hM
    obtain ⟨n, s, h1, _, _, _⟩ :=
      @run_ends procs M "RR" quantum hid hb hM (Or.inr (Or.inr (Or.inr rfl)))
    refine ⟨n, metricsOf procs M s, fun fuel hf => ?_⟩
    have hrr : simulate fuel procs M "RR" quantum = some (metricsOf procs M s) := by
      simp [simulate, h1 fuel hf]
    exact ⟨hrr, by rw [← hsim fuel]; exact hrr⟩

theorem rr_large_quantum_equals_fcfs_witness :
    (∀ p ∈ ([⟨0, 0, 3⟩, ⟨1, 1, 5⟩, ⟨2, 2, 2⟩] : List Process), p.burst ≤ 5) ∧
    (∀ p ∈ ([⟨0, 0, 3⟩, ⟨1, 1, 5⟩, ⟨2, 2, 2⟩] : List Process), 1 ≤ p.burst) ∧
    simulate 20 [⟨0, 0, 3⟩, ⟨1, 1, 5⟩, ⟨2, 2, 2⟩] 2 "RR" 5 =
      simulate 20 [⟨0, 0, 3⟩, ⟨1, 1, 5⟩, ⟨2, 2, 2⟩] 2 "FCFS" 10 ∧
    (simulate 20 [⟨0, 0, 3⟩, ⟨1, 1, 5⟩, ⟨2, 2, 2⟩] 2 "RR" 5).isSome = true ∧
    runTicks [⟨0, 0, 3⟩, ⟨1, 1, 5⟩, ⟨2, 2, 2⟩] 2 "FCFS" 10 4
        (initState [⟨0, 0, 3⟩, ⟨1, 1, 5⟩, ⟨2, 2, 2⟩] 2 10) =
      withQuantum (List.replicate 2 10)
        (runTicks [⟨0, 0, 3⟩, ⟨1, 1, 5⟩, ⟨2, 2, 2⟩] 2 "RR" 5 4
          (initState [⟨0, 0, 3⟩, ⟨1, 1, 5⟩, ⟨2, 2, 2⟩] 2 5)) :=
  ⟨by decide, by decide,
    (rr_large_quantum_equals_fcfs [⟨0, 0, 3⟩, ⟨1, 1, 5⟩, ⟨2, 2, 2⟩] 2 5 10
      (by decide) (List.Perm.refl _) (by decide)).1 20,
    by decide,
    (rr_large_quantum_equals_fcfs [⟨0, 0, 3⟩, ⟨1, 1, 5⟩, ⟨2, 2, 2⟩] 2 5 10
      (by decide) (List.Perm.refl _) (by decide)).2.1 4⟩

/-! ### The clock and the switch counter stay within the `int` of the source -/

theorem reduceOption_drop_length (l : List (Option Nat)) (k : Nat) (hk : k < l.length) :
    ((l.drop k).reduceOption).length =
      (if l.getD k none = none then 0 else 1) + ((l.drop (k + 1)).reduceOption).length := by
  rw [List.drop_eq_getElem_cons hk]
  have hg : l.getD k none = l[k] := by
    simp [List.getD_eq_getElem?_getD, List.getElem?_eq_getElem hk]
  rw [hg]
  cases h : l[k] with
  | none => simp [List.reduceOption_cons_of_none]
  | some p => simp [List.reduceOption_cons_of_some]; omega

theorem drop_eq_step {l1 l2 : List (Option Nat)} {k : Nat} (h : l1.drop k = l2.drop k) :
    l1.getD k none = l2.getD k none ∧ l1.drop (k + 1) = l2.drop (k + 1) := by
  refine ⟨?_, ?_⟩
  · have h1 := List.getElem?_drop l1 k 0
    have h2 := List.getElem?_drop l2 k 0
    rw [h] at h1
    simp only [List.getD_eq_getElem?_getD]
    simp only [Nat.add_zero] at h1 h2
    rw [← h1, ← h2]
  · rw [← List.tail_drop, ← List.tail_drop, h]

/-- The body of the execution loop writes no core slot other than its own. -/
theorem execCore_cores_drop (procs : List Process) (alg : String) (s : SimState) (k : Nat) :
    (execCore procs alg s k).cores.drop (k + 1) = s.cores.drop (k + 1) := by
  cases hc : s.cores.getD k none with
  | none => rw [execCore_idle hc]
  | some p =>
    rw [execCore_eq procs alg hc]
    split_ifs
    · exact List.drop_set_of_lt _ _ (Nat.lt_succ_self k)
    · exact List.drop_set_of_lt _ _ (Nat.lt_succ_self k)
    · rfl

/-- The execution phase adds one busy core-tick per busy core. -/
theorem execute_total_busy (procs : List Process) (M : Nat) (alg : String) (s : SimState)
    (hlen : s.cores.length = M) :
    (execute procs M alg s).total_busy = s.total_busy + ((running s).length : Int) := by
  have key := foldl_range_indexed
    (Q := fun k t => t.cores.drop k = s.cores.drop k ∧
      t.total_busy + (((s.cores.drop k).reduceOption).length : Int) =
        s.total_busy + ((running s).length : Int))
    (f := execCore procs alg) M { s with any := false } ⟨rfl, rfl⟩ ?_
  · have h := key.2
    have hd : s.cores.drop M = [] := by rw [← hlen]; exact List.drop_length _
    rw [hd] at h
    unfold execute
    simpa using h
  · intro k t hk ⟨h1, h2⟩
    obtain ⟨hg, hd⟩ := drop_eq_step h1
    have hcount := reduceOption_drop_length s.cores k (by rw [hlen]; exact hk)
    refine ⟨by rw [execCore_cores_drop, hd], ?_⟩
    cases hc : t.cores.getD k none with
    | none =>
      rw [execCore_idle hc]
      rw [← hg, hc] at hcount
      rw [hcount] at h2
      simpa using h2
    | some p =>
      rw [(execCore_busy procs alg hc).2.2]
      rw [← hg, hc] at hcount
      rw [hcount] at h2
      simp only [if_neg (by simp : ¬ (some p : Option Nat) = none)] at h2
      push_cast at h2
      omega

/-- In an iteration that finds every core idle at the execution phase, a process is
still unadmitted. -/
theorem idle_tick_waits {procs : List Process} {M : Nat} {alg : String} (quantum : Int)
    {s : SimState} (hv : ValidAlg alg) (hM : 1 ≤ M) (hI : Inv procs M alg s)
    (hlt : s.completed < procs.length)
    (hrun : running (beforeExec procs M alg quantum s) = []) :
    (arrive procs alg s).next_arrival < procs.length := by
  have hIa : Inv procs M alg (arrive procs alg s) := arrive_inv hI
  have hIp : Inv procs M alg (preempt M alg quantum (arrive procs alg s)) := preempt_inv hIa
  have hId : Inv procs M alg (beforeExec procs M alg quantum s) := dispatch_inv hIp
  have hb := beforeExec_clock procs M alg quantum s
  have hidle : ∀ c, c < M → (beforeExec procs M alg quantum s).cores.getD c none = none := by
    intro c hc
    cases h : (beforeExec procs M alg quantum s).cores.getD c none with
    | none => rfl
    | some p =>
      have := mem_reduceOption_of_getD _ _ _ h
      simp only [running] at hrun
      rw [hrun] at this
      cases this
  have hq : (beforeExec procs M alg quantum s).fq = [] ∧
      (beforeExec procs M alg quantum s).sjf_pq = [] := by
    rcases dispatch_saturates quantum hv hIp with h | h
    · exact h
    · exact absurd (hidle 0 (by omega)) (h 0 (by omega))
  have hcnt_d := hId.count
  have hcomp := (beforeExec_fields procs M alg quantum s).2.2.2.2.1
  rw [hcomp] at hcnt_d
  have hlen_d : (live procs (beforeExec procs M alg quantum s)).length =
      (procs.drop (arrive procs alg s).next_arrival).length := by
    simp [live, unadmitted, active, hq.1, hq.2, hrun, hb.1]
  have : (procs.drop (arrive procs alg s).next_arrival).length =
      procs.length - (arrive procs alg s).next_arrival := List.length_drop _ _
  omega

/-- The clock of a run on a workload with ids `0..N-1` and bursts of at least one tick
never exceeds the busy core-ticks plus the latest arrival. -/
theorem reachable_clock_le {procs : List Process} {M : Nat} {alg : String} {quantum : Int}
    (hv : ValidAlg alg) (hM : 1 ≤ M)
    (hid : (procs.map Process.pid).Perm (List.range procs.length))
    (hb : ∀ q ∈ procs, 1 ≤ q.burst) {A : Int} (hA0 : 0 ≤ A)
    (hA : ∀ p ∈ procs, p.arrival ≤ A) {s : SimState}
    (hr : Reachable procs M alg quantum s) : s.currentTime ≤ A + s.total_busy := by
  induction hr with
  | init => simp [initState]; exact hA0
  | step hprev hlt ih =>
    rename_i t
    have hI := reachable_inv hid hb hprev
    have hf := beforeExec_fields procs M alg quantum t
    have hId := beforeExec_inv quantum hI
    have htb := execute_total_busy procs M alg (beforeExec procs M alg quantum t) hId.len_cores
    have hclk := execute_clock procs M alg (beforeExec procs M alg quantum t)
    simp only [clockPart, Prod.mk.injEq] at hclk
    have hbc := beforeExec_clock procs M alg quantum t
    have hadv := advance_eq procs (execute procs M alg (beforeExec procs M alg quantum t))
    have htb' : (tick procs M alg quantum t).total_busy =
        t.total_busy + ((running (beforeExec procs M alg quantum t)).length : Int) := by
      rw [tick_eq, hadv]
      show (execute procs M alg (beforeExec procs M alg quantum t)).total_busy = _
      rw [htb, hf.2.2.2.1]
    have h0 := (reachable_busy hprev).1
    rw [htb']
    by_cases hrun : running (beforeExec procs M alg quantum t) = []
    · have hna := idle_tick_waits quantum hv hM hI hlt hrun
      have hany : (execute procs M alg (beforeExec procs M alg quantum t)).any = false := by
        cases h : (execute procs M alg (beforeExec procs M alg quantum t)).any with
        | false => rfl
        | true =>
          obtain ⟨c, _, hne⟩ := (execute_any_iff procs M alg _).mp h
          cases hc : (beforeExec procs M alg quantum t).cores.getD c none with
          | none => exact absurd hc hne
          | some p =>
            have := mem_reduceOption_of_getD _ _ _ hc
            simp only [running] at hrun
            rw [hrun] at this
            cases this
      have hjump : (tick procs M alg quantum t).currentTime =
          arrivalOf procs (arrive procs alg t).next_arrival := by
        rw [tick_eq]
        unfold advance
        rw [if_pos ⟨hany, by rw [hclk.1, hbc.1]; exact hna⟩]
        simp only
        rw [hclk.1, hbc.1]
      rw [hjump, hrun]
      have := hA _ (getD_mem procs _ ⟨0, 0, 0⟩ hna)
      simp only [List.length_nil, Nat.cast_zero, add_zero]
      have : arrivalOf procs (arrive procs alg t).next_arrival ≤ A := this
      omega
    · have hpos : 0 < (running (beforeExec procs M alg quantum t)).length :=
        List.length_pos.mpr hrun
      obtain ⟨p, hp⟩ := List.exists_mem_of_length_pos hpos
      have hbusy : ∃ c, c < M ∧
          (beforeExec procs M alg quantum t).cores.getD c none ≠ none := by
        simp only [running, List.reduceOption_mem_iff] at hp
        obtain ⟨c, hc, hget⟩ := List.getElem_of_mem hp
        refine ⟨c, by rw [← hId.len_cores]; exact hc, ?_⟩
        simp [List.getD_eq_getElem?_getD, List.getElem?_eq_getElem hc, hget]
      have hany := (execute_any_iff procs M alg _).mpr hbusy
      have hstep : (tick procs M alg quantum t).currentTime = t.currentTime + 1 := by
        rw [tick_eq]
        unfold advance
        rw [if_neg (by rw [hany]; simp)]
        simp only
        rw [hclk.2.1, hbc.2.1]
      rw [hstep]
      have : (1 : Int) ≤ ((running (beforeExec procs M alg quantum t)).length : Int) := by
        exact_mod_cast hpos
      omega

/-- The switches counted never exceed two per busy core-tick. -/
theorem reachable_switches_le {procs : List Process} {M : Nat} {alg : String}
    {quantum : Int} (hid : (procs.map Process.pid).Perm (List.range procs.length))
    (hb : ∀ q ∈ procs, 1 ≤ q.burst) {s : SimState}
    (hr : Reachable procs M alg quantum s) :
    s.context_switches + ((running s).length : Int) ≤ 2 * s.total_busy := by
  induction hr with
  | init => simp [initState, running, reduceOption_replicate_none]
  | step hprev hlt ih =>
    rename_i t
    have hI := reachable_inv hid hb hprev
    have hf := beforeExec_fields procs M alg quantum t
    have hId := beforeExec_inv quantum hI
    have htb := execute_total_busy procs M alg (beforeExec procs M alg quantum t) hId.len_cores
    have hadv := advance_eq procs (execute procs M alg (beforeExec procs M alg quantum t))
    have htb' : (tick procs M alg quantum t).total_busy =
        t.total_busy + ((running (beforeExec procs M alg quantum t)).length : Int) := by
      rw [tick_eq, hadv]
      show (execute procs M alg (beforeExec procs M alg quantum t)).total_busy = _
      rw [htb, hf.2.2.2.1]
    have hsw := (tick_switches quantum hI).1
    have hd : (dispatchesInTick procs M alg quantum t : Int) ≤
        ((running (beforeExec procs M alg quantum t)).length : Int) := by
      unfold dispatchesInTick
      exact_mod_cast Nat.sub_le _ _
    rw [htb']
    omega

/-- On a workload with ids `0..N-1`, bursts of at least one tick and arrivals that are not
negative, whose latest arrival plus total burst does not exceed `intMax`, the clock of a
run stays within `intMax`. -/
theorem reachable_clock_fits {procs : List Process} {M : Nat} {alg : String}
    {quantum : Int} (hv : ValidAlg alg) (hM : 1 ≤ M)
    (hid : (procs.map Process.pid).Perm (List.range procs.length))
    (hb : ∀ q ∈ procs, 1 ≤ q.burst)
    (hsum : (procs.map Process.burst).sum ≤ intMax)
    (hfit : ∀ p ∈ procs, 0 ≤ p.arrival ∧
      p.arrival + (procs.map Process.burst).sum ≤ intMax)
    {s : SimState} (hr : Reachable procs M alg quantum s) :
    s.currentTime ≤ intMax ∧ s.total_busy ≤ (procs.map Process.burst).sum := by
  obtain ⟨hI, hW⟩ := reachable_workinv hid hb hr
  have hrem := sum_nonneg_of_forall _ hI.rem_nonneg
  have hwork := hW.work
  have hclock := reachable_clock_le hv hM hid hb
    (A := intMax - (procs.map Process.burst).sum) (by omega)
    (fun p hp => by have := (hfit p hp).2; omega) hr
  exact ⟨by omega, by omega⟩

/-- Claim C7: for each of the four policies and every non-empty workload with ids
`0..N-1`, bursts of at least one tick and arrivals that are not negative, whose latest
arrival plus total burst does not exceed `intMax`, on at least one core, the run ends
with a positive clock that has stayed within `intMax`, the returned utilization
`total_busy / (M * clock)` is a number in `[0, 1]` and the returned throughput
`N / clock` is a positive number. -/
theorem utilization_and_throughput_bounds (procs : List Process) (M : Nat) (alg : String)
    (quantum : Int) (hne : procs ≠ [])
    (hid : (procs.map Process.pid).Perm (List.range procs.length))
    (hb : ∀ q ∈ procs, 1 ≤ q.burst) (hM : 1 ≤ M) (hv : ValidAlg alg)
    (hfit : ∀ p ∈ procs, 0 ≤ p.arrival ∧
      p.arrival + (procs.map Process.burst).sum ≤ intMax) :
    ∃ n s, (∀ fuel, n ≤ fuel →
        runLoop procs M alg quantum fuel (initState procs M quantum) = some s ∧
        simulate fuel procs M alg quantum = some (metricsOf procs M s)) ∧
      0 < s.currentTime ∧ s.currentTime ≤ intMax ∧
      ∃ u t : ℚ,
        (metricsOf procs M s).cpu_util = Dbl.fin u ∧
        u = (s.total_busy : ℚ) / ((M : ℚ) * (s.currentTime : ℚ)) ∧ 0 ≤ u ∧ u ≤ 1 ∧
        (metricsOf procs M s).throughput = Dbl.fin t ∧
        t = (procs.length : ℚ) / (s.currentTime : ℚ) ∧ 0 < t := by
  obtain ⟨n, s, h1, hr, hI, hc⟩ := run_ends quantum hid hb hM hv
  have hN : 0 < procs.length := List.length_pos.mpr hne
  obtain ⟨hb0, hb1, _, hinit⟩ := reachable_busy hr
  have htime : 1 ≤ s.currentTime := by
    rcases hinit with h | h
    · rw [h] at hc; simp only [initState] at hc; omega
    · exact h
  have hsum : (procs.map Process.burst).sum ≤ intMax := by
    obtain ⟨p, hp⟩ := List.exists_mem_of_ne_nil procs hne
    have := hfit p hp
    omega
  have hmax := (reachable_clock_fits hv hM hid hb hsum hfit hr).1
  have hMq : (0 : ℚ) < (M : ℚ) := by exact_mod_cast hM
  have htq : (0 : ℚ) < (s.currentTime : ℚ) := by exact_mod_cast htime
  have hden : (0 : ℚ) < (M : ℚ) * (s.currentTime : ℚ) := mul_pos hMq htq
  refine ⟨n, s, fun fuel hf => ⟨h1 fuel hf, by simp [simulate, h1 fuel hf]⟩, by omega, hmax,
    (s.total_busy : ℚ) / ((M : ℚ) * (s.currentTime : ℚ)),
    (procs.length : ℚ) / (s.currentTime : ℚ), ?_, rfl, ?_, ?_, ?_, rfl, ?_⟩
  · have hz : (M : Int) * s.currentTime ≠ 0 := by
      have : 0 < (M : Int) * s.currentTime := Int.mul_pos (by omega) (by omega)
      omega
    simp only [metricsOf, ddiv, if_neg hz]
    push_cast
    rfl
  · exact div_nonneg (by exact_mod_cast hb0) (le_of_lt hden)
  · rw [div_le_one hden]
    exact_mod_cast hb1
  · have hz : s.currentTime ≠ 0 := by omega
    simp only [metricsOf, ddiv, if_neg hz]
    push_cast
    rfl
  · exact div_pos (by exact_mod_cast hN) htq

theorem utilization_and_throughput_bounds_witness :
    (∀ p ∈ ([⟨0, 0, 12⟩, ⟨1, 0, 4⟩] : List Process), 0 ≤ p.arrival ∧
      p.arrival + (([⟨0, 0, 12⟩, ⟨1, 0, 4⟩] : List Process).map Process.burst).sum ≤
        intMax) ∧
    ∃ n s, (∀ fuel, n ≤ fuel →
        runLoop [⟨0, 0, 12⟩, ⟨1, 0, 4⟩] 2 "RR" 5 fuel
          (initState [⟨0, 0, 12⟩, ⟨1, 0, 4⟩] 2 5) = some s ∧
        simulate fuel [⟨0, 0, 12⟩, ⟨1, 0, 4⟩] 2 "RR" 5 =
          some (metricsOf [⟨0, 0, 12⟩, ⟨1, 0, 4⟩] 2 s)) ∧
      0 < s.currentTime ∧ s.currentTime ≤ intMax ∧
      ∃ u t : ℚ,
        (metricsOf [⟨0, 0, 12⟩, ⟨1, 0, 4⟩] 2 s).cpu_util = Dbl.fin u ∧
        u = (s.total_busy : ℚ) / (((2 : ℕ) : ℚ) * (s.currentTime : ℚ)) ∧ 0 ≤ u ∧ u ≤ 1 ∧
        (metricsOf [⟨0, 0, 12⟩, ⟨1, 0, 4⟩] 2 s).throughput = Dbl.fin t ∧
        t = (([⟨0, 0, 12⟩, ⟨1, 0, 4⟩] : List Process).length : ℚ) / (s.currentTime : ℚ) ∧
        0 < t :=
  ⟨by decide,
    utilization_and_throughput_bounds [⟨0, 0, 12⟩, ⟨1, 0, 4⟩] 2 "RR" 5 (by decide)
      (List.Perm.refl _) (by decide) (by decide) (Or.inr (Or.inr (Or.inr rfl)))
      (by decide)⟩

/-- Claim C17: for each of the four policies, on a workload with ids `0..N-1`, bursts of
at least one tick and arrivals that are not negative, on at least one core, such that
neither the latest arrival plus the total burst nor twice the total burst exceeds
`intMax`: the run ends, the clock and the switch counter have stayed within `intMax`, and
the returned switch count is exactly twice the number of dispatches performed during the
run; it is at least `2 N`, and it is `2 N` under `FCFS` and `SJF-NP`. -/
theorem context_switches_twice_dispatches (procs : List Process) (M : Nat) (alg : String)
    (quantum : Int) (hid : (procs.map Process.pid).Perm (List.range procs.length))
    (hb : ∀ q ∈ procs, 1 ≤ q.burst) (hM : 1 ≤ M) (hv : ValidAlg alg)
    (hfit : ∀ p ∈ procs, 0 ≤ p.arrival ∧
      p.arrival + (procs.map Process.burst).sum ≤ intMax)
    (hcount : 2 * (procs.map Process.burst).sum ≤ intMax) :
    ∃ n s, (∀ fuel, n ≤ fuel →
        runLoop procs M alg quantum fuel (initState procs M quantum) = some s ∧
        simulate fuel procs M alg quantum = some (metricsOf procs M s) ∧
        (metricsOf procs M s).context_switches =
          2 * (countDispatches procs M alg quantum fuel (initState procs M quantum) : Int)) ∧
      2 * (procs.length : Int) ≤ (metricsOf procs M s).context_switches ∧
      (metricsOf procs M s).context_switches ≤ intMax ∧
      s.currentTime ≤ intMax ∧
      (alg = "FCFS" ∨ alg = "SJF-NP" →
        (metricsOf procs M s).context_switches = 2 * (procs.length : Int)) := by
  obtain ⟨n, s, h1, hr, hI, hc⟩ := run_ends quantum hid hb hM hv
  obtain ⟨hrun, hcomp⟩ := running_eq_nil_of_done hI hc
  have hcs : (metricsOf procs M s).context_switches = s.context_switches := rfl
  have hsum0 : 0 ≤ (procs.map Process.burst).sum := by
    apply sum_nonneg_of_forall
    intro x hx
    obtain ⟨p, hp, rfl⟩ := List.mem_map.mp hx
    have := hb p hp
    omega
  have hfits := reachable_clock_fits hv hM hid hb (by omega) hfit hr
  have hup := reachable_switches_le hid hb hr
  refine ⟨n, s, ?_, ?_, ?_, hfits.1, ?_⟩
  · intro fuel hf
    refine ⟨h1 fuel hf, by simp [simulate, h1 fuel hf], ?_⟩
    have := runLoop_switches quantum fuel _ _ (init_inv procs M alg quantum hid hb) (h1 fuel hf)
    have h0 : (initState procs M quantum).context_switches = 0 := rfl
    have h1 : running (initState procs M quantum) = [] := by
      simp [initState, running, reduceOption_replicate_none]
    rw [hrun, h0, h1] at this
    rw [hcs]
    simp only [List.length_nil] at this
    push_cast at this
    omega
  · have := (reachable_switchLower hid hb hr).2
    unfold SwitchLower at this
    rw [hrun, hcomp] at this
    rw [hcs]
    simpa using this
  · rw [hcs]
    rw [hrun] at hup
    simp only [List.length_nil, Nat.cast_zero, add_zero] at hup
    have := hfits.2
    omega
  · intro hnp
    have := (reachable_npinv hnp hid hb hr).2.switches
    rw [hrun, hcomp] at this
    rw [hcs]
    simpa using this

theorem context_switches_twice_dispatches_witness :
    (∀ p ∈ ([⟨0, 0, 12⟩, ⟨1, 0, 4⟩] : List Process), 0 ≤ p.arrival ∧
      p.arrival + (([⟨0, 0, 12⟩, ⟨1, 0, 4⟩] : List Process).map Process.burst).sum ≤
        intMax) ∧
    2 * (([⟨0, 0, 12⟩, ⟨1, 0, 4⟩] : List Process).map Process.burst).sum ≤ intMax ∧
    (simulate 16 [⟨0, 0, 12⟩, ⟨1, 0, 4⟩] 1 "RR" 5).map Metrics.context_switches = some 8 ∧
    countDispatches [⟨0, 0, 12⟩, ⟨1, 0, 4⟩] 1 "RR" 5 16
      (initState [⟨0, 0, 12⟩, ⟨1, 0, 4⟩] 1 5) = 4 ∧
    ∃ n s, (∀ fuel, n ≤ fuel →
        runLoop [⟨0, 0, 12⟩, ⟨1, 0, 4⟩] 1 "RR" 5 fuel
          (initState [⟨0, 0, 12⟩, ⟨1, 0, 4⟩] 1 5) = some s ∧
        simulate fuel [⟨0, 0, 12⟩, ⟨1, 0, 4⟩] 1 "RR" 5 =
          some (metricsOf [⟨0, 0, 12⟩, ⟨1, 0, 4⟩] 1 s) ∧
        (metricsOf [⟨0, 0, 12⟩, ⟨1, 0, 4⟩] 1 s).context_switches =
          2 * (countDispatches [⟨0, 0, 12⟩, ⟨1, 0, 4⟩] 1 "RR" 5 fuel
            (initState [⟨0, 0, 12⟩, ⟨1, 0, 4⟩] 1 5) : Int)) ∧
      2 * (([⟨0, 0, 12⟩, ⟨1, 0, 4⟩] : List Process).length : Int) ≤
        (metricsOf [⟨0, 0, 12⟩, ⟨1, 0, 4⟩] 1 s).context_switches ∧
      (metricsOf [⟨0, 0, 12⟩, ⟨1, 0, 4⟩] 1 s).context_switches ≤ intMax ∧
      s.currentTime ≤ intMax ∧
      ("RR" = "FCFS" ∨ "RR" = "SJF-NP" →
        (metricsOf [⟨0, 0, 12⟩, ⟨1, 0, 4⟩] 1 s).context_switches =
          2 * (([⟨0, 0, 12⟩, ⟨1, 0, 4⟩] : List Process).length : Int)) :=
  ⟨by decide, by decide, by decide, by decide,
    context_switches_twice_dispatches [⟨0, 0, 12⟩, ⟨1, 0, 4⟩] 1 "RR" 5 (List.Perm.refl _)
      (by decide) (by decide) (Or.inr (Or.inr (Or.inr rfl))) (by decide) (by decide)⟩

end Scheduler
